import Mathlib

/-!
# Layer-4 Caddyfile adapter (`modules/l4caddyfile/caddyfile.go`)

A shallow embedding of the configuration compiler `ServerType.Setup` and of the
handler compilers `parseTLS`, `parseProxy`, `parseProxyProtocol` and the
selection-policy resolver, together with the token cursor they drive.

Conventions of the embedding.

* A Go method that mutates its `*caddyfile.Dispenser` receiver is a function that
  returns the new cursor state next to its result.
* A Go `for` loop is a function that is structurally recursive on a fuel
  argument. Running out of fuel is the result `none`; it is never a result of
  the program, and the totality theorems show that the fuel handed to each loop
  is enough on every input.
* A Go `(value, error)` result is an `Except Error value`.
* `json.RawMessage` values are kept as the value that is marshalled, with the
  inline module key and name next to it; serialisation itself is out of scope.
* External collaborators whose code is not part of the repository (address,
  duration and integer parsing, the module registry) are the fields of `Env`.
* The token-stream reader (`caddyfile.Dispenser`) is an external collaborator
  too. Its methods are definitions here, after the interface the specification
  gives for it and the behaviour of the `caddyfile` package the code imports; a
  token carries its file, line and text (import chains and heredoc markers,
  which only refine the new-line test, are left out).
-/

namespace L4Caddyfile

/-! ## Token stream -/

/-- Modelled from the spec: a token of the external token-stream reader
(`caddyfile.Token`), which is not part of the sources: the file and line the
token was read from and its text. -/
structure Token where
  File : String
  Line : Nat
  Text : String
deriving DecidableEq, Repr

/-- Modelled from the spec: `Token.NumLineBreaks` of the external reader: the
number of line breaks inside the text of a token. -/
def Token.NumLineBreaks (t : Token) : Nat :=
  t.Text.toList.count '\n'

/-- Modelled from the spec: `isNextOnNewLine` of the external reader: whether
the second token starts on a later line than the one the first token ends on
(tokens of different files are always on different lines). -/
def isNextOnNewLine (t1 t2 : Token) : Bool :=
  if t1.File ≠ t2.File then true
  else decide (t1.Line + t1.NumLineBreaks < t2.Line)

/-- Errors of the compiler. `external` is an error value of an external
collaborator handed on unchanged. `ArgErr` is the value of `d.ArgErr()`: the
argument-count error raised at the token with text `val` ("wrong argument
count or unexpected line ending after 'val'", or "unexpected token '{',
expecting argument" when `val` is an opening brace). `Errf` is the value of
`d.Err(msg)` and `d.Errf(format, args...)`, with the arguments rendered as
text. Both carry the file and line of the current token. -/
inductive Error where
  | external (e : String)
  | ArgErr (file : String) (line : Nat) (val : String)
  | Errf (file : String) (line : Nat) (format : String) (args : List String)
deriving DecidableEq, Repr

/-- Modelled from the spec: the cursor of the external token-stream reader
(`caddyfile.Dispenser`): the tokens, the index of the current token (`-1`
before the first call of `Next`) and the current block nesting level. -/
structure Dispenser where
  tokens : List Token
  cursor : Int
  nesting : Int
deriving DecidableEq, Repr

/-- Modelled from the spec: `caddyfile.NewDispenser`. -/
def NewDispenser (tokens : List Token) : Dispenser :=
  { tokens := tokens, cursor := -1, nesting := 0 }

/-- Modelled from the spec: `Dispenser.Token`: the current token, the zero
token when the cursor is out of range. -/
def Dispenser.Token (d : Dispenser) : L4Caddyfile.Token :=
  if d.cursor < 0 ∨ d.cursor ≥ d.tokens.length then ⟨"", 0, ""⟩
  else d.tokens.getD d.cursor.toNat ⟨"", 0, ""⟩

/-- Modelled from the spec: `Dispenser.Val`: the text of the current token. -/
def Dispenser.Val (d : Dispenser) : String := d.Token.Text

/-- Modelled from the spec: `Dispenser.Line`. -/
def Dispenser.Line (d : Dispenser) : Nat := d.Token.Line

/-- Modelled from the spec: `Dispenser.File`. -/
def Dispenser.File (d : Dispenser) : String := d.Token.File

/-- Modelled from the spec: `Dispenser.Nesting`. -/
def Dispenser.Nesting (d : Dispenser) : Int := d.nesting

/-- Modelled from the spec: `Dispenser.Next`: advance to the next token, if
there is one. -/
def Dispenser.Next (d : Dispenser) : Bool × Dispenser :=
  if d.cursor < (d.tokens.length : Int) - 1 then
    (true, { d with cursor := d.cursor + 1 })
  else (false, d)

/-- Modelled from the spec: `Dispenser.Prev`: step back one token. -/
def Dispenser.Prev (d : Dispenser) : Bool × Dispenser :=
  if d.cursor > -1 then
    (decide (d.cursor - 1 > -1), { d with cursor := d.cursor - 1 })
  else (false, d)

/-- Modelled from the spec: `Dispenser.nextOnSameLine`: advance to the next
token if it is on the line of the current one. -/
def Dispenser.nextOnSameLine (d : Dispenser) : Bool × Dispenser :=
  if d.cursor < 0 then (true, { d with cursor := d.cursor + 1 })
  else if d.cursor ≥ (d.tokens.length : Int) - 1 then (false, d)
  else
    let curr := d.tokens.getD d.cursor.toNat ⟨"", 0, ""⟩
    let next := d.tokens.getD (d.cursor + 1).toNat ⟨"", 0, ""⟩
    if !isNextOnNewLine curr next then (true, { d with cursor := d.cursor + 1 })
    else (false, d)

/-- Modelled from the spec: `Dispenser.NextArg`: advance to the next argument
on the current line; an opening brace is not an argument. -/
def Dispenser.NextArg (d : Dispenser) : Bool × Dispenser :=
  match d.nextOnSameLine with
  | (false, d1) => (false, d1)
  | (true, d1) =>
    if d1.Val = "\x7b" then (false, { d1 with cursor := d1.cursor - 1 })
    else (true, d1)

/-- The loop of `Dispenser.RemainingArgs`. -/
def Dispenser.RemainingArgsLoop : Nat → Dispenser → List String → Option (List String × Dispenser)
  | 0, _, _ => none
  | fuel + 1, d, args =>
    match d.NextArg with
    | (true, d1) => Dispenser.RemainingArgsLoop fuel d1 (args ++ [d1.Val])
    | (false, d1) => some (args, d1)

/-- Modelled from the spec: `Dispenser.RemainingArgs`: consume and return the
remaining arguments of the current line. -/
def Dispenser.RemainingArgs (d : Dispenser) : Option (List String × Dispenser) :=
  Dispenser.RemainingArgsLoop (d.tokens.length + 2) d []

/-- The condition `d.Val() == s && !d.nextOnSameLine()` of
`Dispenser.NextBlock`, evaluated left to right: the cursor moves only when the
text of the current token is `s`. -/
def Dispenser.valNotOnSameLine (d : Dispenser) (s : String) : Bool × Dispenser :=
  if d.Val = s then
    match d.nextOnSameLine with
    | (b, d1) => (!b, d1)
  else (false, d)

/-- Modelled from the spec: `Dispenser.NextBlock`: the loop condition that
walks the tokens of the block opened on the current line. -/
def Dispenser.NextBlock (d : Dispenser) (initialNestingLevel : Int) : Bool × Dispenser :=
  if d.nesting > initialNestingLevel then
    match d.Next with
    | (false, d1) => (false, d1)
    | (true, d1) =>
      let c1 := d1.valNotOnSameLine "\x7d"
      let d2 :=
        if c1.1 then { c1.2 with nesting := c1.2.nesting - 1 }
        else
          let c2 := c1.2.valNotOnSameLine "\x7b"
          if c2.1 then { c2.2 with nesting := c2.2.nesting + 1 } else c2.2
      (decide (d2.nesting > initialNestingLevel), d2)
  else
    match d.nextOnSameLine with
    | (false, d1) => (false, d1)
    | (true, d1) =>
      if d1.Val ≠ "\x7b" then (false, { d1 with cursor := d1.cursor - 1 })
      else
        let d2 := d1.Next.2
        if d2.Val = "\x7d" then (false, d2)
        else (true, { d2 with nesting := d2.nesting + 1 })

/-- Modelled from the spec: `Dispenser.ArgErr`. -/
def Dispenser.ArgErr (d : Dispenser) : Error :=
  Error.ArgErr d.File d.Line d.Val

/-- Modelled from the spec: `Dispenser.Err`. -/
def Dispenser.Err (d : Dispenser) (msg : String) : Error :=
  Error.Errf d.File d.Line msg []

/-- Modelled from the spec: `Dispenser.Errf`. -/
def Dispenser.Errf (d : Dispenser) (format : String) (args : List String) : Error :=
  Error.Errf d.File d.Line format args

/-- The first loop of `Dispenser.NextSegment`: the arguments on the line of
the current token. -/
def Dispenser.NextSegmentArgsLoop : Nat → Dispenser → List L4Caddyfile.Token →
    Option (List L4Caddyfile.Token × Dispenser)
  | 0, _, _ => none
  | fuel + 1, d, tkns =>
    match d.NextArg with
    | (true, d1) => Dispenser.NextSegmentArgsLoop fuel d1 (tkns ++ [d1.Token])
    | (false, d1) => some (tkns, d1)

/-- The second loop of `Dispenser.NextSegment`: the tokens of the block that
opens on the line, with the opening brace added on the first round. -/
def Dispenser.NextSegmentBlockLoop (nesting : Int) : Nat → Dispenser → List L4Caddyfile.Token →
    Bool → Option (List L4Caddyfile.Token × Bool × Dispenser)
  | 0, _, _, _ => none
  | fuel + 1, d, tkns, openedBlock =>
    match d.NextBlock nesting with
    | (false, d1) => some (tkns, openedBlock, d1)
    | (true, d1) =>
      if !openedBlock then
        let d2 := d1.Prev.2
        let tkns1 := tkns ++ [d2.Token]
        let d3 := d2.Next.2
        Dispenser.NextSegmentBlockLoop nesting fuel d3 (tkns1 ++ [d3.Token]) true
      else
        Dispenser.NextSegmentBlockLoop nesting fuel d1 (tkns ++ [d1.Token]) openedBlock

/-- Modelled from the spec: `Dispenser.NextSegment`: the current token, the
arguments on its line and the block opened on that line, braces included; when
a block was opened the cursor is left on its closing brace. -/
def Dispenser.NextSegment (d : Dispenser) : Option (List L4Caddyfile.Token × Dispenser) :=
  match Dispenser.NextSegmentArgsLoop (d.tokens.length + 2) d [d.Token] with
  | none => none
  | some (tkns, d1) =>
    match Dispenser.NextSegmentBlockLoop d1.Nesting (d.tokens.length + 2) d1 tkns false with
    | none => none
    | some (tkns1, openedBlock, d2) =>
      if openedBlock then some (tkns1 ++ [d2.Token], d2)
      else some (tkns1, d2)

/-- Modelled from the spec: `Dispenser.NewFromNextSegment`: a fresh cursor over
the next segment, next to the state the parent cursor is left in. -/
def Dispenser.NewFromNextSegment (d : Dispenser) : Option (Dispenser × Dispenser) :=
  match d.NextSegment with
  | none => none
  | some (tkns, d1) => some (NewDispenser tkns, d1)

/-! ## Configuration values -/

/-- A Go `map[string]V`, as the list of its entries in the order the keys were
first assigned. -/
structure GoMap (α : Type) where
  entries : List (String × α)
deriving DecidableEq, Repr

/-- The value of `make(map[string]V)`. -/
def GoMap.make {α : Type} : GoMap α := ⟨[]⟩

/-- The assignment `m[k] = v` on an entry list. -/
def GoMap.setEntries {α : Type} (k : String) (v : α) : List (String × α) → List (String × α)
  | [] => [(k, v)]
  | (k1, v1) :: rest =>
    if k1 = k then (k, v) :: rest else (k1, v1) :: GoMap.setEntries k v rest

/-- The assignment `m[k] = v`. -/
def GoMap.set {α : Type} (m : GoMap α) (k : String) (v : α) : GoMap α :=
  ⟨GoMap.setEntries k v m.entries⟩

/-- The lookup `m[k]`. -/
def GoMap.get? {α : Type} (m : GoMap α) (k : String) : Option α :=
  (m.entries.find? (fun e => e.1 = k)).map Prod.snd

/-- The value of `len(m)`. -/
def GoMap.len {α : Type} (m : GoMap α) : Nat := m.entries.length

/-- The JSON object of a module with its inline key: the value of
`caddyconfig.JSONModuleObject(val, fieldName, fieldVal, nil)`. -/
structure RawModule (α : Type) where
  val : α
  fieldName : String
  fieldVal : String
deriving DecidableEq, Repr

/-- Modelled from the spec: `caddyconfig.JSONModuleObject`. -/
def JSONModuleObject {α : Type} (val : α) (fieldName fieldVal : String) : RawModule α :=
  ⟨val, fieldName, fieldVal⟩

/-- Module instances the registry can construct for a selection-policy name:
the six selection policies of `l4proxy`, and any other module, with the name of
its type and whether it implements `l4proxy.Selector`. -/
inductive Module where
  | RandomSelection
  | LeastConnSelection
  | RoundRobinSelection
  | FirstSelection
  | IPHashSelection
  | RandomChoiceSelection (Choose : Int)
  | other (typeName : String) (isSelector : Bool)
deriving DecidableEq, Repr

/-- The type assertion `mod.(l4proxy.Selector)`. -/
def Module.isSelector : Module → Bool
  | Module.other _ b => b
  | _ => true

/-- The rendering of `%T` for a module instance. -/
def Module.typeName : Module → String
  | Module.RandomSelection => "*l4proxy.RandomSelection"
  | Module.LeastConnSelection => "*l4proxy.LeastConnSelection"
  | Module.RoundRobinSelection => "*l4proxy.RoundRobinSelection"
  | Module.FirstSelection => "*l4proxy.FirstSelection"
  | Module.IPHashSelection => "*l4proxy.IPHashSelection"
  | Module.RandomChoiceSelection _ => "*l4proxy.RandomChoiceSelection"
  | Module.other n _ => n

/-- The fields of `httpcaddyfile.Address`. -/
structure Address where
  Original : String
  Scheme : String
  Host : String
  Port : String
  Path : String
deriving DecidableEq, Repr

/-- The external collaborators: `httpcaddyfile.ParseAddress`,
`caddy.ParseDuration` (nanoseconds), `strconv.Atoi`, and `caddy.GetModule`
followed by `New()`. An error is the text of the Go error value. -/
structure Env where
  ParseAddress : String → Except String Address
  ParseDuration : String → Except String Int
  Atoi : String → Except String Int
  GetModule : String → Except String Module

/-- The field of `caddytls.ConnectionPolicy` this compiler sets. -/
structure ConnectionPolicy where
  ALPN : List String
deriving DecidableEq, Repr

/-- The value of `l4tls.Handler`. -/
structure TLSHandler where
  ConnectionPolicies : List ConnectionPolicy
deriving DecidableEq, Repr

/-- The value of `l4proxy.Upstream`. -/
structure Upstream where
  Dial : List String
deriving DecidableEq, Repr

/-- The fields of `l4proxy.LoadBalancing` this compiler sets. -/
structure LoadBalancing where
  SelectionPolicyRaw : Option (RawModule Module)
  TryDuration : Int
  TryInterval : Int
deriving DecidableEq, Repr

/-- The value of `l4proxy.ActiveHealthChecks`. -/
structure ActiveHealthChecks where
  Port : Int
  Interval : Int
  Timeout : Int
deriving DecidableEq, Repr

/-- The field of `l4proxy.HealthChecks` this compiler sets. -/
structure HealthChecks where
  Active : Option ActiveHealthChecks
deriving DecidableEq, Repr

/-- The value of `l4proxy.Handler`. -/
structure ProxyHandler where
  Upstreams : List Upstream
  HealthChecks : Option HealthChecks
  LoadBalancing : Option LoadBalancing
  ProxyProtocol : String
deriving DecidableEq, Repr

/-- The value of `l4proxyprotocol.Handler`. -/
structure ProxyProtocolHandler where
  Timeout : Int
  Allow : List String
deriving DecidableEq, Repr

/-- A handler value of one of the four handler modules. -/
inductive HandlerVal where
  | echo
  | tls (h : TLSHandler)
  | proxy (h : ProxyHandler)
  | proxyProtocol (h : ProxyProtocolHandler)
deriving DecidableEq, Repr

/-- The value of `layer4.Route`. -/
structure Route where
  HandlersRaw : List (RawModule HandlerVal)
deriving DecidableEq, Repr

/-- The value of `layer4.Server`. -/
structure Server where
  Listen : List String
  Routes : List Route
deriving DecidableEq, Repr

/-- The value of `layer4.App`. -/
structure App where
  Servers : GoMap Server
deriving DecidableEq, Repr

/-- The value of `caddytls.TLS`; a raw certificate loader is the marshalled
list of host names. -/
structure TLS where
  CertificatesRaw : GoMap (List String)
deriving DecidableEq, Repr

/-- The marshalled application configurations held by `caddy.Config.AppsRaw`. -/
inductive AppRaw where
  | layer4 (a : App)
  | tls (t : TLS)
deriving DecidableEq, Repr

/-- The value of `caddy.Config`. -/
structure Config where
  AppsRaw : GoMap AppRaw
deriving DecidableEq, Repr

/-- The value of `caddyconfig.Warning`. -/
structure Warning where
  Message : String
deriving DecidableEq, Repr

/-- The value of `caddyfile.ServerBlock`. -/
structure ServerBlock where
  Keys : List String
  Segments : List (List Token)
deriving DecidableEq, Repr

/-! ## Handler compilers -/

/-- The `switch d.Val()` statement in the loop of `parseTLS`, run on the
connection policy built so far. -/
def parseTLSKey (d : Dispenser) (cp : ConnectionPolicy) :
    Option (Except Error (ConnectionPolicy × Dispenser)) :=
  if d.Val = "alpn" then
    match d.RemainingArgs with
    | none => none
    | some (args, d1) =>
      if args.length = 0 then some (.error d1.ArgErr)
      else some (.ok ({ cp with ALPN := args }, d1))
  else some (.ok (cp, d))

/-- The loop `for d.NextBlock(0)` of `parseTLS`. -/
def parseTLSLoop : Nat → Dispenser → ConnectionPolicy →
    Option (Except Error (ConnectionPolicy × Dispenser))
  | 0, _, _ => none
  | fuel + 1, d, cp =>
    match d.NextBlock 0 with
    | (false, d1) => some (.ok (cp, d1))
    | (true, d1) =>
      match parseTLSKey d1 cp with
      | none => none
      | some (.error e) => some (.error e)
      | some (.ok (cp1, d2)) => parseTLSLoop fuel d2 cp1

/-- The value of `new(l4tls.Handler)`. -/
def newTLSHandler : TLSHandler := { ConnectionPolicies := [] }

/-- The value of `new(caddytls.ConnectionPolicy)`. -/
def newConnectionPolicy : ConnectionPolicy := { ALPN := [] }

/-- The function `parseTLS`. -/
def parseTLS (d : Dispenser) : Option (Except Error (TLSHandler × Dispenser)) :=
  let h := newTLSHandler
  let cp := newConnectionPolicy
  match parseTLSLoop (d.tokens.length + 2) d cp with
  | none => none
  | some (.error e) => some (.error e)
  | some (.ok (cp1, d1)) =>
    some (.ok ({ h with ConnectionPolicies := h.ConnectionPolicies ++ [cp1] }, d1))

/-- The loop of `UnmarshalL4ProxySelectionCaddyfile` for the five policies
without arguments. -/
def UnmarshalNoArgsLoop : Nat → Dispenser → Option (Except Error Unit)
  | 0, _ => none
  | fuel + 1, d =>
    match d.Next with
    | (false, _) => some (.ok ())
    | (true, d1) =>
      match d1.NextArg with
      | (true, d2) => some (.error d2.ArgErr)
      | (false, d2) => UnmarshalNoArgsLoop fuel d2

/-- The loop of `UnmarshalL4ProxySelectionCaddyfile` for
`RandomChoiceSelection`; the last argument is the current `sel.Choose`. -/
def UnmarshalRandomChoiceLoop (env : Env) : Nat → Dispenser → Int → Option (Except Error Int)
  | 0, _, _ => none
  | fuel + 1, d, choose0 =>
    match d.Next with
    | (false, _) => some (.ok choose0)
    | (true, d1) =>
      match d1.NextArg with
      | (false, d2) => some (.error d2.ArgErr)
      | (true, d2) =>
        let chooseStr := d2.Val
        match env.Atoi chooseStr with
        | .error err => some (.error (d2.Errf "invalid choice value '%s': %v" [chooseStr, err]))
        | .ok choose => UnmarshalRandomChoiceLoop env fuel d2 choose

/-- The function `UnmarshalL4ProxySelectionCaddyfile`; the instance it has
filled in is returned next to the error. -/
def UnmarshalL4ProxySelectionCaddyfile (env : Env) (inst : Module) (d : Dispenser) :
    Option (Except Error Module) :=
  match inst with
  | Module.RandomChoiceSelection choose0 =>
    match UnmarshalRandomChoiceLoop env (d.tokens.length + 2) d choose0 with
    | none => none
    | some (.error e) => some (.error e)
    | some (.ok choose) => some (.ok (Module.RandomChoiceSelection choose))
  | Module.other n b => some (.ok (Module.other n b))
  | sel =>
    match UnmarshalNoArgsLoop (d.tokens.length + 2) d with
    | none => none
    | some (.error e) => some (.error e)
    | some (.ok _) => some (.ok sel)

/-- The function `UnmarshalL4proxySelectionModule`. -/
def UnmarshalL4proxySelectionModule (env : Env) (d : Dispenser) (moduleID : String) :
    Option (Except Error (Module × Dispenser)) :=
  match env.GetModule moduleID with
  | .error err => some (.error (d.Errf "getting module named '%s': %v" [moduleID, err]))
  | .ok inst =>
    match d.NewFromNextSegment with
    | none => none
    | some (sub, d1) =>
      match UnmarshalL4ProxySelectionCaddyfile env inst sub with
      | none => none
      | some (.error e) => some (.error e)
      | some (.ok inst1) => some (.ok (inst1, d1))

/-- The closure `appendUpstream` of `parseProxy`. -/
def appendUpstream (h : ProxyHandler) (addresses : List String) : ProxyHandler :=
  addresses.foldl (fun h1 addr => { h1 with Upstreams := h1.Upstreams ++ [{ Dial := [addr] }] }) h

/-- The value of `new(l4proxy.LoadBalancing)`. -/
def newLoadBalancing : LoadBalancing :=
  { SelectionPolicyRaw := none, TryDuration := 0, TryInterval := 0 }

/-- The value of `new(l4proxy.HealthChecks)`. -/
def newHealthChecks : HealthChecks := { Active := none }

/-- The value of `new(l4proxy.ActiveHealthChecks)`. -/
def newActiveHealthChecks : ActiveHealthChecks := { Port := 0, Interval := 0, Timeout := 0 }

/-- The load-balancing object after `if h.LoadBalancing == nil { ... = new }`. -/
def lbOrNew (h : ProxyHandler) : LoadBalancing :=
  match h.LoadBalancing with
  | none => newLoadBalancing
  | some lb => lb

/-- The health-checks object after `if h.HealthChecks == nil { ... = new }`. -/
def hcOrNew (h : ProxyHandler) : HealthChecks :=
  match h.HealthChecks with
  | none => newHealthChecks
  | some hc => hc

/-- The active health checks after `if h.HealthChecks.Active == nil { ... = new }`. -/
def activeOrNew (h : ProxyHandler) : ActiveHealthChecks :=
  match (hcOrNew h).Active with
  | none => newActiveHealthChecks
  | some a => a

/-- The `switch d.Val()` statement in the loop of `parseProxy`, run on the
handler built so far. -/
def parseProxyKey (env : Env) (d : Dispenser) (h : ProxyHandler) :
    Option (Except Error (ProxyHandler × Dispenser)) :=
  if d.Val = "to" then
    match d.RemainingArgs with
    | none => none
    | some (args, d1) =>
      if args.length = 0 then some (.error d1.ArgErr)
      else some (.ok (appendUpstream h args, d1))
  else if d.Val = "lb_policy" then
    match d.NextArg with
    | (false, d1) => some (.error d1.ArgErr)
    | (true, d1) =>
      if (match h.LoadBalancing with
          | none => false
          | some lb => lb.SelectionPolicyRaw.isSome) then
        some (.error (d1.Err "load balancing selection policy already specified"))
      else
        let lb := lbOrNew h
        let name := d1.Val
        let modID := "layer4.proxy.selection_policies." ++ name
        match UnmarshalL4proxySelectionModule env d1 modID with
        | none => none
        | some (.error e) => some (.error e)
        | some (.ok (mod, d2)) =>
          if !mod.isSelector then
            some (.error (d2.Errf "module %s (%T) is not a l4proxy.Selector" [modID, mod.typeName]))
          else
            some (.ok ({ h with LoadBalancing := some { lb with
              SelectionPolicyRaw := some (JSONModuleObject mod "policy" name) } }, d2))
  else if d.Val = "lb_try_duration" then
    match d.NextArg with
    | (false, d1) => some (.error d1.ArgErr)
    | (true, d1) =>
      let lb := lbOrNew h
      match env.ParseDuration d1.Val with
      | .error err => some (.error (d1.Errf "bad duration value %s: %v" [d1.Val, err]))
      | .ok dur => some (.ok ({ h with LoadBalancing := some { lb with TryDuration := dur } }, d1))
  else if d.Val = "lb_try_interval" then
    match d.NextArg with
    | (false, d1) => some (.error d1.ArgErr)
    | (true, d1) =>
      let lb := lbOrNew h
      match env.ParseDuration d1.Val with
      | .error err => some (.error (d1.Errf "bad interval value '%s': %v" [d1.Val, err]))
      | .ok dur => some (.ok ({ h with LoadBalancing := some { lb with TryInterval := dur } }, d1))
  else if d.Val = "health_port" then
    match d.NextArg with
    | (false, d1) => some (.error d1.ArgErr)
    | (true, d1) =>
      let hc := hcOrNew h
      let active := activeOrNew h
      match env.Atoi d1.Val with
      | .error err => some (.error (d1.Errf "bad port number '%s': %v" [d1.Val, err]))
      | .ok portNum =>
        some (.ok ({ h with HealthChecks := some { hc with
          Active := some { active with Port := portNum } } }, d1))
  else if d.Val = "health_interval" then
    match d.NextArg with
    | (false, d1) => some (.error d1.ArgErr)
    | (true, d1) =>
      let hc := hcOrNew h
      let active := activeOrNew h
      match env.ParseDuration d1.Val with
      | .error err => some (.error (d1.Errf "bad interval value %s: %v" [d1.Val, err]))
      | .ok dur =>
        some (.ok ({ h with HealthChecks := some { hc with
          Active := some { active with Interval := dur } } }, d1))
  else if d.Val = "health_timeout" then
    match d.NextArg with
    | (false, d1) => some (.error d1.ArgErr)
    | (true, d1) =>
      let hc := hcOrNew h
      let active := activeOrNew h
      match env.ParseDuration d1.Val with
      | .error err => some (.error (d1.Errf "bad timeout value %s: %v" [d1.Val, err]))
      | .ok dur =>
        some (.ok ({ h with HealthChecks := some { hc with
          Active := some { active with Timeout := dur } } }, d1))
  else if d.Val = "proxy_protocol" then
    match d.NextArg with
    | (false, d1) => some (.error d1.ArgErr)
    | (true, d1) => some (.ok ({ h with ProxyProtocol := d1.Val }, d1))
  else some (.ok (h, d))

/-- The loop `for nesting := d.Nesting(); d.NextBlock(nesting);` of
`parseProxy`. -/
def parseProxyLoop (env : Env) (nesting : Int) : Nat → Dispenser → ProxyHandler →
    Option (Except Error (ProxyHandler × Dispenser))
  | 0, _, _ => none
  | fuel + 1, d, h =>
    match d.NextBlock nesting with
    | (false, d1) => some (.ok (h, d1))
    | (true, d1) =>
      match parseProxyKey env d1 h with
      | none => none
      | some (.error e) => some (.error e)
      | some (.ok (h1, d2)) => parseProxyLoop env nesting fuel d2 h1

/-- The value of `new(l4proxy.Handler)`. -/
def newProxyHandler : ProxyHandler :=
  { Upstreams := [], HealthChecks := none, LoadBalancing := none, ProxyProtocol := "" }

/-- The function `parseProxy`. -/
def parseProxy (env : Env) (d : Dispenser) : Option (Except Error (ProxyHandler × Dispenser)) :=
  let h := newProxyHandler
  match d.RemainingArgs with
  | none => none
  | some (args, d1) =>
    parseProxyLoop env d1.Nesting (d.tokens.length + 2) d1 (appendUpstream h args)

/-- The `switch d.Val()` statement in the loop of `parseProxyProtocol`. -/
def parseProxyProtocolKey (env : Env) (d : Dispenser) (h : ProxyProtocolHandler) :
    Option (Except Error (ProxyProtocolHandler × Dispenser)) :=
  if d.Val = "timeout" then
    match d.NextArg with
    | (false, d1) => some (.error d1.ArgErr)
    | (true, d1) =>
      match env.ParseDuration d1.Val with
      | .error err =>
        some (.error (d1.Errf "parsing proxy_protocol timeout duration: %v" [err]))
      | .ok timeout => some (.ok ({ h with Timeout := timeout }, d1))
  else if d.Val = "allow" then
    match d.RemainingArgs with
    | none => none
    | some (args, d1) =>
      if args.length = 0 then some (.error d1.ArgErr)
      else some (.ok ({ h with Allow := h.Allow ++ args }, d1))
  else some (.error d.ArgErr)

/-- The loop `for nesting := d.Nesting(); d.NextBlock(nesting);` of
`parseProxyProtocol`. -/
def parseProxyProtocolLoop (env : Env) (nesting : Int) : Nat → Dispenser →
    ProxyProtocolHandler → Option (Except Error (ProxyProtocolHandler × Dispenser))
  | 0, _, _ => none
  | fuel + 1, d, h =>
    match d.NextBlock nesting with
    | (false, d1) => some (.ok (h, d1))
    | (true, d1) =>
      match parseProxyProtocolKey env d1 h with
      | none => none
      | some (.error e) => some (.error e)
      | some (.ok (h1, d2)) => parseProxyProtocolLoop env nesting fuel d2 h1

/-- The value of `new(l4proxyprotocol.Handler)`. -/
def newProxyProtocolHandler : ProxyProtocolHandler := { Timeout := 0, Allow := [] }

/-- The function `parseProxyProtocol`. -/
def parseProxyProtocol (env : Env) (d : Dispenser) :
    Option (Except Error (ProxyProtocolHandler × Dispenser)) :=
  let h := newProxyProtocolHandler
  match d.RemainingArgs with
  | none => none
  | some (args, d1) =>
    if args.length > 0 then some (.error d1.ArgErr)
    else parseProxyProtocolLoop env d1.Nesting (d.tokens.length + 2) d1 h

/-! ## The top-level compiler -/

/-- The values `ServerType.Setup` returns: the configuration (`nil` is `none`),
the warnings, and the error (`nil` is `none`). -/
structure SetupResult where
  cfg : Option Config
  warnings : List Warning
  err : Option Error
deriving DecidableEq, Repr

/-- The value of `strconv.Itoa` on an index. -/
def Itoa (i : Nat) : String := Nat.repr i

/-- The value of `new(layer4.Server)`. -/
def newServer : Server := { Listen := [], Routes := [] }

/-- The loop `for _, arg := range sblock.Keys` of `Setup`, on the host names
and the server collected so far. -/
def SetupKeysLoop (env : Env) : List String → List String → Server →
    Except Error (List String × Server)
  | [], hostnames, server => .ok (hostnames, server)
  | arg :: rest, hostnames, server =>
    match env.ParseAddress arg with
    | .error err => .error (Error.external err)
    | .ok address =>
      SetupKeysLoop env rest (hostnames ++ [address.Host])
        { server with Listen := server.Listen ++ [arg] }

/-- The loop `for d.Next()` of `Setup` over one segment, with its
`switch d.Val()`, on the server and the automation list built so far. -/
def SetupDirectiveLoop (env : Env) (hostnames : List String) : Nat → Dispenser → Server →
    List String → Option (Except Error (Server × List String))
  | 0, _, _, _ => none
  | fuel + 1, d, server, al =>
    match d.Next with
    | (false, _) => some (.ok (server, al))
    | (true, d1) =>
      if d1.Val = "echo" then
        SetupDirectiveLoop env hostnames fuel d1
          { server with Routes := server.Routes ++
              [{ HandlersRaw := [JSONModuleObject HandlerVal.echo "handler" "echo"] }] } al
      else if d1.Val = "tls" then
        match parseTLS d1 with
        | none => none
        | some (.error err) => some (.error err)
        | some (.ok (handler, d2)) =>
          SetupDirectiveLoop env hostnames fuel d2
            { server with Routes := server.Routes ++
                [{ HandlersRaw := [JSONModuleObject (HandlerVal.tls handler) "handler" "tls"] }] }
            (al ++ hostnames)
      else if d1.Val = "proxy" then
        match parseProxy env d1 with
        | none => none
        | some (.error err) => some (.error err)
        | some (.ok (handler, d2)) =>
          SetupDirectiveLoop env hostnames fuel d2
            { server with Routes := server.Routes ++
                [{ HandlersRaw := [JSONModuleObject (HandlerVal.proxy handler) "handler" "proxy"] }] }
            al
      else if d1.Val = "proxy_protocol" then
        match parseProxyProtocol env d1 with
        | none => none
        | some (.error err) => some (.error err)
        | some (.ok (handler, d2)) =>
          SetupDirectiveLoop env hostnames fuel d2
            { server with Routes := server.Routes ++
                [{ HandlersRaw :=
                    [JSONModuleObject (HandlerVal.proxyProtocol handler) "handler" "proxy_protocol"] }] }
            al
      else SetupDirectiveLoop env hostnames fuel d1 server al

/-- The loop `for _, segment := range sblock.Segments` of `Setup`. -/
def SetupSegmentsLoop (env : Env) (hostnames : List String) : List (List Token) → Server →
    List String → Option (Except Error (Server × List String))
  | [], server, al => some (.ok (server, al))
  | segment :: rest, server, al =>
    let d := NewDispenser segment
    match SetupDirectiveLoop env hostnames (segment.length + 2) d server al with
    | none => none
    | some (.error err) => some (.error err)
    | some (.ok (server1, al1)) => SetupSegmentsLoop env hostnames rest server1 al1

/-- The body of the loop `for i, sblock := range inputServerBlocks` of `Setup`
up to the registration of the server: the server compiled from one block,
next to the automation list. -/
def SetupBlock (env : Env) (sblock : ServerBlock) (al : List String) :
    Option (Except Error (Server × List String)) :=
  let server := newServer
  match SetupKeysLoop env sblock.Keys [] server with
  | .error err => some (.error err)
  | .ok (hostnames, server1) => SetupSegmentsLoop env hostnames sblock.Segments server1 al

/-- The loop `for i, sblock := range inputServerBlocks` of `Setup`, from index
`i` on, on the routing application and the automation list built so far. -/
def SetupBlocksLoop (env : Env) : List ServerBlock → Nat → App → List String →
    Option (Except Error (App × List String))
  | [], _, l4app, al => some (.ok (l4app, al))
  | sblock :: rest, i, l4app, al =>
    match SetupBlock env sblock al with
    | none => none
    | some (.error err) => some (.error err)
    | some (.ok (server, al1)) =>
      SetupBlocksLoop env rest (i + 1)
        { l4app with Servers := l4app.Servers.set ("srv" ++ Itoa i) server } al1

/-- The method `ServerType.Setup` (its `options` argument is not used). -/
def Setup (env : Env) (inputServerBlocks : List ServerBlock) : Option SetupResult :=
  let warnings : List Warning := []
  let l4app : App := { Servers := GoMap.make }
  let tlsApp : TLS := { CertificatesRaw := GoMap.make }
  match SetupBlocksLoop env inputServerBlocks 0 l4app [] with
  | none => none
  | some (.error err) => some { cfg := none, warnings := [], err := some err }
  | some (.ok (l4app1, al)) =>
    let tlsApp1 : TLS :=
      if al.length > 0 then { tlsApp with CertificatesRaw := tlsApp.CertificatesRaw.set "automate" al }
      else tlsApp
    let cfg : Config := { AppsRaw := GoMap.make }
    let cfg1 : Config :=
      if l4app1.Servers.len > 0 then
        { cfg with AppsRaw := cfg.AppsRaw.set "layer4" (AppRaw.layer4 l4app1) }
      else cfg
    let cfg2 : Config :=
      if tlsApp1 ≠ { CertificatesRaw := GoMap.make } then
        { cfg1 with AppsRaw := cfg1.AppsRaw.set "tls" (AppRaw.tls tlsApp1) }
      else cfg1
    some { cfg := some cfg2, warnings := warnings, err := none }

/-! ## Auxiliary notions for the proofs -/

/-- The cursor is within the bounds the reader keeps it in. -/
def Dispenser.Inv (d : Dispenser) : Prop :=
  -1 ≤ d.cursor ∧ d.cursor ≤ d.tokens.length

/-- The state `d1` is the state `d` moved forward over the same tokens. -/
def Dispenser.Adv (d d1 : Dispenser) : Prop :=
  d1.tokens = d.tokens ∧ d.cursor ≤ d1.cursor ∧ d1.cursor ≤ d1.tokens.length

/-- Prefix a handler to the handlers a later part of the segment compiles to. -/
def consHandler (x : RawModule HandlerVal) :
    Option (Except Error (List (RawModule HandlerVal))) →
    Option (Except Error (List (RawModule HandlerVal)))
  | none => none
  | some (.error e) => some (.error e)
  | some (.ok xs) => some (.ok (x :: xs))

/-- The handlers the loop `for d.Next()` of `Setup` compiles from the tokens
after the cursor, in order, or the first error: the run of `SetupDirectiveLoop`
without the server and the automation list it threads through. -/
def DirectiveHandlers (env : Env) : Nat → Dispenser →
    Option (Except Error (List (RawModule HandlerVal)))
  | 0, _ => none
  | fuel + 1, d =>
    match d.Next with
    | (false, _) => some (.ok [])
    | (true, d1) =>
      if d1.Val = "echo" then
        consHandler (JSONModuleObject HandlerVal.echo "handler" "echo")
          (DirectiveHandlers env fuel d1)
      else if d1.Val = "tls" then
        match parseTLS d1 with
        | none => none
        | some (.error err) => some (.error err)
        | some (.ok (handler, d2)) =>
          consHandler (JSONModuleObject (HandlerVal.tls handler) "handler" "tls")
            (DirectiveHandlers env fuel d2)
      else if d1.Val = "proxy" then
        match parseProxy env d1 with
        | none => none
        | some (.error err) => some (.error err)
        | some (.ok (handler, d2)) =>
          consHandler (JSONModuleObject (HandlerVal.proxy handler) "handler" "proxy")
            (DirectiveHandlers env fuel d2)
      else if d1.Val = "proxy_protocol" then
        match parseProxyProtocol env d1 with
        | none => none
        | some (.error err) => some (.error err)
        | some (.ok (handler, d2)) =>
          consHandler
            (JSONModuleObject (HandlerVal.proxyProtocol handler) "handler" "proxy_protocol")
            (DirectiveHandlers env fuel d2)
      else DirectiveHandlers env fuel d1

/-- The server with one route appended for each handler of a list. -/
def addRoutes (server : Server) (hs : List (RawModule HandlerVal)) : Server :=
  { server with Routes := server.Routes ++ hs.map (fun x => { HandlersRaw := [x] }) }

/-- The number of handlers of a list tagged `tls`. -/
def tlsCount (hs : List (RawModule HandlerVal)) : Nat :=
  (hs.filter (fun x => x.fieldVal = "tls")).length

/-- The list `hostnames` repeated `n` times. -/
def repeatHosts (hostnames : List String) (n : Nat) : List String :=
  (List.replicate n hostnames).flatten

/-- The state `SetupDirectiveLoop` leaves behind when the handlers compiled
are `hs`. -/
def afterHandlers (hostnames : List String) (server : Server) (al : List String) :
    Option (Except Error (List (RawModule HandlerVal))) →
    Option (Except Error (Server × List String))
  | none => none
  | some (.error e) => some (.error e)
  | some (.ok hs) => some (.ok (addRoutes server hs, al ++ repeatHosts hostnames (tlsCount hs)))

/-- The handlers compiled from one segment. -/
def segmentHandlers (env : Env) (segment : List Token) :
    Option (Except Error (List (RawModule HandlerVal))) :=
  DirectiveHandlers env (segment.length + 2) (NewDispenser segment)

/-- The handlers compiled from the segments of a block, in order, or the first
error. -/
def segmentsHandlers (env : Env) : List (List Token) →
    Option (Except Error (List (RawModule HandlerVal)))
  | [] => some (.ok [])
  | segment :: rest =>
    match segmentHandlers env segment with
    | none => none
    | some (.error e) => some (.error e)
    | some (.ok hs) =>
      match segmentsHandlers env rest with
      | none => none
      | some (.error e) => some (.error e)
      | some (.ok hs1) => some (.ok (hs ++ hs1))

/-- The error `Setup` returns for an address key that does not parse. -/
def keyError (env : Env) (key : String) : Option Error :=
  match env.ParseAddress key with
  | .error err => some (Error.external err)
  | .ok _ => none

/-- The host components of the address keys that parse, in order. -/
def keyHosts (env : Env) (keys : List String) : List String :=
  keys.filterMap (fun key =>
    match env.ParseAddress key with
    | .error _ => none
    | .ok address => some address.Host)

/-- The error of a segment compiled on its own: the error of the loop
`for d.Next()` of `Setup` run on a fresh cursor over the segment, a fresh
server and an empty automation list. -/
def segmentError (env : Env) (segment : List Token) : Option Error :=
  match SetupDirectiveLoop env [] (segment.length + 2) (NewDispenser segment) newServer [] with
  | some (.error e) => some e
  | _ => none

/-- The errors of the address keys of a block followed by the errors of its
segments, in source order. -/
def blockErrors (env : Env) (sblock : ServerBlock) : List (Option Error) :=
  sblock.Keys.map (keyError env) ++ sblock.Segments.map (segmentError env)

/-- The first error in source order: block order, the address keys of a block
before its segments, segment order. -/
def firstError (env : Env) (blocks : List ServerBlock) : Option Error :=
  (blocks.flatMap (blockErrors env)).findSome? id

/-- The server `Setup` compiles from a block, when the block compiles. -/
def compiledServer (env : Env) (sblock : ServerBlock) : Option Server :=
  match SetupBlock env sblock [] with
  | some (.ok (server, _)) => some server
  | _ => none

/-- The number of routes of a server whose handler is tagged `tls`: the number
of `tls` directives compiled into it. -/
def tlsRoutes (server : Server) : Nat :=
  (server.Routes.filter (fun r => r.HandlersRaw.any (fun x => x.fieldVal = "tls"))).length

/-- The number of `tls` directives compiled from a block (zero when the block
does not compile). -/
def tlsDirectives (env : Env) (sblock : ServerBlock) : Nat :=
  match compiledServer env sblock with
  | some server => tlsRoutes server
  | none => 0

/-- The certificate-automation list of the output: the value under the key
`automate` of the `tls` application, empty when there is none. -/
def automationList (r : SetupResult) : List String :=
  match r.cfg with
  | none => []
  | some cfg =>
    match cfg.AppsRaw.get? "tls" with
    | some (AppRaw.tls t) => (t.CertificatesRaw.get? "automate").getD []
    | _ => []

/-- A token of the file `Caddyfile`. -/
def tok (line : Nat) (text : String) : Token := { File := "Caddyfile", Line := line, Text := text }

/-- A sample environment for evaluating the compiler on concrete inputs: every
non-empty address parses to itself as host, the durations `10s` and `5s` and
the integers `1`, `2`, `3` and `9000` parse, and the registry knows the six
selection policies of `l4proxy`. -/
def sampleEnv : Env where
  ParseAddress := fun s =>
    if s = "" then .error "empty address"
    else .ok { Original := s, Scheme := "", Host := s, Port := "", Path := "" }
  ParseDuration := fun s =>
    if s = "10s" then .ok 10000000000
    else if s = "5s" then .ok 5000000000
    else .error "invalid duration"
  Atoi := fun s =>
    if s = "1" then .ok 1
    else if s = "2" then .ok 2
    else if s = "3" then .ok 3
    else if s = "9000" then .ok 9000
    else .error "invalid syntax"
  GetModule := fun s =>
    if s = "layer4.proxy.selection_policies.random" then .ok Module.RandomSelection
    else if s = "layer4.proxy.selection_policies.least_conn" then .ok Module.LeastConnSelection
    else if s = "layer4.proxy.selection_policies.round_robin" then .ok Module.RoundRobinSelection
    else if s = "layer4.proxy.selection_policies.first" then .ok Module.FirstSelection
    else if s = "layer4.proxy.selection_policies.ip_hash" then .ok Module.IPHashSelection
    else if s = "layer4.proxy.selection_policies.random_choice" then
      .ok (Module.RandomChoiceSelection 0)
    else .error "unknown module"

/-- A token text that is none of the four directive keywords. -/
def notKeyword (s : String) : Prop :=
  s ≠ "echo" ∧ s ≠ "tls" ∧ s ≠ "proxy" ∧ s ≠ "proxy_protocol"

/-- Sample input: a block with one address and two `tls` directives. -/
def twoTLSBlocks : List ServerBlock :=
  [{ Keys := ["a.example"], Segments := [[tok 1 "tls"], [tok 2 "tls"]] }]

/-- Sample input: two blocks, the second with a `tls` directive over the
addresses `a.example` and `b.example`. -/
def secondTLSBlocks : List ServerBlock :=
  [{ Keys := ["c.example"], Segments := [[tok 1 "echo"]] },
   { Keys := ["a.example", "b.example"], Segments := [[tok 3 "tls"], [tok 4 "proxy", tok 4 "up:1"]] }]

/-- The cursor state over the tokens `pre ++ cur :: rest` with current token
`cur` and nesting level `n`. -/
def Z (pre : List Token) (cur : Token) (rest : List Token) (n : Int) : Dispenser :=
  { tokens := pre ++ cur :: rest, cursor := pre.length, nesting := n }

/-- Two tokens on one line, the second not an opening brace: the second is an
argument after the first. -/
def argAfter (a b : Token) : Prop := isNextOnNewLine a b = false ∧ b.Text ≠ "\x7b"

/-- No argument follows the token `last` when the tokens `rest` come next:
there is no token, or the next one is on a new line or an opening brace. -/
def argsEnd (last : Token) (rest : List Token) : Prop :=
  match rest with
  | [] => True
  | t :: _ => isNextOnNewLine last t = true ∨ t.Text = "\x7b"

/-- The next token, if any, is on a new line after the token `last`. -/
def lineEnd (last : Token) (rest : List Token) : Prop :=
  match rest with
  | [] => True
  | t :: _ => isNextOnNewLine last t = true

/-- The last token of `cur :: args`. -/
def lastTok : Token → List Token → Token
  | cur, [] => cur
  | _, a :: rest => lastTok a rest

/-- The tokens before the last token of `pre ++ cur :: args`. -/
def preAfter : List Token → Token → List Token → List Token
  | pre, _, [] => pre
  | pre, cur, a :: rest => preAfter (pre ++ [cur]) a rest

/-- The result of the loop for `RandomChoiceSelection` on the line
`nm a1 ... ak`: the arguments are read in pairs. -/
def randomChoiceLine (env : Env) : Token → List Token → Except Error Int
  | nm, [] => .error (Error.ArgErr nm.File nm.Line nm.Text)
  | _, a :: rest =>
    match env.Atoi a.Text with
    | .error err =>
      .error (Error.Errf a.File a.Line "invalid choice value '%s': %v" [a.Text, err])
    | .ok v =>
      match rest with
      | [] => .ok v
      | b :: rest1 => randomChoiceLine env b rest1

/-- Sample input: a `proxy` directive whose block sets `health_port 9000` and
then `health_interval 10s`. -/
def healthPortFirst : List Token :=
  [tok 1 "proxy", tok 1 "\x7b", tok 2 "health_port", tok 2 "9000",
   tok 3 "health_interval", tok 3 "10s", tok 4 "\x7d"]

/-- Sample input: a `proxy` directive whose block sets `health_interval 10s`
and then `health_port 9000`. -/
def healthIntervalFirst : List Token :=
  [tok 1 "proxy", tok 1 "\x7b", tok 2 "health_interval", tok 2 "10s",
   tok 3 "health_port", tok 3 "9000", tok 4 "\x7d"]

/-- The route of a `proxy` handler with no upstreams whose health checks are
one object with port 9000 and interval 10s. -/
def healthRoute : Route :=
  { HandlersRaw := [JSONModuleObject (HandlerVal.proxy { newProxyHandler with
      HealthChecks := some ⟨some { Port := 9000, Interval := 10000000000, Timeout := 0 }⟩ })
      "handler" "proxy"] }

/-- Sample state: the cursor on the key `health_interval` of `healthPortFirst`,
inside the block. -/
def atHealthInterval : Dispenser := { tokens := healthPortFirst, cursor := 4, nesting := 1 }

/-- Sample handler: the port of the active health checks is 9000. -/
def handlerWithPort : ProxyHandler :=
  { newProxyHandler with
    HealthChecks := some ⟨some { Port := 9000, Interval := 0, Timeout := 0 }⟩ }

/-- A token that is not a brace. -/
def notBrace (t : Token) : Prop := t.Text ≠ "\x7b" ∧ t.Text ≠ "\x7d"

/-- The words of (the rest of) a line: tokens that are not braces, each on
the line of the one before. -/
def wordsOK : List Token → Prop
  | [] => True
  | [t] => notBrace t
  | a :: b :: rest => notBrace a ∧ isNextOnNewLine a b = false ∧ wordsOK (b :: rest)

/-- The token `next` is on a new line after the last of the words `ws`. -/
def endsLine : List Token → Token → Prop
  | [], _ => True
  | [t], next => isNextOnNewLine t next = true
  | _ :: t :: rest, next => endsLine (t :: rest) next

/-- The first token of the lines `lines` followed by the closing brace `rb`. -/
def firstTok : List (List Token) → Token → Token
  | [], rb => rb
  | [] :: ls, rb => firstTok ls rb
  | (t :: _) :: _, _ => t

/-- The lines of a block and its closing brace: each line is a non-empty
sequence of words, the line after it (or the closing brace) starts on a new
line, and the closing brace is a closing brace. -/
def linesOK : List (List Token) → Token → Prop
  | [], rb => rb.Text = "\x7d"
  | l :: ls, rb => l ≠ [] ∧ wordsOK l ∧ endsLine l (firstTok ls rb) ∧ linesOK ls rb

/-- The rest `ws` of the current line, the lines after it and the closing
brace of a block. -/
def Lay (ws : List Token) (lines : List (List Token)) (rb : Token) : Prop :=
  wordsOK ws ∧ endsLine ws (firstTok lines rb) ∧ linesOK lines rb

/-- The words of a line as a key function reads them: the first word is a
key, `step` gives the new value and the number of words after the key that the
key takes as its arguments, and the word after those is the next key. -/
def walkWords {H : Type} (step : H → Token → List Token → Except Error (H × Nat)) :
    H → List Token → Except Error H
  | h, [] => .ok h
  | h, k :: rest =>
    match step h k rest with
    | .error e => .error e
    | .ok (h1, c) => walkWords step h1 (rest.drop c)
termination_by _ ws => ws.length
decreasing_by
  simp only [List.length_drop, List.length_cons]
  omega

/-- The lines of a block as a key function reads them. -/
def walkLines {H : Type} (step : H → Token → List Token → Except Error (H × Nat)) :
    H → List (List Token) → Except Error H
  | h, [] => .ok h
  | h, l :: ls =>
    match walkWords step h l with
    | .error e => .error e
    | .ok h1 => walkLines step h1 ls

/-- The loop `for nesting := d.Nesting(); d.NextBlock(nesting);` around a
`switch d.Val()` statement `keyFn`. -/
def blockLoop {H : Type} (keyFn : Dispenser → H → Option (Except Error (H × Dispenser)))
    (nesting : Int) : Nat → Dispenser → H → Option (Except Error (H × Dispenser))
  | 0, _, _ => none
  | fuel + 1, d, h =>
    match d.NextBlock nesting with
    | (false, d1) => some (.ok (h, d1))
    | (true, d1) =>
      match keyFn d1 h with
      | none => none
      | some (.error e) => some (.error e)
      | some (.ok (h1, d2)) => blockLoop keyFn nesting fuel d2 h1

/-- The result of a block loop that ends on the closing brace `rb` with the
value the lines are read to. -/
def blockResult {H : Type} (pre : List Token) (rb : Token) (n : Int) :
    Except Error H → Except Error (H × Dispenser)
  | .error e => .error e
  | .ok h => .ok (h, Z pre rb [] n)

/-- What a `switch d.Val()` statement does on the key `k` followed on its
line by the words `rest`, stated on the words: the new value and the number of
words taken, or the error. -/
def keyResult {H : Type} (pre : List Token) (k : Token) (rest tail : List Token) (n : Int) :
    Except Error (H × Nat) → Except Error (H × Dispenser)
  | .error e => .error e
  | .ok (h, c) =>
    .ok (h, Z (preAfter pre k (rest.take c)) (lastTok k (rest.take c)) (rest.drop c ++ tail) n)

/-- The rest `ws` of a line and the lines after it as a key function reads
them. -/
def walkBlock {H : Type} (step : H → Token → List Token → Except Error (H × Nat))
    (h : H) (ws : List Token) (lines : List (List Token)) : Except Error H :=
  match walkWords step h ws with
  | .error e => .error e
  | .ok h1 => walkLines step h1 lines

/-- The `switch d.Val()` statement `keyFn` does, at nesting level `n` on a key
that is not a brace and the words after it on its line, what `step` says on
the words. -/
def KeySpec {H : Type} (keyFn : Dispenser → H → Option (Except Error (H × Dispenser)))
    (step : H → Token → List Token → Except Error (H × Nat)) (n : Int) : Prop :=
  ∀ (pre : List Token) (k : Token) (rest tail : List Token) (h : H),
    notBrace k → List.Chain argAfter k rest → lineEnd (lastTok k rest) tail →
    keyFn (Z pre k (rest ++ tail) n) h = some (keyResult pre k rest tail n (step h k rest))

/-- The block of a directive: the opening brace, the lines and the closing
brace. -/
structure Block where
  lb : Token
  lines : List (List Token)
  rb : Token

/-- The tokens of the block of a directive, if it has one. -/
def blockTokens : Option Block → List Token
  | none => []
  | some b => b.lb :: (b.lines.flatten ++ [b.rb])

/-- The lines of the block of a directive, if it has one. -/
def blockLines : Option Block → List (List Token)
  | none => []
  | some b => b.lines

/-- The block of a directive, if there is one, opens with an opening brace on
the line of the token `last` and holds lines of words up to its closing
brace. -/
def blockOK (last : Token) : Option Block → Prop
  | none => True
  | some b => isNextOnNewLine last b.lb = false ∧ b.lb.Text = "\x7b" ∧ linesOK b.lines b.rb

/-- The step of `parseTLSKey` on the words of a line. -/
def tlsStep (cp : ConnectionPolicy) (k : Token) (rest : List Token) :
    Except Error (ConnectionPolicy × Nat) :=
  if k.Text = "alpn" then
    match rest with
    | [] => .error (Error.ArgErr k.File k.Line k.Text)
    | _ :: _ => .ok ({ cp with ALPN := rest.map Token.Text }, rest.length)
  else .ok (cp, 0)

/-- The step of `parseProxyProtocolKey` on the words of a line. -/
def proxyProtocolStep (env : Env) (h : ProxyProtocolHandler) (k : Token) (rest : List Token) :
    Except Error (ProxyProtocolHandler × Nat) :=
  if k.Text = "timeout" then
    match rest with
    | [] => .error (Error.ArgErr k.File k.Line k.Text)
    | v :: _ =>
      match env.ParseDuration v.Text with
      | .error err =>
        .error (Error.Errf v.File v.Line "parsing proxy_protocol timeout duration: %v" [err])
      | .ok timeout => .ok ({ h with Timeout := timeout }, 1)
  else if k.Text = "allow" then
    match rest with
    | [] => .error (Error.ArgErr k.File k.Line k.Text)
    | _ :: _ => .ok ({ h with Allow := h.Allow ++ rest.map Token.Text }, rest.length)
  else .error (Error.ArgErr k.File k.Line k.Text)

/-- The result of `UnmarshalL4ProxySelectionCaddyfile` on the policy line
`nm a1 ... ak`. -/
def selectionLine (env : Env) (inst : Module) (nm : Token) (args : List Token) :
    Except Error Module :=
  match inst with
  | Module.RandomChoiceSelection _ =>
    (randomChoiceLine env nm args).map Module.RandomChoiceSelection
  | Module.other n b => .ok (Module.other n b)
  | sel =>
    match args with
    | [] => .ok sel
    | a :: _ => .error (Error.ArgErr a.File a.Line a.Text)

/-- Whether the selection policy of the handler is set. -/
def policySet (h : ProxyHandler) : Bool :=
  match h.LoadBalancing with
  | none => false
  | some lb => lb.SelectionPolicyRaw.isSome

/-- The step of the `lb_policy` case of `parseProxyKey` on the policy name
`nm` and the words `args` after it. -/
def proxyPolicy (env : Env) (h : ProxyHandler) (nm : Token) (args : List Token) :
    Except Error ProxyHandler :=
  if policySet h then
    .error (Error.Errf nm.File nm.Line "load balancing selection policy already specified" [])
  else
    match env.GetModule ("layer4.proxy.selection_policies." ++ nm.Text) with
    | .error err =>
      .error (Error.Errf nm.File nm.Line "getting module named '%s': %v"
        ["layer4.proxy.selection_policies." ++ nm.Text, err])
    | .ok inst =>
      match selectionLine env inst nm args with
      | .error e => .error e
      | .ok mod =>
        if !mod.isSelector then
          .error (Error.Errf (lastTok nm args).File (lastTok nm args).Line
            "module %s (%T) is not a l4proxy.Selector"
            ["layer4.proxy.selection_policies." ++ nm.Text, mod.typeName])
        else
          .ok { h with LoadBalancing := some { lbOrNew h with
                  SelectionPolicyRaw := some (JSONModuleObject mod "policy" nm.Text) } }

/-- The step of the keys of `parseProxyKey` that take one argument, on the
argument `v`; `none` for any other key. -/
def proxyOneArg (env : Env) (h : ProxyHandler) (key : String) (v : Token) :
    Option (Except Error ProxyHandler) :=
  if key = "lb_try_duration" then
    some (match env.ParseDuration v.Text with
      | .error err =>
        .error (Error.Errf v.File v.Line "bad duration value %s: %v" [v.Text, err])
      | .ok dur => .ok { h with LoadBalancing := some { lbOrNew h with TryDuration := dur } })
  else if key = "lb_try_interval" then
    some (match env.ParseDuration v.Text with
      | .error err =>
        .error (Error.Errf v.File v.Line "bad interval value '%s': %v" [v.Text, err])
      | .ok dur => .ok { h with LoadBalancing := some { lbOrNew h with TryInterval := dur } })
  else if key = "health_port" then
    some (match env.Atoi v.Text with
      | .error err =>
        .error (Error.Errf v.File v.Line "bad port number '%s': %v" [v.Text, err])
      | .ok portNum =>
        .ok { h with HealthChecks := some { hcOrNew h with
                Active := some { activeOrNew h with Port := portNum } } })
  else if key = "health_interval" then
    some (match env.ParseDuration v.Text with
      | .error err =>
        .error (Error.Errf v.File v.Line "bad interval value %s: %v" [v.Text, err])
      | .ok dur =>
        .ok { h with HealthChecks := some { hcOrNew h with
                Active := some { activeOrNew h with Interval := dur } } })
  else if key = "health_timeout" then
    some (match env.ParseDuration v.Text with
      | .error err =>
        .error (Error.Errf v.File v.Line "bad timeout value %s: %v" [v.Text, err])
      | .ok dur =>
        .ok { h with HealthChecks := some { hcOrNew h with
                Active := some { activeOrNew h with Timeout := dur } } })
  else if key = "proxy_protocol" then
    some (.ok { h with ProxyProtocol := v.Text })
  else none

/-- The step of `parseProxyKey` on the words of a line. -/
def proxyStep (env : Env) (h : ProxyHandler) (k : Token) (rest : List Token) :
    Except Error (ProxyHandler × Nat) :=
  if k.Text = "to" then
    match rest with
    | [] => .error (Error.ArgErr k.File k.Line k.Text)
    | _ :: _ => .ok (appendUpstream h (rest.map Token.Text), rest.length)
  else if k.Text = "lb_policy" then
    match rest with
    | [] => .error (Error.ArgErr k.File k.Line k.Text)
    | nm :: args =>
      match proxyPolicy env h nm args with
      | .error e => .error e
      | .ok h1 => .ok (h1, rest.length)
  else
    match rest with
    | [] =>
      match proxyOneArg env h k.Text k with
      | some _ => .error (Error.ArgErr k.File k.Line k.Text)
      | none => .ok (h, 0)
    | v :: _ =>
      match proxyOneArg env h k.Text v with
      | some (.error e) => .error e
      | some (.ok h1) => .ok (h1, 1)
      | none => .ok (h, 0)

/-- The keys of a `proxy` block that take exactly one argument. -/
def oneArgKey (k : String) : Bool :=
  k = "lb_try_duration" || k = "lb_try_interval" || k = "health_port" ||
    k = "health_interval" || k = "health_timeout" || k = "proxy_protocol"

/-- The upstream addresses `parseProxy` reads from the words of a line: the
words after a `to` that is read as a key. The first word is a key; `to` and
`lb_policy` take all the words after them, a key with one argument takes one
word, any other key takes none, and the word after the words a key takes is
read as a key again. -/
def toArgs : List String → List String
  | [] => []
  | k :: rest =>
    if k = "to" then rest
    else if k = "lb_policy" then []
    else if oneArgKey k then
      match rest with
      | [] => []
      | _ :: rest1 => toArgs rest1
    else toArgs rest

/-- Following the words of the specification: the arguments of the `to` lines
of a block, a `to` line being a line whose first word is `to`. -/
def toLineArgs (lines : List (List String)) : List String :=
  (lines.filter (fun l => l.head? = some "to")).flatMap List.tail

/-- The upstreams that dial the addresses of a list, one each. -/
def dialEach (addresses : List String) : List Upstream :=
  addresses.map (fun a => { Dial := [a] })

/-- Sample input: the block of a `proxy` directive with a `to` line and a
`health_port` line. -/
def toBlock : Block :=
  { lb := tok 1 "\x7b",
    lines := [[tok 2 "to", tok 2 "up:2", tok 2 "up:3"], [tok 3 "health_port", tok 3 "9000"]],
    rb := tok 4 "\x7d" }

/-- Sample input: a `proxy` directive whose block has the one line
`foo to x`. -/
def fooToSegment : List Token :=
  [tok 1 "proxy", tok 1 "\x7b", tok 2 "foo", tok 2 "to", tok 2 "x", tok 3 "\x7d"]

/-- A closing brace in the place of the token `t`. -/
def closeAt (t : Token) : Token := { t with Text := "\x7d" }

/-- Sample input: a block with two addresses, an `echo` and a `proxy`
directive. -/
def twoKeysBlock : ServerBlock :=
  { Keys := ["a.example:443", "b.example:80"],
    Segments := [[tok 1 "echo"], [tok 2 "proxy", tok 2 "up:1"]] }

/-- The first word of a line with the text `key`, and the words after it. -/
def wordsAfter (key : String) : List Token → Option (Token × List Token)
  | [] => none
  | k :: rest => if k.Text = key then some (k, rest) else wordsAfter key rest

/-- The lines of a block that hold the word `key`. -/
def linesWith (key : String) (lines : List (List Token)) : List (List Token) :=
  lines.filter (fun l => (wordsAfter key l).isSome)

/-- The first word `alpn` of the line is its last word. -/
def alpnLast (l : List Token) : Bool :=
  match wordsAfter "alpn" l with
  | some (_, []) => true
  | _ => false

/-- The value a handler compiler returns, without the cursor it leaves
behind. -/
def valueOf {H : Type} : Option (Except Error (H × Dispenser)) → Option (Except Error H)
  | none => none
  | some (.error e) => some (.error e)
  | some (.ok (h, _)) => some (.ok h)

/-- Following the words of the specification: the lines of a block whose key
is `key`, the key of a line being its first word. -/
def keyLines (key : String) (lines : List (List String)) : List (List String) :=
  lines.filter (fun l => l.head? = some key)

/-- Following the words of the specification: the arguments of the last line
whose key is `key`, the empty list when there is no such line. -/
def lastLineArgs (key : String) (lines : List (List String)) : List String :=
  match (keyLines key lines).getLast? with
  | none => []
  | some l => l.tail

/-- Following the words of the specification: some line whose key is `key`
has zero arguments. -/
def keyLineNoArgs (key : String) (lines : List (List String)) : Bool :=
  (keyLines key lines).any (fun l => l.tail.isEmpty)

/-- Sample input: a `tls` directive whose block has the one line
`foo alpn`. -/
def fooAlpnSegment : List Token :=
  [tok 1 "tls", tok 1 "\x7b", tok 2 "foo", tok 2 "alpn", tok 3 "\x7d"]

/-- Sample input: a `tls` directive whose block has the lines `alpn h2` and
`foo alpn h3`. -/
def alpnTwiceSegment : List Token :=
  [tok 1 "tls", tok 1 "\x7b", tok 2 "alpn", tok 2 "h2", tok 3 "foo", tok 3 "alpn", tok 3 "h3",
   tok 4 "\x7d"]

/-- Sample input: the block of a `tls` directive with the lines `foo bar`,
`alpn h2` and `alpn h3 h4`. -/
def alpnBlock : Block :=
  { lb := tok 1 "\x7b",
    lines := [[tok 2 "foo", tok 2 "bar"], [tok 3 "alpn", tok 3 "h2"],
      [tok 4 "alpn", tok 4 "h3", tok 4 "h4"]],
    rb := tok 5 "\x7d" }

/-- Sample input: the block `alpnBlock` without its line `foo bar`. -/
def alpnOnlyBlock : Block :=
  { lb := tok 1 "\x7b",
    lines := [[tok 3 "alpn", tok 3 "h2"], [tok 4 "alpn", tok 4 "h3", tok 4 "h4"]],
    rb := tok 5 "\x7d" }

/-- The words of a line that `parseProxyProtocol` accepts when it reads the
first of them as a key: any number of `timeout` keys, each followed by a
well-formed duration, and then either nothing or `allow` followed by one or
more words. -/
def ppWordsOK (env : Env) : List String → Bool
  | [] => true
  | k :: rest =>
    if k = "timeout" then
      match rest with
      | [] => false
      | v :: rest1 =>
        match env.ParseDuration v with
        | .error _ => false
        | .ok _ => ppWordsOK env rest1
    else if k = "allow" then !rest.isEmpty
    else false

/-- The words after the `allow` that `parseProxyProtocol` reads as a key in a
line: an `allow` that starts the line or follows the value of a `timeout`. -/
def allowArgs : List String → List String
  | [] => []
  | k :: rest =>
    if k = "timeout" then
      match rest with
      | [] => []
      | _ :: rest1 => allowArgs rest1
    else if k = "allow" then rest
    else []

/-- The values of the `timeout` keys that `parseProxyProtocol` reads in a
line: a `timeout` that starts the line or follows the value of another. -/
def timeoutArgs : List String → List String
  | [] => []
  | k :: rest =>
    if k = "timeout" then
      match rest with
      | [] => []
      | v :: rest1 => v :: timeoutArgs rest1
    else []

/-- The timeout `t1` is the parsed value of the last of the values `vals`, or
`t0` when there is none. -/
def timeoutIs (env : Env) (t0 : Int) (vals : List String) (t1 : Int) : Prop :=
  match vals.getLast? with
  | none => t1 = t0
  | some v => env.ParseDuration v = .ok t1

/-- Following the words of the specification: a line of a `proxy_protocol`
block is `timeout` followed by exactly one well-formed duration, or `allow`
followed by one or more arguments. -/
def strictLine (env : Env) (l : List String) : Bool :=
  match l with
  | [] => false
  | k :: args =>
    (k = "timeout" && args.length = 1 &&
      args.all (fun v => match env.ParseDuration v with | .ok _ => true | .error _ => false)) ||
    (k = "allow" && 1 ≤ args.length)

/-- Sample input: a `proxy_protocol` directive whose block has the one line
`timeout 5s allow x`. -/
def timeoutAllowSegment : List Token :=
  [tok 1 "proxy_protocol", tok 1 "\x7b", tok 2 "timeout", tok 2 "5s", tok 2 "allow", tok 2 "x",
   tok 3 "\x7d"]

/-- Sample input: the block of a `proxy_protocol` directive with the lines
`allow 10.0.0.0/8`, `timeout 5s` and `allow 192.168.0.0/16 ::1`. -/
def allowBlock : Block :=
  { lb := tok 1 "\x7b",
    lines := [[tok 2 "allow", tok 2 "10.0.0.0/8"], [tok 3 "timeout", tok 3 "5s"],
      [tok 4 "allow", tok 4 "192.168.0.0/16", tok 4 "::1"]],
    rb := tok 5 "\x7d" }

/-- Sample input: a `proxy_protocol` directive whose block has the lines
`allow a` and `timeout 5s timeout 10s allow b`. -/
def allowAfterTimeoutSegment : List Token :=
  [tok 1 "proxy_protocol", tok 1 "\x7b", tok 2 "allow", tok 2 "a", tok 3 "timeout", tok 3 "5s",
   tok 3 "timeout", tok 3 "10s", tok 3 "allow", tok 3 "b", tok 4 "\x7d"]

/-- The keys the `switch` of `parseProxy` has a case for. -/
def proxyKeyword (k : String) : Bool := k = "to" || k = "lb_policy" || oneArgKey k

/-- Sample input: a `proxy` directive whose block has the one line
`health_port 9000 8000`. -/
def surplusPortSegment : List Token :=
  [tok 1 "proxy", tok 1 "\x7b", tok 2 "health_port", tok 2 "9000", tok 2 "8000", tok 3 "\x7d"]

/-- Sample input: the block of a `proxy` directive with the lines
`lb_try_duration 5s` and `health_interval`. -/
def intervalAloneBlock : Block :=
  { lb := tok 1 "\x7b",
    lines := [[tok 2 "lb_try_duration", tok 2 "5s"], [tok 3 "health_interval"]],
    rb := tok 4 "\x7d" }

/-- Sample input: a `proxy` directive whose block has the one line
`lb_policy`. -/
def policyAloneSegment : List Token :=
  [tok 1 "proxy", tok 1 "\x7b", tok 2 "lb_policy", tok 3 "\x7d"]

/-- A sample environment whose registry also resolves, in the namespace of the
selection policies, the name `plugin` to a module that implements
`l4proxy.Selector` and is none of the six policies of `l4proxy`, and the name
`broken` to a module that does not implement it. -/
def pluginEnv : Env :=
  { sampleEnv with
    GetModule := fun s =>
      if s = "layer4.proxy.selection_policies.plugin" then
        .ok (Module.other "*plugin.Selection" true)
      else if s = "layer4.proxy.selection_policies.broken" then
        .ok (Module.other "*plugin.Broken" false)
      else sampleEnv.GetModule s }

/-- One of the six selection policies of `l4proxy`. -/
def Module.isKnownPolicy : Module → Bool
  | Module.other _ _ => false
  | _ => true

/-- Sample input: a `proxy` directive whose block has the one line
`lb_policy plugin a b`. -/
def pluginPolicySegment : List Token :=
  [tok 1 "proxy", tok 1 "\x7b", tok 2 "lb_policy", tok 2 "plugin", tok 2 "a", tok 2 "b",
   tok 3 "\x7d"]

/-- Sample input: the block of a `proxy` directive with the lines
`health_port 9000` and `lb_policy broken a b`. -/
def brokenPolicyBlock : Block :=
  { lb := tok 1 "\x7b",
    lines := [[tok 2 "health_port", tok 2 "9000"],
      [tok 3 "lb_policy", tok 3 "broken", tok 3 "a", tok 3 "b"]],
    rb := tok 4 "\x7d" }

/-- The decimal digits of a number, the most significant first. -/
def decimal (n : Nat) : List Char :=
  if n < 10 then [Nat.digitChar n] else decimal (n / 10) ++ [Nat.digitChar (n % 10)]
termination_by n
decreasing_by omega

/-- The number a list of decimal digits stands for. -/
def digitsValue (cs : List Char) : Nat :=
  cs.foldl (fun a c => a * 10 + (c.toNat - 48)) 0

/-- The entries `Setup` registers for the servers of a list, the first one
under the index `i`: the key of a server is `srv` followed by its index. -/
def registered : List Server → Nat → List (String × Server)
  | [], _ => []
  | server :: rest, i => ("srv" ++ Itoa i, server) :: registered rest (i + 1)

/-- The `Servers` map of the routing application of the output, empty when the
output has no routing application. -/
def serversOf (r : SetupResult) : GoMap Server :=
  match r.cfg with
  | none => GoMap.make
  | some cfg =>
    match cfg.AppsRaw.get? "layer4" with
    | some (AppRaw.layer4 a) => a.Servers
    | _ => GoMap.make

/-- Sample input: three blocks. -/
def threeBlocks : List ServerBlock :=
  [{ Keys := ["a.example"], Segments := [[tok 1 "echo"]] },
   { Keys := ["b.example"], Segments := [[tok 2 "tls"]] },
   { Keys := ["c.example"], Segments := [[tok 3 "proxy", tok 3 "up:1"]] }]

/-- A token that is a brace. -/
def isBrace (t : Token) : Bool := t.Text = "\x7b" || t.Text = "\x7d"

/-- The layout of the tokens after the token `prev`, braces included: an
opening brace is on the line of the token before it, which is not a brace; a
closing brace starts a line; and the token after a brace starts a line. -/
def nestOK : Token → List Token → Bool
  | _, [] => true
  | prev, t :: rest =>
    (if t.Text = "\x7b" then !isNextOnNewLine prev t && !isBrace prev
     else if t.Text = "\x7d" then isNextOnNewLine prev t
     else !isBrace prev || isNextOnNewLine prev t) && nestOK t rest

/-- The tokens close the `j` blocks that are open before them, and every block
they open, without closing more: they are what is left of the body of a block
`j` levels below the cursor. -/
def depthOK : Nat → List Token → Bool
  | j, [] => j == 0
  | j, t :: rest =>
    if t.Text = "\x7b" then depthOK (j + 1) rest
    else if t.Text = "\x7d" then (if j = 0 then false else depthOK (j - 1) rest)
    else depthOK j rest

/-- The arguments after the token `t`: the tokens that follow it on its line,
up to an opening brace. -/
def lineArgs : Token → List Token → List Token
  | _, [] => []
  | t, a :: rest =>
    if isNextOnNewLine t a = false ∧ a.Text ≠ "\x7b" then a :: lineArgs a rest else []

/-- The number of tokens up to and including the closing brace of the block
that is open, `j` further blocks being open inside it. -/
def blockLen : Nat → List Token → Nat
  | _, [] => 0
  | j, t :: rest =>
    if t.Text = "\x7d" then (if j = 0 then 1 else 1 + blockLen (j - 1) rest)
    else if t.Text = "\x7b" then 1 + blockLen (j + 1) rest
    else 1 + blockLen j rest

/-- The number of tokens of the block that opens on the line of the token
`last`, braces included; zero when no block opens there. -/
def segBlockLen (last : Token) : List Token → Nat
  | [] => 0
  | lb :: rest =>
    if lb.Text = "\x7b" ∧ isNextOnNewLine last lb = false then 1 + blockLen 0 rest else 0

/-- The tokens of the block that `Dispenser.NextSegment` adds to a segment: the
block that opens on the line of the token `last`, braces included; none when
the block is empty. -/
def segBlock (last : Token) (rest : List Token) : List Token :=
  if segBlockLen last rest ≤ 2 then [] else rest.take (segBlockLen last rest)

/-- What a `switch d.Val()` statement does on the key `t` followed by the
tokens `X` of the block (lines of words and nested blocks) and by tokens `tail`
that start on a new line, stated on the tokens: the new value and the number of
tokens of `X` taken, or the error; the tokens taken leave the nesting of the
blocks as it is. -/
def KeySpecG {H : Type} (keyFn : Dispenser → H → Option (Except Error (H × Dispenser)))
    (step : H → Token → List Token → Except Error (H × Nat)) (n : Int) : Prop :=
  ∀ (pre : List Token) (t : Token) (X tail : List Token) (h : H) (j : Nat),
    nestOK t X = true → depthOK j X = true → lineEnd (lastTok t X) tail →
    keyFn (Z pre t (X ++ tail) n) h = some (keyResult pre t X tail n (step h t X)) ∧
    ∀ h1 c, step h t X = .ok (h1, c) → c ≤ X.length ∧ depthOK j (X.drop c) = true

/-- The nesting level after the block loop has stepped on the token `t`. -/
def stepNesting (t : Token) (M : Int) : Int :=
  if t.Text = "\x7d" then M - 1 else if t.Text = "\x7b" then M + 1 else M

/-- The number of tokens after the token `t` that belong to its segment: the
arguments on its line and the block opened on that line. -/
def segLen (t : Token) (X : List Token) : Nat :=
  (lineArgs t X).length +
    segBlockLen (lastTok t (lineArgs t X)) (X.drop (lineArgs t X).length)

/-- The tokens after the token `t` that `NextSegment` returns with it: the
arguments on its line and the block opened on that line, braces included; an
empty block is left out. -/
def segTokens (t : Token) (X : List Token) : List Token :=
  lineArgs t X ++ segBlock (lastTok t (lineArgs t X)) (X.drop (lineArgs t X).length)

/-- The result of the loop of `UnmarshalL4ProxySelectionCaddyfile` for the
five policies without arguments, when the cursor is on the token `t` and the
tokens `rest` follow: a token on the line of its predecessor that is not an
opening brace is an argument, and an error. -/
def noArgsTokens : Token → List Token → Except Error Unit
  | _, [] => .ok ()
  | t, a :: rest =>
    if isNextOnNewLine t a = false ∧ a.Text ≠ "\x7b" then
      .error (Error.ArgErr a.File a.Line a.Text)
    else noArgsTokens a rest

/-- The result of the loop of `UnmarshalL4ProxySelectionCaddyfile` for
`RandomChoiceSelection`, when the cursor is on the token `t` and the tokens
`rest` follow: the tokens are read in pairs, the second of each pair an
argument on the line of the first. -/
def randomChoiceTokens (env : Env) : Token → List Token → Except Error Int
  | t, [] => .error (Error.ArgErr t.File t.Line t.Text)
  | t, [a] =>
    if isNextOnNewLine t a = false ∧ a.Text ≠ "\x7b" then
      match env.Atoi a.Text with
      | .error err => .error (Error.Errf a.File a.Line "invalid choice value '%s': %v" [a.Text, err])
      | .ok choose => .ok choose
    else .error (Error.ArgErr t.File t.Line t.Text)
  | t, a :: b :: rest =>
    if isNextOnNewLine t a = false ∧ a.Text ≠ "\x7b" then
      match env.Atoi a.Text with
      | .error err => .error (Error.Errf a.File a.Line "invalid choice value '%s': %v" [a.Text, err])
      | .ok _ => randomChoiceTokens env b rest
    else .error (Error.ArgErr t.File t.Line t.Text)

/-- The result of `UnmarshalL4ProxySelectionCaddyfile` on a cursor over the
tokens `nm :: rest`, the policy name and the rest of its segment. -/
def selectionTokens (env : Env) (inst : Module) (nm : Token) (rest : List Token) :
    Except Error Module :=
  match inst with
  | Module.RandomChoiceSelection _ =>
    (randomChoiceTokens env nm rest).map Module.RandomChoiceSelection
  | Module.other n b => .ok (Module.other n b)
  | sel =>
    match noArgsTokens nm rest with
    | .error e => .error e
    | .ok _ => .ok sel

/-- The step of the `lb_policy` case of `parseProxyKey` after the policy name
`nm`, on the tokens `X` that follow it in the block: the segment of the policy
is its line and the block opened on it. -/
def proxyPolicyTokens (env : Env) (h : ProxyHandler) (nm : Token) (X : List Token) :
    Except Error (ProxyHandler × Nat) :=
  if policySet h then
    .error (Error.Errf nm.File nm.Line "load balancing selection policy already specified" [])
  else
    match env.GetModule ("layer4.proxy.selection_policies." ++ nm.Text) with
    | .error err =>
      .error (Error.Errf nm.File nm.Line "getting module named '%s': %v"
        ["layer4.proxy.selection_policies." ++ nm.Text, err])
    | .ok inst =>
      match selectionTokens env inst nm (segTokens nm X) with
      | .error e => .error e
      | .ok mod =>
        if !mod.isSelector then
          .error (Error.Errf (lastTok nm (X.take (segLen nm X))).File
            (lastTok nm (X.take (segLen nm X))).Line
            "module %s (%T) is not a l4proxy.Selector"
            ["layer4.proxy.selection_policies." ++ nm.Text, mod.typeName])
        else
          .ok ({ h with LoadBalancing := some { lbOrNew h with
                  SelectionPolicyRaw := some (JSONModuleObject mod "policy" nm.Text) } },
            1 + segLen nm X)

/-- The step of `parseProxyKey` on the key `k` and the tokens `X` that follow
it in the block, nested blocks included. -/
def proxyStepG (env : Env) (h : ProxyHandler) (k : Token) (X : List Token) :
    Except Error (ProxyHandler × Nat) :=
  if k.Text = "lb_policy" then
    match X with
    | [] => .error (Error.ArgErr k.File k.Line k.Text)
    | nm :: X1 =>
      if isNextOnNewLine k nm = false ∧ nm.Text ≠ "\x7b" then proxyPolicyTokens env h nm X1
      else .error (Error.ArgErr k.File k.Line k.Text)
  else proxyStep env h k (lineArgs k X)

/-- The step of `parseTLSKey` on the key `k` and the tokens `X` that follow it
in the block. -/
def tlsStepG (cp : ConnectionPolicy) (k : Token) (X : List Token) :
    Except Error (ConnectionPolicy × Nat) :=
  tlsStep cp k (lineArgs k X)

/-- The step of `parseProxyProtocolKey` on the key `k` and the tokens `X` that
follow it in the block. -/
def proxyProtocolStepG (env : Env) (h : ProxyProtocolHandler) (k : Token) (X : List Token) :
    Except Error (ProxyProtocolHandler × Nat) :=
  proxyProtocolStep env h k (lineArgs k X)

/-- The tokens of a block that may hold nested blocks, after the token `last`:
none, or an opening brace on the line of `last`, the body and the closing
brace; in the body every opening brace ends the line of the word before it,
every closing brace starts a line, and the braces are balanced. -/
def nestedBlock (last : Token) (G : List Token) : Prop :=
  G = [] ∨ ∃ lb body rb, G = lb :: (body ++ [rb]) ∧ isNextOnNewLine last lb = false ∧
    lb.Text = "\x7b" ∧ rb.Text = "\x7d" ∧ nestOK lb (body ++ [rb]) = true ∧
    depthOK 0 body = true

/-- The tokens between the braces of a block. -/
def blockBody (G : List Token) : List Token := (G.drop 1).dropLast

/-- A segment that consists of exactly one recognised directive: the keyword,
its arguments on the same line (none for `echo` and `tls`) and, except for
`echo`, an optional block, which may hold nested blocks; no other token. -/
def directiveSegment (seg : List Token) : Prop :=
  ∃ (kw : Token) (args G : List Token),
    seg = kw :: (args ++ G) ∧ List.Chain argAfter kw args ∧
    nestedBlock (lastTok kw args) G ∧
    ((kw.Text = "echo" ∧ args = [] ∧ G = []) ∨ (kw.Text = "tls" ∧ args = []) ∨
      kw.Text = "proxy" ∨ kw.Text = "proxy_protocol")

/-- The error of the handler compiler of a directive: the error `parseTLS`,
`parseProxy` or `parseProxyProtocol` returns on a cursor over the segment that
stands on its keyword; `echo` has no handler compiler and no error. -/
def handlerError (env : Env) (seg : List Token) : Option Error :=
  let d := (NewDispenser seg).Next.2
  if d.Val = "tls" then
    match parseTLS d with
    | some (.error e) => some e
    | _ => none
  else if d.Val = "proxy" then
    match parseProxy env d with
    | some (.error e) => some e
    | _ => none
  else if d.Val = "proxy_protocol" then
    match parseProxyProtocol env d with
    | some (.error e) => some e
    | _ => none
  else none

/-- Sample input: a block with one address and four segments, one for each
directive; the block of the `proxy` directive holds an `lb_policy` line that
opens a nested block, and a line `echo` after it. -/
def directivesBlock : ServerBlock :=
  { Keys := ["a.example"],
    Segments := [[tok 1 "echo"],
      [tok 2 "tls", tok 2 "\x7b", tok 3 "alpn", tok 3 "h2", tok 4 "\x7d"],
      [tok 5 "proxy", tok 5 "up:1", tok 5 "\x7b", tok 6 "lb_policy", tok 6 "round_robin",
        tok 6 "\x7b", tok 7 "foo", tok 8 "\x7d", tok 9 "echo", tok 10 "\x7d"],
      [tok 11 "proxy_protocol"]] }

/-- Sample input: the tokens of a `proxy` block with two `lb_policy` lines, the
first of which opens a nested block. -/
def nestedPolicies : List Token :=
  [tok 1 "proxy", tok 1 "\x7b", tok 2 "lb_policy", tok 2 "round_robin", tok 2 "\x7b",
    tok 3 "foo", tok 4 "\x7d", tok 5 "lb_policy", tok 5 "random", tok 6 "\x7d"]

/-- Whether the argument `v` of the one-argument key `key` of a `proxy` block
parses: a duration for `lb_try_duration`, `lb_try_interval`, `health_interval`
and `health_timeout`, an integer for `health_port`, any word for
`proxy_protocol`. -/
def proxyValueOK (env : Env) (key : String) (v : Token) : Bool :=
  if key = "health_port" then
    match env.Atoi v.Text with
    | .error _ => false
    | .ok _ => true
  else if key = "proxy_protocol" then true
  else
    match env.ParseDuration v.Text with
    | .error _ => false
    | .ok _ => true

/-- Whether the policy line `nm a1 ... ak` compiles: the registry knows the
module of the name `nm`, its arguments are accepted, and the module is a
Selector. -/
def policyLineOK (env : Env) (nm : Token) (args : List Token) : Bool :=
  match env.GetModule ("layer4.proxy.selection_policies." ++ nm.Text) with
  | .error _ => false
  | .ok inst =>
    match selectionLine env inst nm args with
    | .error _ => false
    | .ok mod => mod.isSelector

/-- Whether the keys read in the words of a line of a `proxy` block are all
well-formed, given whether a selection policy is set before the line (`none`
when one is not, otherwise whether a selection policy is set after the line):
`to` takes the words after it and needs one; `lb_policy` takes the words after
it, needs no policy to be set and a policy line that compiles; a key with one
argument needs a word after it that parses, and the word after that is read
as a key again; any other word is skipped. -/
def proxyWordsOK (env : Env) : Bool → List Token → Option Bool
  | b, [] => some b
  | b, k :: rest =>
    if k.Text = "to" then (if rest = [] then none else some b)
    else if k.Text = "lb_policy" then
      match rest with
      | [] => none
      | nm :: args => if !b && policyLineOK env nm args then some true else none
    else if oneArgKey k.Text then
      match rest with
      | [] => none
      | v :: r => if proxyValueOK env k.Text v then proxyWordsOK env b r else none
    else proxyWordsOK env b rest

/-- Whether the keys read in the lines of a `proxy` block are all well-formed,
line after line. -/
def proxyLinesOK (env : Env) : Bool → List (List Token) → Option Bool
  | b, [] => some b
  | b, l :: ls =>
    match proxyWordsOK env b l with
    | none => none
    | some b1 => proxyLinesOK env b1 ls

/-- Sample input: the block of a `proxy` directive with the lines
`health_port 9000`, `lb_policy round_robin` and `lb_try_duration 5s foo`. -/
def healthPortBlock : Block :=
  { lb := tok 1 "\x7b",
    lines := [[tok 2 "health_port", tok 2 "9000"], [tok 3 "lb_policy", tok 3 "round_robin"],
      [tok 4 "lb_try_duration", tok 4 "5s", tok 4 "foo"]],
    rb := tok 5 "\x7d" }

/-- Sample input: a `proxy` directive whose block has an `lb_policy` line that
opens a nested block, and a `to` line after it. -/
def nestedPolicySegment : List Token :=
  [tok 1 "proxy", tok 1 "\x7b", tok 2 "lb_policy", tok 2 "round_robin", tok 2 "\x7b",
    tok 3 "foo", tok 4 "\x7d", tok 5 "to", tok 5 "x", tok 6 "\x7d"]

/-! ## Progress of the cursor -/

theorem Adv_refl (d : Dispenser) (h : d.Inv) : d.Adv d := ⟨rfl, le_refl _, h.2⟩

theorem Adv_trans {a b c : Dispenser} (h1 : a.Adv b) (h2 : b.Adv c) : a.Adv c :=
  ⟨h2.1.trans h1.1, le_trans h1.2.1 h2.2.1, h2.2.2⟩

theorem Adv_inv {a b : Dispenser} (h : a.Inv) (h1 : a.Adv b) : b.Inv :=
  ⟨le_trans h.1 h1.2.1, h1.2.2⟩

theorem Next_adv (d : Dispenser) (h : d.Inv) :
    d.Adv d.Next.2 ∧ (d.Next.1 = true → d.cursor < d.Next.2.cursor ∧
      d.Next.2.cursor < d.tokens.length) := by
  unfold Dispenser.Next Dispenser.Adv
  obtain ⟨h1, h2⟩ := h
  split <;> simp <;> omega

theorem nextOnSameLine_adv (d : Dispenser) (h : d.Inv) :
    d.Adv d.nextOnSameLine.2 ∧ (d.nextOnSameLine.1 = true →
      d.nextOnSameLine.2.cursor = d.cursor + 1) ∧
    (d.nextOnSameLine.1 = false → d.nextOnSameLine.2 = d) ∧
    d.nextOnSameLine.2.nesting = d.nesting ∧
    (0 ≤ d.cursor → d.cursor < d.tokens.length →
      d.nextOnSameLine.2.cursor < d.tokens.length) := by
  unfold Dispenser.nextOnSameLine Dispenser.Adv
  obtain ⟨h1, h2⟩ := h
  split
  · simp; omega
  · split
    · simp; omega
    · simp only []
      split <;> simp <;> omega

theorem NextArg_adv (d : Dispenser) (h : d.Inv) :
    d.Adv d.NextArg.2 ∧ (d.NextArg.1 = true → d.cursor < d.NextArg.2.cursor) ∧
    d.NextArg.2.nesting = d.nesting := by
  have h0 := nextOnSameLine_adv d h
  unfold Dispenser.NextArg
  rcases hh : d.nextOnSameLine with ⟨b, d1⟩
  rw [hh] at h0
  obtain ⟨⟨a1, a2, a3⟩, a4, a5, a6, _⟩ := h0
  dsimp only at a1 a2 a3 a4 a5 a6
  cases b
  · simp only
    have := a5 rfl
    subst this
    exact ⟨⟨rfl, le_refl _, h.2⟩, by simp, rfl⟩
  · simp only
    have := a4 rfl
    split
    · refine ⟨⟨a1, ?_, ?_⟩, by simp, a6⟩ <;> simp <;> omega
    · exact ⟨⟨a1, a2, a3⟩, fun _ => by dsimp only; omega, a6⟩

theorem RemainingArgsLoop_total (fuel : Nat) : ∀ (d : Dispenser) (acc : List String), d.Inv →
    (d.tokens.length : Int) - d.cursor < fuel →
    ∃ args d1, Dispenser.RemainingArgsLoop fuel d acc = some (args, d1) ∧ d.Adv d1 ∧
      d1.nesting = d.nesting := by
  induction fuel with
  | zero => intro d acc h hf; exfalso; obtain ⟨_, h2⟩ := h; omega
  | succ n ih =>
    intro d acc h hf
    have h0 := NextArg_adv d h
    unfold Dispenser.RemainingArgsLoop
    rcases hh : d.NextArg with ⟨b, d1⟩
    rw [hh] at h0
    dsimp only at h0
    cases b
    · exact ⟨acc, d1, rfl, h0.1, h0.2.2⟩
    · obtain ⟨a, b1, c⟩ := h0
      have hb := b1 rfl
      obtain ⟨args, d2, e1, e2, e3⟩ := ih d1 (acc ++ [d1.Val]) (Adv_inv h a)
        (by have := a.1; rw [this]; omega)
      exact ⟨args, d2, e1, Adv_trans a e2, e3.trans c⟩

theorem RemainingArgs_total (d : Dispenser) (h : d.Inv) :
    ∃ args d1, d.RemainingArgs = some (args, d1) ∧ d.Adv d1 ∧ d1.nesting = d.nesting := by
  unfold Dispenser.RemainingArgs
  apply RemainingArgsLoop_total _ _ _ h
  obtain ⟨h1, _⟩ := h
  push_cast
  omega

theorem valNotOnSameLine_adv (d : Dispenser) (s : String) (h : d.Inv) :
    d.Adv (d.valNotOnSameLine s).2 ∧ (d.valNotOnSameLine s).2.nesting = d.nesting ∧
    (0 ≤ d.cursor → d.cursor < d.tokens.length →
      (d.valNotOnSameLine s).2.cursor < d.tokens.length) := by
  have h0 := nextOnSameLine_adv d h
  unfold Dispenser.valNotOnSameLine
  split
  · rcases hh : d.nextOnSameLine with ⟨b, d1⟩
    rw [hh] at h0
    exact ⟨h0.1, h0.2.2.2.1, h0.2.2.2.2⟩
  · exact ⟨Adv_refl d h, rfl, fun _ hlt => hlt⟩

theorem NextBlock_adv (d : Dispenser) (n : Int) (h : d.Inv) :
    d.Adv (d.NextBlock n).2 ∧ ((d.NextBlock n).1 = true →
      d.cursor < (d.NextBlock n).2.cursor ∧ (d.NextBlock n).2.cursor < d.tokens.length) := by
  unfold Dispenser.NextBlock
  split
  · have h0 := Next_adv d h
    rcases hh : d.Next with ⟨b, d1⟩
    rw [hh] at h0
    dsimp only at h0
    cases b
    · exact ⟨h0.1, by simp⟩
    · obtain ⟨a, b1⟩ := h0
      obtain ⟨b1, b2⟩ := b1 rfl
      have i1 := Adv_inv h a
      have t1 := a.1
      have c1 := valNotOnSameLine_adv d1 "\x7d" i1
      have i2 := Adv_inv i1 c1.1
      have c2 := valNotOnSameLine_adv (d1.valNotOnSameLine "\x7d").2 "\x7b" i2
      obtain ⟨⟨p1, p2, p3⟩, p4, p5⟩ := c1
      obtain ⟨⟨q1, q2, q3⟩, q4, q5⟩ := c2
      have hi := i1.1
      have hd := h.1
      have l1 := congrArg List.length t1
      have l2 := congrArg List.length p1
      have l3 := congrArg List.length q1
      have p5 := p5 (by omega) (by omega)
      have q5 := q5 (by omega) (by omega)
      dsimp only
      split
      · refine ⟨⟨p1.trans t1, ?_, ?_⟩, ?_⟩
        · dsimp only; omega
        · dsimp only; omega
        · intro _; dsimp only; omega
      · split
        · refine ⟨⟨(q1.trans p1).trans t1, ?_, ?_⟩, ?_⟩
          · dsimp only; omega
          · dsimp only; omega
          · intro _; dsimp only; omega
        · refine ⟨⟨(q1.trans p1).trans t1, ?_, ?_⟩, ?_⟩
          · omega
          · omega
          · intro _; omega
  · have h0 := nextOnSameLine_adv d h
    rcases hh : d.nextOnSameLine with ⟨b, d1⟩
    rw [hh] at h0
    dsimp only at h0
    obtain ⟨⟨a1, a2, a3⟩, a4, a5, a6, a7⟩ := h0
    cases b
    · have := a5 rfl
      subst this
      exact ⟨Adv_refl _ h, by simp⟩
    · have a4 := a4 rfl
      dsimp only
      split
      · refine ⟨⟨a1, ?_, ?_⟩, by simp⟩
        · dsimp only; omega
        · dsimp only; omega
      · rename_i hv
        have hv : d1.Val = "\x7b" := by simpa using hv
        have hr : 0 ≤ d1.cursor ∧ d1.cursor < d1.tokens.length := by
          by_contra hc
          have : d1.Val = "" := by
            unfold Dispenser.Val Dispenser.Token
            rw [if_pos (by omega)]
          rw [this] at hv
          exact absurd hv (by decide)
        have i1 : d1.Inv := ⟨by omega, a3⟩
        have n1 := Next_adv d1 i1
        obtain ⟨⟨m1, m2, m3⟩, m4⟩ := n1
        have hlt : d1.Next.2.cursor < d1.tokens.length := by
          by_cases hb : d1.Next.1 = true
          · exact (m4 hb).2
          · have : d1.Next.2 = d1 := by
              unfold Dispenser.Next at hb ⊢
              split at hb
              · simp at hb
              · rw [if_neg (by assumption)]
            rw [this]; exact hr.2
        have hi := h.1
        split
        · exact ⟨⟨m1.trans a1, by dsimp only; omega, m3⟩, by simp⟩
        · refine ⟨⟨m1.trans a1, ?_, ?_⟩, ?_⟩
          · dsimp only; omega
          · dsimp only; exact m3
          · intro _; dsimp only; rw [← a1]; omega

theorem NextSegmentArgsLoop_total (fuel : Nat) : ∀ (d : Dispenser) (acc : List Token), d.Inv →
    (d.tokens.length : Int) - d.cursor < fuel →
    ∃ tkns d1, Dispenser.NextSegmentArgsLoop fuel d acc = some (tkns, d1) ∧ d.Adv d1 := by
  induction fuel with
  | zero => intro d acc h hf; exfalso; obtain ⟨_, h2⟩ := h; omega
  | succ n ih =>
    intro d acc h hf
    have h0 := NextArg_adv d h
    unfold Dispenser.NextSegmentArgsLoop
    rcases hh : d.NextArg with ⟨b, d1⟩
    rw [hh] at h0
    dsimp only at h0
    cases b
    · exact ⟨acc, d1, rfl, h0.1⟩
    · obtain ⟨a, b1, c⟩ := h0
      have hb := b1 rfl
      obtain ⟨args, d2, e1, e2⟩ := ih d1 (acc ++ [d1.Token]) (Adv_inv h a)
        (by have := a.1; rw [this]; omega)
      exact ⟨args, d2, e1, Adv_trans a e2⟩

theorem Prev_Next_cancel (d : Dispenser) (h0 : 0 ≤ d.cursor) (h1 : d.cursor < d.tokens.length) :
    d.Prev.2.Next.2 = d := by
  unfold Dispenser.Prev
  rw [if_pos (by omega)]
  unfold Dispenser.Next
  dsimp only
  rw [if_pos (by omega)]
  cases d
  simp

theorem NextSegmentBlockLoop_total (nesting : Int) (fuel : Nat) :
    ∀ (d : Dispenser) (acc : List Token) (opened : Bool), d.Inv →
    (d.tokens.length : Int) - d.cursor < fuel →
    ∃ tkns o d1, Dispenser.NextSegmentBlockLoop nesting fuel d acc opened = some (tkns, o, d1) ∧
      d.Adv d1 ∧ (o = true → opened = false → d.cursor < d1.cursor) := by
  induction fuel with
  | zero => intro d acc o h hf; exfalso; obtain ⟨_, h2⟩ := h; omega
  | succ n ih =>
    intro d acc opened h hf
    have h0 := NextBlock_adv d nesting h
    unfold Dispenser.NextSegmentBlockLoop
    rcases hh : d.NextBlock nesting with ⟨b, d1⟩
    rw [hh] at h0
    dsimp only at h0
    cases b
    · refine ⟨acc, opened, d1, rfl, h0.1, ?_⟩
      intro h1 h2; rw [h1] at h2; exact absurd h2 (by decide)
    · obtain ⟨a, b1⟩ := h0
      obtain ⟨b1, b2⟩ := b1 rfl
      have hd := h.1
      have t1 := congrArg List.length a.1
      dsimp only
      cases opened
      · have hc := Prev_Next_cancel d1 (by omega) (by omega)
        simp only [Bool.not_false, if_true]
        rw [hc]
        obtain ⟨tk, o, d2, e1, e2, e3⟩ := ih d1 (acc ++ [d1.Prev.2.Token] ++ [d1.Token]) true
          (Adv_inv h a) (by omega)
        refine ⟨tk, o, d2, e1, Adv_trans a e2, ?_⟩
        intro _ _
        have := e2.2.1
        omega
      · simp only [Bool.not_true, Bool.false_eq_true, if_false]
        obtain ⟨tk, o, d2, e1, e2, e3⟩ := ih d1 (acc ++ [d1.Token]) true
          (Adv_inv h a) (by omega)
        exact ⟨tk, o, d2, e1, Adv_trans a e2, fun _ hf => absurd hf (by decide)⟩

theorem NextSegment_total (d : Dispenser) (h : d.Inv) :
    ∃ tkns d1, d.NextSegment = some (tkns, d1) ∧ d.Adv d1 := by
  have hd := h.1
  obtain ⟨tk, d1, e1, e2⟩ := NextSegmentArgsLoop_total (d.tokens.length + 2) d [d.Token] h
    (by push_cast; omega)
  have i1 := Adv_inv h e2
  have t1 := congrArg List.length e2.1
  obtain ⟨tk2, o, d2, f1, f2, f3⟩ := NextSegmentBlockLoop_total d1.Nesting (d.tokens.length + 2) d1
    tk false i1 (by have := i1.1; push_cast; omega)
  unfold Dispenser.NextSegment
  rw [e1]
  dsimp only
  rw [f1]
  dsimp only
  cases o
  · exact ⟨tk2, d2, by simp, Adv_trans e2 f2⟩
  · exact ⟨tk2 ++ [d2.Token], d2, by simp, Adv_trans e2 f2⟩

theorem NewFromNextSegment_total (d : Dispenser) (h : d.Inv) :
    ∃ sub d1, d.NewFromNextSegment = some (sub, d1) ∧ d.Adv d1 ∧ sub.Inv := by
  obtain ⟨tk, d1, e1, e2⟩ := NextSegment_total d h
  unfold Dispenser.NewFromNextSegment
  rw [e1]
  refine ⟨NewDispenser tk, d1, rfl, e2, ?_⟩
  unfold NewDispenser Dispenser.Inv
  dsimp only
  omega

theorem UnmarshalNoArgsLoop_total (fuel : Nat) : ∀ (d : Dispenser), d.Inv →
    (d.tokens.length : Int) - d.cursor < fuel →
    ∃ r, UnmarshalNoArgsLoop fuel d = some r := by
  induction fuel with
  | zero => intro d h hf; exfalso; obtain ⟨_, h2⟩ := h; omega
  | succ n ih =>
    intro d h hf
    have h0 := Next_adv d h
    unfold UnmarshalNoArgsLoop
    rcases hh : d.Next with ⟨b, d1⟩
    rw [hh] at h0
    dsimp only at h0
    cases b
    · exact ⟨_, rfl⟩
    · obtain ⟨a, b1⟩ := h0
      obtain ⟨b1, b2⟩ := b1 rfl
      have i1 := Adv_inv h a
      have h1 := NextArg_adv d1 i1
      dsimp only
      rcases hh1 : d1.NextArg with ⟨b, d2⟩
      rw [hh1] at h1
      dsimp only at h1
      cases b
      · have t1 := congrArg List.length a.1
        have t2 := congrArg List.length h1.1.1
        have := h1.1.2.1
        exact ih d2 (Adv_inv i1 h1.1) (by omega)
      · exact ⟨_, rfl⟩

theorem UnmarshalRandomChoiceLoop_total (env : Env) (fuel : Nat) : ∀ (d : Dispenser) (c : Int),
    d.Inv → (d.tokens.length : Int) - d.cursor < fuel →
    ∃ r, UnmarshalRandomChoiceLoop env fuel d c = some r := by
  induction fuel with
  | zero => intro d c h hf; exfalso; obtain ⟨_, h2⟩ := h; omega
  | succ n ih =>
    intro d c h hf
    have h0 := Next_adv d h
    unfold UnmarshalRandomChoiceLoop
    rcases hh : d.Next with ⟨b, d1⟩
    rw [hh] at h0
    dsimp only at h0
    cases b
    · exact ⟨_, rfl⟩
    · obtain ⟨a, b1⟩ := h0
      obtain ⟨b1, b2⟩ := b1 rfl
      have i1 := Adv_inv h a
      have h1 := NextArg_adv d1 i1
      dsimp only
      rcases hh1 : d1.NextArg with ⟨b, d2⟩
      rw [hh1] at h1
      dsimp only at h1
      cases b
      · exact ⟨_, rfl⟩
      · dsimp only
        cases env.Atoi d2.Val with
        | error e => exact ⟨_, rfl⟩
        | ok v =>
          have t1 := congrArg List.length a.1
          have t2 := congrArg List.length h1.1.1
          have := h1.1.2.1
          exact ih d2 v (Adv_inv i1 h1.1) (by omega)

theorem UnmarshalL4ProxySelectionCaddyfile_total (env : Env) (inst : Module) (d : Dispenser)
    (h : d.Inv) : ∃ r, UnmarshalL4ProxySelectionCaddyfile env inst d = some r := by
  have hd := h.1
  obtain ⟨r1, e1⟩ := UnmarshalNoArgsLoop_total (d.tokens.length + 2) d h (by push_cast; omega)
  cases inst <;> simp only [UnmarshalL4ProxySelectionCaddyfile]
  case RandomChoiceSelection c =>
    obtain ⟨r, e⟩ := UnmarshalRandomChoiceLoop_total env (d.tokens.length + 2) d c h
      (by push_cast; omega)
    rw [e]
    rcases r with e | v <;> exact ⟨_, rfl⟩
  case other n b => exact ⟨_, rfl⟩
  all_goals
    rw [e1]
    rcases r1 with e | v <;> exact ⟨_, rfl⟩

theorem UnmarshalL4proxySelectionModule_total (env : Env) (d : Dispenser) (moduleID : String)
    (h : d.Inv) : ∃ r, UnmarshalL4proxySelectionModule env d moduleID = some r ∧
      ∀ m d1, r = .ok (m, d1) → d.Adv d1 := by
  unfold UnmarshalL4proxySelectionModule
  cases env.GetModule moduleID with
  | error e => exact ⟨_, rfl, fun _ _ hh => by cases hh⟩
  | ok inst =>
    obtain ⟨sub, d1, e1, e2, e3⟩ := NewFromNextSegment_total d h
    dsimp only
    rw [e1]
    obtain ⟨r, e⟩ := UnmarshalL4ProxySelectionCaddyfile_total env inst sub e3
    dsimp only
    rw [e]
    rcases r with e | v
    · exact ⟨_, rfl, fun _ _ hh => by cases hh⟩
    · exact ⟨_, rfl, fun _ _ hh => by cases hh; exact e2⟩

theorem parseTLSKey_total (d : Dispenser) (cp : ConnectionPolicy) (hi : d.Inv) :
    ∃ r, parseTLSKey d cp = some r ∧ ∀ cp1 d1, r = .ok (cp1, d1) → d.Adv d1 := by
  unfold parseTLSKey
  split
  · obtain ⟨args, d2, e1, e2, _⟩ := RemainingArgs_total d hi
    rw [e1]
    dsimp only
    split
    · exact ⟨_, rfl, fun _ _ hh => by cases hh⟩
    · exact ⟨_, rfl, fun _ _ hh => by cases hh; exact e2⟩
  · exact ⟨_, rfl, fun _ _ hh => by cases hh; exact Adv_refl _ hi⟩

theorem parseTLSLoop_total (fuel : Nat) : ∀ (d : Dispenser) (cp : ConnectionPolicy), d.Inv →
    (d.tokens.length : Int) - d.cursor < fuel →
    ∃ r, parseTLSLoop fuel d cp = some r ∧ ∀ cp1 d1, r = .ok (cp1, d1) → d.Adv d1 := by
  induction fuel with
  | zero => intro d c h hf; exfalso; obtain ⟨_, h2⟩ := h; omega
  | succ n ih =>
    intro d h hi hf
    have h0 := NextBlock_adv d 0 hi
    unfold parseTLSLoop
    rcases hh : d.NextBlock 0 with ⟨b, d1⟩
    rw [hh] at h0
    dsimp only at h0
    cases b
    · exact ⟨_, rfl, fun _ _ hh => by cases hh; exact h0.1⟩
    · obtain ⟨a, b1⟩ := h0
      obtain ⟨b1, b2⟩ := b1 rfl
      have i1 := Adv_inv hi a
      have t1 := congrArg List.length a.1
      obtain ⟨r, e1, e2⟩ := parseTLSKey_total d1 h i1
      dsimp only
      rw [e1]
      rcases r with e | ⟨h1, d2⟩
      · exact ⟨_, rfl, fun _ _ hh => by cases hh⟩
      · have a2 := e2 _ _ rfl
        have t2 := congrArg List.length a2.1
        have := a2.2.1
        obtain ⟨r, f1, f2⟩ := ih d2 h1 (Adv_inv i1 a2) (by omega)
        exact ⟨r, f1, fun c x hh => Adv_trans a (Adv_trans a2 (f2 c x hh))⟩

theorem parseTLS_total (d : Dispenser) (h : d.Inv) :
    ∃ r, parseTLS d = some r ∧ ∀ h1 d1, r = .ok (h1, d1) → d.Adv d1 := by
  have hd := h.1
  obtain ⟨r, e1, e2⟩ := parseTLSLoop_total (d.tokens.length + 2) d newConnectionPolicy h
    (by push_cast; omega)
  unfold parseTLS
  dsimp only
  rw [e1]
  rcases r with e | ⟨c, d1⟩
  · exact ⟨_, rfl, fun _ _ hh => by cases hh⟩
  · exact ⟨_, rfl, fun _ _ hh => by cases hh; exact e2 _ _ rfl⟩

theorem parseProxyKey_total (env : Env) (d : Dispenser) (h : ProxyHandler) (hi : d.Inv) :
    ∃ r, parseProxyKey env d h = some r ∧ ∀ h1 d1, r = .ok (h1, d1) → d.Adv d1 := by
  have h0 := NextArg_adv d hi
  unfold parseProxyKey
  by_cases c1 : d.Val = "to"
  · rw [if_pos c1]
    obtain ⟨args, d2, e1, e2, _⟩ := RemainingArgs_total d hi
    rw [e1]
    dsimp only
    split
    · exact ⟨_, rfl, fun _ _ hh => by cases hh⟩
    · exact ⟨_, rfl, fun _ _ hh => by cases hh; exact e2⟩
  rw [if_neg c1]
  by_cases c2 : d.Val = "lb_policy"
  · rw [if_pos c2]
    rcases hh : d.NextArg with ⟨b, d1⟩
    rw [hh] at h0
    cases b
    · exact ⟨_, rfl, fun _ _ hh => by cases hh⟩
    · dsimp only
      split
      · exact ⟨_, rfl, fun _ _ hh => by cases hh⟩
      · obtain ⟨r, f1, f2⟩ := UnmarshalL4proxySelectionModule_total env d1
          ("layer4.proxy.selection_policies." ++ d1.Val) (Adv_inv hi h0.1)
        rw [f1]
        rcases r with e | ⟨m, d2⟩
        · exact ⟨_, rfl, fun _ _ hh => by cases hh⟩
        · dsimp only
          split
          · exact ⟨_, rfl, fun _ _ hh => by cases hh⟩
          · exact ⟨_, rfl, fun _ _ hh => by cases hh; exact Adv_trans h0.1 (f2 _ _ rfl)⟩
  rw [if_neg c2]
  rcases hh : d.NextArg with ⟨b, d1⟩
  rw [hh] at h0
  cases b
  · dsimp only
    split_ifs <;>
      exact ⟨_, rfl, fun _ _ hh => by cases hh; all_goals exact Adv_refl _ hi⟩
  · dsimp only
    split_ifs <;> first
      | (split
         · exact ⟨_, rfl, fun _ _ hh => by cases hh⟩
         · exact ⟨_, rfl, fun _ _ hh => by cases hh; exact h0.1⟩)
      | exact ⟨_, rfl, fun _ _ hh => by cases hh; first | exact h0.1 | exact Adv_refl _ hi⟩

theorem parseProxyLoop_total (env : Env) (nesting : Int) (fuel : Nat) :
    ∀ (d : Dispenser) (h : ProxyHandler), d.Inv → (d.tokens.length : Int) - d.cursor < fuel →
    ∃ r, parseProxyLoop env nesting fuel d h = some r ∧ ∀ h1 d1, r = .ok (h1, d1) → d.Adv d1 := by
  induction fuel with
  | zero => intro d c h hf; exfalso; obtain ⟨_, h2⟩ := h; omega
  | succ n ih =>
    intro d h hi hf
    have h0 := NextBlock_adv d nesting hi
    unfold parseProxyLoop
    rcases hh : d.NextBlock nesting with ⟨b, d1⟩
    rw [hh] at h0
    dsimp only at h0
    cases b
    · exact ⟨_, rfl, fun _ _ hh => by cases hh; exact h0.1⟩
    · obtain ⟨a, b1⟩ := h0
      obtain ⟨b1, b2⟩ := b1 rfl
      have i1 := Adv_inv hi a
      have t1 := congrArg List.length a.1
      obtain ⟨r, e1, e2⟩ := parseProxyKey_total env d1 h i1
      dsimp only
      rw [e1]
      rcases r with e | ⟨h1, d2⟩
      · exact ⟨_, rfl, fun _ _ hh => by cases hh⟩
      · have a2 := e2 _ _ rfl
        have t2 := congrArg List.length a2.1
        have := a2.2.1
        obtain ⟨r, f1, f2⟩ := ih d2 h1 (Adv_inv i1 a2) (by omega)
        exact ⟨r, f1, fun c x hh => Adv_trans a (Adv_trans a2 (f2 c x hh))⟩

theorem parseProxy_total (env : Env) (d : Dispenser) (hi : d.Inv) :
    ∃ r, parseProxy env d = some r ∧ ∀ h1 d1, r = .ok (h1, d1) → d.Adv d1 := by
  have hd := hi.1
  obtain ⟨args, d1, e1, e2, _⟩ := RemainingArgs_total d hi
  unfold parseProxy
  dsimp only
  rw [e1]
  have t2 := congrArg List.length e2.1
  have := e2.2.1
  obtain ⟨r, f1, f2⟩ := parseProxyLoop_total env d1.Nesting (d.tokens.length + 2) d1
    (appendUpstream newProxyHandler args) (Adv_inv hi e2) (by push_cast; omega)
  exact ⟨r, f1, fun c x hh => Adv_trans e2 (f2 c x hh)⟩

theorem parseProxyProtocolKey_total (env : Env) (d : Dispenser) (h : ProxyProtocolHandler)
    (hi : d.Inv) :
    ∃ r, parseProxyProtocolKey env d h = some r ∧ ∀ h1 d1, r = .ok (h1, d1) → d.Adv d1 := by
  have h0 := NextArg_adv d hi
  unfold parseProxyProtocolKey
  by_cases c1 : d.Val = "timeout"
  · rw [if_pos c1]
    rcases hh : d.NextArg with ⟨b, d1⟩
    rw [hh] at h0
    cases b
    · exact ⟨_, rfl, fun _ _ hh => by cases hh⟩
    · dsimp only
      split
      · exact ⟨_, rfl, fun _ _ hh => by cases hh⟩
      · exact ⟨_, rfl, fun _ _ hh => by cases hh; exact h0.1⟩
  rw [if_neg c1]
  by_cases c2 : d.Val = "allow"
  · rw [if_pos c2]
    obtain ⟨args, d2, e1, e2, _⟩ := RemainingArgs_total d hi
    rw [e1]
    dsimp only
    split
    · exact ⟨_, rfl, fun _ _ hh => by cases hh⟩
    · exact ⟨_, rfl, fun _ _ hh => by cases hh; exact e2⟩
  rw [if_neg c2]
  exact ⟨_, rfl, fun _ _ hh => by cases hh⟩

theorem parseProxyProtocolLoop_total (env : Env) (nesting : Int) (fuel : Nat) :
    ∀ (d : Dispenser) (h : ProxyProtocolHandler), d.Inv →
    (d.tokens.length : Int) - d.cursor < fuel →
    ∃ r, parseProxyProtocolLoop env nesting fuel d h = some r ∧
      ∀ h1 d1, r = .ok (h1, d1) → d.Adv d1 := by
  induction fuel with
  | zero => intro d c h hf; exfalso; obtain ⟨_, h2⟩ := h; omega
  | succ n ih =>
    intro d h hi hf
    have h0 := NextBlock_adv d nesting hi
    unfold parseProxyProtocolLoop
    rcases hh : d.NextBlock nesting with ⟨b, d1⟩
    rw [hh] at h0
    dsimp only at h0
    cases b
    · exact ⟨_, rfl, fun _ _ hh => by cases hh; exact h0.1⟩
    · obtain ⟨a, b1⟩ := h0
      obtain ⟨b1, b2⟩ := b1 rfl
      have i1 := Adv_inv hi a
      have t1 := congrArg List.length a.1
      obtain ⟨r, e1, e2⟩ := parseProxyProtocolKey_total env d1 h i1
      dsimp only
      rw [e1]
      rcases r with e | ⟨h1, d2⟩
      · exact ⟨_, rfl, fun _ _ hh => by cases hh⟩
      · have a2 := e2 _ _ rfl
        have t2 := congrArg List.length a2.1
        have := a2.2.1
        obtain ⟨r, f1, f2⟩ := ih d2 h1 (Adv_inv i1 a2) (by omega)
        exact ⟨r, f1, fun c x hh => Adv_trans a (Adv_trans a2 (f2 c x hh))⟩

theorem parseProxyProtocol_total (env : Env) (d : Dispenser) (hi : d.Inv) :
    ∃ r, parseProxyProtocol env d = some r ∧ ∀ h1 d1, r = .ok (h1, d1) → d.Adv d1 := by
  have hd := hi.1
  obtain ⟨args, d1, e1, e2, _⟩ := RemainingArgs_total d hi
  unfold parseProxyProtocol
  dsimp only
  rw [e1]
  dsimp only
  split
  · exact ⟨_, rfl, fun _ _ hh => by cases hh⟩
  · have t2 := congrArg List.length e2.1
    have := e2.2.1
    obtain ⟨r, f1, f2⟩ := parseProxyProtocolLoop_total env d1.Nesting (d.tokens.length + 2) d1
      newProxyProtocolHandler (Adv_inv hi e2) (by push_cast; omega)
    exact ⟨r, f1, fun c x hh => Adv_trans e2 (f2 c x hh)⟩

/-! ## The directive loop as a list of handlers -/

theorem consHandler_total (x : RawModule HandlerVal)
    (r : Option (Except Error (List (RawModule HandlerVal)))) (h : ∃ v, r = some v) :
    ∃ v, consHandler x r = some v := by
  obtain ⟨v, rfl⟩ := h
  rcases v with e | xs <;> exact ⟨_, rfl⟩

theorem DirectiveHandlers_total (env : Env) (fuel : Nat) : ∀ (d : Dispenser), d.Inv →
    (d.tokens.length : Int) - d.cursor < fuel → ∃ r, DirectiveHandlers env fuel d = some r := by
  induction fuel with
  | zero => intro d h hf; exfalso; obtain ⟨_, h2⟩ := h; omega
  | succ n ih =>
    intro d hi hf
    have h0 := Next_adv d hi
    unfold DirectiveHandlers
    rcases hh : d.Next with ⟨b, d1⟩
    rw [hh] at h0
    dsimp only at h0
    cases b
    · exact ⟨_, rfl⟩
    · obtain ⟨a, b1⟩ := h0
      obtain ⟨b1, b2⟩ := b1 rfl
      have i1 := Adv_inv hi a
      have t1 := congrArg List.length a.1
      have key : ∀ d2 : Dispenser, d1.Adv d2 → ∃ r, DirectiveHandlers env n d2 = some r := by
        intro d2 a2
        have t2 := congrArg List.length a2.1
        have := a2.2.1
        exact ih d2 (Adv_inv i1 a2) (by omega)
      dsimp only
      split_ifs
      · exact consHandler_total _ _ (key d1 (Adv_refl _ i1))
      · obtain ⟨r, e1, e2⟩ := parseTLS_total d1 i1
        rw [e1]
        rcases r with e | ⟨h1, d2⟩
        · exact ⟨_, rfl⟩
        · exact consHandler_total _ _ (key d2 (e2 _ _ rfl))
      · obtain ⟨r, e1, e2⟩ := parseProxy_total env d1 i1
        rw [e1]
        rcases r with e | ⟨h1, d2⟩
        · exact ⟨_, rfl⟩
        · exact consHandler_total _ _ (key d2 (e2 _ _ rfl))
      · obtain ⟨r, e1, e2⟩ := parseProxyProtocol_total env d1 i1
        rw [e1]
        rcases r with e | ⟨h1, d2⟩
        · exact ⟨_, rfl⟩
        · exact consHandler_total _ _ (key d2 (e2 _ _ rfl))
      · exact key d1 (Adv_refl _ i1)

theorem segmentHandlers_total (env : Env) (segment : List Token) :
    ∃ r, segmentHandlers env segment = some r := by
  unfold segmentHandlers
  apply DirectiveHandlers_total
  · unfold NewDispenser Dispenser.Inv; dsimp only; omega
  · unfold NewDispenser; dsimp only; push_cast; omega

theorem segmentsHandlers_total (env : Env) (segments : List (List Token)) :
    ∃ r, segmentsHandlers env segments = some r := by
  induction segments with
  | nil => exact ⟨_, rfl⟩
  | cons s rest ih =>
    obtain ⟨r, e⟩ := segmentHandlers_total env s
    obtain ⟨r1, e1⟩ := ih
    unfold segmentsHandlers
    rw [e, e1]
    rcases r with e | hs
    · exact ⟨_, rfl⟩
    · rcases r1 with e | hs1 <;> exact ⟨_, rfl⟩

theorem addRoutes_cons (server : Server) (x : RawModule HandlerVal)
    (xs : List (RawModule HandlerVal)) :
    addRoutes { server with Routes := server.Routes ++ [{ HandlersRaw := [x] }] } xs =
      addRoutes server (x :: xs) := by
  simp [addRoutes]

theorem addRoutes_nil (server : Server) : addRoutes server [] = server := by
  simp [addRoutes]

theorem addRoutes_append (server : Server) (xs ys : List (RawModule HandlerVal)) :
    addRoutes (addRoutes server xs) ys = addRoutes server (xs ++ ys) := by
  simp [addRoutes]

theorem repeatHosts_zero (hn : List String) : repeatHosts hn 0 = [] := by
  simp [repeatHosts]

theorem repeatHosts_succ (hn : List String) (n : Nat) :
    repeatHosts hn (n + 1) = hn ++ repeatHosts hn n := by
  simp [repeatHosts, List.replicate_succ]

theorem repeatHosts_add (hn : List String) (m n : Nat) :
    repeatHosts hn (m + n) = repeatHosts hn m ++ repeatHosts hn n := by
  induction m with
  | zero => simp [repeatHosts_zero]
  | succ k ih => rw [Nat.succ_add, repeatHosts_succ, repeatHosts_succ, ih, List.append_assoc]

theorem tlsCount_append (xs ys : List (RawModule HandlerVal)) :
    tlsCount (xs ++ ys) = tlsCount xs + tlsCount ys := by
  simp [tlsCount]

theorem afterHandlers_consHandler (hn : List String) (server : Server) (al : List String)
    (x : RawModule HandlerVal) (r : Option (Except Error (List (RawModule HandlerVal)))) :
    afterHandlers hn { server with Routes := server.Routes ++ [{ HandlersRaw := [x] }] }
      (al ++ repeatHosts hn (tlsCount [x])) r = afterHandlers hn server al (consHandler x r) := by
  rcases r with _ | e | xs
  · rfl
  · rfl
  · simp only [afterHandlers, consHandler, addRoutes_cons]
    have : tlsCount (x :: xs) = tlsCount [x] + tlsCount xs := by
      rw [← tlsCount_append]; rfl
    rw [this, repeatHosts_add, List.append_assoc]

theorem SetupDirectiveLoop_eq (env : Env) (hn : List String) (fuel : Nat) :
    ∀ (d : Dispenser) (server : Server) (al : List String),
    SetupDirectiveLoop env hn fuel d server al =
      afterHandlers hn server al (DirectiveHandlers env fuel d) := by
  induction fuel with
  | zero => intro d server al; rfl
  | succ n ih =>
    intro d server al
    unfold SetupDirectiveLoop DirectiveHandlers
    rcases hh : d.Next with ⟨b, d1⟩
    cases b
    · simp [afterHandlers, addRoutes_nil, tlsCount, repeatHosts_zero]
    · dsimp only
      split_ifs
      · rw [ih, ← afterHandlers_consHandler]
        simp [tlsCount, JSONModuleObject, repeatHosts_zero]
      · rcases parseTLS d1 with _ | e | ⟨h1, d2⟩
        · rfl
        · rfl
        · dsimp only
          rw [ih, ← afterHandlers_consHandler]
          simp [tlsCount, JSONModuleObject, repeatHosts_succ, repeatHosts_zero]
      · rcases parseProxy env d1 with _ | e | ⟨h1, d2⟩
        · rfl
        · rfl
        · dsimp only
          rw [ih, ← afterHandlers_consHandler]
          simp [tlsCount, JSONModuleObject, repeatHosts_zero]
      · rcases parseProxyProtocol env d1 with _ | e | ⟨h1, d2⟩
        · rfl
        · rfl
        · dsimp only
          rw [ih, ← afterHandlers_consHandler]
          simp [tlsCount, JSONModuleObject, repeatHosts_zero]
      · rw [ih]

theorem SetupSegmentsLoop_eq (env : Env) (hn : List String) (segments : List (List Token)) :
    ∀ (server : Server) (al : List String),
    SetupSegmentsLoop env hn segments server al =
      afterHandlers hn server al (segmentsHandlers env segments) := by
  induction segments with
  | nil => intro server al; simp [SetupSegmentsLoop, segmentsHandlers, afterHandlers, addRoutes_nil, tlsCount, repeatHosts_zero]
  | cons s rest ih =>
    intro server al
    unfold SetupSegmentsLoop segmentsHandlers
    dsimp only
    rw [SetupDirectiveLoop_eq]
    have e : DirectiveHandlers env (s.length + 2) (NewDispenser s) = segmentHandlers env s := rfl
    rw [e]
    rcases segmentHandlers env s with _ | e | hs
    · rfl
    · rfl
    · simp only [afterHandlers]
      rw [ih]
      rcases segmentsHandlers env rest with _ | e | hs1
      · rfl
      · rfl
      · simp only [afterHandlers, addRoutes_append, tlsCount_append, repeatHosts_add,
          List.append_assoc]

/-! ## Blocks -/

theorem SetupKeysLoop_eq (env : Env) (keys : List String) :
    ∀ (hn : List String) (server : Server),
    SetupKeysLoop env keys hn server =
      match keys.findSome? (keyError env) with
      | some e => .error e
      | none => .ok (hn ++ keyHosts env keys, { server with Listen := server.Listen ++ keys }) := by
  induction keys with
  | nil => intro hn server; simp [SetupKeysLoop, keyHosts]
  | cons k rest ih =>
    intro hn server
    unfold SetupKeysLoop
    cases hk : env.ParseAddress k with
    | error e => simp [List.findSome?, keyError, hk]
    | ok a =>
      dsimp only
      rw [ih]
      simp only [List.findSome?, keyError, hk, keyHosts, List.filterMap_cons, List.append_assoc,
        List.singleton_append]

theorem SetupBlock_eq (env : Env) (b : ServerBlock) (al : List String) :
    SetupBlock env b al =
      match b.Keys.findSome? (keyError env) with
      | some e => some (.error e)
      | none => afterHandlers (keyHosts env b.Keys) { Listen := b.Keys, Routes := [] } al
          (segmentsHandlers env b.Segments) := by
  unfold SetupBlock
  dsimp only
  rw [SetupKeysLoop_eq]
  cases b.Keys.findSome? (keyError env) with
  | some e => rfl
  | none =>
    dsimp only
    rw [SetupSegmentsLoop_eq]
    simp [newServer]

theorem SetupBlock_total (env : Env) (b : ServerBlock) (al : List String) :
    ∃ r, SetupBlock env b al = some r := by
  rw [SetupBlock_eq]
  cases b.Keys.findSome? (keyError env) with
  | some e => exact ⟨_, rfl⟩
  | none =>
    obtain ⟨r, e⟩ := segmentsHandlers_total env b.Segments
    dsimp only
    rw [e]
    rcases r with e | hs <;> exact ⟨_, rfl⟩

/-- The result of a block does not depend on the automation list it starts
from, other than as a prefix of the list it returns. -/
theorem SetupBlock_al (env : Env) (b : ServerBlock) (al : List String) :
    SetupBlock env b al =
      match SetupBlock env b [] with
      | none => none
      | some (.error e) => some (.error e)
      | some (.ok (server, hosts)) => some (.ok (server, al ++ hosts)) := by
  rw [SetupBlock_eq, SetupBlock_eq]
  cases b.Keys.findSome? (keyError env) with
  | some e => rfl
  | none =>
    dsimp only
    rcases segmentsHandlers env b.Segments with _ | e | hs
    · rfl
    · rfl
    · simp [afterHandlers]

theorem tlsRoutes_addRoutes (hs : List (RawModule HandlerVal)) (L : List String) :
    tlsRoutes (addRoutes { Listen := L, Routes := [] } hs) = tlsCount hs := by
  unfold tlsRoutes addRoutes tlsCount
  simp only [List.nil_append, List.filter_map, List.length_map]
  congr 1
  apply List.filter_congr
  intro x _
  simp

/-- The hosts a block adds to the automation list: its host names, once for
each `tls` route of the server compiled from it. -/
theorem SetupBlock_hosts (env : Env) (b : ServerBlock) (server : Server) (hosts : List String)
    (h : SetupBlock env b [] = some (.ok (server, hosts))) :
    hosts = repeatHosts (keyHosts env b.Keys) (tlsRoutes server) ∧
    b.Keys.findSome? (keyError env) = none ∧
    ∃ hs, segmentsHandlers env b.Segments = some (.ok hs) ∧
      server = addRoutes { Listen := b.Keys, Routes := [] } hs := by
  rw [SetupBlock_eq] at h
  cases hk : b.Keys.findSome? (keyError env) with
  | some e => rw [hk] at h; cases h
  | none =>
    rw [hk] at h
    dsimp only at h
    rcases hseg : segmentsHandlers env b.Segments with _ | e | hs
    · rw [hseg] at h; cases h
    · rw [hseg] at h; cases h
    · rw [hseg] at h
      simp only [afterHandlers, List.nil_append, Option.some.injEq, Except.ok.injEq,
        Prod.mk.injEq] at h
      obtain ⟨h1, h2⟩ := h
      subst h1
      refine ⟨?_, rfl, hs, rfl, rfl⟩
      rw [tlsRoutes_addRoutes]
      exact h2.symm

theorem segmentError_eq (env : Env) (seg : List Token) :
    segmentError env seg =
      match segmentHandlers env seg with
      | some (.error e) => some e
      | _ => none := by
  unfold segmentError
  rw [SetupDirectiveLoop_eq]
  have e : DirectiveHandlers env (seg.length + 2) (NewDispenser seg) = segmentHandlers env seg := rfl
  rw [e]
  rcases segmentHandlers env seg with _ | e | hs <;> rfl

theorem segmentsHandlers_error (env : Env) (segs : List (List Token)) :
    (segs.map (segmentError env)).findSome? id =
      match segmentsHandlers env segs with
      | some (.error e) => some e
      | _ => none := by
  induction segs with
  | nil => rfl
  | cons s rest ih =>
    obtain ⟨r, hr⟩ := segmentHandlers_total env s
    obtain ⟨r1, hr1⟩ := segmentsHandlers_total env rest
    simp only [List.map_cons, List.findSome?_cons, id_eq]
    rw [ih, segmentError_eq, hr1]
    simp only [segmentsHandlers, hr, hr1]
    rcases r with e | hs
    · rfl
    · rcases r1 with e | hs1 <;> rfl

theorem blockErrors_eq (env : Env) (b : ServerBlock) (al : List String) :
    (blockErrors env b).findSome? id =
      match SetupBlock env b al with
      | some (.error e) => some e
      | _ => none := by
  unfold blockErrors
  rw [List.findSome?_append, List.findSome?_map, segmentsHandlers_error, SetupBlock_eq]
  have : (id ∘ keyError env) = keyError env := rfl
  rw [this]
  cases b.Keys.findSome? (keyError env) with
  | some e => rfl
  | none =>
    rcases segmentsHandlers env b.Segments with _ | e | hs <;> rfl

theorem SetupBlocksLoop_total (env : Env) (blocks : List ServerBlock) :
    ∀ (i : Nat) (l4app : App) (al : List String),
    ∃ r, SetupBlocksLoop env blocks i l4app al = some r := by
  induction blocks with
  | nil => intro i l4app al; exact ⟨_, rfl⟩
  | cons b rest ih =>
    intro i l4app al
    obtain ⟨r, e⟩ := SetupBlock_total env b al
    unfold SetupBlocksLoop
    rw [e]
    rcases r with e | ⟨server, al1⟩
    · exact ⟨_, rfl⟩
    · exact ih _ _ _

theorem SetupBlocksLoop_error (env : Env) (blocks : List ServerBlock) :
    ∀ (i : Nat) (l4app : App) (al : List String),
    firstError env blocks =
      match SetupBlocksLoop env blocks i l4app al with
      | some (.error e) => some e
      | _ => none := by
  induction blocks with
  | nil => intro i l4app al; rfl
  | cons b rest ih =>
    intro i l4app al
    obtain ⟨r, e⟩ := SetupBlock_total env b al
    have hb := blockErrors_eq env b al
    unfold firstError at ih ⊢
    rw [List.flatMap_cons, List.findSome?_append, hb]
    unfold SetupBlocksLoop
    rw [e]
    rcases r with e | ⟨server, al1⟩
    · rfl
    · simp only [Option.none_or]
      exact ih _ _ _

theorem SetupBlocksLoop_al (env : Env) (blocks : List ServerBlock) :
    ∀ (i : Nat) (l4app l4app1 : App) (al al1 : List String),
    SetupBlocksLoop env blocks i l4app al = some (.ok (l4app1, al1)) →
    al1 = al ++ blocks.flatMap (fun b => repeatHosts (keyHosts env b.Keys) (tlsDirectives env b)) := by
  induction blocks with
  | nil =>
    intro i l4app l4app1 al al1 h
    simp only [SetupBlocksLoop, Option.some.injEq, Except.ok.injEq, Prod.mk.injEq] at h
    simp [h.2]
  | cons b rest ih =>
    intro i l4app l4app1 al al1 h
    unfold SetupBlocksLoop at h
    rw [SetupBlock_al] at h
    rcases hb : SetupBlock env b [] with _ | e | ⟨server, hosts⟩
    · rw [hb] at h; cases h
    · rw [hb] at h; cases h
    · rw [hb] at h
      dsimp only at h
      have := ih _ _ _ _ _ h
      rw [this, List.flatMap_cons, List.append_assoc]
      congr 2
      have hh := (SetupBlock_hosts env b server hosts hb).1
      rw [hh]
      unfold tlsDirectives compiledServer
      rw [hb]

/-! ## Segments without a directive keyword (C2) -/

theorem Token_mem (d : Dispenser) (h0 : 0 ≤ d.cursor) (h1 : d.cursor < d.tokens.length) :
    d.Token ∈ d.tokens := by
  unfold Dispenser.Token
  rw [if_neg (by omega)]
  rw [List.getD_eq_getElem?_getD]
  have hlt : d.cursor.toNat < d.tokens.length := by omega
  rw [List.getElem?_eq_getElem hlt]
  exact List.getElem_mem _

theorem DirectiveHandlers_noKeyword (env : Env) (fuel : Nat) : ∀ (d : Dispenser), d.Inv →
    (d.tokens.length : Int) - d.cursor < fuel → (∀ t ∈ d.tokens, notKeyword t.Text) →
    DirectiveHandlers env fuel d = some (.ok []) := by
  induction fuel with
  | zero => intro d h hf; exfalso; obtain ⟨_, h2⟩ := h; omega
  | succ n ih =>
    intro d hi hf hk
    have h0 := Next_adv d hi
    unfold DirectiveHandlers
    rcases hh : d.Next with ⟨b, d1⟩
    rw [hh] at h0
    dsimp only at h0
    cases b
    · rfl
    · obtain ⟨a, b1⟩ := h0
      obtain ⟨b1, b2⟩ := b1 rfl
      have i1 := Adv_inv hi a
      have t1 := congrArg List.length a.1
      have hd := hi.1
      have hm : d1.Token ∈ d.tokens := by
        rw [← a.1]; exact Token_mem d1 (by omega) (by omega)
      obtain ⟨k1, k2, k3, k4⟩ := hk _ hm
      have hv : d1.Val = d1.Token.Text := rfl
      rw [← hv] at k1 k2 k3 k4
      dsimp only
      rw [if_neg k1, if_neg k2, if_neg k3, if_neg k4]
      exact ih d1 i1 (by omega) (by rw [a.1]; exact hk)

theorem segmentHandlers_noKeyword (env : Env) (seg : List Token)
    (hk : ∀ t ∈ seg, notKeyword t.Text) : segmentHandlers env seg = some (.ok []) := by
  unfold segmentHandlers
  apply DirectiveHandlers_noKeyword
  · unfold NewDispenser Dispenser.Inv; dsimp only; omega
  · unfold NewDispenser; dsimp only; push_cast; omega
  · exact hk

theorem segmentsHandlers_skip (env : Env) (seg : List Token) (segs2 : List (List Token))
    (hk : ∀ t ∈ seg, notKeyword t.Text) : ∀ segs1 : List (List Token),
    segmentsHandlers env (segs1 ++ seg :: segs2) = segmentsHandlers env (segs1 ++ segs2) := by
  intro segs1
  induction segs1 with
  | nil =>
    simp only [List.nil_append]
    conv_lhs => unfold segmentsHandlers
    rw [segmentHandlers_noKeyword env seg hk]
    rcases segmentsHandlers env segs2 with _ | e | hs <;> simp
  | cons s rest ih =>
    simp only [List.cons_append]
    unfold segmentsHandlers
    rw [ih]

/-- C2 (as amended): a directive segment none of whose tokens is one of the
keywords `echo`, `tls`, `proxy`, `proxy_protocol` causes no error and adds no
route: the block compiles to the same result as the block without that
segment (the same server, the same automation list, the same error). -/
theorem Setup_skips_segment_without_keyword (env : Env) (keys : List String)
    (segs1 segs2 : List (List Token)) (seg : List Token) (al : List String)
    (hk : ∀ t ∈ seg, t.Text ≠ "echo" ∧ t.Text ≠ "tls" ∧ t.Text ≠ "proxy" ∧
      t.Text ≠ "proxy_protocol") :
    SetupBlock env { Keys := keys, Segments := segs1 ++ seg :: segs2 } al =
      SetupBlock env { Keys := keys, Segments := segs1 ++ segs2 } al := by
  rw [SetupBlock_eq, SetupBlock_eq]
  dsimp only
  rw [segmentsHandlers_skip env seg segs2 hk segs1]

theorem Setup_skips_segment_without_keyword_witness :
    (∀ t ∈ [tok 2 "foo", tok 2 "bar"], t.Text ≠ "echo" ∧ t.Text ≠ "tls" ∧ t.Text ≠ "proxy" ∧
      t.Text ≠ "proxy_protocol") ∧
    SetupBlock sampleEnv
        { Keys := ["a.example"],
          Segments := [tok 1 "echo"] :: [tok 2 "foo", tok 2 "bar"] :: [[tok 3 "tls"]] } [] =
      SetupBlock sampleEnv
        { Keys := ["a.example"], Segments := [tok 1 "echo"] :: [[tok 3 "tls"]] } [] :=
  ⟨by decide, Setup_skips_segment_without_keyword sampleEnv ["a.example"] [[tok 1 "echo"]]
    [[tok 3 "tls"]] [tok 2 "foo", tok 2 "bar"] [] (by decide)⟩

/-- C2 (counterexample): the segment `foo echo` starts with a token that is
none of the four keywords, yet the block it is in compiles to a server with one
route (tagged `echo`), while the block without the segment compiles to a
server without routes. -/
theorem Setup_dispatches_on_later_tokens :
    ((tok 1 "foo").Text ≠ "echo" ∧ (tok 1 "foo").Text ≠ "tls" ∧ (tok 1 "foo").Text ≠ "proxy" ∧
      (tok 1 "foo").Text ≠ "proxy_protocol") ∧
    SetupBlock sampleEnv { Keys := [], Segments := [[tok 1 "foo", tok 1 "echo"]] } [] =
      some (.ok ({ Listen := [], Routes := [{ HandlersRaw :=
        [{ val := HandlerVal.echo, fieldName := "handler", fieldVal := "echo" }] }] }, [])) ∧
    SetupBlock sampleEnv { Keys := [], Segments := [] } [] =
      some (.ok ({ Listen := [], Routes := [] }, [])) :=
  ⟨by decide, rfl, rfl⟩

/-! ## The output of `Setup` (C3, C4, C5) -/

theorem Setup_of_loop_error (env : Env) (blocks : List ServerBlock) (e : Error)
    (h : SetupBlocksLoop env blocks 0 { Servers := GoMap.make } [] = some (.error e)) :
    Setup env blocks = some { cfg := none, warnings := [], err := some e } := by
  unfold Setup
  dsimp only
  rw [h]

theorem Setup_of_loop_ok (env : Env) (blocks : List ServerBlock) (l4app : App) (al : List String)
    (h : SetupBlocksLoop env blocks 0 { Servers := GoMap.make } [] = some (.ok (l4app, al))) :
    ∃ cfg, Setup env blocks = some { cfg := some cfg, warnings := [], err := none } ∧
      (cfg.AppsRaw.get? "tls" ≠ none ↔ al ≠ []) ∧
      (al ≠ [] → cfg.AppsRaw.get? "tls" =
        some (AppRaw.tls { CertificatesRaw := { entries := [("automate", al)] } })) := by
  unfold Setup
  dsimp only
  rw [h]
  dsimp only
  refine ⟨_, rfl, ?_, ?_⟩
  · cases al with
    | nil => by_cases hl : 0 < l4app.Servers.len <;> simp [hl, GoMap.make, GoMap.set, GoMap.setEntries, GoMap.get?]
    | cons a as =>
      by_cases hl : 0 < l4app.Servers.len <;>
        simp [hl, GoMap.make, GoMap.set, GoMap.setEntries, GoMap.get?]
  · intro hne
    cases al with
    | nil => exact absurd rfl hne
    | cons a as =>
      by_cases hl : 0 < l4app.Servers.len <;>
        simp [hl, GoMap.make, GoMap.set, GoMap.setEntries, GoMap.get?]

theorem Setup_ok_inv (env : Env) (blocks : List ServerBlock) (r : SetupResult)
    (h : Setup env blocks = some r) (hok : r.err = none) :
    ∃ l4app al, SetupBlocksLoop env blocks 0 { Servers := GoMap.make } [] =
      some (.ok (l4app, al)) := by
  rcases hl : SetupBlocksLoop env blocks 0 { Servers := GoMap.make } [] with _ | e | ⟨l4app, al⟩
  · unfold Setup at h
    dsimp only at h
    rw [hl] at h
    cases h
  · rw [Setup_of_loop_error env blocks e hl] at h
    cases h
    cases hok
  · exact ⟨l4app, al, rfl⟩

/-- C3 (as amended): on every successful `Setup` the certificate-automation
list of the output is the concatenation, in block order, of the host components
of the address keys of each block, repeated once for every `tls` directive
compiled from that block: a block with `k` `tls` directives contributes its
host names `k` times, and a block without a `tls` directive contributes
nothing. -/
theorem Setup_automation_list (env : Env) (blocks : List ServerBlock) (r : SetupResult)
    (h : Setup env blocks = some r) (hok : r.err = none) :
    automationList r =
      blocks.flatMap (fun b => repeatHosts (keyHosts env b.Keys) (tlsDirectives env b)) := by
  obtain ⟨l4app, al, hl⟩ := Setup_ok_inv env blocks r h hok
  obtain ⟨cfg, h1, h2, h3⟩ := Setup_of_loop_ok env blocks l4app al hl
  rw [h1] at h
  cases h
  have hal := SetupBlocksLoop_al env blocks 0 _ _ _ _ hl
  rw [List.nil_append] at hal
  rw [← hal]
  unfold automationList
  dsimp only
  by_cases hne : al = []
  · have : cfg.AppsRaw.get? "tls" = none := by
      by_contra hc
      exact (h2.mp hc) hne
    rw [this, hne]
  · rw [h3 hne]
    simp [GoMap.get?]

theorem Setup_automation_list_witness :
    ∃ r, Setup sampleEnv secondTLSBlocks = some r ∧ r.err = none ∧
      automationList r = ["a.example", "b.example"] ∧
      automationList r = secondTLSBlocks.flatMap
        (fun b => repeatHosts (keyHosts sampleEnv b.Keys) (tlsDirectives sampleEnv b)) :=
  ⟨_, rfl, rfl, rfl, Setup_automation_list sampleEnv secondTLSBlocks _ rfl rfl⟩

/-- C3 (counterexample): a block with the address `a.example` and two `tls`
directives compiles, and the automation list holds the host name twice, not
once. -/
theorem Setup_automation_list_repeats :
    ∃ r, Setup sampleEnv twoTLSBlocks = some r ∧ r.err = none ∧
      automationList r = ["a.example", "a.example"] ∧ automationList r ≠ ["a.example"] :=
  ⟨_, rfl, rfl, rfl, by decide⟩

/-- C4: on every successful `Setup` the output holds the `tls`
(certificate-management) application if and only if the automation list the
blocks loop ends with is not empty; when present the application carries that
list under the key `automate`; and when no `tls` directive is compiled from
any block there is no such application. -/
theorem Setup_tls_app_iff_automation (env : Env) (blocks : List ServerBlock) (r : SetupResult)
    (h : Setup env blocks = some r) (hok : r.err = none) :
    ∃ cfg l4app al, r.cfg = some cfg ∧
      SetupBlocksLoop env blocks 0 { Servers := GoMap.make } [] = some (.ok (l4app, al)) ∧
      (cfg.AppsRaw.get? "tls" ≠ none ↔ al ≠ []) ∧
      (al ≠ [] → ∃ t, cfg.AppsRaw.get? "tls" = some (AppRaw.tls t) ∧
        t.CertificatesRaw.get? "automate" = some al ∧ t.CertificatesRaw.len = 1) ∧
      ((∀ b ∈ blocks, tlsDirectives env b = 0) → cfg.AppsRaw.get? "tls" = none) := by
  obtain ⟨l4app, al, hl⟩ := Setup_ok_inv env blocks r h hok
  obtain ⟨cfg, h1, h2, h3⟩ := Setup_of_loop_ok env blocks l4app al hl
  rw [h1] at h
  cases h
  refine ⟨cfg, l4app, al, rfl, hl, h2, ?_, ?_⟩
  · intro hne
    exact ⟨_, h3 hne, by simp [GoMap.get?], rfl⟩
  · intro hz
    have hal := SetupBlocksLoop_al env blocks 0 _ _ _ _ hl
    have : al = [] := by
      rw [hal, List.nil_append, List.flatMap_eq_nil_iff]
      intro b hb
      rw [hz b hb, repeatHosts_zero]
    by_contra hc
    exact (h2.mp hc) this

theorem Setup_tls_app_iff_automation_witness :
    ∃ r, Setup sampleEnv secondTLSBlocks = some r ∧ r.err = none ∧
      ∃ cfg l4app al, r.cfg = some cfg ∧
      SetupBlocksLoop sampleEnv secondTLSBlocks 0 { Servers := GoMap.make } [] =
        some (.ok (l4app, al)) ∧
      (cfg.AppsRaw.get? "tls" ≠ none ↔ al ≠ []) ∧
      (al ≠ [] → ∃ t, cfg.AppsRaw.get? "tls" = some (AppRaw.tls t) ∧
        t.CertificatesRaw.get? "automate" = some al ∧ t.CertificatesRaw.len = 1) ∧
      ((∀ b ∈ secondTLSBlocks, tlsDirectives sampleEnv b = 0) →
        cfg.AppsRaw.get? "tls" = none) :=
  ⟨_, rfl, rfl, Setup_tls_app_iff_automation sampleEnv secondTLSBlocks _ rfl rfl⟩

/-- C5: `Setup` returns on every input, and it returns either a configuration
with no error, or no configuration, no warnings and an error; the error it
returns is the first one in source order: block order, within a block the
address keys (whose parser error is handed on unchanged) before the segments,
and segment order. -/
theorem Setup_all_or_nothing (env : Env) (blocks : List ServerBlock) :
    ∃ r, Setup env blocks = some r ∧ r.err = firstError env blocks ∧
      ((∃ cfg, r.cfg = some cfg ∧ r.err = none) ∨
       (∃ e, r.cfg = none ∧ r.warnings = [] ∧ r.err = some e)) := by
  have he := SetupBlocksLoop_error env blocks 0 { Servers := GoMap.make } []
  obtain ⟨x, hx⟩ := SetupBlocksLoop_total env blocks 0 { Servers := GoMap.make } []
  rw [hx] at he
  rcases x with e | ⟨l4app, al⟩
  · refine ⟨_, Setup_of_loop_error env blocks e hx, ?_, Or.inr ⟨e, rfl, rfl, rfl⟩⟩
    rw [he]
  · obtain ⟨cfg, h1, _, _⟩ := Setup_of_loop_ok env blocks l4app al hx
    refine ⟨_, h1, ?_, Or.inl ⟨cfg, rfl, rfl⟩⟩
    rw [he]

/-! ## The cursor in a line and in a block -/

theorem Z_step (pre : List Token) (cur t : Token) (rest : List Token) (n : Int) :
    ({ tokens := pre ++ cur :: t :: rest, cursor := (pre.length : Int) + 1, nesting := n } :
      Dispenser) = Z (pre ++ [cur]) t rest n := by
  simp [Z]

theorem getD_at (pre : List Token) (cur : Token) (rest : List Token) (d : Token) :
    (pre ++ cur :: rest).getD pre.length d = cur := by
  induction pre with
  | nil => rfl
  | cons a as ih => simpa using ih

theorem getD_at_succ (pre : List Token) (cur t : Token) (rest : List Token) (d : Token) :
    (pre ++ cur :: t :: rest).getD (pre.length + 1) d = t := by
  induction pre with
  | nil => rfl
  | cons a as ih => simpa using ih

theorem Z_Token (pre : List Token) (cur : Token) (rest : List Token) (n : Int) :
    (Z pre cur rest n).Token = cur := by
  unfold Dispenser.Token Z
  dsimp only
  rw [if_neg (by simp)]
  simp only [Int.toNat_ofNat]
  exact getD_at pre cur rest _

theorem Z_Val (pre : List Token) (cur : Token) (rest : List Token) (n : Int) :
    (Z pre cur rest n).Val = cur.Text := by
  unfold Dispenser.Val; rw [Z_Token]

theorem Z_tokens (pre : List Token) (cur : Token) (rest : List Token) (n : Int) :
    (Z pre cur rest n).tokens = pre ++ cur :: rest := rfl

theorem Z_nesting (pre : List Token) (cur : Token) (rest : List Token) (n : Int) :
    (Z pre cur rest n).nesting = n := rfl

theorem Z_Next_cons (pre : List Token) (cur t : Token) (rest : List Token) (n : Int) :
    (Z pre cur (t :: rest) n).Next = (true, Z (pre ++ [cur]) t rest n) := by
  unfold Dispenser.Next
  rw [if_pos (by simp [Z]; omega)]
  simp [Z]

theorem Z_Next_nil (pre : List Token) (cur : Token) (n : Int) :
    (Z pre cur [] n).Next = (false, Z pre cur [] n) := by
  unfold Dispenser.Next
  rw [if_neg (by simp [Z])]

theorem NewDispenser_Next (t : Token) (rest : List Token) :
    (NewDispenser (t :: rest)).Next = (true, Z [] t rest 0) := by
  unfold Dispenser.Next NewDispenser
  dsimp only
  rw [if_pos (by simp; omega)]
  simp [Z]

theorem Z_nextOnSameLine_cons (pre : List Token) (cur t : Token) (rest : List Token) (n : Int) :
    (Z pre cur (t :: rest) n).nextOnSameLine =
      if isNextOnNewLine cur t = true then (false, Z pre cur (t :: rest) n)
      else (true, Z (pre ++ [cur]) t rest n) := by
  unfold Dispenser.nextOnSameLine
  rw [if_neg (by simp [Z]), if_neg (by simp [Z])]
  have h1 : (Z pre cur (t :: rest) n).tokens.getD (Z pre cur (t :: rest) n).cursor.toNat
      ⟨"", 0, ""⟩ = cur := by
    simp only [Z, Int.toNat_ofNat]
    exact getD_at pre cur (t :: rest) _
  have h2 : (Z pre cur (t :: rest) n).tokens.getD ((Z pre cur (t :: rest) n).cursor + 1).toNat
      ⟨"", 0, ""⟩ = t := by
    have : ((pre.length : Int) + 1).toNat = pre.length + 1 := by omega
    simp only [Z, this]
    exact getD_at_succ pre cur t rest _
  dsimp only
  rw [h1, h2]
  cases isNextOnNewLine cur t <;> simp [Z]

theorem Z_nextOnSameLine_nil (pre : List Token) (cur : Token) (n : Int) :
    (Z pre cur [] n).nextOnSameLine = (false, Z pre cur [] n) := by
  unfold Dispenser.nextOnSameLine
  rw [if_neg (by simp [Z]), if_pos (by simp [Z])]

theorem Z_NextArg_arg (pre : List Token) (cur t : Token) (rest : List Token) (n : Int)
    (h : argAfter cur t) :
    (Z pre cur (t :: rest) n).NextArg = (true, Z (pre ++ [cur]) t rest n) := by
  unfold Dispenser.NextArg
  rw [Z_nextOnSameLine_cons, h.1]
  simp only [Bool.false_eq_true, if_false]
  rw [Z_Val, if_neg h.2]

theorem Z_NextArg_end (pre : List Token) (cur : Token) (rest : List Token) (n : Int)
    (h : argsEnd cur rest) :
    (Z pre cur rest n).NextArg = (false, Z pre cur rest n) := by
  unfold Dispenser.NextArg
  cases rest with
  | nil => rw [Z_nextOnSameLine_nil]
  | cons t rest =>
    rw [Z_nextOnSameLine_cons]
    by_cases hl : isNextOnNewLine cur t = true
    · rw [if_pos hl]
    · rw [if_neg hl]
      have ht : t.Text = "\x7b" := by
        rcases h with h | h
        · exact absurd h hl
        · exact h
      dsimp only
      rw [Z_Val, if_pos ht]
      simp [Z]

theorem lineEnd_argsEnd {last : Token} {rest : List Token} (h : lineEnd last rest) :
    argsEnd last rest := by
  cases rest with
  | nil => trivial
  | cons t r => exact Or.inl h

theorem lastTok_nil (cur : Token) : lastTok cur [] = cur := rfl

theorem lastTok_cons (cur a : Token) (as : List Token) :
    lastTok cur (a :: as) = lastTok a as := rfl

theorem preAfter_nil (pre : List Token) (cur : Token) : preAfter pre cur [] = pre := rfl

theorem preAfter_cons (pre : List Token) (cur a : Token) (as : List Token) :
    preAfter pre cur (a :: as) = preAfter (pre ++ [cur]) a as := rfl

theorem preAfter_lastTok (pre : List Token) (cur : Token) (args : List Token) :
    preAfter pre cur args ++ [lastTok cur args] = pre ++ cur :: args := by
  induction args generalizing pre cur with
  | nil => simp [preAfter_nil, lastTok_nil]
  | cons a as ih => rw [preAfter_cons, lastTok_cons, ih]; simp

theorem Z_RemainingArgsLoop (rest : List Token) (n : Int) : ∀ (args pre : List Token)
    (cur : Token) (acc : List String) (fuel : Nat), List.Chain argAfter cur args →
    argsEnd (lastTok cur args) rest → args.length < fuel →
    Dispenser.RemainingArgsLoop fuel (Z pre cur (args ++ rest) n) acc =
      some (acc ++ args.map Token.Text, Z (preAfter pre cur args) (lastTok cur args) rest n) := by
  intro args
  induction args with
  | nil =>
    intro pre cur acc fuel _ he hf
    cases fuel with
    | zero => exact absurd hf (by simp)
    | succ f =>
      unfold Dispenser.RemainingArgsLoop
      have he1 : argsEnd cur rest := he
      rw [List.nil_append, Z_NextArg_end _ _ _ _ he1]
      simp [preAfter_nil, lastTok_nil]
  | cons a as ih =>
    intro pre cur acc fuel hc he hf
    cases fuel with
    | zero => exact absurd hf (by simp)
    | succ f =>
      rw [List.chain_cons] at hc
      unfold Dispenser.RemainingArgsLoop
      rw [List.cons_append, Z_NextArg_arg _ _ _ _ _ hc.1]
      dsimp only
      rw [lastTok_cons] at he
      rw [ih (pre ++ [cur]) a _ f hc.2 he (by simpa using hf), Z_Val, preAfter_cons, lastTok_cons]
      simp

theorem Z_RemainingArgs (rest : List Token) (n : Int) (args pre : List Token) (cur : Token)
    (hc : List.Chain argAfter cur args) (he : argsEnd (lastTok cur args) rest) :
    (Z pre cur (args ++ rest) n).RemainingArgs =
      some (args.map Token.Text, Z (preAfter pre cur args) (lastTok cur args) rest n) := by
  unfold Dispenser.RemainingArgs
  rw [Z_RemainingArgsLoop rest n args pre cur [] _ hc he (by simp [Z]; omega)]
  simp

theorem Z_NextSegmentArgsLoop (rest : List Token) (n : Int) : ∀ (args pre : List Token)
    (cur : Token) (acc : List Token) (fuel : Nat), List.Chain argAfter cur args →
    argsEnd (lastTok cur args) rest → args.length < fuel →
    Dispenser.NextSegmentArgsLoop fuel (Z pre cur (args ++ rest) n) acc =
      some (acc ++ args, Z (preAfter pre cur args) (lastTok cur args) rest n) := by
  intro args
  induction args with
  | nil =>
    intro pre cur acc fuel _ he hf
    cases fuel with
    | zero => exact absurd hf (by simp)
    | succ f =>
      unfold Dispenser.NextSegmentArgsLoop
      have he1 : argsEnd cur rest := he
      rw [List.nil_append, Z_NextArg_end _ _ _ _ he1]
      simp [preAfter_nil, lastTok_nil]
  | cons a as ih =>
    intro pre cur acc fuel hc he hf
    cases fuel with
    | zero => exact absurd hf (by simp)
    | succ f =>
      rw [List.chain_cons] at hc
      unfold Dispenser.NextSegmentArgsLoop
      rw [List.cons_append, Z_NextArg_arg _ _ _ _ _ hc.1]
      dsimp only
      rw [lastTok_cons] at he
      rw [ih (pre ++ [cur]) a _ f hc.2 he (by simpa using hf), Z_Token, preAfter_cons,
        lastTok_cons]
      simp

/-- At the end of a line no block opens. -/
theorem Z_NextBlock_lineEnd (pre : List Token) (cur : Token) (rest : List Token) (n : Int)
    (h : lineEnd cur rest) : (Z pre cur rest n).NextBlock n = (false, Z pre cur rest n) := by
  unfold Dispenser.NextBlock
  rw [if_neg (by simp [Z])]
  cases rest with
  | nil => rw [Z_nextOnSameLine_nil]
  | cons t r =>
    rw [Z_nextOnSameLine_cons, if_pos (show isNextOnNewLine cur t = true from h)]

theorem Z_NextSegment_line (rest : List Token) (n : Int) (args pre : List Token) (cur : Token)
    (hc : List.Chain argAfter cur args) (he : lineEnd (lastTok cur args) rest) :
    (Z pre cur (args ++ rest) n).NextSegment =
      some (cur :: args, Z (preAfter pre cur args) (lastTok cur args) rest n) := by
  unfold Dispenser.NextSegment
  rw [Z_NextSegmentArgsLoop rest n args pre cur _ _ hc (lineEnd_argsEnd he) (by simp [Z]; omega)]
  dsimp only
  rw [Z_Token]
  unfold Dispenser.NextSegmentBlockLoop
  have : (Z (preAfter pre cur args) (lastTok cur args) rest n).Nesting = n := rfl
  rw [this, Z_NextBlock_lineEnd _ _ _ _ he]
  simp

/-- Inside a block, a token that is not a brace is the next key. -/
theorem Z_NextBlock_inner (pre : List Token) (cur t : Token) (rest : List Token) (n : Int)
    (h1 : t.Text ≠ "\x7b") (h2 : t.Text ≠ "\x7d") :
    (Z pre cur (t :: rest) (n + 1)).NextBlock n = (true, Z (pre ++ [cur]) t rest (n + 1)) := by
  unfold Dispenser.NextBlock
  rw [if_pos (by simp [Z])]
  rw [Z_Next_cons]
  dsimp only
  unfold Dispenser.valNotOnSameLine
  rw [Z_Val, if_neg h2]
  dsimp only
  simp only [Bool.false_eq_true, if_false]
  rw [Z_Val, if_neg h1]
  simp [Z]

/-- Inside a block, the closing brace at the end of the tokens ends the block. -/
theorem Z_NextBlock_close (pre : List Token) (cur rb : Token) (n : Int)
    (h : rb.Text = "\x7d") :
    (Z pre cur [rb] (n + 1)).NextBlock n = (false, Z (pre ++ [cur]) rb [] n) := by
  unfold Dispenser.NextBlock
  rw [if_pos (by simp [Z])]
  rw [Z_Next_cons]
  dsimp only
  unfold Dispenser.valNotOnSameLine
  rw [Z_Val, if_pos h, Z_nextOnSameLine_nil]
  simp [Z]

/-- A block that opens on the line of the current token and is not empty. -/
theorem Z_NextBlock_open (pre : List Token) (cur lb t : Token) (rest : List Token) (n : Int)
    (h0 : isNextOnNewLine cur lb = false) (h1 : lb.Text = "\x7b") (h2 : t.Text ≠ "\x7d") :
    (Z pre cur (lb :: t :: rest) n).NextBlock n =
      (true, Z (pre ++ [cur, lb]) t rest (n + 1)) := by
  unfold Dispenser.NextBlock
  rw [if_neg (by simp [Z])]
  rw [Z_nextOnSameLine_cons, h0]
  simp only [Bool.false_eq_true, if_false]
  rw [Z_Val, if_neg (by simp [h1]), Z_Next_cons]
  dsimp only
  rw [Z_Val, if_neg h2]
  simp [Z]

/-- A block that opens on the line of the current token and closes at once. -/
theorem Z_NextBlock_empty (pre : List Token) (cur lb rb : Token) (rest : List Token) (n : Int)
    (h0 : isNextOnNewLine cur lb = false) (h1 : lb.Text = "\x7b") (h2 : rb.Text = "\x7d") :
    (Z pre cur (lb :: rb :: rest) n).NextBlock n =
      (false, Z (pre ++ [cur, lb]) rb rest n) := by
  unfold Dispenser.NextBlock
  rw [if_neg (by simp [Z])]
  rw [Z_nextOnSameLine_cons, h0]
  simp only [Bool.false_eq_true, if_false]
  rw [Z_Val, if_neg (by simp [h1]), Z_Next_cons]
  dsimp only
  rw [Z_Val, if_pos h2]
  simp [Z]

/-! ## Selection policies (C8, C9) -/

theorem Z_ArgErr (pre : List Token) (cur : Token) (rest : List Token) (n : Int) :
    (Z pre cur rest n).ArgErr = Error.ArgErr cur.File cur.Line cur.Text := by
  unfold Dispenser.ArgErr Dispenser.File Dispenser.Line Dispenser.Val
  rw [Z_Token]

theorem Z_Errf (pre : List Token) (cur : Token) (rest : List Token) (n : Int) (f : String)
    (args : List String) :
    (Z pre cur rest n).Errf f args = Error.Errf cur.File cur.Line f args := by
  unfold Dispenser.Errf Dispenser.File Dispenser.Line
  rw [Z_Token]

theorem Z_Err (pre : List Token) (cur : Token) (rest : List Token) (n : Int) (f : String) :
    (Z pre cur rest n).Err f = Error.Errf cur.File cur.Line f [] := by
  unfold Dispenser.Err Dispenser.File Dispenser.Line
  rw [Z_Token]

theorem UnmarshalNoArgsLoop_line (nm : Token) (args : List Token) (fuel : Nat)
    (hc : List.Chain argAfter nm args) :
    UnmarshalNoArgsLoop (fuel + 2) (NewDispenser (nm :: args)) =
      match args with
      | [] => some (.ok ())
      | a :: _ => some (.error (Error.ArgErr a.File a.Line a.Text)) := by
  unfold UnmarshalNoArgsLoop
  rw [NewDispenser_Next]
  dsimp only
  cases args with
  | nil =>
    rw [Z_NextArg_end _ _ _ _ (by trivial)]
    dsimp only
    unfold UnmarshalNoArgsLoop
    rw [Z_Next_nil]
  | cons a as =>
    rw [List.chain_cons] at hc
    rw [Z_NextArg_arg _ _ _ _ _ hc.1]
    dsimp only
    rw [Z_ArgErr]

theorem UnmarshalRandomChoiceLoop_line (env : Env) : ∀ (n : Nat) (args pre : List Token)
    (d : Dispenser) (nm : Token) (c : Int) (fuel : Nat), args.length ≤ n →
    d.Next = (true, Z pre nm args 0) → List.Chain argAfter nm args → args.length < fuel →
    UnmarshalRandomChoiceLoop env (fuel + 1) d c = some (randomChoiceLine env nm args) := by
  intro n
  induction n with
  | zero =>
    intro args pre d nm c fuel hn hd hc hf
    have : args = [] := List.length_eq_zero.mp (Nat.le_zero.mp hn)
    subst this
    unfold UnmarshalRandomChoiceLoop
    rw [hd]
    dsimp only
    rw [Z_NextArg_end _ _ _ _ (by trivial)]
    dsimp only
    rw [Z_ArgErr]
    rfl
  | succ m ih =>
    intro args pre d nm c fuel hn hd hc hf
    unfold UnmarshalRandomChoiceLoop
    rw [hd]
    dsimp only
    cases args with
    | nil =>
      rw [Z_NextArg_end _ _ _ _ (by trivial)]
      dsimp only
      rw [Z_ArgErr]
      rfl
    | cons a rest =>
      rw [List.chain_cons] at hc
      rw [Z_NextArg_arg _ _ _ _ _ hc.1]
      dsimp only
      rw [Z_Val]
      unfold randomChoiceLine
      cases env.Atoi a.Text with
      | error err => simp only [Z_Errf]
      | ok v =>
        dsimp only
        cases rest with
        | nil =>
          cases fuel with
          | zero => simp at hf
          | succ f =>
            unfold UnmarshalRandomChoiceLoop
            rw [Z_Next_nil]
        | cons b rest1 =>
          have hc2 := hc.2
          rw [List.chain_cons] at hc2
          cases fuel with
          | zero => simp at hf
          | succ f =>
            exact ih rest1 _ _ b v f (by simp at hn; omega) (Z_Next_cons _ _ _ _ _) hc2.2
              (by simp at hf; omega)

theorem UnmarshalRandomChoice_line (env : Env) (nm : Token) (args : List Token) (c : Int)
    (hc : List.Chain argAfter nm args) :
    UnmarshalL4ProxySelectionCaddyfile env (Module.RandomChoiceSelection c)
        (NewDispenser (nm :: args)) =
      some ((randomChoiceLine env nm args).map Module.RandomChoiceSelection) := by
  simp only [UnmarshalL4ProxySelectionCaddyfile]
  have h1 : (NewDispenser (nm :: args)).tokens.length + 2 = (args.length + 1 + 1) + 1 := by
    simp [NewDispenser]
  rw [h1, UnmarshalRandomChoiceLoop_line env args.length args [] _ nm c _ (le_refl _)
    (NewDispenser_Next nm args) hc (by omega)]
  cases randomChoiceLine env nm args <;> rfl

theorem UnmarshalNoArgs_line (env : Env) (inst : Module) (nm : Token) (args : List Token)
    (hi : inst = Module.RandomSelection ∨ inst = Module.LeastConnSelection ∨
      inst = Module.RoundRobinSelection ∨ inst = Module.FirstSelection ∨
      inst = Module.IPHashSelection)
    (hc : List.Chain argAfter nm args) :
    UnmarshalL4ProxySelectionCaddyfile env inst (NewDispenser (nm :: args)) =
      match args with
      | [] => some (.ok inst)
      | a :: _ => some (.error (Error.ArgErr a.File a.Line a.Text)) := by
  have h1 : (NewDispenser (nm :: args)).tokens.length + 2 = (args.length + 1) + 2 := by
    simp [NewDispenser]
  have h2 := UnmarshalNoArgsLoop_line nm args (args.length + 1) hc
  rcases hi with h | h | h | h | h <;> subst h <;>
    simp only [UnmarshalL4ProxySelectionCaddyfile] <;> rw [h1, h2] <;> cases args <;> rfl

/-- C8 (as amended): for the policy line `random_choice a1 ... ak` (all on one
line, no nested block) compiled into a `RandomChoiceSelection`: with `k = 0`
it fails with the argument-count error; when `a1` is not an integer it fails
with the parse error "invalid choice value"; with `k = 1` and `a1` an integer
it succeeds and `Choose` is that integer; with `k = 2` and `a1` an integer it
fails with the argument-count error; and with `k ≥ 2` and `a1` an integer the
result is that of the line `a2 a3 ... ak` read as a policy line of its own, so
the arguments are read in pairs. -/
theorem random_choice_arguments (env : Env) (c0 : Int) (nm : Token) (args : List Token)
    (hc : List.Chain argAfter nm args) :
    (args = [] →
      UnmarshalL4ProxySelectionCaddyfile env (Module.RandomChoiceSelection c0)
        (NewDispenser (nm :: args)) = some (.error (Error.ArgErr nm.File nm.Line nm.Text))) ∧
    (∀ a rest err, args = a :: rest → env.Atoi a.Text = .error err →
      UnmarshalL4ProxySelectionCaddyfile env (Module.RandomChoiceSelection c0)
        (NewDispenser (nm :: args)) =
      some (.error (Error.Errf a.File a.Line "invalid choice value '%s': %v" [a.Text, err]))) ∧
    (∀ a v, args = [a] → env.Atoi a.Text = .ok v →
      UnmarshalL4ProxySelectionCaddyfile env (Module.RandomChoiceSelection c0)
        (NewDispenser (nm :: args)) = some (.ok (Module.RandomChoiceSelection v))) ∧
    (∀ a b v, args = [a, b] → env.Atoi a.Text = .ok v →
      UnmarshalL4ProxySelectionCaddyfile env (Module.RandomChoiceSelection c0)
        (NewDispenser (nm :: args)) = some (.error (Error.ArgErr b.File b.Line b.Text))) ∧
    (∀ a b rest v, args = a :: b :: rest → env.Atoi a.Text = .ok v →
      UnmarshalL4ProxySelectionCaddyfile env (Module.RandomChoiceSelection c0)
        (NewDispenser (nm :: args)) =
      UnmarshalL4ProxySelectionCaddyfile env (Module.RandomChoiceSelection c0)
        (NewDispenser (b :: rest))) := by
  rw [UnmarshalRandomChoice_line env nm args c0 hc]
  refine ⟨?_, ?_, ?_, ?_, ?_⟩
  · intro h; subst h; rfl
  · intro a rest err h ha; subst h; simp [randomChoiceLine, ha, Except.map]
  · intro a v h ha; subst h; simp [randomChoiceLine, ha, Except.map]
  · intro a b v h ha; subst h; simp [randomChoiceLine, ha, Except.map]
  · intro a b rest v h ha
    subst h
    have hc1 := hc
    rw [List.chain_cons, List.chain_cons] at hc1
    rw [UnmarshalRandomChoice_line env b rest c0 hc1.2.2]
    simp [randomChoiceLine, ha]

theorem random_choice_arguments_witness :
    List.Chain argAfter (tok 2 "random_choice") [tok 2 "3"] ∧
    UnmarshalL4ProxySelectionCaddyfile sampleEnv (Module.RandomChoiceSelection 0)
      (NewDispenser [tok 2 "random_choice", tok 2 "3"]) =
      some (.ok (Module.RandomChoiceSelection 3)) :=
  ⟨List.Chain.cons ⟨rfl, by decide⟩ List.Chain.nil,
   (random_choice_arguments sampleEnv 0 (tok 2 "random_choice") [tok 2 "3"]
      (List.Chain.cons ⟨rfl, by decide⟩ List.Chain.nil)).2.2.1 (tok 2 "3") 3 rfl rfl⟩

/-- C8 (counterexample): the policy line `random_choice 1 2 3` has three
arguments and yet compiles, with `Choose = 3`. -/
theorem random_choice_three_arguments :
    UnmarshalL4ProxySelectionCaddyfile sampleEnv (Module.RandomChoiceSelection 0)
      (NewDispenser [tok 2 "random_choice", tok 2 "1", tok 2 "2", tok 2 "3"]) =
      some (.ok (Module.RandomChoiceSelection 3)) := rfl

/-- C9: for each of the Random, LeastConn, RoundRobin, First and IPHash
selection policies and every policy line made of the policy name and `k`
arguments on its line (no nested block), the policy compiles if and only if
`k = 0`, and with `k ≥ 1` it fails with the argument-count error (raised at the
first argument). -/
theorem argless_policy_arguments (env : Env) (inst : Module) (nm : Token) (args : List Token)
    (hi : inst = Module.RandomSelection ∨ inst = Module.LeastConnSelection ∨
      inst = Module.RoundRobinSelection ∨ inst = Module.FirstSelection ∨
      inst = Module.IPHashSelection)
    (hc : List.Chain argAfter nm args) :
    ((∃ m, UnmarshalL4ProxySelectionCaddyfile env inst (NewDispenser (nm :: args)) =
        some (.ok m)) ↔ args.length = 0) ∧
    (args.length = 0 →
      UnmarshalL4ProxySelectionCaddyfile env inst (NewDispenser (nm :: args)) =
        some (.ok inst)) ∧
    (∀ a rest, args = a :: rest →
      UnmarshalL4ProxySelectionCaddyfile env inst (NewDispenser (nm :: args)) =
        some (.error (Error.ArgErr a.File a.Line a.Text))) := by
  rw [UnmarshalNoArgs_line env inst nm args hi hc]
  cases args with
  | nil => simp
  | cons a rest => simp

theorem argless_policy_arguments_witness :
    (Module.RoundRobinSelection = Module.RandomSelection ∨
      Module.RoundRobinSelection = Module.LeastConnSelection ∨
      Module.RoundRobinSelection = Module.RoundRobinSelection ∨
      Module.RoundRobinSelection = Module.FirstSelection ∨
      Module.RoundRobinSelection = Module.IPHashSelection) ∧
    List.Chain argAfter (tok 2 "round_robin") [tok 2 "1"] ∧
    UnmarshalL4ProxySelectionCaddyfile sampleEnv Module.RoundRobinSelection
      (NewDispenser [tok 2 "round_robin", tok 2 "1"]) =
      some (.error (Error.ArgErr "Caddyfile" 2 "1")) :=
  ⟨Or.inr (Or.inr (Or.inl rfl)), List.Chain.cons ⟨rfl, by decide⟩ List.Chain.nil,
   (argless_policy_arguments sampleEnv Module.RoundRobinSelection (tok 2 "round_robin")
      [tok 2 "1"] (Or.inr (Or.inr (Or.inl rfl)))
      (List.Chain.cons ⟨rfl, by decide⟩ List.Chain.nil)).2.2 (tok 2 "1") [] rfl⟩

/-! ## Keys of a `proxy` block (C10) -/

theorem parseProxyKey_health_port (env : Env) (d : Dispenser) (h h1 : ProxyHandler)
    (d1 : Dispenser) (hv : d.Val = "health_port")
    (hr : parseProxyKey env d h = some (.ok (h1, d1))) :
    ∃ v, env.Atoi d1.Val = .ok v ∧
      h1 = { h with HealthChecks := some { hcOrNew h with
        Active := some { activeOrNew h with Port := v } } } := by
  unfold parseProxyKey at hr
  rw [hv] at hr
  simp only [show ¬ ("health_port" = "to") by decide,
    show ¬ ("health_port" = "lb_policy") by decide,
    show ¬ ("health_port" = "lb_try_duration") by decide,
    show ¬ ("health_port" = "lb_try_interval") by decide,
    if_false, if_true] at hr
  rcases hn : d.NextArg with ⟨b, d2⟩
  rw [hn] at hr
  cases b
  · simp at hr
  · dsimp only at hr
    cases ha : env.Atoi d2.Val with
    | error e => rw [ha] at hr; simp at hr
    | ok v =>
      rw [ha] at hr
      simp only [Option.some.injEq, Except.ok.injEq, Prod.mk.injEq] at hr
      obtain ⟨e1, e2⟩ := hr
      subst e2
      exact ⟨v, ha, e1.symm⟩

theorem parseProxyKey_health_interval (env : Env) (d : Dispenser) (h h1 : ProxyHandler)
    (d1 : Dispenser) (hv : d.Val = "health_interval")
    (hr : parseProxyKey env d h = some (.ok (h1, d1))) :
    ∃ v, env.ParseDuration d1.Val = .ok v ∧
      h1 = { h with HealthChecks := some { hcOrNew h with
        Active := some { activeOrNew h with Interval := v } } } := by
  unfold parseProxyKey at hr
  rw [hv] at hr
  simp only [show ¬ ("health_interval" = "to") by decide,
    show ¬ ("health_interval" = "lb_policy") by decide,
    show ¬ ("health_interval" = "lb_try_duration") by decide,
    show ¬ ("health_interval" = "lb_try_interval") by decide,
    show ¬ ("health_interval" = "health_port") by decide,
    if_false, if_true] at hr
  rcases hn : d.NextArg with ⟨b, d2⟩
  rw [hn] at hr
  cases b
  · simp at hr
  · dsimp only at hr
    cases ha : env.ParseDuration d2.Val with
    | error e => rw [ha] at hr; simp at hr
    | ok v =>
      rw [ha] at hr
      simp only [Option.some.injEq, Except.ok.injEq, Prod.mk.injEq] at hr
      obtain ⟨e1, e2⟩ := hr
      subst e2
      exact ⟨v, ha, e1.symm⟩

theorem parseProxyKey_health_timeout (env : Env) (d : Dispenser) (h h1 : ProxyHandler)
    (d1 : Dispenser) (hv : d.Val = "health_timeout")
    (hr : parseProxyKey env d h = some (.ok (h1, d1))) :
    ∃ v, env.ParseDuration d1.Val = .ok v ∧
      h1 = { h with HealthChecks := some { hcOrNew h with
        Active := some { activeOrNew h with Timeout := v } } } := by
  unfold parseProxyKey at hr
  rw [hv] at hr
  simp only [show ¬ ("health_timeout" = "to") by decide,
    show ¬ ("health_timeout" = "lb_policy") by decide,
    show ¬ ("health_timeout" = "lb_try_duration") by decide,
    show ¬ ("health_timeout" = "lb_try_interval") by decide,
    show ¬ ("health_timeout" = "health_port") by decide,
    show ¬ ("health_timeout" = "health_interval") by decide,
    if_false, if_true] at hr
  rcases hn : d.NextArg with ⟨b, d2⟩
  rw [hn] at hr
  cases b
  · simp at hr
  · dsimp only at hr
    cases ha : env.ParseDuration d2.Val with
    | error e => rw [ha] at hr; simp at hr
    | ok v =>
      rw [ha] at hr
      simp only [Option.some.injEq, Except.ok.injEq, Prod.mk.injEq] at hr
      obtain ⟨e1, e2⟩ := hr
      subst e2
      exact ⟨v, ha, e1.symm⟩

theorem parseProxyKey_lb_try_duration (env : Env) (d : Dispenser) (h h1 : ProxyHandler)
    (d1 : Dispenser) (hv : d.Val = "lb_try_duration")
    (hr : parseProxyKey env d h = some (.ok (h1, d1))) :
    ∃ v, env.ParseDuration d1.Val = .ok v ∧
      h1 = { h with LoadBalancing := some { lbOrNew h with TryDuration := v } } := by
  unfold parseProxyKey at hr
  rw [hv] at hr
  simp only [show ¬ ("lb_try_duration" = "to") by decide,
    show ¬ ("lb_try_duration" = "lb_policy") by decide,
    if_false, if_true] at hr
  rcases hn : d.NextArg with ⟨b, d2⟩
  rw [hn] at hr
  cases b
  · simp at hr
  · dsimp only at hr
    cases ha : env.ParseDuration d2.Val with
    | error e => rw [ha] at hr; simp at hr
    | ok v =>
      rw [ha] at hr
      simp only [Option.some.injEq, Except.ok.injEq, Prod.mk.injEq] at hr
      obtain ⟨e1, e2⟩ := hr
      subst e2
      exact ⟨v, ha, e1.symm⟩

theorem parseProxyKey_lb_try_interval (env : Env) (d : Dispenser) (h h1 : ProxyHandler)
    (d1 : Dispenser) (hv : d.Val = "lb_try_interval")
    (hr : parseProxyKey env d h = some (.ok (h1, d1))) :
    ∃ v, env.ParseDuration d1.Val = .ok v ∧
      h1 = { h with LoadBalancing := some { lbOrNew h with TryInterval := v } } := by
  unfold parseProxyKey at hr
  rw [hv] at hr
  simp only [show ¬ ("lb_try_interval" = "to") by decide,
    show ¬ ("lb_try_interval" = "lb_policy") by decide,
    show ¬ ("lb_try_interval" = "lb_try_duration") by decide,
    if_false, if_true] at hr
  rcases hn : d.NextArg with ⟨b, d2⟩
  rw [hn] at hr
  cases b
  · simp at hr
  · dsimp only at hr
    cases ha : env.ParseDuration d2.Val with
    | error e => rw [ha] at hr; simp at hr
    | ok v =>
      rw [ha] at hr
      simp only [Option.some.injEq, Except.ok.injEq, Prod.mk.injEq] at hr
      obtain ⟨e1, e2⟩ := hr
      subst e2
      exact ⟨v, ha, e1.symm⟩

theorem activeOrNew_set (h : ProxyHandler) (a : ActiveHealthChecks) (hc : HealthChecks) :
    activeOrNew { h with HealthChecks := some { hc with Active := some a } } = a := rfl

theorem lbOrNew_set (h : ProxyHandler) (lb : LoadBalancing) :
    lbOrNew { h with LoadBalancing := some lb } = lb := rfl

/-- C10: when one of the keys `health_port`, `health_interval`,
`health_timeout`, `lb_try_duration`, `lb_try_interval` is processed in the
block of a `proxy` directive, the handler changes in the field of that key
only, which becomes the parsed argument: the upstreams, the proxy-protocol
string, the other container (load balancing for a health key, health checks
for a load-balancing key) and the other fields of the key's own container (read
as zero while the container is absent) stay as they were. In particular the
blocks `health_port 9000`, `health_interval 10s` and `health_interval 10s`,
`health_port 9000` both compile to a handler with one health-checks object
with port 9000 and interval 10s. -/
theorem lazy_construction_keeps_fields (env : Env) (d : Dispenser) (h h1 : ProxyHandler)
    (d1 : Dispenser) (hr : parseProxyKey env d h = some (.ok (h1, d1))) :
    (d.Val = "health_port" →
      env.Atoi d1.Val = .ok (activeOrNew h1).Port ∧
      (activeOrNew h1).Interval = (activeOrNew h).Interval ∧
      (activeOrNew h1).Timeout = (activeOrNew h).Timeout ∧
      h1.LoadBalancing = h.LoadBalancing ∧ h1.Upstreams = h.Upstreams ∧
      h1.ProxyProtocol = h.ProxyProtocol) ∧
    (d.Val = "health_interval" →
      env.ParseDuration d1.Val = .ok (activeOrNew h1).Interval ∧
      (activeOrNew h1).Port = (activeOrNew h).Port ∧
      (activeOrNew h1).Timeout = (activeOrNew h).Timeout ∧
      h1.LoadBalancing = h.LoadBalancing ∧ h1.Upstreams = h.Upstreams ∧
      h1.ProxyProtocol = h.ProxyProtocol) ∧
    (d.Val = "health_timeout" →
      env.ParseDuration d1.Val = .ok (activeOrNew h1).Timeout ∧
      (activeOrNew h1).Port = (activeOrNew h).Port ∧
      (activeOrNew h1).Interval = (activeOrNew h).Interval ∧
      h1.LoadBalancing = h.LoadBalancing ∧ h1.Upstreams = h.Upstreams ∧
      h1.ProxyProtocol = h.ProxyProtocol) ∧
    (d.Val = "lb_try_duration" →
      env.ParseDuration d1.Val = .ok (lbOrNew h1).TryDuration ∧
      (lbOrNew h1).TryInterval = (lbOrNew h).TryInterval ∧
      (lbOrNew h1).SelectionPolicyRaw = (lbOrNew h).SelectionPolicyRaw ∧
      h1.HealthChecks = h.HealthChecks ∧ h1.Upstreams = h.Upstreams ∧
      h1.ProxyProtocol = h.ProxyProtocol) ∧
    (d.Val = "lb_try_interval" →
      env.ParseDuration d1.Val = .ok (lbOrNew h1).TryInterval ∧
      (lbOrNew h1).TryDuration = (lbOrNew h).TryDuration ∧
      (lbOrNew h1).SelectionPolicyRaw = (lbOrNew h).SelectionPolicyRaw ∧
      h1.HealthChecks = h.HealthChecks ∧ h1.Upstreams = h.Upstreams ∧
      h1.ProxyProtocol = h.ProxyProtocol) ∧
    SetupBlock sampleEnv { Keys := [], Segments := [healthPortFirst] } [] =
      some (.ok ({ Listen := [], Routes := [healthRoute] }, [])) ∧
    SetupBlock sampleEnv { Keys := [], Segments := [healthIntervalFirst] } [] =
      some (.ok ({ Listen := [], Routes := [healthRoute] }, [])) := by
  refine ⟨?_, ?_, ?_, ?_, ?_, rfl, rfl⟩
  · intro hv
    obtain ⟨v, e1, e2⟩ := parseProxyKey_health_port env d h h1 d1 hv hr
    subst e2
    exact ⟨e1, rfl, rfl, rfl, rfl, rfl⟩
  · intro hv
    obtain ⟨v, e1, e2⟩ := parseProxyKey_health_interval env d h h1 d1 hv hr
    subst e2
    exact ⟨e1, rfl, rfl, rfl, rfl, rfl⟩
  · intro hv
    obtain ⟨v, e1, e2⟩ := parseProxyKey_health_timeout env d h h1 d1 hv hr
    subst e2
    exact ⟨e1, rfl, rfl, rfl, rfl, rfl⟩
  · intro hv
    obtain ⟨v, e1, e2⟩ := parseProxyKey_lb_try_duration env d h h1 d1 hv hr
    subst e2
    exact ⟨e1, rfl, rfl, rfl, rfl, rfl⟩
  · intro hv
    obtain ⟨v, e1, e2⟩ := parseProxyKey_lb_try_interval env d h h1 d1 hv hr
    subst e2
    exact ⟨e1, rfl, rfl, rfl, rfl, rfl⟩

theorem lazy_construction_keeps_fields_witness :
    ∃ h1 d1, parseProxyKey sampleEnv atHealthInterval handlerWithPort = some (.ok (h1, d1)) ∧
      atHealthInterval.Val = "health_interval" ∧
      sampleEnv.ParseDuration d1.Val = .ok (activeOrNew h1).Interval ∧
      (activeOrNew h1).Interval = 10000000000 ∧
      (activeOrNew h1).Port = (activeOrNew handlerWithPort).Port ∧
      (activeOrNew handlerWithPort).Port = 9000 :=
  ⟨_, _, rfl, rfl,
   ((lazy_construction_keeps_fields sampleEnv atHealthInterval handlerWithPort _ _ rfl).2.1
      rfl).1, rfl,
   ((lazy_construction_keeps_fields sampleEnv atHealthInterval handlerWithPort _ _ rfl).2.1
      rfl).2.1, rfl⟩

/-! ## The lines of a block -/

theorem walkWords_nil {H : Type} (step : H → Token → List Token → Except Error (H × Nat))
    (h : H) : walkWords step h [] = .ok h := by
  rw [walkWords]

theorem walkWords_cons {H : Type} (step : H → Token → List Token → Except Error (H × Nat))
    (h : H) (k : Token) (rest : List Token) :
    walkWords step h (k :: rest) =
      match step h k rest with
      | .error e => .error e
      | .ok (h1, c) => walkWords step h1 (rest.drop c) := by
  rw [walkWords]

theorem wordsOK_cons {k : Token} {rest : List Token} (h : wordsOK (k :: rest)) :
    notBrace k ∧ List.Chain argAfter k rest ∧ wordsOK rest := by
  induction rest generalizing k with
  | nil => exact ⟨h, List.Chain.nil, trivial⟩
  | cons a as ih =>
    obtain ⟨h1, h2, h3⟩ := h
    obtain ⟨i1, i2, i3⟩ := ih h3
    exact ⟨h1, List.Chain.cons ⟨h2, i1.1⟩ i2, h3⟩

theorem wordsOK_drop {ws : List Token} (h : wordsOK ws) : ∀ c, wordsOK (ws.drop c) := by
  intro c
  induction c generalizing ws with
  | zero => simpa using h
  | succ m ih =>
    cases ws with
    | nil => simpa using h
    | cons k rest => simpa using ih (wordsOK_cons h).2.2

theorem endsLine_tail {k : Token} {rest : List Token} {next : Token}
    (h : endsLine (k :: rest) next) : endsLine rest next := by
  cases rest with
  | nil => trivial
  | cons a as => exact h

theorem endsLine_drop {ws : List Token} {next : Token} (h : endsLine ws next) :
    ∀ c, endsLine (ws.drop c) next := by
  intro c
  induction c generalizing ws with
  | zero => simpa using h
  | succ m ih =>
    cases ws with
    | nil => simpa using h
    | cons k rest => simpa using ih (endsLine_tail h)

theorem endsLine_lastTok {k : Token} {rest : List Token} {next : Token}
    (h : endsLine (k :: rest) next) : isNextOnNewLine (lastTok k rest) next = true := by
  induction rest generalizing k with
  | nil => exact h
  | cons a as ih => exact ih h

theorem firstTok_head (lines : List (List Token)) (rb : Token) :
    ∃ tl, lines.flatten ++ [rb] = firstTok lines rb :: tl := by
  induction lines with
  | nil => exact ⟨[], rfl⟩
  | cons l ls ih =>
    cases l with
    | nil => simpa [firstTok] using ih
    | cons t r => exact ⟨r ++ ls.flatten ++ [rb], by simp [firstTok]⟩

theorem endsLine_lineEnd {k : Token} {rest : List Token} {lines : List (List Token)}
    {rb : Token} (h : endsLine (k :: rest) (firstTok lines rb)) :
    lineEnd (lastTok k rest) (lines.flatten ++ [rb]) := by
  obtain ⟨tl, e⟩ := firstTok_head lines rb
  rw [e]
  exact endsLine_lastTok h

theorem Z_after_key (pre : List Token) (k : Token) (rest X : List Token) (c : Nat) :
    preAfter pre k (rest.take c) ++ lastTok k (rest.take c) :: (rest.drop c ++ X) =
      pre ++ k :: (rest ++ X) := by
  have h := preAfter_lastTok pre k (rest.take c)
  calc preAfter pre k (rest.take c) ++ lastTok k (rest.take c) :: (rest.drop c ++ X)
      = (preAfter pre k (rest.take c) ++ [lastTok k (rest.take c)]) ++ (rest.drop c ++ X) := by
        simp
    _ = (pre ++ k :: rest.take c) ++ (rest.drop c ++ X) := by rw [h]
    _ = pre ++ k :: (rest ++ X) := by
        rw [List.append_assoc, List.cons_append, ← List.append_assoc, List.take_append_drop]

theorem blockLoop_words {H : Type}
    (keyFn : Dispenser → H → Option (Except Error (H × Dispenser)))
    (step : H → Token → List Token → Except Error (H × Nat)) (n : Int)
    (hk : KeySpec keyFn step (n + 1)) (lines : List (List Token)) (rb : Token)
    (base : ∀ (pre : List Token) (cur : Token) (h : H) (fuel : Nat),
      lines.flatten.length < fuel →
      blockLoop keyFn n fuel (Z pre cur (lines.flatten ++ [rb]) (n + 1)) h =
        some (blockResult (pre ++ cur :: lines.flatten) rb n (walkLines step h lines))) :
    ∀ (m : Nat) (ws pre : List Token) (cur : Token) (h : H) (fuel : Nat), ws.length ≤ m →
      wordsOK ws → endsLine ws (firstTok lines rb) → (ws ++ lines.flatten).length < fuel →
      blockLoop keyFn n fuel (Z pre cur (ws ++ (lines.flatten ++ [rb])) (n + 1)) h =
        some (blockResult (pre ++ cur :: (ws ++ lines.flatten)) rb n
          (walkBlock step h ws lines)) := by
  intro m
  induction m with
  | zero =>
    intro ws pre cur h fuel hm _ _ hf
    have : ws = [] := List.length_eq_zero.mp (Nat.le_zero.mp hm)
    subst this
    simp only [List.nil_append] at hf ⊢
    rw [base pre cur h fuel hf]
    simp [walkBlock, walkWords_nil]
  | succ m ih =>
    intro ws pre cur h fuel hm hw he hf
    cases ws with
    | nil =>
      simp only [List.nil_append] at hf ⊢
      rw [base pre cur h fuel hf]
      simp [walkBlock, walkWords_nil]
    | cons k rest =>
      obtain ⟨nb, hc, hw1⟩ := wordsOK_cons hw
      cases fuel with
      | zero => simp at hf
      | succ f =>
        unfold blockLoop
        rw [List.cons_append, Z_NextBlock_inner _ _ _ _ _ nb.1 nb.2]
        dsimp only
        rw [hk (pre ++ [cur]) k rest (lines.flatten ++ [rb]) h nb hc (endsLine_lineEnd he)]
        simp only [walkBlock, walkWords_cons]
        rcases step h k rest with e | ⟨h1, c⟩
        · rfl
        · simp only [keyResult]
          rw [ih (rest.drop c) _ _ h1 f (by simp at hm ⊢; omega) (wordsOK_drop hw1 c)
            (endsLine_drop (endsLine_tail he) c) (by simp at hf ⊢; omega)]
          simp only [walkBlock]
          rw [Z_after_key]
          simp

theorem blockLoop_lines {H : Type}
    (keyFn : Dispenser → H → Option (Except Error (H × Dispenser)))
    (step : H → Token → List Token → Except Error (H × Nat)) (n : Int)
    (hk : KeySpec keyFn step (n + 1)) (rb : Token) :
    ∀ (lines : List (List Token)), linesOK lines rb →
      ∀ (pre : List Token) (cur : Token) (h : H) (fuel : Nat), lines.flatten.length < fuel →
      blockLoop keyFn n fuel (Z pre cur (lines.flatten ++ [rb]) (n + 1)) h =
        some (blockResult (pre ++ cur :: lines.flatten) rb n (walkLines step h lines)) := by
  intro lines
  induction lines with
  | nil =>
    intro hl pre cur h fuel hf
    cases fuel with
    | zero => simp at hf
    | succ f =>
      unfold blockLoop
      simp only [List.flatten_nil, List.nil_append]
      rw [Z_NextBlock_close _ _ _ _ hl]
      simp [blockResult, walkLines]
  | cons l ls ih =>
    intro hl pre cur h fuel hf
    obtain ⟨_, hw, he, hls⟩ := hl
    have := blockLoop_words keyFn step n hk ls rb (ih hls) l.length l pre cur h fuel (le_refl _)
      hw he (by simpa using hf)
    simp only [List.flatten_cons, List.append_assoc]
    rw [this]
    simp [walkBlock, walkLines]

/-- The loop body on a key and the loop after it. -/
theorem blockBody_lines {H : Type}
    (keyFn : Dispenser → H → Option (Except Error (H × Dispenser)))
    (step : H → Token → List Token → Except Error (H × Nat)) (n : Int)
    (hk : KeySpec keyFn step (n + 1)) (rb : Token) (lines : List (List Token))
    (k : Token) (rest pre : List Token) (h : H) (fuel : Nat)
    (hl : Lay (k :: rest) lines rb) (hf : (rest ++ lines.flatten).length < fuel) :
    (match keyFn (Z pre k (rest ++ (lines.flatten ++ [rb])) (n + 1)) h with
      | none => none
      | some (.error e) => some (.error e)
      | some (.ok (h1, d2)) => blockLoop keyFn n fuel d2 h1) =
      some (blockResult (pre ++ k :: (rest ++ lines.flatten)) rb n
        (walkBlock step h (k :: rest) lines)) := by
  obtain ⟨hw, he, hls⟩ := hl
  obtain ⟨nb, hc, hw1⟩ := wordsOK_cons hw
  rw [hk pre k rest (lines.flatten ++ [rb]) h nb hc (endsLine_lineEnd he)]
  simp only [walkBlock, walkWords_cons]
  rcases step h k rest with e | ⟨h1, c⟩
  · rfl
  · simp only [keyResult]
    rw [blockLoop_words keyFn step n hk lines rb (blockLoop_lines keyFn step n hk rb lines hls)
      (rest.drop c).length (rest.drop c) _ _ h1 fuel (le_refl _) (wordsOK_drop hw1 c)
      (endsLine_drop (endsLine_tail he) c) (by simp at hf ⊢; omega)]
    simp only [walkBlock]
    rw [Z_after_key]

/-! ## The block of a directive -/

theorem preAfter_snoc (pre : List Token) (cur : Token) (X : List Token) (rb : Token) :
    preAfter pre cur (X ++ [rb]) = pre ++ cur :: X := by
  induction X generalizing pre cur with
  | nil => rfl
  | cons a as ih => simp only [List.cons_append, preAfter_cons, ih]; simp

theorem lastTok_snoc (cur : Token) (X : List Token) (rb : Token) :
    lastTok cur (X ++ [rb]) = rb := by
  induction X generalizing cur with
  | nil => rfl
  | cons a as ih => simp only [List.cons_append, lastTok_cons, ih]

theorem preAfter_append (pre : List Token) (cur : Token) (X Y : List Token) :
    preAfter (preAfter pre cur X) (lastTok cur X) Y = preAfter pre cur (X ++ Y) := by
  induction X generalizing pre cur with
  | nil => rfl
  | cons a as ih => simp only [List.cons_append, preAfter_cons, lastTok_cons, ih]

theorem lastTok_append (cur : Token) (X Y : List Token) :
    lastTok (lastTok cur X) Y = lastTok cur (X ++ Y) := by
  induction X generalizing cur with
  | nil => rfl
  | cons a as ih => simp only [List.cons_append, lastTok_cons, ih]

/-- The block loop over the block of a directive, from the last token of the
directive line. -/
theorem blockLoop_block {H : Type}
    (keyFn : Dispenser → H → Option (Except Error (H × Dispenser)))
    (step : H → Token → List Token → Except Error (H × Nat)) (n : Int)
    (hk : KeySpec keyFn step (n + 1)) (pre : List Token) (last : Token) (blk : Option Block)
    (h : H) (fuel : Nat) (hb : blockOK last blk) (hf : (blockTokens blk).length < fuel) :
    blockLoop keyFn n fuel (Z pre last (blockTokens blk) n) h =
      some (blockResult (preAfter pre last (blockTokens blk)) (lastTok last (blockTokens blk)) n
        (walkLines step h (blockLines blk))) := by
  cases fuel with
  | zero => simp at hf
  | succ f =>
    cases blk with
    | none =>
      unfold blockLoop
      simp only [blockTokens, blockLines]
      rw [Z_NextBlock_lineEnd _ _ _ _ (by trivial)]
      simp [blockResult, walkLines, preAfter, lastTok]
    | some b =>
      obtain ⟨lb, lines, rb⟩ := b
      obtain ⟨h0, h1, hl⟩ := hb
      simp only [blockTokens, blockLines] at hf ⊢
      have e1 : preAfter pre last (lb :: (lines.flatten ++ [rb])) =
          pre ++ last :: lb :: lines.flatten := by
        have := preAfter_snoc pre last (lb :: lines.flatten) rb
        simpa using this
      have e2 : lastTok last (lb :: (lines.flatten ++ [rb])) = rb := by
        have := lastTok_snoc last (lb :: lines.flatten) rb
        simpa using this
      rw [e1, e2]
      cases lines with
      | nil =>
        have hr : rb.Text = "\x7d" := hl
        unfold blockLoop
        simp only [List.flatten_nil, List.nil_append]
        rw [Z_NextBlock_empty _ _ _ _ _ _ h0 h1 hr]
        simp [blockResult, walkLines]
      | cons l ls =>
        obtain ⟨hne, hw, he, hls⟩ := hl
        cases l with
        | nil => exact absurd rfl hne
        | cons k rest =>
          have nb := (wordsOK_cons hw).1
          unfold blockLoop
          simp only [List.flatten_cons, List.cons_append, List.append_assoc]
          rw [Z_NextBlock_open _ _ _ _ _ _ h0 h1 nb.2]
          dsimp only
          have := blockBody_lines keyFn step n hk rb ls k rest (pre ++ [last, lb]) h f
            ⟨hw, he, hls⟩ (by simp at hf ⊢; omega)
          rw [this]
          simp [walkBlock, walkLines]

theorem parseTLSLoop_eq (fuel : Nat) : ∀ (d : Dispenser) (cp : ConnectionPolicy),
    parseTLSLoop fuel d cp = blockLoop parseTLSKey 0 fuel d cp := by
  induction fuel with
  | zero => intro d cp; rfl
  | succ n ih =>
    intro d cp
    unfold parseTLSLoop blockLoop
    rcases d.NextBlock 0 with ⟨b, d1⟩
    cases b
    · rfl
    · dsimp only
      rcases parseTLSKey d1 cp with _ | e | ⟨cp1, d2⟩
      · rfl
      · rfl
      · exact ih d2 cp1

theorem parseTLSKey_spec (n : Int) : KeySpec parseTLSKey tlsStep n := by
  intro pre k rest tail cp nb hc he
  unfold parseTLSKey tlsStep
  rw [Z_Val]
  by_cases hk : k.Text = "alpn"
  · rw [if_pos hk, if_pos hk, Z_RemainingArgs tail n rest pre k hc (lineEnd_argsEnd he)]
    cases rest with
    | nil => simp [keyResult, Z_ArgErr, lastTok]
    | cons a as => simp [keyResult]
  · rw [if_neg hk, if_neg hk]
    simp [keyResult, preAfter, lastTok]

/-- The handler `parseTLS` compiles from the block of a `tls` directive. -/
theorem parseTLS_block (pre : List Token) (kw : Token) (blk : Option Block)
    (hb : blockOK kw blk) :
    parseTLS (Z pre kw (blockTokens blk) 0) =
      some (blockResult (preAfter pre kw (blockTokens blk)) (lastTok kw (blockTokens blk)) 0
        (match walkLines tlsStep newConnectionPolicy (blockLines blk) with
          | .error e => .error e
          | .ok cp => .ok { ConnectionPolicies := [cp] })) := by
  unfold parseTLS
  dsimp only
  rw [parseTLSLoop_eq, blockLoop_block parseTLSKey tlsStep 0 (parseTLSKey_spec _) pre kw blk _ _
    hb (by simp [Z]; omega)]
  rcases walkLines tlsStep newConnectionPolicy (blockLines blk) with e | cp
  · rfl
  · simp [blockResult, newTLSHandler]

/-! ## The key functions on the words of a line -/

theorem parseProxyProtocolLoop_eq (env : Env) (n : Int) (fuel : Nat) :
    ∀ (d : Dispenser) (h : ProxyProtocolHandler),
    parseProxyProtocolLoop env n fuel d h = blockLoop (parseProxyProtocolKey env) n fuel d h := by
  induction fuel with
  | zero => intro d h; rfl
  | succ m ih =>
    intro d h
    unfold parseProxyProtocolLoop blockLoop
    rcases d.NextBlock n with ⟨b, d1⟩
    cases b
    · rfl
    · dsimp only
      rcases parseProxyProtocolKey env d1 h with _ | e | ⟨h1, d2⟩
      · rfl
      · rfl
      · exact ih d2 h1

theorem parseProxyLoop_eq (env : Env) (n : Int) (fuel : Nat) :
    ∀ (d : Dispenser) (h : ProxyHandler),
    parseProxyLoop env n fuel d h = blockLoop (parseProxyKey env) n fuel d h := by
  induction fuel with
  | zero => intro d h; rfl
  | succ m ih =>
    intro d h
    unfold parseProxyLoop blockLoop
    rcases d.NextBlock n with ⟨b, d1⟩
    cases b
    · rfl
    · dsimp only
      rcases parseProxyKey env d1 h with _ | e | ⟨h1, d2⟩
      · rfl
      · rfl
      · exact ih d2 h1

theorem parseProxyProtocolKey_spec (env : Env) (n : Int) :
    KeySpec (parseProxyProtocolKey env) (proxyProtocolStep env) n := by
  intro pre k rest tail h nb hc he
  unfold parseProxyProtocolKey proxyProtocolStep
  rw [Z_Val]
  by_cases h1 : k.Text = "timeout"
  · rw [if_pos h1, if_pos h1]
    cases rest with
    | nil =>
      have he1 : argsEnd k tail := lineEnd_argsEnd he
      rw [List.nil_append, Z_NextArg_end _ _ _ _ he1]
      simp [keyResult, Z_ArgErr]
    | cons v r =>
      rw [List.chain_cons] at hc
      rw [List.cons_append, Z_NextArg_arg _ _ _ _ _ hc.1]
      dsimp only
      rw [Z_Val]
      cases env.ParseDuration v.Text with
      | error err => simp [keyResult, Z_Errf]
      | ok t => simp [keyResult, preAfter, lastTok]
  · rw [if_neg h1, if_neg h1]
    by_cases h2 : k.Text = "allow"
    · rw [if_pos h2, if_pos h2, Z_RemainingArgs tail n rest pre k hc (lineEnd_argsEnd he)]
      cases rest with
      | nil => simp [keyResult, Z_ArgErr, lastTok]
      | cons a as => simp [keyResult]
    · rw [if_neg h2, if_neg h2]
      simp [keyResult, Z_ArgErr]

theorem selectionLine_eq (env : Env) (inst : Module) (nm : Token) (args : List Token)
    (hc : List.Chain argAfter nm args) :
    UnmarshalL4ProxySelectionCaddyfile env inst (NewDispenser (nm :: args)) =
      some (selectionLine env inst nm args) := by
  cases inst with
  | RandomChoiceSelection c => exact UnmarshalRandomChoice_line env nm args c hc
  | other n b => simp [UnmarshalL4ProxySelectionCaddyfile, selectionLine]
  | RandomSelection =>
    rw [UnmarshalNoArgs_line env _ nm args (Or.inl rfl) hc]
    cases args <;> rfl
  | LeastConnSelection =>
    rw [UnmarshalNoArgs_line env _ nm args (Or.inr (Or.inl rfl)) hc]
    cases args <;> rfl
  | RoundRobinSelection =>
    rw [UnmarshalNoArgs_line env _ nm args (Or.inr (Or.inr (Or.inl rfl))) hc]
    cases args <;> rfl
  | FirstSelection =>
    rw [UnmarshalNoArgs_line env _ nm args (Or.inr (Or.inr (Or.inr (Or.inl rfl)))) hc]
    cases args <;> rfl
  | IPHashSelection =>
    rw [UnmarshalNoArgs_line env _ nm args (Or.inr (Or.inr (Or.inr (Or.inr rfl)))) hc]
    cases args <;> rfl

/-- The `lb_policy` case of `parseProxyKey` after the policy name. -/
theorem proxyPolicy_eq (env : Env) (h : ProxyHandler) (pre : List Token) (nm : Token)
    (args tail : List Token) (n : Int) (hc : List.Chain argAfter nm args)
    (he : lineEnd (lastTok nm args) tail) :
    (if (match h.LoadBalancing with
          | none => false
          | some lb => lb.SelectionPolicyRaw.isSome) = true then
        some (Except.error ((Z pre nm (args ++ tail) n).Err
          "load balancing selection policy already specified"))
      else
        match UnmarshalL4proxySelectionModule env (Z pre nm (args ++ tail) n)
            ("layer4.proxy.selection_policies." ++ (Z pre nm (args ++ tail) n).Val) with
        | none => none
        | some (.error e) => some (.error e)
        | some (.ok (mod, d2)) =>
          if (!mod.isSelector) = true then
            some (.error (d2.Errf "module %s (%T) is not a l4proxy.Selector"
              ["layer4.proxy.selection_policies." ++ (Z pre nm (args ++ tail) n).Val,
                mod.typeName]))
          else
            some (.ok ({ h with LoadBalancing := some { lbOrNew h with
              SelectionPolicyRaw := some (JSONModuleObject mod "policy"
                (Z pre nm (args ++ tail) n).Val) } }, d2))) =
      some (match proxyPolicy env h nm args with
        | .error e => .error e
        | .ok h1 => .ok (h1, Z (preAfter pre nm args) (lastTok nm args) tail n)) := by
  unfold proxyPolicy
  have hp : (match h.LoadBalancing with
      | none => false
      | some lb => lb.SelectionPolicyRaw.isSome) = policySet h := rfl
  rw [hp, Z_Val, Z_Err]
  by_cases hs : policySet h = true
  · rw [if_pos hs, if_pos hs]
  · rw [if_neg hs, if_neg hs]
    unfold UnmarshalL4proxySelectionModule
    simp only [Z_Errf]
    cases env.GetModule ("layer4.proxy.selection_policies." ++ nm.Text) with
    | error err => rfl
    | ok inst =>
      dsimp only
      unfold Dispenser.NewFromNextSegment
      rw [Z_NextSegment_line tail n args pre nm hc he]
      dsimp only
      rw [selectionLine_eq env inst nm args hc]
      cases selectionLine env inst nm args with
      | error e => rfl
      | ok mod =>
        simp only [Z_Errf]
        by_cases hm : (!mod.isSelector) = true
        · rw [if_pos hm, if_pos hm]
        · rw [if_neg hm, if_neg hm]

/-- A key of `parseProxyKey` that takes one argument. -/
theorem parseProxyKey_oneArg (env : Env) (n : Int) (pre : List Token) (k : Token)
    (rest tail : List Token) (h : ProxyHandler) (hc : List.Chain argAfter k rest)
    (he : lineEnd (lastTok k rest) tail)
    (h1 : k.Text ≠ "to") (h2 : k.Text ≠ "lb_policy")
    (hk : k.Text = "lb_try_duration" ∨ k.Text = "lb_try_interval" ∨ k.Text = "health_port" ∨
      k.Text = "health_interval" ∨ k.Text = "health_timeout" ∨ k.Text = "proxy_protocol") :
    parseProxyKey env (Z pre k (rest ++ tail) n) h =
      some (keyResult pre k rest tail n (proxyStep env h k rest)) := by
  unfold parseProxyKey proxyStep
  rw [Z_Val, if_neg h1, if_neg h2, if_neg h1, if_neg h2]
  cases rest with
  | nil =>
    have he1 : argsEnd k tail := lineEnd_argsEnd he
    rw [List.nil_append, Z_NextArg_end _ _ _ _ he1]
    rcases hk with hk | hk | hk | hk | hk | hk <;>
      simp [hk, proxyOneArg, keyResult, Z_ArgErr]
  | cons v r =>
    rw [List.chain_cons] at hc
    rw [List.cons_append, Z_NextArg_arg _ _ _ _ _ hc.1]
    dsimp only
    rw [Z_Val]
    simp only [Z_Errf]
    rcases hk with hk | hk | hk | hk | hk | hk
    · simp only [hk, proxyOneArg]
      cases env.ParseDuration v.Text <;> simp [keyResult, preAfter, lastTok]
    · simp only [hk, proxyOneArg]
      cases env.ParseDuration v.Text <;> simp [keyResult, preAfter, lastTok]
    · simp only [hk, proxyOneArg]
      cases env.Atoi v.Text <;> simp [keyResult, preAfter, lastTok]
    · simp only [hk, proxyOneArg]
      cases env.ParseDuration v.Text <;> simp [keyResult, preAfter, lastTok]
    · simp only [hk, proxyOneArg]
      cases env.ParseDuration v.Text <;> simp [keyResult, preAfter, lastTok]
    · simp [hk, proxyOneArg, keyResult, preAfter, lastTok]

theorem parseProxyKey_spec (env : Env) (n : Int) :
    KeySpec (parseProxyKey env) (proxyStep env) n := by
  intro pre k rest tail h nb hc he
  by_cases h1 : k.Text = "to"
  · unfold parseProxyKey proxyStep
    rw [Z_Val, if_pos h1, if_pos h1, Z_RemainingArgs tail n rest pre k hc (lineEnd_argsEnd he)]
    cases rest with
    | nil => simp [keyResult, Z_ArgErr, lastTok]
    | cons a as => simp [keyResult]
  by_cases h2 : k.Text = "lb_policy"
  · unfold parseProxyKey proxyStep
    rw [Z_Val, if_neg h1, if_pos h2, if_neg h1, if_pos h2]
    cases rest with
    | nil =>
      have he1 : argsEnd k tail := lineEnd_argsEnd he
      rw [List.nil_append, Z_NextArg_end _ _ _ _ he1]
      simp [keyResult, Z_ArgErr]
    | cons nm args =>
      rw [List.chain_cons] at hc
      rw [List.cons_append, Z_NextArg_arg _ _ _ _ _ hc.1]
      dsimp only
      refine (proxyPolicy_eq env h (pre ++ [k]) nm args tail n hc.2 he).trans ?_
      cases proxyPolicy env h nm args with
      | error e => rfl
      | ok h1 => simp [keyResult, preAfter, lastTok]
  by_cases hk : k.Text = "lb_try_duration" ∨ k.Text = "lb_try_interval" ∨
      k.Text = "health_port" ∨ k.Text = "health_interval" ∨ k.Text = "health_timeout" ∨
      k.Text = "proxy_protocol"
  · exact parseProxyKey_oneArg env n pre k rest tail h hc he h1 h2 hk
  · simp only [not_or] at hk
    obtain ⟨k1, k2, k3, k4, k5, k6⟩ := hk
    unfold parseProxyKey proxyStep
    rw [Z_Val, if_neg h1, if_neg h2, if_neg k1, if_neg k2, if_neg k3, if_neg k4, if_neg k5,
      if_neg k6, if_neg h1, if_neg h2]
    have hn : ∀ v, proxyOneArg env h k.Text v = none := by
      intro v
      simp [proxyOneArg, k1, k2, k3, k4, k5, k6]
    cases rest with
    | nil => simp [hn, keyResult, preAfter, lastTok]
    | cons v r => simp [hn, keyResult, preAfter, lastTok]

theorem blockOK_argsEnd {last : Token} {blk : Option Block} (hb : blockOK last blk) :
    argsEnd last (blockTokens blk) := by
  cases blk with
  | none => trivial
  | some b => exact Or.inr hb.2.1

/-- The handler `parseProxy` compiles from the arguments and the block of a
`proxy` directive. -/
theorem parseProxy_block (env : Env) (pre : List Token) (kw : Token) (args : List Token)
    (blk : Option Block) (n : Int) (hc : List.Chain argAfter kw args)
    (hb : blockOK (lastTok kw args) blk) :
    parseProxy env (Z pre kw (args ++ blockTokens blk) n) =
      some (blockResult (preAfter pre kw (args ++ blockTokens blk))
        (lastTok kw (args ++ blockTokens blk)) n
        (walkLines (proxyStep env) (appendUpstream newProxyHandler (args.map Token.Text))
          (blockLines blk))) := by
  unfold parseProxy
  dsimp only
  rw [Z_RemainingArgs (blockTokens blk) n args pre kw hc (blockOK_argsEnd hb)]
  dsimp only
  have hn : (Z (preAfter pre kw args) (lastTok kw args) (blockTokens blk) n).Nesting = n := rfl
  rw [hn, parseProxyLoop_eq, blockLoop_block (parseProxyKey env) (proxyStep env) n
    (parseProxyKey_spec env _) _ _ blk _ _ hb (by simp [Z]; omega), preAfter_append,
    lastTok_append]

/-- The handler `parseProxyProtocol` compiles from the block of a
`proxy_protocol` directive; an argument on the line of the directive is an
argument-count error. -/
theorem parseProxyProtocol_block (env : Env) (pre : List Token) (kw : Token) (args : List Token)
    (blk : Option Block) (n : Int) (hc : List.Chain argAfter kw args)
    (hb : blockOK (lastTok kw args) blk) :
    parseProxyProtocol env (Z pre kw (args ++ blockTokens blk) n) =
      some (match args with
        | [] => blockResult (preAfter pre kw (blockTokens blk)) (lastTok kw (blockTokens blk)) n
            (walkLines (proxyProtocolStep env) newProxyProtocolHandler (blockLines blk))
        | _ :: _ => .error (Error.ArgErr (lastTok kw args).File (lastTok kw args).Line
            (lastTok kw args).Text)) := by
  unfold parseProxyProtocol
  dsimp only
  rw [Z_RemainingArgs (blockTokens blk) n args pre kw hc (blockOK_argsEnd hb)]
  dsimp only
  cases args with
  | nil =>
    simp only [List.map_nil, List.length_nil, gt_iff_lt, lt_self_iff_false, if_false]
    have hn : (Z (preAfter pre kw []) (lastTok kw []) (blockTokens blk) n).Nesting = n := rfl
    rw [hn, parseProxyProtocolLoop_eq, blockLoop_block (parseProxyProtocolKey env)
      (proxyProtocolStep env) n (parseProxyProtocolKey_spec env _) _ _ blk _ _ hb
      (by simp [Z]; omega)]
    rfl
  | cons a as =>
    simp [Z_ArgErr]

/-! ## The end of a segment -/

theorem DirectiveHandlers_end (env : Env) (pre : List Token) (cur : Token) (n : Int) (fuel : Nat) :
    DirectiveHandlers env (fuel + 1) (Z pre cur [] n) = some (.ok []) := by
  unfold DirectiveHandlers
  rw [Z_Next_nil]

theorem consHandler_end (env : Env) (x : RawModule HandlerVal) (pre : List Token) (rb : Token)
    (n : Int) (fuel : Nat) :
    consHandler x (DirectiveHandlers env (fuel + 2) (Z pre rb [] n)) = some (.ok [x]) := by
  rw [DirectiveHandlers_end]
  rfl

/-! ## Upstreams of a `proxy` block (C6) -/

theorem appendUpstream_eq (h : ProxyHandler) (xs : List String) :
    appendUpstream h xs = { h with Upstreams := h.Upstreams ++ dialEach xs } := by
  unfold appendUpstream dialEach
  induction xs generalizing h with
  | nil => simp
  | cons a as ih => simp only [List.foldl_cons, ih]; simp

theorem proxyPolicy_upstreams (env : Env) (h h1 : ProxyHandler) (nm : Token) (args : List Token)
    (hr : proxyPolicy env h nm args = .ok h1) :
    h1.Upstreams = h.Upstreams ∧ policySet h1 = true := by
  unfold proxyPolicy at hr
  split at hr
  · cases hr
  · split at hr
    · cases hr
    · split at hr
      · cases hr
      · split at hr
        · cases hr
        · cases hr
          exact ⟨rfl, rfl⟩

theorem proxyOneArg_upstreams (env : Env) (h h1 : ProxyHandler) (key : String) (v : Token)
    (hr : proxyOneArg env h key v = some (.ok h1)) :
    h1.Upstreams = h.Upstreams ∧ (policySet h = true → policySet h1 = true) := by
  unfold proxyOneArg at hr
  split_ifs at hr
  all_goals first
    | (cases hr; exact ⟨rfl, fun hp => hp⟩)
    | (split at hr
       · cases hr
       · simp only [Option.some.injEq, Except.ok.injEq] at hr
         subst hr
         refine ⟨rfl, ?_⟩
         intro hp
         revert hp
         simp only [policySet, lbOrNew]
         cases h.LoadBalancing <;> simp [newLoadBalancing])

theorem proxyOneArg_iff (env : Env) (h : ProxyHandler) (key : String) (v : Token) :
    (proxyOneArg env h key v).isSome = oneArgKey key := by
  unfold proxyOneArg oneArgKey
  split_ifs <;> simp_all

theorem toArgs_oneArg (k : String) (h1 : k ≠ "to") (h2 : k ≠ "lb_policy") (rest : List String)
    (ho : oneArgKey k = true) :
    toArgs (k :: rest) = toArgs (rest.drop 1) := by
  cases rest with
  | nil => simp [toArgs, h1, h2, ho]
  | cons v r => simp [toArgs, h1, h2, ho]

theorem toArgs_other (k : String) (h1 : k ≠ "to") (h2 : k ≠ "lb_policy") (rest : List String)
    (ho : oneArgKey k = false) :
    toArgs (k :: rest) = toArgs rest := by
  cases rest with
  | nil => simp [toArgs, h1, h2, ho]
  | cons v r => rw [toArgs]; simp [h1, h2, ho]

theorem walkWords_proxy (env : Env) : ∀ (n : Nat) (ws : List Token) (h h1 : ProxyHandler),
    ws.length ≤ n → walkWords (proxyStep env) h ws = .ok h1 →
    h1.Upstreams = h.Upstreams ++ dialEach (toArgs (ws.map Token.Text)) ∧
      (policySet h = true → policySet h1 = true) := by
  intro n
  induction n with
  | zero =>
    intro ws h h1 hn hr
    have : ws = [] := List.length_eq_zero.mp (Nat.le_zero.mp hn)
    subst this
    rw [walkWords_nil] at hr
    cases hr
    simp [toArgs, dialEach]
  | succ m ih =>
    intro ws h h1 hn hr
    cases ws with
    | nil =>
      rw [walkWords_nil] at hr
      cases hr
      simp [toArgs, dialEach]
    | cons k rest =>
      rw [walkWords_cons] at hr
      unfold proxyStep at hr
      by_cases c1 : k.Text = "to"
      · rw [if_pos c1] at hr
        cases rest with
        | nil => cases hr
        | cons a as =>
          simp only [List.drop_length, walkWords_nil] at hr
          cases hr
          rw [appendUpstream_eq]
          simp [toArgs, c1, policySet]
      rw [if_neg c1] at hr
      by_cases c2 : k.Text = "lb_policy"
      · rw [if_pos c2] at hr
        cases rest with
        | nil => cases hr
        | cons nm args =>
          dsimp only at hr
          cases hp : proxyPolicy env h nm args with
          | error e => rw [hp] at hr; cases hr
          | ok h2 =>
            rw [hp] at hr
            simp only [List.drop_length, walkWords_nil] at hr
            cases hr
            obtain ⟨u, p⟩ := proxyPolicy_upstreams env h h1 nm args hp
            refine ⟨?_, fun _ => p⟩
            rw [u]
            simp [toArgs, c1, c2, dialEach]
      rw [if_neg c2] at hr
      cases rest with
      | nil =>
        dsimp only at hr
        cases ho : proxyOneArg env h k.Text k with
        | some x => rw [ho] at hr; cases hr
        | none =>
          rw [ho] at hr
          simp only [List.drop_zero, walkWords_nil] at hr
          cases hr
          have hk := proxyOneArg_iff env h k.Text k
          rw [ho] at hk
          simp only [List.map_cons, List.map_nil]
          rw [toArgs_other _ c1 c2 _ hk.symm]
          simp [toArgs, dialEach]
      | cons v r =>
        dsimp only at hr
        have hk := proxyOneArg_iff env h k.Text v
        cases ho : proxyOneArg env h k.Text v with
        | some x =>
          rw [ho] at hr hk
          cases x with
          | error e => cases hr
          | ok h2 =>
            dsimp only at hr
            obtain ⟨u, p⟩ := proxyOneArg_upstreams env h h2 k.Text v ho
            obtain ⟨u1, p1⟩ := ih r h2 h1 (by simp at hn ⊢; omega) (by simpa using hr)
            refine ⟨?_, fun hp => p1 (p hp)⟩
            rw [u1, u]
            simp only [List.map_cons]
            rw [toArgs_oneArg _ c1 c2 _ hk.symm]
            simp
        | none =>
          rw [ho] at hr hk
          dsimp only at hr
          obtain ⟨u1, p1⟩ := ih (v :: r) h h1 (by simp at hn ⊢; omega) (by simpa using hr)
          refine ⟨?_, p1⟩
          rw [u1]
          simp only [List.map_cons]
          rw [toArgs_other _ c1 c2 _ hk.symm]

theorem walkLines_proxy (env : Env) : ∀ (lines : List (List Token)) (h h1 : ProxyHandler),
    walkLines (proxyStep env) h lines = .ok h1 →
    h1.Upstreams = h.Upstreams ++
        dialEach (lines.flatMap (fun l => toArgs (l.map Token.Text))) ∧
      (policySet h = true → policySet h1 = true) := by
  intro lines
  induction lines with
  | nil =>
    intro h h1 hr
    cases hr
    simp [dialEach]
  | cons l ls ih =>
    intro h h1 hr
    unfold walkLines at hr
    cases hw : walkWords (proxyStep env) h l with
    | error e => rw [hw] at hr; cases hr
    | ok h2 =>
      rw [hw] at hr
      obtain ⟨u, p⟩ := walkWords_proxy env l.length l h h2 (le_refl _) hw
      obtain ⟨u1, p1⟩ := ih h2 h1 hr
      refine ⟨?_, fun hp => p1 (p hp)⟩
      rw [u1, u]
      simp [dialEach]

theorem walkLines_append {H : Type} (step : H → Token → List Token → Except Error (H × Nat))
    (A B : List (List Token)) (h : H) :
    walkLines step h (A ++ B) =
      match walkLines step h A with
      | .error e => .error e
      | .ok h1 => walkLines step h1 B := by
  induction A generalizing h with
  | nil => rfl
  | cons l ls ih =>
    simp only [List.cons_append, walkLines]
    cases walkWords step h l with
    | error e => rfl
    | ok h1 => exact ih h1

theorem walkLines_to_alone (env : Env) (lines : List (List Token)) (h : ProxyHandler)
    (hl : ∃ l ∈ lines, l.map Token.Text = ["to"]) :
    ∃ e, walkLines (proxyStep env) h lines = .error e := by
  induction lines generalizing h with
  | nil => obtain ⟨l, hm, _⟩ := hl; cases hm
  | cons l ls ih =>
    unfold walkLines
    cases hw : walkWords (proxyStep env) h l with
    | error e => exact ⟨e, rfl⟩
    | ok h2 =>
      obtain ⟨l1, hm, ht⟩ := hl
      rcases List.mem_cons.mp hm with h0 | h0
      · subst h0
        exfalso
        cases l1 with
        | nil => simp at ht
        | cons k rest =>
          simp only [List.map_cons, List.cons.injEq, List.map_eq_nil_iff] at ht
          obtain ⟨hk, hr⟩ := ht
          subst hr
          rw [walkWords_cons] at hw
          simp [proxyStep, hk] at hw
      · exact ih h2 ⟨l1, h0, ht⟩

/-- C6 (as amended): for a `proxy` directive with arguments on its line and an
optional block of lines of words, `parseProxy` returns, and on success the
upstreams of the handler are, in order, one upstream per argument of the
directive followed by one upstream per word after every `to` that is read as a
key, in block order (a `to` that starts a line, and also a `to` right after an
unrecognised key or right after the argument of a key with one argument), each
upstream dialling exactly that address; and a `to` line with no argument makes
`parseProxy` fail. -/
theorem parseProxy_upstreams (env : Env) (kw : Token) (args : List Token) (blk : Option Block)
    (hc : List.Chain argAfter kw args) (hb : blockOK (lastTok kw args) blk) :
    ∃ r, parseProxy env (NewDispenser (kw :: (args ++ blockTokens blk))).Next.2 = some r ∧
      (∀ h d, r = .ok (h, d) →
        h.Upstreams = dialEach (args.map Token.Text ++
          (blockLines blk).flatMap (fun l => toArgs (l.map Token.Text)))) ∧
      ((∃ l ∈ blockLines blk, l.map Token.Text = ["to"]) → ∃ e, r = .error e) := by
  rw [NewDispenser_Next, parseProxy_block env [] kw args blk 0 hc hb]
  refine ⟨_, rfl, ?_, ?_⟩
  · intro h d hr
    cases hw : walkLines (proxyStep env) (appendUpstream newProxyHandler (args.map Token.Text))
        (blockLines blk) with
    | error e => rw [hw] at hr; cases hr
    | ok h1 =>
      rw [hw] at hr
      simp only [blockResult, Except.ok.injEq, Prod.mk.injEq] at hr
      obtain ⟨hr1, _⟩ := hr
      subst hr1
      rw [(walkLines_proxy env _ _ _ hw).1, appendUpstream_eq]
      simp [dialEach, newProxyHandler]
  · intro hl
    obtain ⟨e, he⟩ := walkLines_to_alone env (blockLines blk)
      (appendUpstream newProxyHandler (args.map Token.Text)) hl
    rw [he]
    exact ⟨e, rfl⟩

theorem parseProxy_upstreams_witness :
    List.Chain argAfter (tok 1 "proxy") [tok 1 "up:1"] ∧
    blockOK (lastTok (tok 1 "proxy") [tok 1 "up:1"]) (some toBlock) ∧
    ∃ r, parseProxy sampleEnv
        (NewDispenser (tok 1 "proxy" :: ([tok 1 "up:1"] ++ blockTokens (some toBlock)))).Next.2 =
        some r ∧
      (∀ h d, r = .ok (h, d) →
        h.Upstreams = dialEach (["up:1"] ++ ["up:2", "up:3"])) ∧
      ((∃ l ∈ blockLines (some toBlock), l.map Token.Text = ["to"]) → ∃ e, r = .error e) :=
  ⟨List.Chain.cons ⟨rfl, by decide⟩ List.Chain.nil,
   ⟨rfl, rfl, by decide,
     ⟨⟨by decide, by decide⟩, rfl, ⟨by decide, by decide⟩, rfl, ⟨by decide, by decide⟩⟩, rfl,
     by decide, ⟨⟨by decide, by decide⟩, rfl, ⟨by decide, by decide⟩⟩, rfl, rfl⟩,
   parseProxy_upstreams sampleEnv (tok 1 "proxy") [tok 1 "up:1"] (some toBlock)
     (List.Chain.cons ⟨rfl, by decide⟩ List.Chain.nil)
     ⟨rfl, rfl, by decide,
       ⟨⟨by decide, by decide⟩, rfl, ⟨by decide, by decide⟩, rfl, ⟨by decide, by decide⟩⟩, rfl,
       by decide, ⟨⟨by decide, by decide⟩, rfl, ⟨by decide, by decide⟩⟩, rfl, rfl⟩⟩

/-- C6 (counterexample): the block of the `proxy` directive has the one line
`foo to x`, which is not a `to` line, and `parseProxy` succeeds with the
upstream `x`: the upstreams are not the arguments of the directive followed by
the arguments of the `to` lines, of which there are none. -/
theorem parseProxy_to_after_other_key :
    ∃ h d, parseProxy sampleEnv (NewDispenser fooToSegment).Next.2 = some (.ok (h, d)) ∧
      h.Upstreams = [{ Dial := ["x"] }] ∧
      toLineArgs [["foo", "to", "x"]] = [] ∧
      h.Upstreams ≠ dialEach ([] ++ toLineArgs [["foo", "to", "x"]]) :=
  ⟨_, _, rfl, rfl, rfl, by decide⟩

theorem isNextOnNewLine_closeAt (a t : Token) :
    isNextOnNewLine a (closeAt t) = isNextOnNewLine a t := rfl

theorem endsLine_closeAt (l : List Token) (t : Token) :
    endsLine l (closeAt t) ↔ endsLine l t := by
  induction l with
  | nil => exact Iff.rfl
  | cons a as ih =>
    cases as with
    | nil => simp [endsLine, isNextOnNewLine_closeAt]
    | cons b bs => exact ih

/-- The lines before a line of a block are the lines of a block that closes
where that line starts. -/
theorem linesOK_prefix (A : List (List Token)) (k : Token) (rest : List Token)
    (B : List (List Token)) (rb : Token) (h : linesOK (A ++ (k :: rest) :: B) rb) :
    linesOK A (closeAt k) := by
  induction A with
  | nil => rfl
  | cons l ls ih =>
    obtain ⟨h1, h2, h3, h4⟩ := h
    refine ⟨h1, h2, ?_, ih h4⟩
    cases ls with
    | nil => exact (endsLine_closeAt l k).mpr h3
    | cons m ms =>
      cases m with
      | nil => exact absurd rfl h4.1
      | cons t ts => exact h3

/-! ## Listen addresses of a server (C15) -/

theorem keyError_none_of_parse (env : Env) (keys : List String)
    (hk : ∀ key ∈ keys, ∃ a, env.ParseAddress key = .ok a) :
    keys.findSome? (keyError env) = none := by
  rw [List.findSome?_eq_none_iff]
  intro key hm
  obtain ⟨a, ha⟩ := hk key hm
  simp [keyError, ha]

theorem keyHosts_getElem? (env : Env) (keys : List String)
    (hk : ∀ key ∈ keys, ∃ a, env.ParseAddress key = .ok a) :
    (keyHosts env keys).length = keys.length ∧
    ∀ (i : Nat) (key : String), keys[i]? = some key →
      ∃ a, env.ParseAddress key = .ok a ∧ (keyHosts env keys)[i]? = some a.Host := by
  induction keys with
  | nil => exact ⟨rfl, fun i key h => by simp at h⟩
  | cons k rest ih =>
    obtain ⟨a, ha⟩ := hk k (List.mem_cons_self _ _)
    obtain ⟨l, g⟩ := ih (fun key hm => hk key (List.mem_cons_of_mem _ hm))
    have e : keyHosts env (k :: rest) = a.Host :: keyHosts env rest := by
      simp [keyHosts, ha]
    rw [e]
    refine ⟨by simp [l], ?_⟩
    intro i key hi
    cases i with
    | zero =>
      simp only [List.getElem?_cons_zero, Option.some.injEq] at hi
      subst hi
      exact ⟨a, ha, by simp⟩
    | succ j =>
      simp only [List.getElem?_cons_succ] at hi ⊢
      exact g j key hi

theorem addRoutes_Listen (server : Server) (hs : List (RawModule HandlerVal)) :
    (addRoutes server hs).Listen = server.Listen := rfl

/-- C15: for every server block whose address keys all parse, the key loop of
`Setup` ends with the server's `Listen` list equal to the block's key strings,
unchanged and in the same order, and with a hostname list of the same length
whose i-th entry is the host component of the parsed i-th key; and the server
compiled from the block (when its segments compile) still has that `Listen`
list. -/
theorem Setup_listen_verbatim (env : Env) (sblock : ServerBlock)
    (hk : ∀ key ∈ sblock.Keys, ∃ a, env.ParseAddress key = .ok a) :
    ∃ hostnames server,
      SetupKeysLoop env sblock.Keys [] newServer = .ok (hostnames, server) ∧
      server.Listen = sblock.Keys ∧ hostnames.length = sblock.Keys.length ∧
      (∀ (i : Nat) (key : String), sblock.Keys[i]? = some key →
        ∃ a, env.ParseAddress key = .ok a ∧ hostnames[i]? = some a.Host) ∧
      (∀ al server1 al1, SetupBlock env sblock al = some (.ok (server1, al1)) →
        server1.Listen = sblock.Keys) := by
  have hn := keyError_none_of_parse env sblock.Keys hk
  obtain ⟨l, g⟩ := keyHosts_getElem? env sblock.Keys hk
  refine ⟨keyHosts env sblock.Keys, { newServer with Listen := newServer.Listen ++ sblock.Keys },
    ?_, ?_, l, g, ?_⟩
  · rw [SetupKeysLoop_eq, hn]
    simp
  · simp [newServer]
  · intro al server1 al1 h
    rw [SetupBlock_eq, hn] at h
    dsimp only at h
    rcases hseg : segmentsHandlers env sblock.Segments with _ | e | hs
    · rw [hseg] at h; cases h
    · rw [hseg] at h; cases h
    · rw [hseg] at h
      simp only [afterHandlers, Option.some.injEq, Except.ok.injEq, Prod.mk.injEq] at h
      rw [← h.1]
      rfl

theorem twoKeysBlock_parse :
    ∀ key ∈ twoKeysBlock.Keys, ∃ a, sampleEnv.ParseAddress key = .ok a := by
  intro key hm
  simp only [twoKeysBlock, List.mem_cons, List.mem_singleton, List.not_mem_nil, or_false] at hm
  rcases hm with h | h <;> subst h <;> exact ⟨_, rfl⟩

theorem Setup_listen_verbatim_witness :
    (∀ key ∈ twoKeysBlock.Keys, ∃ a, sampleEnv.ParseAddress key = .ok a) ∧
    ∃ hostnames server,
      SetupKeysLoop sampleEnv twoKeysBlock.Keys [] newServer = .ok (hostnames, server) ∧
      server.Listen = ["a.example:443", "b.example:80"] ∧
      hostnames.length = twoKeysBlock.Keys.length ∧
      (∀ (i : Nat) (key : String), twoKeysBlock.Keys[i]? = some key →
        ∃ a, sampleEnv.ParseAddress key = .ok a ∧ hostnames[i]? = some a.Host) ∧
      (∀ al server1 al1, SetupBlock sampleEnv twoKeysBlock al = some (.ok (server1, al1)) →
        server1.Listen = ["a.example:443", "b.example:80"]) :=
  ⟨twoKeysBlock_parse, Setup_listen_verbatim sampleEnv twoKeysBlock twoKeysBlock_parse⟩

/-! ## The `alpn` key of a `tls` block (C14, C20) -/

theorem walkWords_tls (cp : ConnectionPolicy) (l : List Token) :
    walkWords tlsStep cp l =
      match wordsAfter "alpn" l with
      | none => .ok cp
      | some (k, []) => .error (Error.ArgErr k.File k.Line k.Text)
      | some (_, a :: as) => .ok { cp with ALPN := (a :: as).map Token.Text } := by
  induction l with
  | nil => rw [walkWords_nil]; rfl
  | cons k rest ih =>
    rw [walkWords_cons]
    unfold tlsStep wordsAfter
    by_cases hk : k.Text = "alpn"
    · rw [if_pos hk, if_pos hk]
      cases rest with
      | nil => rfl
      | cons a as => simp only [List.drop_length, walkWords_nil]
    · rw [if_neg hk, if_neg hk]
      simpa using ih

theorem walkLines_tls_linesWith (lines : List (List Token)) :
    ∀ cp, walkLines tlsStep cp lines = walkLines tlsStep cp (linesWith "alpn" lines) := by
  induction lines with
  | nil => intro cp; rfl
  | cons l ls ih =>
    intro cp
    unfold linesWith
    rw [List.filter_cons]
    cases hw : wordsAfter "alpn" l with
    | none =>
      simp only [Option.isSome_none, Bool.false_eq_true, if_false]
      have e : walkLines tlsStep cp (l :: ls) = walkLines tlsStep cp ls := by
        rw [walkLines, walkWords_tls, hw]
      rw [e]
      exact ih cp
    | some x =>
      simp only [Option.isSome_some, if_true, walkLines]
      cases walkWords tlsStep cp l with
      | error e => rfl
      | ok cp1 => exact ih cp1

theorem walkLines_tls_error (lines : List (List Token)) :
    ∀ cp, (∃ e, walkLines tlsStep cp lines = .error e) ↔ ∃ l ∈ lines, alpnLast l = true := by
  induction lines with
  | nil => intro cp; simp [walkLines]
  | cons l ls ih =>
    intro cp
    unfold walkLines
    rw [walkWords_tls]
    unfold alpnLast at ih ⊢
    rcases hw : wordsAfter "alpn" l with _ | ⟨k, _ | ⟨a, as⟩⟩
    · simp only [List.mem_cons, exists_eq_or_imp, hw, Bool.false_eq_true, false_or]
      exact ih cp
    · simp [hw]
    · simp only [List.mem_cons, exists_eq_or_imp, hw, Bool.false_eq_true, false_or]
      exact ih _

theorem walkLines_tls_alpn (lines : List (List Token)) :
    ∀ cp cp1, walkLines tlsStep cp lines = .ok cp1 →
      cp1.ALPN = match (lines.filterMap (wordsAfter "alpn")).getLast? with
        | none => cp.ALPN
        | some x => x.2.map Token.Text := by
  induction lines using List.reverseRecOn with
  | nil => intro cp cp1 h; cases h; rfl
  | append_singleton ls l ih =>
    intro cp cp1 h
    rw [walkLines_append] at h
    cases h0 : walkLines tlsStep cp ls with
    | error e => rw [h0] at h; cases h
    | ok cp0 =>
      rw [h0] at h
      dsimp only at h
      unfold walkLines at h
      rw [walkWords_tls] at h
      have i0 := ih cp cp0 h0
      rw [List.filterMap_append]
      rcases hw : wordsAfter "alpn" l with _ | ⟨k, _ | ⟨a, as⟩⟩
      · rw [hw] at h
        simp only [walkLines, Except.ok.injEq] at h
        subst h
        simpa [hw] using i0
      · rw [hw] at h
        cases h
      · rw [hw] at h
        simp only [walkLines, Except.ok.injEq] at h
        subst h
        simp [hw]

theorem valueOf_blockResult {H : Type} (pre : List Token) (rb : Token) (n : Int)
    (r : Except Error H) : valueOf (some (blockResult pre rb n r)) = some r := by
  cases r <;> rfl

/-- C14 (as amended): for every `tls` directive with an optional block of lines
of words, `parseTLS` returns; it fails if and only if in some line of the block
the first word `alpn` is the last word of the line (whether or not `alpn` is
the first word of the line: the words before it are skipped one by one); on
success the handler holds exactly one connection policy; and the lines without
the word `alpn` are ignored: a block with the same lines holding `alpn`
compiles to the same handler or the same error. -/
theorem parseTLS_contract (kw : Token) (blk : Option Block) (hb : blockOK kw blk) :
    ∃ r, parseTLS (NewDispenser (kw :: blockTokens blk)).Next.2 = some r ∧
      ((∃ e, r = .error e) ↔ ∃ l ∈ blockLines blk, alpnLast l = true) ∧
      (∀ h d, r = .ok (h, d) → h.ConnectionPolicies.length = 1) ∧
      (∀ blk1, blockOK kw blk1 →
        linesWith "alpn" (blockLines blk1) = linesWith "alpn" (blockLines blk) →
        valueOf (parseTLS (NewDispenser (kw :: blockTokens blk1)).Next.2) = valueOf (some r)) := by
  rw [NewDispenser_Next, parseTLS_block [] kw blk hb]
  refine ⟨_, rfl, ?_, ?_, ?_⟩
  · rw [← walkLines_tls_error (blockLines blk) newConnectionPolicy]
    cases walkLines tlsStep newConnectionPolicy (blockLines blk) with
    | error e => exact ⟨fun _ => ⟨e, rfl⟩, fun _ => ⟨e, rfl⟩⟩
    | ok cp =>
      constructor
      · rintro ⟨e, he⟩
        cases he
      · rintro ⟨e, he⟩
        cases he
  · intro h d hr
    cases hw : walkLines tlsStep newConnectionPolicy (blockLines blk) with
    | error e => rw [hw] at hr; cases hr
    | ok cp =>
      rw [hw] at hr
      simp only [blockResult, Except.ok.injEq, Prod.mk.injEq] at hr
      rw [← hr.1]
      rfl
  · intro blk1 hb1 hl
    rw [NewDispenser_Next, parseTLS_block [] kw blk1 hb1, valueOf_blockResult,
      valueOf_blockResult, walkLines_tls_linesWith (blockLines blk1), hl,
      ← walkLines_tls_linesWith (blockLines blk)]

theorem parseTLS_contract_witness :
    blockOK (tok 1 "tls") (some alpnBlock) ∧
    ∃ r, parseTLS (NewDispenser (tok 1 "tls" :: blockTokens (some alpnBlock))).Next.2 = some r ∧
      ((∃ e, r = .error e) ↔ ∃ l ∈ blockLines (some alpnBlock), alpnLast l = true) ∧
      (∀ h d, r = .ok (h, d) → h.ConnectionPolicies.length = 1) ∧
      (∀ blk1, blockOK (tok 1 "tls") blk1 →
        linesWith "alpn" (blockLines blk1) = linesWith "alpn" (blockLines (some alpnBlock)) →
        valueOf (parseTLS (NewDispenser (tok 1 "tls" :: blockTokens blk1)).Next.2) =
          valueOf (some r)) :=
  ⟨⟨rfl, rfl, by decide, ⟨⟨by decide, by decide⟩, rfl, ⟨by decide, by decide⟩⟩, rfl,
     by decide, ⟨⟨by decide, by decide⟩, rfl, ⟨by decide, by decide⟩⟩, rfl,
     by decide, ⟨⟨by decide, by decide⟩, rfl, ⟨by decide, by decide⟩, rfl,
       ⟨by decide, by decide⟩⟩, rfl, rfl⟩,
   parseTLS_contract (tok 1 "tls") (some alpnBlock)
     ⟨rfl, rfl, by decide, ⟨⟨by decide, by decide⟩, rfl, ⟨by decide, by decide⟩⟩, rfl,
       by decide, ⟨⟨by decide, by decide⟩, rfl, ⟨by decide, by decide⟩⟩, rfl,
       by decide, ⟨⟨by decide, by decide⟩, rfl, ⟨by decide, by decide⟩, rfl,
         ⟨by decide, by decide⟩⟩, rfl, rfl⟩⟩

/-- C14 (counterexample): the block of the `tls` directive has the one line
`foo alpn`; no line has the key `alpn`, and yet `parseTLS` fails with the
argument-count error at the word `alpn`: the line with the key `foo` is not
ignored together with its arguments. -/
theorem parseTLS_alpn_after_other_key :
    parseTLS (NewDispenser fooAlpnSegment).Next.2 =
      some (.error (Error.ArgErr "Caddyfile" 2 "alpn")) ∧
    keyLines "alpn" [["foo", "alpn"]] = [] ∧
    keyLineNoArgs "alpn" [["foo", "alpn"]] = false :=
  ⟨rfl, rfl, rfl⟩

theorem wordsAfter_head (key : String) (l : List Token)
    (hl : ∀ t ∈ l.tail, t.Text ≠ key) :
    (wordsAfter key l).map (fun x => x.2.map Token.Text) =
      if (l.map Token.Text).head? = some key then some (l.map Token.Text).tail else none := by
  cases l with
  | nil => rfl
  | cons k rest =>
    unfold wordsAfter
    by_cases hk : k.Text = key
    · simp [hk]
    · have hn : wordsAfter key rest = none := by
        simp only [List.tail_cons] at hl
        clear hk
        induction rest with
        | nil => rfl
        | cons a as ih =>
          unfold wordsAfter
          rw [if_neg (hl a (List.mem_cons_self _ _))]
          exact ih (fun t ht => hl t (List.mem_cons_of_mem _ ht))
      simp [hk, hn]

theorem wordsAfter_keyLines (key : String) (lines : List (List Token))
    (hl : ∀ l ∈ lines, ∀ t ∈ l.tail, t.Text ≠ key) :
    (lines.filterMap (wordsAfter key)).map (fun x => x.2.map Token.Text) =
      (keyLines key (lines.map (List.map Token.Text))).map List.tail := by
  induction lines with
  | nil => rfl
  | cons l ls ih =>
    have i0 := ih (fun m hm => hl m (List.mem_cons_of_mem _ hm))
    have h0 := wordsAfter_head key l (hl l (List.mem_cons_self _ _))
    unfold keyLines at i0 ⊢
    rw [List.filterMap_cons, List.map_cons, List.filter_cons]
    by_cases hk : (l.map Token.Text).head? = some key
    · rw [if_pos hk] at h0
      rw [if_pos (by simpa using hk)]
      cases hw : wordsAfter key l with
      | none => rw [hw] at h0; cases h0
      | some x =>
        rw [hw] at h0
        simp only [Option.map_some', Option.some.injEq] at h0
        simp only [List.map_cons, h0, i0]
    · rw [if_neg hk] at h0
      rw [if_neg (by simpa using hk)]
      cases hw : wordsAfter key l with
      | none => exact i0
      | some x => rw [hw] at h0; cases h0

/-- C20 (as amended): on every `tls` block (lines of words) on which `parseTLS`
succeeds, the handler holds one connection policy whose ALPN list is the words
after the first word `alpn` of the last line that holds the word `alpn`, and
the empty list when no line holds that word: earlier lines leave no trace.
When the word `alpn` occurs only as the first word of lines, this is the
arguments of the last `alpn` line. -/
theorem parseTLS_alpn_overwrites (kw : Token) (blk : Option Block) (hb : blockOK kw blk)
    (h : TLSHandler) (d : Dispenser)
    (hr : parseTLS (NewDispenser (kw :: blockTokens blk)).Next.2 = some (.ok (h, d))) :
    h.ConnectionPolicies =
      [{ ALPN := match ((blockLines blk).filterMap (wordsAfter "alpn")).getLast? with
          | none => []
          | some x => x.2.map Token.Text }] ∧
    ((∀ l ∈ blockLines blk, ∀ t ∈ l.tail, t.Text ≠ "alpn") →
      h.ConnectionPolicies =
        [{ ALPN := lastLineArgs "alpn" ((blockLines blk).map (List.map Token.Text)) }]) := by
  rw [NewDispenser_Next, parseTLS_block [] kw blk hb] at hr
  cases hw : walkLines tlsStep newConnectionPolicy (blockLines blk) with
  | error e => rw [hw] at hr; cases hr
  | ok cp =>
    rw [hw] at hr
    simp only [blockResult, Option.some.injEq, Except.ok.injEq, Prod.mk.injEq] at hr
    have ha := walkLines_tls_alpn (blockLines blk) newConnectionPolicy cp hw
    have e1 : h.ConnectionPolicies =
        [{ ALPN := match ((blockLines blk).filterMap (wordsAfter "alpn")).getLast? with
            | none => []
            | some x => x.2.map Token.Text }] := by
      rw [← hr.1]
      simp only [List.cons.injEq, and_true]
      cases cp with
      | mk A => exact congrArg ConnectionPolicy.mk ha
    refine ⟨e1, ?_⟩
    intro hl
    rw [e1]
    have hk := wordsAfter_keyLines "alpn" (blockLines blk) hl
    unfold lastLineArgs
    have e2 : (keyLines "alpn" ((blockLines blk).map (List.map Token.Text))).getLast?.map List.tail =
        (((blockLines blk).filterMap (wordsAfter "alpn")).getLast?).map
          (fun x => x.2.map Token.Text) := by
      rw [← List.getLast?_map, ← List.getLast?_map, hk]
    cases hx : ((blockLines blk).filterMap (wordsAfter "alpn")).getLast? with
    | none =>
      rw [hx] at e2
      cases hy : (keyLines "alpn" ((blockLines blk).map (List.map Token.Text))).getLast? with
      | none => rfl
      | some y => rw [hy] at e2; cases e2
    | some x =>
      rw [hx] at e2
      cases hy : (keyLines "alpn" ((blockLines blk).map (List.map Token.Text))).getLast? with
      | none => rw [hy] at e2; cases e2
      | some y =>
        rw [hy] at e2
        simp only [Option.map_some', Option.some.injEq] at e2
        simp only [e2]

theorem parseTLS_alpn_overwrites_witness :
    blockOK (tok 1 "tls") (some alpnBlock) ∧
    (∃ h d, parseTLS (NewDispenser (tok 1 "tls" :: blockTokens (some alpnBlock))).Next.2 =
      some (.ok (h, d)) ∧ h.ConnectionPolicies = [{ ALPN := ["h3", "h4"] }]) ∧
    ((∀ l ∈ blockLines (some alpnBlock), ∀ t ∈ l.tail, t.Text ≠ "alpn") →
      ([{ ALPN := ["h3", "h4"] }] : List ConnectionPolicy) =
        [{ ALPN := lastLineArgs "alpn" ((blockLines (some alpnBlock)).map (List.map Token.Text)) }]) :=
  ⟨⟨rfl, rfl, by decide, ⟨⟨by decide, by decide⟩, rfl, ⟨by decide, by decide⟩⟩, rfl,
     by decide, ⟨⟨by decide, by decide⟩, rfl, ⟨by decide, by decide⟩⟩, rfl,
     by decide, ⟨⟨by decide, by decide⟩, rfl, ⟨by decide, by decide⟩, rfl,
       ⟨by decide, by decide⟩⟩, rfl, rfl⟩,
   ⟨_, _, rfl, (parseTLS_alpn_overwrites (tok 1 "tls") (some alpnBlock)
     ⟨rfl, rfl, by decide, ⟨⟨by decide, by decide⟩, rfl, ⟨by decide, by decide⟩⟩, rfl,
       by decide, ⟨⟨by decide, by decide⟩, rfl, ⟨by decide, by decide⟩⟩, rfl,
       by decide, ⟨⟨by decide, by decide⟩, rfl, ⟨by decide, by decide⟩, rfl,
         ⟨by decide, by decide⟩⟩, rfl, rfl⟩ _ _ rfl).1⟩,
   (parseTLS_alpn_overwrites (tok 1 "tls") (some alpnBlock)
     ⟨rfl, rfl, by decide, ⟨⟨by decide, by decide⟩, rfl, ⟨by decide, by decide⟩⟩, rfl,
       by decide, ⟨⟨by decide, by decide⟩, rfl, ⟨by decide, by decide⟩⟩, rfl,
       by decide, ⟨⟨by decide, by decide⟩, rfl, ⟨by decide, by decide⟩, rfl,
         ⟨by decide, by decide⟩⟩, rfl, rfl⟩ _ _ rfl).2⟩

/-- C20 (counterexample): the block of the `tls` directive has the lines
`alpn h2` and `foo alpn h3`; `parseTLS` succeeds, the last `alpn` line (and the
only one) is `alpn h2`, and the ALPN list is `h3`, not `h2`. -/
theorem parseTLS_alpn_in_later_line :
    ∃ d, parseTLS (NewDispenser alpnTwiceSegment).Next.2 =
        some (.ok ({ ConnectionPolicies := [{ ALPN := ["h3"] }] }, d)) ∧
      lastLineArgs "alpn" [["alpn", "h2"], ["foo", "alpn", "h3"]] = ["h2"] :=
  ⟨_, rfl, rfl⟩

/-! ## The keys of a `proxy_protocol` block (C12, C13) -/

theorem timeoutIs_nil (env : Env) (t : Int) : timeoutIs env t [] t := rfl

theorem timeoutIs_append (env : Env) (t0 t1 t2 : Int) (A B : List String)
    (ha : timeoutIs env t0 A t1) (hb : timeoutIs env t1 B t2) : timeoutIs env t0 (A ++ B) t2 := by
  unfold timeoutIs at ha hb ⊢
  rw [List.getLast?_append]
  cases hB : B.getLast? with
  | none =>
    rw [hB] at hb
    dsimp only at hb
    subst hb
    simpa using ha
  | some v =>
    rw [hB] at hb
    simpa using hb

theorem walkWords_pp (env : Env) : ∀ (n : Nat) (ws : List Token) (h : ProxyProtocolHandler),
    ws.length ≤ n →
    match walkWords (proxyProtocolStep env) h ws with
    | .ok h1 => ppWordsOK env (ws.map Token.Text) = true ∧
        h1.Allow = h.Allow ++ allowArgs (ws.map Token.Text) ∧
        timeoutIs env h.Timeout (timeoutArgs (ws.map Token.Text)) h1.Timeout
    | .error _ => ppWordsOK env (ws.map Token.Text) = false := by
  intro n
  induction n with
  | zero =>
    intro ws h hn
    have : ws = [] := List.length_eq_zero.mp (Nat.le_zero.mp hn)
    subst this
    rw [walkWords_nil]
    exact ⟨rfl, by simp [allowArgs], rfl⟩
  | succ m ih =>
    intro ws h hn
    cases ws with
    | nil =>
      rw [walkWords_nil]
      exact ⟨rfl, by simp [allowArgs], rfl⟩
    | cons k rest =>
      rw [walkWords_cons]
      by_cases c1 : k.Text = "timeout"
      · cases rest with
        | nil =>
          have hs : proxyProtocolStep env h k [] = .error (Error.ArgErr k.File k.Line k.Text) := by
            simp [proxyProtocolStep, c1]
          rw [hs]
          simp [ppWordsOK, c1]
        | cons v r =>
          cases hp : env.ParseDuration v.Text with
          | error err =>
            have hs : proxyProtocolStep env h k (v :: r) = .error (Error.Errf v.File v.Line
                "parsing proxy_protocol timeout duration: %v" [err]) := by
              simp [proxyProtocolStep, c1, hp]
            rw [hs]
            simp [ppWordsOK, c1, hp]
          | ok t =>
            have hs : proxyProtocolStep env h k (v :: r) = .ok ({ h with Timeout := t }, 1) := by
              simp [proxyProtocolStep, c1, hp]
            rw [hs]
            have i := ih r { h with Timeout := t } (by simp at hn ⊢; omega)
            simp only [List.drop_succ_cons, List.drop_zero]
            rcases hw : walkWords (proxyProtocolStep env) { h with Timeout := t } r with e | h1
            · rw [hw] at i
              dsimp only at i ⊢
              simp [ppWordsOK, c1, hp, i]
            · rw [hw] at i
              dsimp only at i ⊢
              obtain ⟨i1, i2, i3⟩ := i
              refine ⟨by simp [ppWordsOK, c1, hp, i1], by simp [allowArgs, c1, i2], ?_⟩
              have e : timeoutArgs (List.map Token.Text (k :: v :: r)) =
                  [v.Text] ++ timeoutArgs (r.map Token.Text) := by
                simp [timeoutArgs, c1]
              rw [e]
              exact timeoutIs_append env h.Timeout t h1.Timeout _ _ hp i3
      · by_cases c2 : k.Text = "allow"
        · cases rest with
          | nil =>
            have hs : proxyProtocolStep env h k [] = .error (Error.ArgErr k.File k.Line k.Text) := by
              simp [proxyProtocolStep, c1, c2]
            rw [hs]
            simp [ppWordsOK, c1, c2]
          | cons a as =>
            have hs : proxyProtocolStep env h k (a :: as) =
                .ok ({ h with Allow := h.Allow ++ (a :: as).map Token.Text }, (a :: as).length) := by
              simp [proxyProtocolStep, c1, c2]
            rw [hs]
            simp only [List.drop_length, walkWords_nil]
            refine ⟨by simp [ppWordsOK, c1, c2], by simp [allowArgs, c1, c2], ?_⟩
            have e : timeoutArgs (List.map Token.Text (k :: a :: as)) = [] := by
              simp [timeoutArgs, c1]
            rw [e]
            rfl
        · have hs : proxyProtocolStep env h k rest = .error (Error.ArgErr k.File k.Line k.Text) := by
            simp [proxyProtocolStep, c1, c2]
          rw [hs]
          cases rest with
          | nil => simp [ppWordsOK, c1, c2]
          | cons a as => simp [ppWordsOK, c1, c2]

theorem walkLines_pp (env : Env) : ∀ (lines : List (List Token)) (h : ProxyProtocolHandler),
    match walkLines (proxyProtocolStep env) h lines with
    | .ok h1 => (∀ l ∈ lines, ppWordsOK env (l.map Token.Text) = true) ∧
        h1.Allow = h.Allow ++ lines.flatMap (fun l => allowArgs (l.map Token.Text)) ∧
        timeoutIs env h.Timeout (lines.flatMap (fun l => timeoutArgs (l.map Token.Text)))
          h1.Timeout
    | .error _ => ∃ l ∈ lines, ppWordsOK env (l.map Token.Text) = false := by
  intro lines
  induction lines with
  | nil =>
    intro h
    simp only [walkLines]
    exact ⟨(fun l hl => by cases hl), by simp, rfl⟩
  | cons l ls ih =>
    intro h
    simp only [walkLines]
    have w := walkWords_pp env l.length l h (le_refl _)
    rcases hw : walkWords (proxyProtocolStep env) h l with e | h2
    · rw [hw] at w
      exact ⟨l, List.mem_cons_self _ _, w⟩
    · rw [hw] at w
      dsimp only at w ⊢
      obtain ⟨w1, w2, w3⟩ := w
      have i := ih h2
      rcases hl : walkLines (proxyProtocolStep env) h2 ls with e | h1
      · rw [hl] at i
        obtain ⟨m, hm, hf⟩ := i
        exact ⟨m, List.mem_cons_of_mem _ hm, hf⟩
      · rw [hl] at i
        dsimp only at i ⊢
        obtain ⟨i1, i2, i3⟩ := i
        refine ⟨?_, ?_, ?_⟩
        · intro m hm
          rcases List.mem_cons.mp hm with h0 | h0
          · rw [h0]; exact w1
          · exact i1 m h0
        · rw [i2, w2, List.flatMap_cons, List.append_assoc]
        · rw [List.flatMap_cons]
          exact timeoutIs_append env _ _ _ _ _ w3 i3

theorem strictLine_cases (env : Env) (l : List String) (h : strictLine env l = true) :
    (∃ v t, l = ["timeout", v] ∧ env.ParseDuration v = .ok t) ∨
    (∃ a as, l = "allow" :: a :: as) := by
  cases l with
  | nil => cases h
  | cons k args =>
    simp only [strictLine, Bool.or_eq_true, Bool.and_eq_true, decide_eq_true_eq,
      List.all_eq_true] at h
    rcases h with ⟨⟨h1, h2⟩, h3⟩ | ⟨h1, h2⟩
    · left
      cases args with
      | nil => cases h2
      | cons v r =>
        cases r with
        | nil =>
          have := h3 v (List.mem_singleton.mpr rfl)
          cases hp : env.ParseDuration v with
          | error e => rw [hp] at this; cases this
          | ok t => exact ⟨v, t, by rw [h1], hp⟩
        | cons w r1 => simp at h2
    · right
      cases args with
      | nil => simp at h2
      | cons a as => exact ⟨a, as, by rw [h1]⟩

theorem strictLine_ppWordsOK (env : Env) (l : List String) (h : strictLine env l = true) :
    ppWordsOK env l = true := by
  rcases strictLine_cases env l h with ⟨v, t, rfl, hp⟩ | ⟨a, as, rfl⟩
  · simp [ppWordsOK, hp]
  · simp [ppWordsOK]

theorem strictLine_allowArgs (env : Env) (l : List String) (h : strictLine env l = true) :
    allowArgs l = if l.head? = some "allow" then l.tail else [] := by
  rcases strictLine_cases env l h with ⟨v, t, rfl, hp⟩ | ⟨a, as, rfl⟩
  · simp [allowArgs]
  · simp [allowArgs]

theorem strictLine_timeoutArgs (env : Env) (l : List String) (h : strictLine env l = true) :
    timeoutArgs l = if l.head? = some "timeout" then l.tail else [] := by
  rcases strictLine_cases env l h with ⟨v, t, rfl, hp⟩ | ⟨a, as, rfl⟩
  · simp [timeoutArgs]
  · simp [timeoutArgs]

theorem flatMap_keyLines (f : List String → List String) (key : String)
    (lines : List (List String))
    (hf : ∀ l ∈ lines, f l = if l.head? = some key then l.tail else []) :
    lines.flatMap f = (keyLines key lines).flatMap List.tail := by
  induction lines with
  | nil => rfl
  | cons l ls ih =>
    have i := ih (fun m hm => hf m (List.mem_cons_of_mem _ hm))
    have h0 := hf l (List.mem_cons_self _ _)
    unfold keyLines at i ⊢
    rw [List.flatMap_cons, List.filter_cons, h0, i]
    by_cases hk : l.head? = some key
    · rw [if_pos hk, if_pos (by simpa using hk), List.flatMap_cons]
    · rw [if_neg hk, if_neg (by simpa using hk), List.nil_append]

/-- C12 (as amended): for a `proxy_protocol` directive with arguments on its
line and an optional block of lines of words, `parseProxyProtocol` returns, and
it succeeds if and only if the directive has no same-line argument and every
line of the block is a sequence of `timeout` keys, each followed by a
well-formed duration, that ends there or with `allow` followed by one or more
words. In particular it succeeds when every line is `timeout` with exactly one
well-formed duration or `allow` with one or more arguments, and a same-line
argument makes it fail with the argument-count error. -/
theorem parseProxyProtocol_strict (env : Env) (kw : Token) (args : List Token)
    (blk : Option Block) (hc : List.Chain argAfter kw args)
    (hb : blockOK (lastTok kw args) blk) :
    ∃ r, parseProxyProtocol env (NewDispenser (kw :: (args ++ blockTokens blk))).Next.2 = some r ∧
      ((∃ h d, r = .ok (h, d)) ↔
        args = [] ∧ ∀ l ∈ blockLines blk, ppWordsOK env (l.map Token.Text) = true) ∧
      (args = [] → (∀ l ∈ blockLines blk, strictLine env (l.map Token.Text) = true) →
        ∃ h d, r = .ok (h, d)) ∧
      (args ≠ [] → r = .error (Error.ArgErr (lastTok kw args).File (lastTok kw args).Line
        (lastTok kw args).Text)) := by
  rw [NewDispenser_Next, parseProxyProtocol_block env [] kw args blk 0 hc hb]
  cases args with
  | cons a as =>
    refine ⟨_, rfl, ?_, ?_, ?_⟩
    · constructor
      · rintro ⟨h, d, hh⟩
        cases hh
      · rintro ⟨he, _⟩
        cases he
    · intro he
      cases he
    · intro _
      rfl
  | nil =>
    dsimp only
    have w := walkLines_pp env (blockLines blk) newProxyProtocolHandler
    have key : (∃ h d, blockResult (preAfter [] kw (blockTokens blk))
          (lastTok kw (blockTokens blk)) 0
          (walkLines (proxyProtocolStep env) newProxyProtocolHandler (blockLines blk)) =
          .ok (h, d)) ↔
        ([] : List Token) = [] ∧
          ∀ l ∈ blockLines blk, ppWordsOK env (l.map Token.Text) = true := by
      rcases hw : walkLines (proxyProtocolStep env) newProxyProtocolHandler (blockLines blk)
        with e | h1
      · rw [hw] at w
        obtain ⟨l, hl, hf⟩ := w
        constructor
        · rintro ⟨h, d, hh⟩
          cases hh
        · rintro ⟨_, hall⟩
          rw [hall l hl] at hf
          cases hf
      · rw [hw] at w
        exact ⟨fun _ => ⟨rfl, w.1⟩, fun _ => ⟨_, _, rfl⟩⟩
    refine ⟨_, rfl, key, ?_, ?_⟩
    · intro ha hs
      exact key.mpr ⟨ha, fun l hl => strictLine_ppWordsOK env _ (hs l hl)⟩
    · intro ha
      exact absurd rfl ha

theorem parseProxyProtocol_strict_witness :
    List.Chain argAfter (tok 1 "proxy_protocol") [] ∧
    blockOK (lastTok (tok 1 "proxy_protocol") []) (some allowBlock) ∧
    ∃ r, parseProxyProtocol sampleEnv
        (NewDispenser (tok 1 "proxy_protocol" :: ([] ++ blockTokens (some allowBlock)))).Next.2 =
        some r ∧
      ((∃ h d, r = .ok (h, d)) ↔
        ([] : List Token) = [] ∧
          ∀ l ∈ blockLines (some allowBlock), ppWordsOK sampleEnv (l.map Token.Text) = true) ∧
      (([] : List Token) = [] →
        (∀ l ∈ blockLines (some allowBlock), strictLine sampleEnv (l.map Token.Text) = true) →
        ∃ h d, r = .ok (h, d)) ∧
      (([] : List Token) ≠ [] → r = .error (Error.ArgErr "Caddyfile" 1 "proxy_protocol")) :=
  ⟨List.Chain.nil,
   ⟨rfl, rfl, by decide, ⟨⟨by decide, by decide⟩, rfl, ⟨by decide, by decide⟩⟩, rfl,
     by decide, ⟨⟨by decide, by decide⟩, rfl, ⟨by decide, by decide⟩⟩, rfl,
     by decide, ⟨⟨by decide, by decide⟩, rfl, ⟨by decide, by decide⟩, rfl,
       ⟨by decide, by decide⟩⟩, rfl, rfl⟩,
   parseProxyProtocol_strict sampleEnv (tok 1 "proxy_protocol") [] (some allowBlock)
     List.Chain.nil
     ⟨rfl, rfl, by decide, ⟨⟨by decide, by decide⟩, rfl, ⟨by decide, by decide⟩⟩, rfl,
       by decide, ⟨⟨by decide, by decide⟩, rfl, ⟨by decide, by decide⟩⟩, rfl,
       by decide, ⟨⟨by decide, by decide⟩, rfl, ⟨by decide, by decide⟩, rfl,
         ⟨by decide, by decide⟩⟩, rfl, rfl⟩⟩

/-- C12 (counterexample): the block of the `proxy_protocol` directive has the
one line `timeout 5s allow x`, which is neither `timeout` followed by exactly
one duration nor `allow` followed by arguments, and `parseProxyProtocol`
succeeds: the words after the value of `timeout` do not make it fail. -/
theorem parseProxyProtocol_timeout_then_allow :
    (∃ h d, parseProxyProtocol sampleEnv (NewDispenser timeoutAllowSegment).Next.2 =
      some (.ok (h, d))) ∧
    strictLine sampleEnv ["timeout", "5s", "allow", "x"] = false :=
  ⟨⟨_, _, rfl⟩, rfl⟩

/-- C13 (as amended): on every successful `parseProxyProtocol` (block made of
lines of words) the Allow list of the handler is the concatenation, in block
order, of the words after every `allow` that is read as a key (an `allow` that
starts a line or follows the value of a `timeout`), and the Timeout is the
parsed value of the last `timeout` read as a key (one that starts a line or
follows the value of another `timeout`), or zero when there is none. When every
line is `timeout` with one duration or `allow` with arguments, these are the
arguments of the `allow` lines and the value of the last `timeout` line. -/
theorem parseProxyProtocol_allow_accumulates (env : Env) (kw : Token) (args : List Token)
    (blk : Option Block) (hc : List.Chain argAfter kw args)
    (hb : blockOK (lastTok kw args) blk) (h : ProxyProtocolHandler) (d : Dispenser)
    (hr : parseProxyProtocol env (NewDispenser (kw :: (args ++ blockTokens blk))).Next.2 =
      some (.ok (h, d))) :
    h.Allow = (blockLines blk).flatMap (fun l => allowArgs (l.map Token.Text)) ∧
    (match ((blockLines blk).flatMap (fun l => timeoutArgs (l.map Token.Text))).getLast? with
      | none => h.Timeout = 0
      | some v => env.ParseDuration v = .ok h.Timeout) ∧
    ((∀ l ∈ blockLines blk, strictLine env (l.map Token.Text) = true) →
      h.Allow =
        (keyLines "allow" ((blockLines blk).map (List.map Token.Text))).flatMap List.tail ∧
      (match ((keyLines "timeout" ((blockLines blk).map (List.map Token.Text))).flatMap
          List.tail).getLast? with
        | none => h.Timeout = 0
        | some v => env.ParseDuration v = .ok h.Timeout)) := by
  rw [NewDispenser_Next, parseProxyProtocol_block env [] kw args blk 0 hc hb] at hr
  cases args with
  | cons a as => cases hr
  | nil =>
    dsimp only at hr
    have w := walkLines_pp env (blockLines blk) newProxyProtocolHandler
    rcases hw : walkLines (proxyProtocolStep env) newProxyProtocolHandler (blockLines blk)
      with e | h1
    · rw [hw] at hr; cases hr
    · rw [hw] at w hr
      simp only [blockResult, Option.some.injEq, Except.ok.injEq, Prod.mk.injEq] at hr
      obtain ⟨hr1, _⟩ := hr
      subst hr1
      obtain ⟨_, w2, w3⟩ := w
      have e1 : h1.Allow = (blockLines blk).flatMap (fun l => allowArgs (l.map Token.Text)) := by
        rw [w2]
        rfl
      refine ⟨e1, w3, ?_⟩
      intro hs
      have a1 := flatMap_keyLines allowArgs "allow" ((blockLines blk).map (List.map Token.Text))
        (by
          intro l hl
          obtain ⟨m, hm, rfl⟩ := List.mem_map.mp hl
          exact strictLine_allowArgs env _ (hs m hm))
      have a2 := flatMap_keyLines timeoutArgs "timeout"
        ((blockLines blk).map (List.map Token.Text))
        (by
          intro l hl
          obtain ⟨m, hm, rfl⟩ := List.mem_map.mp hl
          exact strictLine_timeoutArgs env _ (hs m hm))
      rw [List.flatMap_map] at a1 a2
      rw [← a1, ← a2]
      exact ⟨e1, w3⟩

theorem parseProxyProtocol_allow_accumulates_witness :
    List.Chain argAfter (tok 1 "proxy_protocol") [] ∧
    blockOK (lastTok (tok 1 "proxy_protocol") []) (some allowBlock) ∧
    ∃ h d, parseProxyProtocol sampleEnv
        (NewDispenser (tok 1 "proxy_protocol" :: ([] ++ blockTokens (some allowBlock)))).Next.2 =
        some (.ok (h, d)) ∧
      h.Allow = ["10.0.0.0/8", "192.168.0.0/16", "::1"] ∧ h.Timeout = 5000000000 ∧
      h.Allow = (blockLines (some allowBlock)).flatMap (fun l => allowArgs (l.map Token.Text)) ∧
      sampleEnv.ParseDuration "5s" = .ok h.Timeout :=
  ⟨List.Chain.nil,
   ⟨rfl, rfl, by decide, ⟨⟨by decide, by decide⟩, rfl, ⟨by decide, by decide⟩⟩, rfl,
     by decide, ⟨⟨by decide, by decide⟩, rfl, ⟨by decide, by decide⟩⟩, rfl,
     by decide, ⟨⟨by decide, by decide⟩, rfl, ⟨by decide, by decide⟩, rfl,
       ⟨by decide, by decide⟩⟩, rfl, rfl⟩,
   _, _, rfl, rfl, rfl,
   (parseProxyProtocol_allow_accumulates sampleEnv (tok 1 "proxy_protocol") [] (some allowBlock)
     List.Chain.nil
     ⟨rfl, rfl, by decide, ⟨⟨by decide, by decide⟩, rfl, ⟨by decide, by decide⟩⟩, rfl,
       by decide, ⟨⟨by decide, by decide⟩, rfl, ⟨by decide, by decide⟩⟩, rfl,
       by decide, ⟨⟨by decide, by decide⟩, rfl, ⟨by decide, by decide⟩, rfl,
         ⟨by decide, by decide⟩⟩, rfl, rfl⟩ _ _ rfl).1,
   (parseProxyProtocol_allow_accumulates sampleEnv (tok 1 "proxy_protocol") [] (some allowBlock)
     List.Chain.nil
     ⟨rfl, rfl, by decide, ⟨⟨by decide, by decide⟩, rfl, ⟨by decide, by decide⟩⟩, rfl,
       by decide, ⟨⟨by decide, by decide⟩, rfl, ⟨by decide, by decide⟩⟩, rfl,
       by decide, ⟨⟨by decide, by decide⟩, rfl, ⟨by decide, by decide⟩, rfl,
         ⟨by decide, by decide⟩⟩, rfl, rfl⟩ _ _ rfl).2.1⟩

/-- C13 (counterexample): the block of the `proxy_protocol` directive has the
lines `allow a` and `timeout 5s timeout 10s allow b`; `parseProxyProtocol`
succeeds with the Allow list `a`, `b` and the Timeout of `10s`, while the
arguments of the `allow` lines are `a` alone and the value of the last
`timeout` line is `5s`. -/
theorem parseProxyProtocol_allow_after_timeout :
    ∃ d, parseProxyProtocol sampleEnv (NewDispenser allowAfterTimeoutSegment).Next.2 =
        some (.ok ({ Timeout := 10000000000, Allow := ["a", "b"] }, d)) ∧
      (keyLines "allow" [["allow", "a"], ["timeout", "5s", "timeout", "10s", "allow", "b"]]).flatMap
        List.tail = ["a"] ∧
      sampleEnv.ParseDuration "5s" = .ok 5000000000 :=
  ⟨_, rfl, rfl, rfl⟩

/-! ## Argument counts, selector check and upstreams of a `proxy` block (C11, C18, C19) -/

theorem valueOf_error {H : Type} (x : Option (Except Error (H × Dispenser))) (e : Error)
    (h : valueOf x = some (.error e)) : x = some (.error e) := by
  rcases x with _ | e1 | ⟨h1, d1⟩
  · cases h
  · simpa [valueOf] using h
  · cases h

theorem valueOf_ok {H : Type} (x : Option (Except Error (H × Dispenser))) (h : H)
    (d : Dispenser) (hx : x = some (.ok (h, d))) : valueOf x = some (.ok h) := by
  subst hx
  rfl

theorem valueOf_ok_inv {H : Type} (x : Option (Except Error (H × Dispenser))) (h : H)
    (hx : valueOf x = some (.ok h)) : ∃ d, x = some (.ok (h, d)) := by
  rcases x with _ | e1 | ⟨h1, d1⟩
  · cases hx
  · cases hx
  · simp only [valueOf, Option.some.injEq, Except.ok.injEq] at hx
    subst hx
    exact ⟨d1, rfl⟩

/-- The value `parseProxy` returns on a directive with arguments on its line
and an optional block of lines of words. -/
theorem parseProxy_value (env : Env) (kw : Token) (args : List Token) (blk : Option Block)
    (hc : List.Chain argAfter kw args) (hb : blockOK (lastTok kw args) blk) :
    valueOf (parseProxy env (NewDispenser (kw :: (args ++ blockTokens blk))).Next.2) =
      some (walkLines (proxyStep env) (appendUpstream newProxyHandler (args.map Token.Text))
        (blockLines blk)) := by
  rw [NewDispenser_Next, parseProxy_block env [] kw args blk 0 hc hb, valueOf_blockResult]

theorem oneArgKey_not_to (k : String) (h : oneArgKey k = true) : k ≠ "to" ∧ k ≠ "lb_policy" := by
  constructor
  · rintro rfl
    revert h
    decide
  · rintro rfl
    revert h
    decide

theorem proxyKeyword_false (k : String) (h : proxyKeyword k = false) :
    k ≠ "to" ∧ k ≠ "lb_policy" ∧ oneArgKey k = false := by
  simp only [proxyKeyword, Bool.or_eq_false_iff, decide_eq_false_iff_not] at h
  exact ⟨h.1.1, h.1.2, h.2⟩

theorem proxyOneArg_none (env : Env) (h : ProxyHandler) (key : String) (v : Token)
    (hk : oneArgKey key = false) : proxyOneArg env h key v = none := by
  have := proxyOneArg_iff env h key v
  rw [hk] at this
  cases hx : proxyOneArg env h key v with
  | none => rfl
  | some x => rw [hx] at this; cases this

theorem proxyOneArg_some (env : Env) (h : ProxyHandler) (key : String) (v : Token)
    (hk : oneArgKey key = true) : ∃ x, proxyOneArg env h key v = some x := by
  have := proxyOneArg_iff env h key v
  rw [hk] at this
  cases hx : proxyOneArg env h key v with
  | none => rw [hx] at this; cases this
  | some x => exact ⟨x, rfl⟩

theorem proxyStep_unknown (env : Env) (h : ProxyHandler) (k : Token) (rest : List Token)
    (hk : proxyKeyword k.Text = false) : proxyStep env h k rest = .ok (h, 0) := by
  obtain ⟨h1, h2, h3⟩ := proxyKeyword_false _ hk
  unfold proxyStep
  rw [if_neg h1, if_neg h2]
  cases rest with
  | nil => simp only [proxyOneArg_none env h k.Text k h3]
  | cons v r => simp only [proxyOneArg_none env h k.Text v h3]

theorem walkWords_unknown (env : Env) (h : ProxyHandler) (ws : List Token)
    (hs : ∀ t ∈ ws, proxyKeyword t.Text = false) : walkWords (proxyStep env) h ws = .ok h := by
  induction ws with
  | nil => exact walkWords_nil _ _
  | cons k rest ih =>
    rw [walkWords_cons, proxyStep_unknown env h k rest (hs k (List.mem_cons_self _ _))]
    simpa using ih (fun t ht => hs t (List.mem_cons_of_mem _ ht))

theorem walkWords_oneArg_alone (env : Env) (h : ProxyHandler) (k : Token)
    (hk : oneArgKey k.Text = true) :
    walkWords (proxyStep env) h [k] = .error (Error.ArgErr k.File k.Line k.Text) := by
  obtain ⟨h1, h2⟩ := oneArgKey_not_to _ hk
  obtain ⟨x, hx⟩ := proxyOneArg_some env h k.Text k hk
  rw [walkWords_cons]
  have hs : proxyStep env h k [] = .error (Error.ArgErr k.File k.Line k.Text) := by
    unfold proxyStep
    rw [if_neg h1, if_neg h2]
    simp only [hx]
  rw [hs]

theorem walkWords_oneArg_surplus (env : Env) (h : ProxyHandler) (k v : Token)
    (surplus : List Token) (hk : oneArgKey k.Text = true)
    (hs : ∀ t ∈ surplus, proxyKeyword t.Text = false) :
    walkWords (proxyStep env) h (k :: v :: surplus) = walkWords (proxyStep env) h [k, v] := by
  obtain ⟨h1, h2⟩ := oneArgKey_not_to _ hk
  obtain ⟨x, hx⟩ := proxyOneArg_some env h k.Text v hk
  have e : ∀ r, proxyStep env h k (v :: r) =
      match x with
      | .error e => .error e
      | .ok h1 => .ok (h1, 1) := by
    intro r
    unfold proxyStep
    rw [if_neg h1, if_neg h2]
    simp only [hx]
    cases x <;> rfl
  rw [walkWords_cons, walkWords_cons, e, e]
  cases x with
  | error e => rfl
  | ok h1 =>
    simp only [List.drop_succ_cons, List.drop_zero, walkWords_nil]
    exact walkWords_unknown env h1 surplus hs

theorem walkLines_congr_line {H : Type} (step : H → Token → List Token → Except Error (H × Nat))
    (A B : List (List Token)) (l1 l2 : List Token)
    (hl : ∀ h, walkWords step h l1 = walkWords step h l2) (h : H) :
    walkLines step h (A ++ l1 :: B) = walkLines step h (A ++ l2 :: B) := by
  rw [walkLines_append, walkLines_append]
  cases walkLines step h A with
  | error e => rfl
  | ok h1 => simp only [walkLines, hl]

/-- C11 (as amended): in the block (lines of words) of a `proxy` directive, a
line that is one of the keys `lb_try_duration`, `lb_try_interval`,
`health_port`, `health_interval`, `health_timeout`, `proxy_protocol` alone
makes `parseProxy` fail, with the argument-count error at that key when the
block cut off before the line compiles; a line with that key and two or more
arguments does not fail on that account: the key takes its first argument, and
when the words after it are not keys of the block they change nothing (the
block compiles to the same handler or error as with the line cut after the
first argument). -/
theorem one_argument_keys (env : Env) (kw : Token) (args : List Token) (lb rb : Token)
    (A B : List (List Token)) (k : Token) (rest : List Token)
    (hc : List.Chain argAfter kw args)
    (hb : blockOK (lastTok kw args) (some ⟨lb, A ++ (k :: rest) :: B, rb⟩))
    (hk : oneArgKey k.Text = true) :
    (rest = [] →
      (∃ e, parseProxy env (NewDispenser (kw :: (args ++ blockTokens
          (some ⟨lb, A ++ (k :: rest) :: B, rb⟩)))).Next.2 = some (.error e)) ∧
      (∀ h d, parseProxy env (NewDispenser (kw :: (args ++ blockTokens
          (some ⟨lb, A, closeAt k⟩)))).Next.2 = some (.ok (h, d)) →
        parseProxy env (NewDispenser (kw :: (args ++ blockTokens
          (some ⟨lb, A ++ (k :: rest) :: B, rb⟩)))).Next.2 =
          some (.error (Error.ArgErr k.File k.Line k.Text)))) ∧
    (∀ v surplus, rest = v :: surplus → (∀ t ∈ surplus, proxyKeyword t.Text = false) →
      blockOK (lastTok kw args) (some ⟨lb, A ++ [k, v] :: B, rb⟩) →
      valueOf (parseProxy env (NewDispenser (kw :: (args ++ blockTokens
          (some ⟨lb, A ++ (k :: rest) :: B, rb⟩)))).Next.2) =
        valueOf (parseProxy env (NewDispenser (kw :: (args ++ blockTokens
          (some ⟨lb, A ++ [k, v] :: B, rb⟩)))).Next.2)) := by
  have hv := parseProxy_value env kw args _ hc hb
  simp only [blockLines] at hv
  constructor
  · intro hr
    subst hr
    rw [walkLines_append] at hv
    constructor
    · cases hw : walkLines (proxyStep env) (appendUpstream newProxyHandler (args.map Token.Text))
          A with
      | error e =>
        rw [hw] at hv
        exact ⟨e, valueOf_error _ _ hv⟩
      | ok hP =>
        rw [hw] at hv
        simp only [walkLines, walkWords_oneArg_alone env hP k hk] at hv
        exact ⟨_, valueOf_error _ _ hv⟩
    · intro h d hp
      have hb1 : blockOK (lastTok kw args) (some ⟨lb, A, closeAt k⟩) := by
        obtain ⟨b1, b2, b3⟩ := hb
        exact ⟨b1, b2, linesOK_prefix _ k [] B rb b3⟩
      have hv1 := parseProxy_value env kw args _ hc hb1
      rw [valueOf_ok _ h d hp] at hv1
      simp only [blockLines, Option.some.injEq] at hv1
      rw [← hv1] at hv
      simp only [walkLines, walkWords_oneArg_alone env h k hk] at hv
      exact valueOf_error _ _ hv
  · intro v surplus hr hs hb2
    subst hr
    have hv2 := parseProxy_value env kw args _ hc hb2
    simp only [blockLines] at hv2
    rw [hv, hv2]
    exact congrArg some (walkLines_congr_line _ A B _ _
      (fun h => walkWords_oneArg_surplus env h k v surplus hk hs) _)

theorem one_argument_keys_witness :
    List.Chain argAfter (tok 1 "proxy") [] ∧
    blockOK (lastTok (tok 1 "proxy") []) (some intervalAloneBlock) ∧
    oneArgKey (tok 3 "health_interval").Text = true ∧
    parseProxy sampleEnv (NewDispenser (tok 1 "proxy" :: ([] ++ blockTokens
        (some intervalAloneBlock)))).Next.2 =
      some (.error (Error.ArgErr "Caddyfile" 3 "health_interval")) :=
  ⟨List.Chain.nil,
   ⟨rfl, rfl, by decide, ⟨⟨by decide, by decide⟩, rfl, ⟨by decide, by decide⟩⟩, rfl,
     by decide, ⟨by decide, by decide⟩, rfl, rfl⟩,
   rfl,
   ((one_argument_keys sampleEnv (tok 1 "proxy") [] (tok 1 "\x7b") (tok 4 "\x7d")
      [[tok 2 "lb_try_duration", tok 2 "5s"]] [] (tok 3 "health_interval") [] List.Chain.nil
      ⟨rfl, rfl, by decide, ⟨⟨by decide, by decide⟩, rfl, ⟨by decide, by decide⟩⟩, rfl,
        by decide, ⟨by decide, by decide⟩, rfl, rfl⟩
      rfl).1 rfl).2 _ _ rfl⟩

/-- C11 (counterexample): the block of the `proxy` directive has the one line
`health_port 9000 8000`, the key `health_port` with two arguments, and
`parseProxy` succeeds, with the port 9000. -/
theorem health_port_two_arguments :
    ∃ h d, parseProxy sampleEnv (NewDispenser surplusPortSegment).Next.2 = some (.ok (h, d)) ∧
      h.HealthChecks = some ⟨some { Port := 9000, Interval := 0, Timeout := 0 }⟩ :=
  ⟨_, _, rfl, rfl⟩

theorem toArgs_no_to : ∀ (n : Nat) (l : List String), l.length ≤ n → "to" ∉ l →
    toArgs l = [] := by
  intro n
  induction n with
  | zero =>
    intro l hn _
    have : l = [] := List.length_eq_zero.mp (Nat.le_zero.mp hn)
    subst this
    rfl
  | succ m ih =>
    intro l hn hto
    cases l with
    | nil => rfl
    | cons k rest =>
      have h1 : k ≠ "to" := fun hk => hto (by rw [hk]; exact List.mem_cons_self _ _)
      have hr : "to" ∉ rest := fun hm => hto (List.mem_cons_of_mem _ hm)
      by_cases h2 : k = "lb_policy"
      · cases rest <;> simp [toArgs, h1, h2]
      · cases ho : oneArgKey k with
        | true =>
          rw [toArgs_oneArg k h1 h2 rest ho]
          apply ih
          · simp only [List.length_drop, List.length_cons] at hn ⊢
            omega
          · exact fun hm => hr (List.mem_of_mem_drop hm)
        | false =>
          rw [toArgs_other k h1 h2 rest ho]
          exact ih rest (by simp only [List.length_cons] at hn; omega) hr

/-- C19 (counterexample): the `proxy` directive has no argument on its line
and its block has the one line `lb_policy`, so no `to` key; `parseProxy`
returns the argument-count error. -/
theorem parseProxy_no_to_fails :
    parseProxy sampleEnv (NewDispenser policyAloneSegment).Next.2 =
      some (.error (Error.ArgErr "Caddyfile" 2 "lb_policy")) ∧
    keyLines "to" [["lb_policy"]] = [] :=
  ⟨rfl, rfl⟩

theorem proxyPolicy_other (env : Env) (h : ProxyHandler) (nm : Token) (args : List Token)
    (n : String) (b : Bool) (hp : policySet h = false)
    (hm : env.GetModule ("layer4.proxy.selection_policies." ++ nm.Text) = .ok (Module.other n b)) :
    proxyPolicy env h nm args =
      if b then
        .ok { h with LoadBalancing := some { lbOrNew h with
                SelectionPolicyRaw := some (JSONModuleObject (Module.other n b) "policy" nm.Text) } }
      else
        .error (Error.Errf (lastTok nm args).File (lastTok nm args).Line
          "module %s (%T) is not a l4proxy.Selector"
          ["layer4.proxy.selection_policies." ++ nm.Text, (Module.other n b).typeName]) := by
  unfold proxyPolicy
  rw [hp]
  simp only [Bool.false_eq_true, if_false, hm, selectionLine, Module.isSelector]
  cases b <;> rfl

theorem walkWords_lb_policy_other (env : Env) (h : ProxyHandler) (k nm : Token)
    (args : List Token) (n : String) (b : Bool) (hk : k.Text = "lb_policy")
    (hp : policySet h = false)
    (hm : env.GetModule ("layer4.proxy.selection_policies." ++ nm.Text) = .ok (Module.other n b)) :
    walkWords (proxyStep env) h (k :: nm :: args) =
      if b then
        .ok { h with LoadBalancing := some { lbOrNew h with
                SelectionPolicyRaw := some (JSONModuleObject (Module.other n b) "policy" nm.Text) } }
      else
        .error (Error.Errf (lastTok nm args).File (lastTok nm args).Line
          "module %s (%T) is not a l4proxy.Selector"
          ["layer4.proxy.selection_policies." ++ nm.Text, (Module.other n b).typeName]) := by
  rw [walkWords_cons]
  have hs : proxyStep env h k (nm :: args) =
      match proxyPolicy env h nm args with
      | .error e => .error e
      | .ok h1 => .ok (h1, (nm :: args).length) := by
    unfold proxyStep
    rw [if_neg (show k.Text ≠ "to" by rw [hk]; decide), if_pos hk]
  rw [hs, proxyPolicy_other env h nm args n b hp hm]
  cases b with
  | false => rfl
  | true => simp only [if_true, List.drop_length, walkWords_nil]

/-- C18 (as amended): in the block (lines of words) of a `proxy` directive, take
an `lb_policy` line whose policy name the registry resolves to a module
instance, reached with no selection policy set (the block cut off before the
line compiles to a handler without one). If the instance does not implement
`l4proxy.Selector`, `parseProxy` fails with the type-mismatch error, raised at
the last word of the line, whatever arguments follow the name. If the instance
implements `l4proxy.Selector` and is none of the six selection policies of
`l4proxy`, the line compiles, whatever arguments follow the name: with the line
last in the block, `parseProxy` succeeds and the policy is that instance under
its name. -/
theorem selector_type_check (env : Env) (kw : Token) (args : List Token) (lb rb : Token)
    (A B : List (List Token)) (k nm : Token) (pargs : List Token) (m : Module)
    (hP : ProxyHandler) (dP : Dispenser)
    (hc : List.Chain argAfter kw args)
    (hb : blockOK (lastTok kw args) (some ⟨lb, A ++ (k :: nm :: pargs) :: B, rb⟩))
    (hk : k.Text = "lb_policy")
    (hm : env.GetModule ("layer4.proxy.selection_policies." ++ nm.Text) = .ok m)
    (hp : parseProxy env (NewDispenser (kw :: (args ++ blockTokens
      (some ⟨lb, A, closeAt k⟩)))).Next.2 = some (.ok (hP, dP)))
    (hn : policySet hP = false) :
    (m.isSelector = false →
      parseProxy env (NewDispenser (kw :: (args ++ blockTokens
          (some ⟨lb, A ++ (k :: nm :: pargs) :: B, rb⟩)))).Next.2 =
        some (.error (Error.Errf (lastTok nm pargs).File (lastTok nm pargs).Line
          "module %s (%T) is not a l4proxy.Selector"
          ["layer4.proxy.selection_policies." ++ nm.Text, m.typeName]))) ∧
    (m.isSelector = true → m.isKnownPolicy = false → B = [] →
      ∃ d, parseProxy env (NewDispenser (kw :: (args ++ blockTokens
          (some ⟨lb, A ++ (k :: nm :: pargs) :: B, rb⟩)))).Next.2 =
        some (.ok ({ hP with LoadBalancing := some { lbOrNew hP with
          SelectionPolicyRaw := some (JSONModuleObject m "policy" nm.Text) } }, d))) := by
  have hv := parseProxy_value env kw args _ hc hb
  have hb1 : blockOK (lastTok kw args) (some ⟨lb, A, closeAt k⟩) := by
    obtain ⟨b1, b2, b3⟩ := hb
    exact ⟨b1, b2, linesOK_prefix _ k _ B rb b3⟩
  have hv1 := parseProxy_value env kw args _ hc hb1
  rw [valueOf_ok _ hP dP hp] at hv1
  simp only [blockLines, Option.some.injEq] at hv hv1
  rw [walkLines_append, ← hv1] at hv
  simp only [walkLines] at hv
  constructor
  · intro hs
    cases m with
    | other n b =>
      simp only [Module.isSelector] at hs
      subst hs
      rw [walkWords_lb_policy_other env hP k nm pargs n false hk hn hm] at hv
      exact valueOf_error _ _ hv
    | _ => cases hs
  · intro hs hkn hB
    subst hB
    cases m with
    | other n b =>
      simp only [Module.isSelector] at hs
      subst hs
      rw [walkWords_lb_policy_other env hP k nm pargs n true hk hn hm] at hv
      simp only [if_true, walkLines] at hv
      exact valueOf_ok_inv _ _ hv
    | _ => cases hkn

theorem selector_type_check_witness :
    List.Chain argAfter (tok 1 "proxy") [] ∧
    blockOK (lastTok (tok 1 "proxy") []) (some brokenPolicyBlock) ∧
    (tok 3 "lb_policy").Text = "lb_policy" ∧
    pluginEnv.GetModule ("layer4.proxy.selection_policies." ++ (tok 3 "broken").Text) =
      .ok (Module.other "*plugin.Broken" false) ∧
    (∃ hP dP, parseProxy pluginEnv (NewDispenser (tok 1 "proxy" :: ([] ++ blockTokens
        (some ⟨tok 1 "\x7b", [[tok 2 "health_port", tok 2 "9000"]],
          closeAt (tok 3 "lb_policy")⟩)))).Next.2 = some (.ok (hP, dP)) ∧
      policySet hP = false) ∧
    parseProxy pluginEnv (NewDispenser (tok 1 "proxy" :: ([] ++ blockTokens
        (some brokenPolicyBlock)))).Next.2 =
      some (.error (Error.Errf "Caddyfile" 3 "module %s (%T) is not a l4proxy.Selector"
        ["layer4.proxy.selection_policies.broken", "*plugin.Broken"])) :=
  ⟨List.Chain.nil,
   ⟨rfl, rfl, by decide, ⟨⟨by decide, by decide⟩, rfl, ⟨by decide, by decide⟩⟩, rfl,
     by decide, ⟨⟨by decide, by decide⟩, rfl, ⟨by decide, by decide⟩, rfl,
       ⟨by decide, by decide⟩, rfl, ⟨by decide, by decide⟩⟩, rfl, rfl⟩,
   rfl, rfl, ⟨_, _, rfl, rfl⟩,
   (selector_type_check pluginEnv (tok 1 "proxy") [] (tok 1 "\x7b") (tok 4 "\x7d")
      [[tok 2 "health_port", tok 2 "9000"]] [] (tok 3 "lb_policy") (tok 3 "broken")
      [tok 3 "a", tok 3 "b"] (Module.other "*plugin.Broken" false) _ _ List.Chain.nil
      ⟨rfl, rfl, by decide, ⟨⟨by decide, by decide⟩, rfl, ⟨by decide, by decide⟩⟩, rfl,
        by decide, ⟨⟨by decide, by decide⟩, rfl, ⟨by decide, by decide⟩, rfl,
          ⟨by decide, by decide⟩, rfl, ⟨by decide, by decide⟩⟩, rfl, rfl⟩
      rfl rfl rfl rfl).1 rfl⟩

/-- C18 (counterexample): the registry resolves the name `plugin` to a module
instance that is none of the six selection policies of `l4proxy` (and that
implements `l4proxy.Selector`); the line `lb_policy plugin a b` compiles, with
that instance as the policy, and no type-mismatch error is raised. -/
theorem lb_policy_accepts_other_selector :
    pluginEnv.GetModule "layer4.proxy.selection_policies.plugin" =
      .ok (Module.other "*plugin.Selection" true) ∧
    (Module.other "*plugin.Selection" true).isKnownPolicy = false ∧
    ∃ h d, parseProxy pluginEnv (NewDispenser pluginPolicySegment).Next.2 = some (.ok (h, d)) ∧
      h.LoadBalancing = some ⟨some
        (JSONModuleObject (Module.other "*plugin.Selection" true) "policy" "plugin"), 0, 0⟩ :=
  ⟨rfl, rfl, _, _, rfl, rfl⟩

/-! ## Registration of the servers (C16, C17) -/

theorem decimal_small (n : Nat) (h : n < 10) : decimal n = [Nat.digitChar n] := by
  rw [decimal, if_pos h]

theorem decimal_large (n : Nat) (h : ¬ n < 10) :
    decimal n = decimal (n / 10) ++ [Nat.digitChar (n % 10)] := by
  rw [decimal, if_neg h]

theorem toDigitsCore_decimal : ∀ (fuel n : Nat) (ds : List Char), n < fuel →
    Nat.toDigitsCore 10 fuel n ds = decimal n ++ ds := by
  intro fuel
  induction fuel with
  | zero => intro n ds h; omega
  | succ f ih =>
    intro n ds h
    unfold Nat.toDigitsCore
    dsimp only
    by_cases h0 : n / 10 = 0
    · rw [if_pos h0]
      have hn : n < 10 := by omega
      rw [decimal_small n hn, Nat.mod_eq_of_lt hn]
      rfl
    · rw [if_neg h0]
      have hn : ¬ n < 10 := by omega
      rw [ih (n / 10) _ (by omega), decimal_large n hn]
      simp

theorem Itoa_data (n : Nat) : (Itoa n).data = decimal n := by
  unfold Itoa Nat.repr Nat.toDigits
  rw [toDigitsCore_decimal _ _ _ (Nat.lt_succ_self n)]
  simp [List.asString]

theorem digitChar_value : ∀ n, n < 10 → (Nat.digitChar n).toNat - 48 = n := by decide

theorem digitChar_lt : ∀ b, b < 10 → ∀ a, a < b → Nat.digitChar a < Nat.digitChar b := by decide

theorem digitsValue_decimal (n : Nat) : digitsValue (decimal n) = n := by
  induction n using Nat.strong_induction_on with
  | _ n ih =>
    by_cases h : n < 10
    · rw [decimal_small n h]
      simp [digitsValue, digitChar_value n h]
    · rw [decimal_large n h]
      have i := ih (n / 10) (by omega)
      unfold digitsValue at i ⊢
      rw [List.foldl_append, i]
      simp only [List.foldl_cons, List.foldl_nil]
      rw [digitChar_value _ (Nat.mod_lt n (by decide))]
      omega

theorem Itoa_injective (i j : Nat) (h : Itoa i = Itoa j) : i = j := by
  have := congrArg (fun s => digitsValue s.data) h
  simpa [Itoa_data, digitsValue_decimal] using this

theorem srv_key_injective (i j : Nat) (h : "srv" ++ Itoa i = "srv" ++ Itoa j) : i = j := by
  apply Itoa_injective
  have := congrArg String.data h
  simp only [String.data_append, List.append_cancel_left_eq] at this
  exact String.ext this

theorem decimal_length_pos (n : Nat) : 0 < (decimal n).length := by
  by_cases h : n < 10
  · rw [decimal_small n h]; simp
  · rw [decimal_large n h]; simp

theorem decimal_length_small (n : Nat) : (decimal n).length = 1 ↔ n < 10 := by
  by_cases h : n < 10
  · rw [decimal_small n h]; simp [h]
  · rw [decimal_large n h]
    have := decimal_length_pos (n / 10)
    simp only [List.length_append, List.length_singleton, h, iff_false]
    omega

theorem lt_append_of_lt : ∀ (xs ys : List Char), xs < ys → xs.length = ys.length →
    ∀ (s t : List Char), xs ++ s < ys ++ t := by
  intro xs ys h
  induction h with
  | nil => intro hl; cases hl
  | cons _ ih =>
    intro hl s t
    exact List.Lex.cons (ih (by simpa using hl) s t)
  | rel hab => intro _ s t; exact List.Lex.rel hab

/-- Of two numbers with the same number of decimal digits, the smaller one has
the smaller digit string. -/
theorem decimal_lt (b : Nat) : ∀ a, a < b → (decimal a).length = (decimal b).length →
    decimal a < decimal b := by
  induction b using Nat.strong_induction_on with
  | _ b ih =>
    intro a hab hl
    by_cases hb : b < 10
    · have ha : a < 10 := by omega
      rw [decimal_small a ha, decimal_small b hb]
      exact List.Lex.rel (digitChar_lt b hb a hab)
    · have ha : ¬ a < 10 := by
        intro ha
        have h1 := (decimal_length_small a).mpr ha
        rw [hl] at h1
        exact hb ((decimal_length_small b).mp h1)
      rw [decimal_large a ha, decimal_large b hb] at hl ⊢
      simp only [List.length_append, List.length_singleton, Nat.add_right_cancel_iff] at hl
      by_cases hq : a / 10 < b / 10
      · exact lt_append_of_lt _ _ (ih (b / 10) (by omega) (a / 10) hq hl) hl _ _
      · have he : a / 10 = b / 10 := by omega
        have hm : a % 10 < b % 10 := by omega
        rw [he]
        exact List.Lex.append_left _
          (List.Lex.rel (digitChar_lt (b % 10) (Nat.mod_lt b (by decide)) (a % 10) hm)) _

/-- C17 (as amended): for block indices `i < j` whose decimal forms have the
same number of digits (so for all `i < j < 10`), the generated key of block `i`
comes before the generated key of block `j` in string order. -/
theorem server_keys_order (i j : Nat) (hij : i < j)
    (hd : (Itoa i).length = (Itoa j).length) :
    "srv" ++ Itoa i < "srv" ++ Itoa j := by
  rw [String.lt_iff_toList_lt]
  show ("srv" ++ Itoa i).data < ("srv" ++ Itoa j).data
  rw [String.data_append, String.data_append, Itoa_data, Itoa_data]
  apply List.Lex.append_left
  apply decimal_lt j i hij
  rw [← Itoa_data, ← Itoa_data]
  exact hd

theorem server_keys_order_witness :
    10 < 11 ∧ (Itoa 10).length = (Itoa 11).length ∧ "srv" ++ Itoa 10 < "srv" ++ Itoa 11 ∧
    "srv" ++ Itoa 10 = "srv10" :=
  ⟨by decide, rfl, server_keys_order 10 11 (by decide) rfl, rfl⟩

/-- C17 (counterexample): the block indices 2 and 10 are in source order, and
the key of block 10 comes before the key of block 2 in string order. -/
theorem server_keys_out_of_order :
    2 < 10 ∧ "srv" ++ Itoa 10 < "srv" ++ Itoa 2 ∧ ¬ ("srv" ++ Itoa 2 < "srv" ++ Itoa 10) :=
  ⟨by decide, String.lt_iff_toList_lt.mpr (by decide),
   fun h => absurd (String.lt_iff_toList_lt.mp h) (by decide)⟩

theorem setEntries_fresh {α : Type} (k : String) (v : α) (es : List (String × α))
    (h : ∀ e ∈ es, e.1 ≠ k) : GoMap.setEntries k v es = es ++ [(k, v)] := by
  induction es with
  | nil => rfl
  | cons e rest ih =>
    obtain ⟨k1, v1⟩ := e
    unfold GoMap.setEntries
    rw [if_neg (h (k1, v1) (List.mem_cons_self _ _))]
    rw [ih (fun e he => h e (List.mem_cons_of_mem _ he))]
    rfl

theorem compiledServer_of_block (env : Env) (b : ServerBlock) (al al1 : List String)
    (server : Server) (h : SetupBlock env b al = some (.ok (server, al1))) :
    compiledServer env b = some server := by
  rw [SetupBlock_al] at h
  unfold compiledServer
  rcases hb : SetupBlock env b [] with _ | e | ⟨s, hosts⟩
  · rw [hb] at h; cases h
  · rw [hb] at h; cases h
  · rw [hb] at h
    simp only [Option.some.injEq, Except.ok.injEq, Prod.mk.injEq] at h
    rw [h.1]

/-- The servers map after the blocks loop: one entry for each block, in block
order, after the entries it started with. -/
theorem SetupBlocksLoop_servers (env : Env) (blocks : List ServerBlock) :
    ∀ (i : Nat) (l4app l4app1 : App) (al al1 : List String),
    SetupBlocksLoop env blocks i l4app al = some (.ok (l4app1, al1)) →
    (∀ e ∈ l4app.Servers.entries, ∃ j, j < i ∧ e.1 = "srv" ++ Itoa j) →
    ∃ servers, List.Forall₂ (fun b s => compiledServer env b = some s) blocks servers ∧
      l4app1.Servers.entries = l4app.Servers.entries ++ registered servers i := by
  induction blocks with
  | nil =>
    intro i l4app l4app1 al al1 h _
    simp only [SetupBlocksLoop, Option.some.injEq, Except.ok.injEq, Prod.mk.injEq] at h
    exact ⟨[], List.Forall₂.nil, by rw [← h.1]; simp [registered]⟩
  | cons b rest ih =>
    intro i l4app l4app1 al al1 h hkeys
    unfold SetupBlocksLoop at h
    rcases hb : SetupBlock env b al with _ | e | ⟨server, al2⟩
    · rw [hb] at h; cases h
    · rw [hb] at h; cases h
    · rw [hb] at h
      dsimp only at h
      have hfresh : ∀ e ∈ l4app.Servers.entries, e.1 ≠ "srv" ++ Itoa i := by
        intro e he hk
        obtain ⟨j, hj, hej⟩ := hkeys e he
        rw [hej] at hk
        have := srv_key_injective j i hk
        omega
      have hset : (l4app.Servers.set ("srv" ++ Itoa i) server).entries =
          l4app.Servers.entries ++ [("srv" ++ Itoa i, server)] :=
        setEntries_fresh _ _ _ hfresh
      obtain ⟨servers, hf, he⟩ := ih (i + 1) _ l4app1 al2 al1 h (by
        intro e he
        dsimp only at he
        rw [hset] at he
        rcases List.mem_append.mp he with h1 | h1
        · obtain ⟨j, hj, hej⟩ := hkeys e h1
          exact ⟨j, by omega, hej⟩
        · rw [List.mem_singleton] at h1
          exact ⟨i, by omega, by rw [h1]⟩)
      refine ⟨server :: servers, List.Forall₂.cons (compiledServer_of_block env b al al2 server hb)
        hf, ?_⟩
      rw [he]
      dsimp only
      rw [hset]
      simp [registered]

theorem registered_length (servers : List Server) : ∀ i, (registered servers i).length =
    servers.length := by
  induction servers with
  | nil => intro i; rfl
  | cons s rest ih => intro i; simp [registered, ih]

theorem registered_find (servers : List Server) : ∀ (start i : Nat),
    ((registered servers start).find? (fun e => e.1 = "srv" ++ Itoa (start + i))).map Prod.snd =
      servers[i]? := by
  induction servers with
  | nil => intro start i; rfl
  | cons s rest ih =>
    intro start i
    unfold registered
    cases i with
    | zero => simp
    | succ j =>
      have hne : ¬ ("srv" ++ Itoa start = "srv" ++ Itoa (start + (j + 1))) := by
        intro hk
        have := srv_key_injective _ _ hk
        omega
      rw [List.find?_cons_of_neg _ (by simpa using hne)]
      have := ih (start + 1) j
      rw [show start + 1 + j = start + (j + 1) by omega] at this
      rw [this]
      simp

theorem Setup_of_loop_ok_layer4 (env : Env) (blocks : List ServerBlock) (l4app : App)
    (al : List String)
    (h : SetupBlocksLoop env blocks 0 { Servers := GoMap.make } [] = some (.ok (l4app, al))) :
    ∃ cfg, Setup env blocks = some { cfg := some cfg, warnings := [], err := none } ∧
      cfg.AppsRaw.get? "layer4" =
        if 0 < l4app.Servers.len then some (AppRaw.layer4 l4app) else none := by
  unfold Setup
  dsimp only
  rw [h]
  dsimp only
  refine ⟨_, rfl, ?_⟩
  cases al with
  | nil =>
    by_cases hl : 0 < l4app.Servers.len <;>
      simp [hl, GoMap.make, GoMap.set, GoMap.setEntries, GoMap.get?]
  | cons a as =>
    by_cases hl : 0 < l4app.Servers.len <;>
      simp [hl, GoMap.make, GoMap.set, GoMap.setEntries, GoMap.get?]

/-- C16: on every successful `Setup` over `n` server blocks, the `Servers` map
of the routing application has exactly `n` entries; under the key `srv`
followed by the decimal form of `i` it holds the server compiled from block
`i`; distinct indices have distinct keys; and the output holds the `layer4`
application if and only if `n ≥ 1`. -/
theorem Setup_registers_servers (env : Env) (blocks : List ServerBlock) (r : SetupResult)
    (h : Setup env blocks = some r) (hok : r.err = none) :
    (serversOf r).len = blocks.length ∧
    (∀ (i : Nat) (b : ServerBlock), blocks[i]? = some b →
      ∃ server, compiledServer env b = some server ∧
        (serversOf r).get? ("srv" ++ Itoa i) = some server) ∧
    (∀ i j : Nat, "srv" ++ Itoa i = "srv" ++ Itoa j → i = j) ∧
    (∃ cfg, r.cfg = some cfg ∧ (cfg.AppsRaw.get? "layer4" ≠ none ↔ 1 ≤ blocks.length)) := by
  obtain ⟨l4app, al, hl⟩ := Setup_ok_inv env blocks r h hok
  obtain ⟨cfg, h1, h2⟩ := Setup_of_loop_ok_layer4 env blocks l4app al hl
  rw [h1] at h
  cases h
  obtain ⟨servers, hf, he⟩ := SetupBlocksLoop_servers env blocks 0 _ l4app [] al hl
    (fun e he => by cases he)
  simp only [GoMap.make, List.nil_append] at he
  have hlen : servers.length = blocks.length := hf.length_eq.symm
  have hs : l4app.Servers.len = blocks.length := by
    unfold GoMap.len
    rw [he, registered_length, hlen]
  have hserv : serversOf { cfg := some cfg, warnings := [], err := none } = l4app.Servers := by
    unfold serversOf
    dsimp only
    rw [h2]
    by_cases hp : 0 < l4app.Servers.len
    · rw [if_pos hp]
    · rw [if_neg hp]
      dsimp only
      have : l4app.Servers.entries = [] := List.length_eq_zero.mp (by unfold GoMap.len at hp; omega)
      cases hS : l4app.Servers with
      | mk es =>
        rw [hS] at this
        dsimp only at this
        rw [this]
        rfl
  rw [hserv]
  refine ⟨hs, ?_, srv_key_injective, cfg, rfl, ?_⟩
  · intro i b hb
    have hi : i < blocks.length := by
      by_contra hc
      rw [List.getElem?_eq_none (by omega)] at hb
      cases hb
    have hi2 : i < servers.length := by omega
    refine ⟨servers[i], ?_, ?_⟩
    · have := List.Forall₂.get hf hi hi2
      simp only [List.get_eq_getElem] at this
      rw [List.getElem?_eq_getElem hi] at hb
      cases hb
      exact this
    · unfold GoMap.get?
      rw [he]
      have := registered_find servers 0 i
      rw [Nat.zero_add] at this
      rw [this, List.getElem?_eq_getElem hi2]
  · rw [h2, hs]
    by_cases hp : 0 < blocks.length
    · rw [if_pos hp]
      exact ⟨fun _ => hp, fun _ hc => by cases hc⟩
    · rw [if_neg hp]
      exact ⟨fun hc => absurd rfl hc, fun hc => absurd hc hp⟩

theorem Setup_registers_servers_witness :
    ∃ r, Setup sampleEnv threeBlocks = some r ∧ r.err = none ∧
      (serversOf r).len = 3 ∧
      (∀ (i : Nat) (b : ServerBlock), threeBlocks[i]? = some b →
        ∃ server, compiledServer sampleEnv b = some server ∧
          (serversOf r).get? ("srv" ++ Itoa i) = some server) ∧
      (∀ i j : Nat, "srv" ++ Itoa i = "srv" ++ Itoa j → i = j) ∧
      (∃ cfg, r.cfg = some cfg ∧ (cfg.AppsRaw.get? "layer4" ≠ none ↔ 1 ≤ threeBlocks.length)) :=
  ⟨_, rfl, rfl, Setup_registers_servers sampleEnv threeBlocks _ rfl rfl⟩

/-! ## Nested blocks -/

theorem isBrace_false {t : Token} (h : isBrace t = false) : notBrace t := by
  simp only [isBrace, Bool.or_eq_false_iff, decide_eq_false_iff_not] at h
  exact h

theorem notBrace_isBrace {t : Token} (h : notBrace t) : isBrace t = false := by
  simp only [isBrace, Bool.or_eq_false_iff, decide_eq_false_iff_not]
  exact h

theorem depthOK_word {t : Token} (h : notBrace t) (j : Nat) (rest : List Token) :
    depthOK j (t :: rest) = depthOK j rest := by
  rw [depthOK, if_neg h.1, if_neg h.2]

theorem nestOK_cons {prev t : Token} {rest : List Token} (h : nestOK prev (t :: rest) = true) :
    nestOK t rest = true := by
  simp only [nestOK, Bool.and_eq_true] at h
  exact h.2

theorem nestOK_append (prev : Token) (X Y : List Token) :
    nestOK prev (X ++ Y) = (nestOK prev X && nestOK (lastTok prev X) Y) := by
  induction X generalizing prev with
  | nil => simp [nestOK, lastTok]
  | cons t rest ih =>
    rw [List.cons_append, nestOK, nestOK, ih, lastTok_cons, Bool.and_assoc]

theorem nestOK_drop {t : Token} {X : List Token} (h : nestOK t X = true) (c : Nat) :
    nestOK (lastTok t (X.take c)) (X.drop c) = true := by
  have := nestOK_append t (X.take c) (X.drop c)
  rw [List.take_append_drop, h] at this
  simp only [Bool.true_eq, Bool.and_eq_true] at this
  exact this.2

theorem nestOK_take {t : Token} {X : List Token} (h : nestOK t X = true) (c : Nat) :
    nestOK t (X.take c) = true := by
  have := nestOK_append t (X.take c) (X.drop c)
  rw [List.take_append_drop, h] at this
  simp only [Bool.true_eq, Bool.and_eq_true] at this
  exact this.1

/-- The token after a brace starts a line. -/
theorem nestOK_brace {t a : Token} {rest : List Token} (h : nestOK t (a :: rest) = true)
    (hb : isBrace t = true) : isNextOnNewLine t a = true := by
  simp only [nestOK, Bool.and_eq_true] at h
  obtain ⟨h1, _⟩ := h
  by_cases c1 : a.Text = "\x7b"
  · rw [if_pos c1] at h1
    simp [hb] at h1
  · rw [if_neg c1] at h1
    by_cases c2 : a.Text = "\x7d"
    · rw [if_pos c2] at h1
      exact h1
    · rw [if_neg c2] at h1
      simpa [hb] using h1

/-- A closing brace starts a line. -/
theorem nestOK_close {t a : Token} {rest : List Token} (h : nestOK t (a :: rest) = true)
    (ha : a.Text = "\x7d") : isNextOnNewLine t a = true := by
  simp only [nestOK, Bool.and_eq_true] at h
  obtain ⟨h1, _⟩ := h
  rw [if_neg (by rw [ha]; decide), if_pos ha] at h1
  exact h1

/-- An opening brace is on the line of the token before it, not a brace. -/
theorem nestOK_open {t a : Token} {rest : List Token} (h : nestOK t (a :: rest) = true)
    (ha : a.Text = "\x7b") : isNextOnNewLine t a = false ∧ isBrace t = false := by
  simp only [nestOK, Bool.and_eq_true] at h
  obtain ⟨h1, _⟩ := h
  rw [if_pos ha] at h1
  simpa using h1

theorem lineArgs_chain : ∀ (X : List Token) (t : Token), List.Chain argAfter t (lineArgs t X) := by
  intro X
  induction X with
  | nil => intro t; exact List.Chain.nil
  | cons a rest ih =>
    intro t
    unfold lineArgs
    by_cases c : isNextOnNewLine t a = false ∧ a.Text ≠ "\x7b"
    · rw [if_pos c]
      exact List.Chain.cons c (ih a)
    · rw [if_neg c]
      exact List.Chain.nil

theorem lineArgs_split : ∀ (X : List Token) (t : Token),
    lineArgs t X ++ X.drop (lineArgs t X).length = X := by
  intro X
  induction X with
  | nil => intro t; rfl
  | cons a rest ih =>
    intro t
    unfold lineArgs
    by_cases c : isNextOnNewLine t a = false ∧ a.Text ≠ "\x7b"
    · rw [if_pos c]
      simp only [List.cons_append, List.length_cons, List.drop_succ_cons, ih]
    · rw [if_neg c]
      rfl

theorem lineArgs_length_le (X : List Token) (t : Token) : (lineArgs t X).length ≤ X.length := by
  have := congrArg List.length (lineArgs_split X t)
  simp only [List.length_append] at this
  omega

/-- No argument follows the arguments of a line. -/
theorem lineArgs_end : ∀ (X : List Token) (t : Token) (tail : List Token),
    lineEnd (lastTok t X) tail →
    argsEnd (lastTok t (lineArgs t X)) (X.drop (lineArgs t X).length ++ tail) := by
  intro X
  induction X with
  | nil =>
    intro t tail h
    cases tail with
    | nil => trivial
    | cons s r => exact Or.inl h
  | cons a rest ih =>
    intro t tail h
    unfold lineArgs
    by_cases c : isNextOnNewLine t a = false ∧ a.Text ≠ "\x7b"
    · rw [if_pos c]
      simp only [List.length_cons, List.drop_succ_cons, lastTok_cons]
      exact ih a tail h
    · rw [if_neg c]
      simp only [List.length_nil, List.drop_zero, List.cons_append, lastTok_nil]
      by_cases c1 : isNextOnNewLine t a = true
      · exact Or.inl c1
      · right
        by_contra c2
        exact c ⟨by simpa using c1, c2⟩

/-- The arguments of a line are not braces. -/
theorem lineArgs_words : ∀ (X : List Token) (t : Token), nestOK t X = true →
    ∀ a ∈ lineArgs t X, notBrace a := by
  intro X
  induction X with
  | nil => intro t _ a ha; cases ha
  | cons b rest ih =>
    intro t h a ha
    unfold lineArgs at ha
    by_cases c : isNextOnNewLine t b = false ∧ b.Text ≠ "\x7b"
    · rw [if_pos c] at ha
      rcases List.mem_cons.mp ha with h0 | h0
      · subst h0
        refine ⟨c.2, ?_⟩
        intro hc
        have := nestOK_close h hc
        rw [c.1] at this
        cases this
      · exact ih b (nestOK_cons h) a h0
    · rw [if_neg c] at ha
      cases ha

theorem depthOK_words : ∀ (A X : List Token) (j : Nat), (∀ a ∈ A, notBrace a) →
    depthOK j (A ++ X) = depthOK j X := by
  intro A
  induction A with
  | nil => intro X j _; rfl
  | cons a rest ih =>
    intro X j h
    rw [List.cons_append, depthOK_word (h a (List.mem_cons_self _ _))]
    exact ih X j (fun b hb => h b (List.mem_cons_of_mem _ hb))

/-- Taking the arguments of a line leaves the nesting as it is. -/
theorem depthOK_lineArgs (X : List Token) (t : Token) (j : Nat) (h : nestOK t X = true) :
    depthOK j (X.drop (lineArgs t X).length) = depthOK j X := by
  have := depthOK_words (lineArgs t X) (X.drop (lineArgs t X).length) j (lineArgs_words X t h)
  rw [lineArgs_split] at this
  exact this.symm

theorem depthOK_open {t : Token} (h : t.Text = "\x7b") (j : Nat) (rest : List Token) :
    depthOK j (t :: rest) = depthOK (j + 1) rest := by
  rw [depthOK, if_pos h]

theorem depthOK_close {t : Token} (h : t.Text = "\x7d") (j : Nat) (rest : List Token) :
    depthOK j (t :: rest) = (if j = 0 then false else depthOK (j - 1) rest) := by
  rw [depthOK, if_neg (by rw [h]; decide), if_pos h]

theorem depthOK_nil {j : Nat} (h : depthOK j [] = true) : j = 0 := by
  simpa [depthOK] using h

/-- Tokens that close the blocks they open leave the nesting as it is. -/
theorem depthOK_append : ∀ (B Y : List Token) (i j : Nat), depthOK i B = true →
    depthOK (i + j) (B ++ Y) = depthOK j Y := by
  intro B
  induction B with
  | nil =>
    intro Y i j h
    rw [depthOK_nil h]
    simp
  | cons t rest ih =>
    intro Y i j h
    by_cases c1 : t.Text = "\x7b"
    · rw [depthOK_open c1] at h
      rw [List.cons_append, depthOK_open c1, show i + j + 1 = (i + 1) + j by omega]
      exact ih Y (i + 1) j h
    · by_cases c2 : t.Text = "\x7d"
      · rw [depthOK_close c2] at h
        by_cases hi : i = 0
        · rw [if_pos hi] at h
          cases h
        · rw [if_neg hi] at h
          rw [List.cons_append, depthOK_close c2, if_neg (by omega),
            show i + j - 1 = (i - 1) + j by omega]
          exact ih Y (i - 1) j h
      · rw [depthOK_word ⟨c1, c2⟩] at h
        rw [List.cons_append, depthOK_word ⟨c1, c2⟩]
        exact ih Y i j h

/-- The block that is open closes in the tokens: they are the rest of its
body, its closing brace and the tokens after it. -/
theorem depthOK_split : ∀ (m : Nat) (Y : List Token) (j : Nat), Y.length ≤ m →
    depthOK (j + 1) Y = true →
    ∃ B rb Y1, Y = B ++ rb :: Y1 ∧ depthOK 0 B = true ∧ rb.Text = "\x7d" ∧
      depthOK j Y1 = true := by
  intro m
  induction m with
  | zero =>
    intro Y j hm h
    have : Y = [] := List.length_eq_zero.mp (Nat.le_zero.mp hm)
    subst this
    have := depthOK_nil h
    omega
  | succ m ih =>
    intro Y j hm h
    cases Y with
    | nil =>
      have := depthOK_nil h
      omega
    | cons t rest =>
      have hr : rest.length ≤ m := by simp only [List.length_cons] at hm; omega
      by_cases c1 : t.Text = "\x7b"
      · rw [depthOK_open c1] at h
        obtain ⟨B1, rb1, X1, e1, b1, r1, d1⟩ := ih rest (j + 1) hr h
        have hx : X1.length ≤ m := by
          have := congrArg List.length e1
          simp only [List.length_append, List.length_cons] at this
          omega
        obtain ⟨B2, rb2, X2, e2, b2, r2, d2⟩ := ih X1 j hx d1
        refine ⟨t :: (B1 ++ rb1 :: B2), rb2, X2, by rw [e1, e2]; simp, ?_, r2, d2⟩
        rw [depthOK_open c1]
        have := depthOK_append B1 (rb1 :: B2) 0 1 b1
        rw [Nat.zero_add] at this
        rw [this, depthOK_close r1]
        simpa using b2
      · by_cases c2 : t.Text = "\x7d"
        · rw [depthOK_close c2, if_neg (by omega)] at h
          exact ⟨[], t, rest, rfl, rfl, c2, by simpa using h⟩
        · rw [depthOK_word ⟨c1, c2⟩] at h
          obtain ⟨B1, rb1, X1, e1, b1, r1, d1⟩ := ih rest j hr h
          exact ⟨t :: B1, rb1, X1, by rw [e1]; rfl, by rw [depthOK_word ⟨c1, c2⟩]; exact b1,
            r1, d1⟩

theorem blockLen_split : ∀ (B : List Token) (rb : Token) (Y : List Token) (j : Nat),
    depthOK j B = true → rb.Text = "\x7d" → blockLen j (B ++ rb :: Y) = B.length + 1 := by
  intro B
  induction B with
  | nil =>
    intro rb Y j h hr
    rw [depthOK_nil h]
    simp [blockLen, hr]
  | cons t rest ih =>
    intro rb Y j h hr
    by_cases c1 : t.Text = "\x7b"
    · rw [depthOK_open c1] at h
      rw [List.cons_append, blockLen, if_neg (by rw [c1]; decide), if_pos c1,
        ih rb Y (j + 1) h hr]
      simp only [List.length_cons]
      omega
    · by_cases c2 : t.Text = "\x7d"
      · rw [depthOK_close c2] at h
        by_cases hj : j = 0
        · rw [if_pos hj] at h
          cases h
        · rw [if_neg hj] at h
          rw [List.cons_append, blockLen, if_pos c2, if_neg hj, ih rb Y (j - 1) h hr]
          simp only [List.length_cons]
          omega
      · rw [depthOK_word ⟨c1, c2⟩] at h
        rw [List.cons_append, blockLen, if_neg c2, if_neg c1, ih rb Y j h hr]
        simp only [List.length_cons]
        omega

/-- Inside a block, the step of `NextBlock` onto the next token; a brace is
the last token of its line. -/
theorem Z_NextBlock_step (pre : List Token) (cur t : Token) (rest : List Token) (N M : Int)
    (hM : M > N) (hl : isBrace t = true → lineEnd t rest) :
    (Z pre cur (t :: rest) M).NextBlock N =
      (decide (stepNesting t M > N), Z (pre ++ [cur]) t rest (stepNesting t M)) := by
  unfold Dispenser.NextBlock stepNesting
  rw [if_pos (by simpa [Z] using hM), Z_Next_cons]
  dsimp only
  unfold Dispenser.valNotOnSameLine
  rw [Z_Val]
  have hn : ∀ (b : Bool), isBrace t = true →
      (Z (pre ++ [cur]) t rest M).nextOnSameLine = (false, Z (pre ++ [cur]) t rest M) := by
    intro _ hb
    have := hl hb
    cases rest with
    | nil => rw [Z_nextOnSameLine_nil]
    | cons a r => rw [Z_nextOnSameLine_cons, if_pos (show isNextOnNewLine t a = true from this)]
  by_cases c2 : t.Text = "\x7d"
  · rw [if_pos c2, if_pos c2, hn true (by simp [isBrace, c2])]
    simp [Z]
  · rw [if_neg c2, if_neg c2]
    dsimp only
    simp only [Bool.false_eq_true, if_false]
    rw [Z_Val]
    by_cases c1 : t.Text = "\x7b"
    · rw [if_pos c1, if_pos c1, hn true (by simp [isBrace, c1])]
      simp [Z]
    · rw [if_neg c1, if_neg c1]
      simp [Z]

theorem Z_Prev (pre : List Token) (a t : Token) (rest : List Token) (n : Int) :
    (Z (pre ++ [a]) t rest n).Prev.2 = Z pre a (t :: rest) n := by
  unfold Dispenser.Prev
  rw [if_pos (by simp [Z]; omega)]
  simp [Z]

theorem lineEnd_head {t : Token} {X : List Token} {s : Token} {tail : List Token}
    (h : nestOK t (X ++ [s]) = true) (hb : isBrace t = true) :
    lineEnd t (X ++ s :: tail) := by
  cases X with
  | nil => exact nestOK_brace h hb
  | cons a r => exact nestOK_brace h hb

/-- The second loop of `NextSegment` inside the block it has opened: it takes
the tokens up to the closing brace of the block and stops there. -/
theorem NextSegmentBlockLoop_flat (N : Int) (rb : Token) (tail : List Token)
    (hr : rb.Text = "\x7d") (ht : lineEnd rb tail) :
    ∀ (B pre : List Token) (cur : Token) (acc : List Token) (fuel j : Nat),
      nestOK cur (B ++ [rb]) = true → depthOK j B = true → B.length < fuel →
      Dispenser.NextSegmentBlockLoop N fuel (Z pre cur (B ++ rb :: tail) (N + 1 + j)) acc true =
        some (acc ++ B, true, Z (pre ++ cur :: B) rb tail N) := by
  intro B
  induction B with
  | nil =>
    intro pre cur acc fuel j hn hd hf
    cases fuel with
    | zero => simp at hf
    | succ f =>
      have hj := depthOK_nil hd
      subst hj
      unfold Dispenser.NextSegmentBlockLoop
      rw [List.nil_append, Z_NextBlock_step _ _ _ _ _ _ (by omega) (fun _ => ht)]
      simp [stepNesting, hr, Z]
  | cons t rest ih =>
    intro pre cur acc fuel j hn hd hf
    cases fuel with
    | zero => simp at hf
    | succ f =>
      have hn1 : nestOK t (rest ++ [rb]) = true := nestOK_cons hn
      unfold Dispenser.NextSegmentBlockLoop
      rw [List.cons_append, Z_NextBlock_step _ _ _ _ _ _ (by omega)
        (fun hb => lineEnd_head hn1 hb)]
      have key : ∃ j1 : Nat, stepNesting t (N + 1 + j) = N + 1 + j1 ∧ depthOK j1 rest = true := by
        unfold stepNesting
        by_cases c2 : t.Text = "\x7d"
        · rw [depthOK_close c2] at hd
          by_cases hj : j = 0
          · rw [if_pos hj] at hd; cases hd
          · rw [if_neg hj] at hd
            exact ⟨j - 1, by rw [if_pos c2]; omega, hd⟩
        · by_cases c1 : t.Text = "\x7b"
          · rw [depthOK_open c1] at hd
            exact ⟨j + 1, by rw [if_neg c2, if_pos c1]; push_cast; omega, hd⟩
          · rw [depthOK_word ⟨c1, c2⟩] at hd
            exact ⟨j, by rw [if_neg c2, if_neg c1], hd⟩
      obtain ⟨j1, e1, d1⟩ := key
      rw [e1]
      have hg : decide (N + 1 + (j1 : Int) > N) = true := by simp; omega
      rw [hg]
      simp only [Bool.not_true, Bool.false_eq_true, if_false]
      rw [Z_Token, ih (pre ++ [cur]) t _ f j1 hn1 d1 (by simpa using hf)]
      simp

theorem preAfter_two (pre : List Token) (cur a b : Token) :
    preAfter pre cur [a, b] = pre ++ [cur, a] := by
  simp [preAfter]

/-- The block that `NextSegment` reads after the arguments of a line: the
tokens it adds to the segment and the cursor it leaves, on the closing brace of
the block when there is one. -/
theorem NextSegment_block (M : Int) (pre : List Token) (last : Token) (Y tail acc : List Token)
    (j fuel : Nat) (hn : nestOK last Y = true) (hd : depthOK j Y = true)
    (ht : lineEnd (lastTok last Y) tail) (he : argsEnd last (Y ++ tail))
    (hf : Y.length + 1 < fuel) :
    (∃ tk o, Dispenser.NextSegmentBlockLoop M fuel (Z pre last (Y ++ tail) M) acc false =
        some (tk, o, Z (preAfter pre last (Y.take (segBlockLen last Y)))
          (lastTok last (Y.take (segBlockLen last Y))) (Y.drop (segBlockLen last Y) ++ tail) M) ∧
      (if o = true then tk ++ [lastTok last (Y.take (segBlockLen last Y))] else tk) =
        acc ++ segBlock last Y) ∧
    segBlockLen last Y ≤ Y.length ∧ depthOK j (Y.drop (segBlockLen last Y)) = true := by
  cases fuel with
  | zero => simp at hf
  | succ f =>
  cases Y with
  | nil =>
    have ht1 : lineEnd last tail := ht
    unfold Dispenser.NextSegmentBlockLoop
    rw [List.nil_append, Z_NextBlock_lineEnd _ _ _ _ ht1]
    exact ⟨⟨acc, false, by simp [segBlockLen, preAfter, lastTok], by simp [segBlock, segBlockLen]⟩,
      by simp [segBlockLen], by simpa [segBlockLen] using hd⟩
  | cons lb Y1 =>
    by_cases c1 : lb.Text = "\x7b"
    · obtain ⟨o1, o2⟩ := nestOK_open hn c1
      rw [depthOK_open c1] at hd
      obtain ⟨Bk, rb, Y2, e1, b1, r1, d1⟩ := depthOK_split Y1.length Y1 j (le_refl _) hd
      subst e1
      have hlen : segBlockLen last (lb :: (Bk ++ rb :: Y2)) = Bk.length + 2 := by
        rw [segBlockLen, if_pos ⟨c1, o1⟩, blockLen_split Bk rb Y2 0 b1 r1]
        omega
      have htake : (lb :: (Bk ++ rb :: Y2)).take (Bk.length + 2) = lb :: (Bk ++ [rb]) := by
        simp [List.take_append_eq_append_take]
      have hdrop : (lb :: (Bk ++ rb :: Y2)).drop (Bk.length + 2) = Y2 := by
        simp [List.drop_append_eq_append_drop]
      have hn1 : nestOK lb (Bk ++ rb :: Y2) = true := nestOK_cons hn
      have hn2 : nestOK lb (Bk ++ [rb]) = true := by
        have e : Bk ++ rb :: Y2 = (Bk ++ [rb]) ++ Y2 := by simp
        rw [e, nestOK_append] at hn1
        simp only [Bool.and_eq_true] at hn1
        exact hn1.1
      have hrb : lineEnd rb (Y2 ++ tail) := by
        cases Y2 with
        | nil =>
          have e : lastTok last (lb :: (Bk ++ [rb])) = rb := by
            have := lastTok_snoc last (lb :: Bk) rb
            simpa using this
          simp only [List.nil_append]
          rw [← e]
          simpa using ht
        | cons a r =>
          have h3 := nestOK_drop hn1 (Bk.length + 1)
          have e : lastTok lb ((Bk ++ rb :: a :: r).take (Bk.length + 1)) = rb := by
            have : (Bk ++ rb :: a :: r).take (Bk.length + 1) = Bk ++ [rb] := by
              simp [List.take_append_eq_append_take]
            rw [this, lastTok_snoc]
          have e2 : (Bk ++ rb :: a :: r).drop (Bk.length + 1) = a :: r := by
            simp [List.drop_append_eq_append_drop]
          rw [e, e2] at h3
          exact nestOK_brace h3 (by simp [isBrace, r1])
      rw [hlen, htake, hdrop]
      refine ⟨?_, by simp, d1⟩
      have e3 : preAfter pre last (lb :: (Bk ++ [rb])) = pre ++ last :: lb :: Bk := by
        have := preAfter_snoc pre last (lb :: Bk) rb
        simpa using this
      have e4 : lastTok last (lb :: (Bk ++ [rb])) = rb := by
        have := lastTok_snoc last (lb :: Bk) rb
        simpa using this
      rw [e3, e4]
      cases Bk with
      | nil =>
        unfold Dispenser.NextSegmentBlockLoop
        simp only [List.nil_append, List.cons_append]
        rw [Z_NextBlock_empty _ _ _ _ _ _ o1 c1 r1]
        have hl2 : segBlockLen last (lb :: rb :: Y2) = 2 := by simpa using hlen
        exact ⟨acc, false, by simp, by simp [segBlock, hl2]⟩
      | cons t Bk1 =>
        have ht0 : nestOK lb (t :: (Bk1 ++ [rb])) = true := hn2
        have hbrk : isNextOnNewLine lb t = true := nestOK_brace ht0 (by simp [isBrace, c1])
        have t2 : t.Text ≠ "\x7d" := by
          intro hc
          rw [depthOK_close hc] at b1
          simp at b1
        have t1 : t.Text ≠ "\x7b" := by
          intro hc
          have := (nestOK_open ht0 hc).1
          rw [hbrk] at this
          cases this
        rw [depthOK_word ⟨t1, t2⟩] at b1
        unfold Dispenser.NextSegmentBlockLoop
        simp only [List.cons_append, List.append_assoc]
        rw [Z_NextBlock_open _ _ _ _ _ _ o1 c1 t2]
        simp only [Bool.not_false, if_true]
        have ep : pre ++ [last, lb] = (pre ++ [last]) ++ [lb] := by simp
        rw [ep, Z_Prev, Z_Token, Z_Next_cons, Z_Token]
        have eM : M + 1 = M + 1 + ((0 : Nat) : Int) := by simp
        rw [eM, NextSegmentBlockLoop_flat M rb (Y2 ++ tail) r1 hrb Bk1 _ t _ f 0
          (nestOK_cons ht0) b1 (by simp at hf ⊢; omega)]
        have hs : segBlock last (lb :: t :: (Bk1 ++ rb :: Y2)) = lb :: t :: (Bk1 ++ [rb]) := by
          have hl2 : segBlockLen last (lb :: t :: (Bk1 ++ rb :: Y2)) = Bk1.length + 1 + 2 := by
            simpa using hlen
          rw [segBlock, hl2, if_neg (by omega)]
          simp [List.take_append_eq_append_take]
        simp only [List.cons_append] at hs
        exact ⟨acc ++ lb :: t :: Bk1, true, by simp, by simp [hs]⟩
    · have hb : isNextOnNewLine last lb = true := by
        rcases he with h | h
        · exact h
        · exact absurd h c1
      have hl0 : segBlockLen last (lb :: Y1) = 0 := by
        rw [segBlockLen, if_neg (fun hc => c1 hc.1)]
      unfold Dispenser.NextSegmentBlockLoop
      rw [List.cons_append, Z_NextBlock_lineEnd _ _ _ _ (show lineEnd last (lb :: (Y1 ++ tail))
        from hb)]
      exact ⟨⟨acc, false, by simp [hl0, preAfter, lastTok], by simp [segBlock, hl0]⟩,
        by simp [hl0], by simpa [hl0] using hd⟩

theorem Z_NextSegment_flat (M : Int) (pre : List Token) (nm : Token) (X tail : List Token)
    (j : Nat) (hn : nestOK nm X = true) (hd : depthOK j X = true)
    (ht : lineEnd (lastTok nm X) tail) :
    (Z pre nm (X ++ tail) M).NextSegment =
      some (nm :: segTokens nm X,
        Z (preAfter pre nm (X.take (segLen nm X))) (lastTok nm (X.take (segLen nm X)))
          (X.drop (segLen nm X) ++ tail) M) ∧
    segLen nm X ≤ X.length ∧ depthOK j (X.drop (segLen nm X)) = true := by
  have hp := lineArgs_split X nm
  have hl := lineArgs_length_le X nm
  generalize hargs : lineArgs nm X = args at hp hl
  generalize hY : X.drop args.length = Y at hp
  have hn2 : nestOK (lastTok nm args) Y = true := by
    have := nestOK_drop hn args.length
    rw [hY] at this
    have e : X.take args.length = args := by
      rw [← hp]; simp
    rw [e] at this
    exact this
  have hd2 : depthOK j Y = true := by
    have := depthOK_lineArgs X nm j hn
    rw [hargs, hY] at this
    rw [this]
    exact hd
  have he : argsEnd (lastTok nm args) (Y ++ tail) := by
    have := lineArgs_end X nm tail ht
    rw [hargs, hY] at this
    exact this
  have ht2 : lineEnd (lastTok (lastTok nm args) Y) tail := by
    have := lastTok_append nm args Y
    rw [hp] at this
    rw [this]
    exact ht
  have hlen : Y.length + args.length = X.length := by
    rw [← hp]; simp; omega
  obtain ⟨⟨tk, o, r1, r1b⟩, r2, r3⟩ := NextSegment_block M (preAfter pre nm args) (lastTok nm args) Y tail
    ([nm] ++ args) j ((pre ++ nm :: (X ++ tail)).length + 2) hn2 hd2 ht2 he
    (by simp; omega)
  have hc : List.Chain argAfter nm args := by
    rw [← hargs]; exact lineArgs_chain X nm
  have hsl : segLen nm X = args.length + segBlockLen (lastTok nm args) Y := by
    rw [segLen, hargs, hY]
  have hst : segTokens nm X = args ++ segBlock (lastTok nm args) Y := by
    rw [segTokens, hargs, hY]
  have htake : X.take (segLen nm X) = args ++ Y.take (segBlockLen (lastTok nm args) Y) := by
    rw [hsl, ← hp]
    simp [List.take_append_eq_append_take]
  have hdrop : X.drop (segLen nm X) = Y.drop (segBlockLen (lastTok nm args) Y) := by
    rw [hsl, ← hp]
    simp [List.drop_append_eq_append_drop]
  refine ⟨?_, by rw [hsl]; omega, by rw [hdrop]; exact r3⟩
  unfold Dispenser.NextSegment
  have e0 : Z pre nm (X ++ tail) M = Z pre nm (args ++ (Y ++ tail)) M := by
    rw [← List.append_assoc, hp]
  rw [Z_Token]
  have e1 : (Z pre nm (X ++ tail) M).tokens.length = (pre ++ nm :: (X ++ tail)).length := rfl
  rw [e1, e0, Z_NextSegmentArgsLoop (Y ++ tail) M args pre nm [nm] _ hc he (by simp [Z]; omega)]
  dsimp only
  have eN : (Z (preAfter pre nm args) (lastTok nm args) (Y ++ tail) M).Nesting = M := rfl
  rw [eN, r1]
  dsimp only
  rw [Z_Token, htake, hdrop, hst, ← preAfter_append, ← lastTok_append]
  cases o
  · simp only [Bool.false_eq_true, if_false] at r1b ⊢
    rw [r1b]
    simp
  · simp only [if_true] at r1b ⊢
    rw [r1b]
    simp

/-! ## Selection policies on a segment -/

theorem argsEnd_of_not {t a : Token} {rest : List Token}
    (h : ¬(isNextOnNewLine t a = false ∧ a.Text ≠ "\x7b")) : argsEnd t (a :: rest) := by
  unfold argsEnd
  by_cases h1 : isNextOnNewLine t a = true
  · exact Or.inl h1
  · right
    by_contra h2
    exact h ⟨by simpa using h1, h2⟩

theorem UnmarshalNoArgsLoop_tokens (n : Int) : ∀ (rest pre : List Token) (t : Token)
    (d : Dispenser) (fuel : Nat), d.Next = (true, Z pre t rest n) → rest.length < fuel →
    UnmarshalNoArgsLoop (fuel + 1) d = some (noArgsTokens t rest) := by
  intro rest
  induction rest with
  | nil =>
    intro pre t d fuel hd hf
    unfold UnmarshalNoArgsLoop
    rw [hd]
    dsimp only
    rw [Z_NextArg_end _ _ _ _ (by trivial)]
    dsimp only
    cases fuel with
    | zero => simp at hf
    | succ f =>
      unfold UnmarshalNoArgsLoop
      rw [Z_Next_nil]
      rfl
  | cons a r ih =>
    intro pre t d fuel hd hf
    unfold UnmarshalNoArgsLoop
    rw [hd]
    dsimp only
    by_cases c : isNextOnNewLine t a = false ∧ a.Text ≠ "\x7b"
    · rw [Z_NextArg_arg _ _ _ _ _ c]
      dsimp only
      rw [Z_ArgErr, noArgsTokens, if_pos c]
    · rw [Z_NextArg_end _ _ _ _ (argsEnd_of_not c)]
      dsimp only
      rw [noArgsTokens, if_neg c]
      cases fuel with
      | zero => simp at hf
      | succ f =>
        exact ih _ a _ f (Z_Next_cons _ _ _ _ _) (by simp at hf; omega)

theorem UnmarshalRandomChoiceLoop_tokens (env : Env) (n : Int) : ∀ (m : Nat)
    (rest pre : List Token) (t : Token) (d : Dispenser) (c : Int) (fuel : Nat),
    rest.length ≤ m → d.Next = (true, Z pre t rest n) → rest.length < fuel →
    UnmarshalRandomChoiceLoop env (fuel + 1) d c = some (randomChoiceTokens env t rest) := by
  intro m
  induction m with
  | zero =>
    intro rest pre t d c fuel hm hd hf
    have : rest = [] := List.length_eq_zero.mp (Nat.le_zero.mp hm)
    subst this
    unfold UnmarshalRandomChoiceLoop
    rw [hd]
    dsimp only
    rw [Z_NextArg_end _ _ _ _ (by trivial)]
    dsimp only
    rw [Z_ArgErr]
    rfl
  | succ m ih =>
    intro rest pre t d c fuel hm hd hf
    unfold UnmarshalRandomChoiceLoop
    rw [hd]
    dsimp only
    cases rest with
    | nil =>
      rw [Z_NextArg_end _ _ _ _ (by trivial)]
      dsimp only
      rw [Z_ArgErr]
      rfl
    | cons a r =>
      by_cases ca : isNextOnNewLine t a = false ∧ a.Text ≠ "\x7b"
      · rw [Z_NextArg_arg _ _ _ _ _ ca]
        dsimp only
        rw [Z_Val]
        cases r with
        | nil =>
          rw [randomChoiceTokens, if_pos ca]
          cases env.Atoi a.Text with
          | error err => simp only [Z_Errf]
          | ok v =>
            dsimp only
            cases fuel with
            | zero => simp at hf
            | succ f =>
              unfold UnmarshalRandomChoiceLoop
              rw [Z_Next_nil]
        | cons b r1 =>
          rw [randomChoiceTokens, if_pos ca]
          cases env.Atoi a.Text with
          | error err => simp only [Z_Errf]
          | ok v =>
            dsimp only
            cases fuel with
            | zero => simp at hf
            | succ f =>
              exact ih r1 _ b _ v f (by simp at hm; omega) (Z_Next_cons _ _ _ _ _)
                (by simp at hf; omega)
      · rw [Z_NextArg_end _ _ _ _ (argsEnd_of_not ca)]
        dsimp only
        rw [Z_ArgErr]
        cases r with
        | nil => rw [randomChoiceTokens, if_neg ca]
        | cons b r1 => rw [randomChoiceTokens, if_neg ca]

/-- The function `UnmarshalL4ProxySelectionCaddyfile` on a fresh cursor over
any tokens returns, and its result is `selectionTokens`. -/
theorem selectionTokens_eq (env : Env) (inst : Module) (nm : Token) (rest : List Token) :
    UnmarshalL4ProxySelectionCaddyfile env inst (NewDispenser (nm :: rest)) =
      some (selectionTokens env inst nm rest) := by
  have h1 : (NewDispenser (nm :: rest)).tokens.length + 2 = (rest.length + 2) + 1 := by
    simp [NewDispenser]
  have h2 := UnmarshalNoArgsLoop_tokens 0 rest [] nm (NewDispenser (nm :: rest))
    (rest.length + 2) (NewDispenser_Next nm rest) (by omega)
  cases inst with
  | RandomChoiceSelection c =>
    simp only [UnmarshalL4ProxySelectionCaddyfile, selectionTokens]
    rw [h1, UnmarshalRandomChoiceLoop_tokens env 0 rest.length rest [] nm _ c _ (le_refl _)
      (NewDispenser_Next nm rest) (by omega)]
    cases randomChoiceTokens env nm rest <;> rfl
  | other n b => simp [UnmarshalL4ProxySelectionCaddyfile, selectionTokens]
  | RandomSelection =>
    simp only [UnmarshalL4ProxySelectionCaddyfile, selectionTokens]
    rw [h1, h2]
    cases noArgsTokens nm rest <;> rfl
  | LeastConnSelection =>
    simp only [UnmarshalL4ProxySelectionCaddyfile, selectionTokens]
    rw [h1, h2]
    cases noArgsTokens nm rest <;> rfl
  | RoundRobinSelection =>
    simp only [UnmarshalL4ProxySelectionCaddyfile, selectionTokens]
    rw [h1, h2]
    cases noArgsTokens nm rest <;> rfl
  | FirstSelection =>
    simp only [UnmarshalL4ProxySelectionCaddyfile, selectionTokens]
    rw [h1, h2]
    cases noArgsTokens nm rest <;> rfl
  | IPHashSelection =>
    simp only [UnmarshalL4ProxySelectionCaddyfile, selectionTokens]
    rw [h1, h2]
    cases noArgsTokens nm rest <;> rfl

/-! ## Keys of a block with nested blocks -/

theorem tlsStep_le (cp cp1 : ConnectionPolicy) (k : Token) (args : List Token) (c : Nat)
    (h : tlsStep cp k args = .ok (cp1, c)) : c ≤ args.length := by
  unfold tlsStep at h
  by_cases hk : k.Text = "alpn"
  · rw [if_pos hk] at h
    cases args with
    | nil => cases h
    | cons a as =>
      simp only [Except.ok.injEq, Prod.mk.injEq] at h
      omega
  · rw [if_neg hk] at h
    simp only [Except.ok.injEq, Prod.mk.injEq] at h
    omega

theorem proxyProtocolStep_le (env : Env) (h h1 : ProxyProtocolHandler) (k : Token)
    (args : List Token) (c : Nat) (hs : proxyProtocolStep env h k args = .ok (h1, c)) :
    c ≤ args.length := by
  unfold proxyProtocolStep at hs
  by_cases k1 : k.Text = "timeout"
  · rw [if_pos k1] at hs
    cases args with
    | nil => cases hs
    | cons v r =>
      dsimp only at hs
      cases hp : env.ParseDuration v.Text with
      | error err => rw [hp] at hs; cases hs
      | ok t =>
        rw [hp] at hs
        simp only [Except.ok.injEq, Prod.mk.injEq] at hs
        simp
        omega
  · rw [if_neg k1] at hs
    by_cases k2 : k.Text = "allow"
    · rw [if_pos k2] at hs
      cases args with
      | nil => cases hs
      | cons v r =>
        simp only [Except.ok.injEq, Prod.mk.injEq] at hs
        omega
    · rw [if_neg k2] at hs
      cases hs

theorem proxyStep_le (env : Env) (h h1 : ProxyHandler) (k : Token) (args : List Token) (c : Nat)
    (hs : proxyStep env h k args = .ok (h1, c)) : c ≤ args.length := by
  unfold proxyStep at hs
  by_cases k1 : k.Text = "to"
  · rw [if_pos k1] at hs
    cases args with
    | nil => cases hs
    | cons v r =>
      simp only [Except.ok.injEq, Prod.mk.injEq] at hs
      omega
  · rw [if_neg k1] at hs
    by_cases k2 : k.Text = "lb_policy"
    · rw [if_pos k2] at hs
      cases args with
      | nil => cases hs
      | cons nm r =>
        dsimp only at hs
        cases hp : proxyPolicy env h nm r with
        | error e => rw [hp] at hs; cases hs
        | ok h2 =>
          rw [hp] at hs
          simp only [Except.ok.injEq, Prod.mk.injEq] at hs
          omega
    · rw [if_neg k2] at hs
      cases args with
      | nil =>
        dsimp only at hs
        cases hp : proxyOneArg env h k.Text k with
        | some r => rw [hp] at hs; cases hs
        | none =>
          rw [hp] at hs
          simp only [Except.ok.injEq, Prod.mk.injEq] at hs
          omega
      | cons v r =>
        dsimp only at hs
        cases hp : proxyOneArg env h k.Text v with
        | some r1 =>
          rw [hp] at hs
          cases r1 with
          | error e => cases hs
          | ok h2 =>
            simp only [Except.ok.injEq, Prod.mk.injEq] at hs
            simp
            omega
        | none =>
          rw [hp] at hs
          simp only [Except.ok.injEq, Prod.mk.injEq] at hs
          omega

/-- A key function that reads only arguments on the line of the key, on a key
followed by any tokens of a block. -/
theorem KeySpecG_onLine {H : Type}
    (keyFn : Dispenser → H → Option (Except Error (H × Dispenser)))
    (step : H → Token → List Token → Except Error (H × Nat)) (n : Int) (t : Token)
    (hk : ∀ (pre : List Token) (args rest : List Token) (h : H),
      List.Chain argAfter t args → argsEnd (lastTok t args) rest →
      keyFn (Z pre t (args ++ rest) n) h = some (keyResult pre t args rest n (step h t args)))
    (hc : ∀ (h h1 : H) (args : List Token) (c : Nat), step h t args = .ok (h1, c) →
      c ≤ args.length)
    (pre X tail : List Token) (h : H) (j : Nat)
    (hn : nestOK t X = true) (hd : depthOK j X = true) (ht : lineEnd (lastTok t X) tail) :
    keyFn (Z pre t (X ++ tail) n) h =
      some (keyResult pre t X tail n (step h t (lineArgs t X))) ∧
    ∀ h1 c, step h t (lineArgs t X) = .ok (h1, c) → c ≤ X.length ∧
      depthOK j (X.drop c) = true := by
  have hp := lineArgs_split X t
  have hw := lineArgs_words X t hn
  have hch := lineArgs_chain X t
  have he := lineArgs_end X t tail ht
  generalize lineArgs t X = args at hp hw hch he
  generalize hY : X.drop args.length = Y at hp he
  subst hp
  have key : ∀ h1 c, step h t args = .ok (h1, c) → c ≤ args.length := fun h1 c => hc h h1 args c
  constructor
  · rw [List.append_assoc, hk pre args (Y ++ tail) h hch he]
    cases hs : step h t args with
    | error e => rfl
    | ok r =>
      obtain ⟨h1, c⟩ := r
      have hle := key h1 c hs
      simp only [keyResult]
      rw [List.take_append_of_le_length hle, List.drop_append_of_le_length hle,
        List.append_assoc]
  · intro h1 c hs
    have hle := key h1 c hs
    refine ⟨by simp; omega, ?_⟩
    rw [List.drop_append_of_le_length hle, depthOK_words _ _ _ (fun a ha =>
      hw a (List.mem_of_mem_drop ha))]
    rw [depthOK_words _ _ _ hw] at hd
    exact hd

theorem parseTLSKey_args (n : Int) (pre : List Token) (k : Token) (args rest : List Token)
    (cp : ConnectionPolicy) (hc : List.Chain argAfter k args)
    (he : argsEnd (lastTok k args) rest) :
    parseTLSKey (Z pre k (args ++ rest) n) cp =
      some (keyResult pre k args rest n (tlsStep cp k args)) := by
  unfold parseTLSKey tlsStep
  rw [Z_Val]
  by_cases hk : k.Text = "alpn"
  · rw [if_pos hk, if_pos hk, Z_RemainingArgs rest n args pre k hc he]
    cases args with
    | nil => simp [keyResult, Z_ArgErr, lastTok]
    | cons a as => simp [keyResult]
  · rw [if_neg hk, if_neg hk]
    simp [keyResult, preAfter, lastTok]

theorem parseProxyProtocolKey_args (env : Env) (n : Int) (pre : List Token) (k : Token)
    (args rest : List Token) (h : ProxyProtocolHandler) (hc : List.Chain argAfter k args)
    (he : argsEnd (lastTok k args) rest) :
    parseProxyProtocolKey env (Z pre k (args ++ rest) n) h =
      some (keyResult pre k args rest n (proxyProtocolStep env h k args)) := by
  unfold parseProxyProtocolKey proxyProtocolStep
  rw [Z_Val]
  by_cases h1 : k.Text = "timeout"
  · rw [if_pos h1, if_pos h1]
    cases args with
    | nil =>
      have he1 : argsEnd k rest := he
      rw [List.nil_append, Z_NextArg_end _ _ _ _ he1]
      simp [keyResult, Z_ArgErr]
    | cons v r =>
      rw [List.chain_cons] at hc
      rw [List.cons_append, Z_NextArg_arg _ _ _ _ _ hc.1]
      dsimp only
      rw [Z_Val]
      cases env.ParseDuration v.Text with
      | error err => simp [keyResult, Z_Errf]
      | ok t => simp [keyResult, preAfter, lastTok]
  · rw [if_neg h1, if_neg h1]
    by_cases h2 : k.Text = "allow"
    · rw [if_pos h2, if_pos h2, Z_RemainingArgs rest n args pre k hc he]
      cases args with
      | nil => simp [keyResult, Z_ArgErr, lastTok]
      | cons a as => simp [keyResult]
    · rw [if_neg h2, if_neg h2]
      simp [keyResult, Z_ArgErr]

theorem parseProxyKey_args (env : Env) (n : Int) (pre : List Token) (k : Token)
    (args rest : List Token) (h : ProxyHandler) (h2 : k.Text ≠ "lb_policy")
    (hc : List.Chain argAfter k args) (he : argsEnd (lastTok k args) rest) :
    parseProxyKey env (Z pre k (args ++ rest) n) h =
      some (keyResult pre k args rest n (proxyStep env h k args)) := by
  by_cases h1 : k.Text = "to"
  · unfold parseProxyKey proxyStep
    rw [Z_Val, if_pos h1, if_pos h1, Z_RemainingArgs rest n args pre k hc he]
    cases args with
    | nil => simp [keyResult, Z_ArgErr, lastTok]
    | cons a as => simp [keyResult]
  by_cases hk : k.Text = "lb_try_duration" ∨ k.Text = "lb_try_interval" ∨
      k.Text = "health_port" ∨ k.Text = "health_interval" ∨ k.Text = "health_timeout" ∨
      k.Text = "proxy_protocol"
  · unfold parseProxyKey proxyStep
    rw [Z_Val, if_neg h1, if_neg h2, if_neg h1, if_neg h2]
    cases args with
    | nil =>
      have he1 : argsEnd k rest := he
      rw [List.nil_append, Z_NextArg_end _ _ _ _ he1]
      rcases hk with hk | hk | hk | hk | hk | hk <;>
        simp [hk, proxyOneArg, keyResult, Z_ArgErr]
    | cons v r =>
      rw [List.chain_cons] at hc
      rw [List.cons_append, Z_NextArg_arg _ _ _ _ _ hc.1]
      dsimp only
      rw [Z_Val]
      simp only [Z_Errf]
      rcases hk with hk | hk | hk | hk | hk | hk
      · simp only [hk, proxyOneArg]
        cases env.ParseDuration v.Text <;> simp [keyResult, preAfter, lastTok]
      · simp only [hk, proxyOneArg]
        cases env.ParseDuration v.Text <;> simp [keyResult, preAfter, lastTok]
      · simp only [hk, proxyOneArg]
        cases env.Atoi v.Text <;> simp [keyResult, preAfter, lastTok]
      · simp only [hk, proxyOneArg]
        cases env.ParseDuration v.Text <;> simp [keyResult, preAfter, lastTok]
      · simp only [hk, proxyOneArg]
        cases env.ParseDuration v.Text <;> simp [keyResult, preAfter, lastTok]
      · simp [hk, proxyOneArg, keyResult, preAfter, lastTok]
  · simp only [not_or] at hk
    obtain ⟨k1, k2, k3, k4, k5, k6⟩ := hk
    unfold parseProxyKey proxyStep
    rw [Z_Val, if_neg h1, if_neg h2, if_neg k1, if_neg k2, if_neg k3, if_neg k4, if_neg k5,
      if_neg k6, if_neg h1, if_neg h2]
    have hn : ∀ v, proxyOneArg env h k.Text v = none := by
      intro v
      simp [proxyOneArg, k1, k2, k3, k4, k5, k6]
    cases args with
    | nil => simp [hn, keyResult, preAfter, lastTok]
    | cons v r => simp [hn, keyResult, preAfter, lastTok]

theorem parseTLSKey_specG (n : Int) : KeySpecG parseTLSKey tlsStepG n := by
  intro pre t X tail cp j hn hd ht
  exact KeySpecG_onLine parseTLSKey tlsStep n t
    (fun pre args rest h hc he => parseTLSKey_args n pre t args rest h hc he)
    (fun h h1 args c hs => tlsStep_le h h1 t args c hs) pre X tail cp j hn hd ht

theorem parseProxyProtocolKey_specG (env : Env) (n : Int) :
    KeySpecG (parseProxyProtocolKey env) (proxyProtocolStepG env) n := by
  intro pre t X tail h j hn hd ht
  exact KeySpecG_onLine (parseProxyProtocolKey env) (proxyProtocolStep env) n t
    (fun pre args rest h hc he => parseProxyProtocolKey_args env n pre t args rest h hc he)
    (fun h h1 args c hs => proxyProtocolStep_le env h h1 t args c hs) pre X tail h j hn hd ht

/-- The `lb_policy` case of `parseProxyKey` after the policy name, on the
tokens of a block. -/
theorem proxyPolicyTokens_eq (env : Env) (h : ProxyHandler) (pre : List Token) (nm : Token)
    (X tail : List Token) (n : Int) (j : Nat) (hn : nestOK nm X = true)
    (hd : depthOK j X = true) (ht : lineEnd (lastTok nm X) tail) :
    (if (match h.LoadBalancing with
          | none => false
          | some lb => lb.SelectionPolicyRaw.isSome) = true then
        some (Except.error ((Z pre nm (X ++ tail) n).Err
          "load balancing selection policy already specified"))
      else
        match UnmarshalL4proxySelectionModule env (Z pre nm (X ++ tail) n)
            ("layer4.proxy.selection_policies." ++ (Z pre nm (X ++ tail) n).Val) with
        | none => none
        | some (.error e) => some (.error e)
        | some (.ok (mod, d2)) =>
          if (!mod.isSelector) = true then
            some (.error (d2.Errf "module %s (%T) is not a l4proxy.Selector"
              ["layer4.proxy.selection_policies." ++ (Z pre nm (X ++ tail) n).Val,
                mod.typeName]))
          else
            some (.ok ({ h with LoadBalancing := some { lbOrNew h with
              SelectionPolicyRaw := some (JSONModuleObject mod "policy"
                (Z pre nm (X ++ tail) n).Val) } }, d2))) =
      some (match proxyPolicyTokens env h nm X with
        | .error e => .error e
        | .ok (h1, c) => .ok (h1, Z (preAfter pre nm (X.take (c - 1)))
            (lastTok nm (X.take (c - 1))) (X.drop (c - 1) ++ tail) n)) := by
  have hps : (match h.LoadBalancing with
      | none => false
      | some lb => lb.SelectionPolicyRaw.isSome) = policySet h := rfl
  rw [hps]
  unfold proxyPolicyTokens
  by_cases hp : policySet h = true
  · rw [if_pos hp, if_pos hp, Z_Err]
  · rw [if_neg hp, if_neg hp, Z_Val]
    unfold UnmarshalL4proxySelectionModule
    cases env.GetModule ("layer4.proxy.selection_policies." ++ nm.Text) with
    | error err => simp only [Z_Errf]
    | ok inst =>
      dsimp only
      unfold Dispenser.NewFromNextSegment
      rw [(Z_NextSegment_flat n pre nm X tail j hn hd ht).1]
      dsimp only
      rw [selectionTokens_eq env inst nm (segTokens nm X)]
      cases selectionTokens env inst nm (segTokens nm X) with
      | error e => rfl
      | ok mod =>
        simp only [Z_Errf]
        by_cases hm : (!mod.isSelector) = true
        · rw [if_pos hm, if_pos hm]
        · rw [if_neg hm, if_neg hm]
          simp

theorem proxyPolicyTokens_le (env : Env) (h h1 : ProxyHandler) (nm : Token) (X : List Token)
    (c : Nat) (hs : proxyPolicyTokens env h nm X = .ok (h1, c)) : c = 1 + segLen nm X := by
  unfold proxyPolicyTokens at hs
  by_cases hp : policySet h = true
  · rw [if_pos hp] at hs; cases hs
  · rw [if_neg hp] at hs
    cases hg : env.GetModule ("layer4.proxy.selection_policies." ++ nm.Text) with
    | error err => rw [hg] at hs; cases hs
    | ok inst =>
      rw [hg] at hs
      dsimp only at hs
      cases hsel : selectionTokens env inst nm (segTokens nm X) with
      | error e => rw [hsel] at hs; cases hs
      | ok mod =>
        rw [hsel] at hs
        dsimp only at hs
        by_cases hm : (!mod.isSelector) = true
        · rw [if_pos hm] at hs; cases hs
        · rw [if_neg hm] at hs
          simp only [Except.ok.injEq, Prod.mk.injEq] at hs
          exact hs.2.symm

theorem parseProxyKey_specG (env : Env) (n : Int) :
    KeySpecG (parseProxyKey env) (proxyStepG env) n := by
  intro pre t X tail h j hn hd ht
  by_cases h2 : t.Text = "lb_policy"
  · have h1 : t.Text ≠ "to" := by rw [h2]; decide
    unfold proxyStepG
    rw [if_pos h2]
    cases X with
    | nil =>
      constructor
      · unfold parseProxyKey
        have he1 : argsEnd t tail := lineEnd_argsEnd ht
        rw [Z_Val, if_neg h1, if_pos h2, List.nil_append, Z_NextArg_end _ _ _ _ he1]
        simp [keyResult, Z_ArgErr]
      · intro h1 c hs; cases hs
    | cons nm X1 =>
      by_cases ca : isNextOnNewLine t nm = false ∧ nm.Text ≠ "\x7b"
      · have hw : notBrace nm := by
          refine ⟨ca.2, ?_⟩
          intro hc
          have := nestOK_close hn hc
          rw [ca.1] at this
          cases this
        have hd1 : depthOK j X1 = true := by
          rw [depthOK_word hw] at hd; exact hd
        have hn1 : nestOK nm X1 = true := nestOK_cons hn
        obtain ⟨_, s2, s3⟩ := Z_NextSegment_flat n (pre ++ [t]) nm X1 tail j hn1 hd1 ht
        dsimp only
        rw [if_pos ca]
        constructor
        · unfold parseProxyKey
          rw [Z_Val, if_neg h1, if_pos h2, List.cons_append, Z_NextArg_arg _ _ _ _ _ ca]
          dsimp only
          refine (proxyPolicyTokens_eq env h (pre ++ [t]) nm X1 tail n j hn1 hd1 ht).trans ?_
          cases hs : proxyPolicyTokens env h nm X1 with
          | error e => rfl
          | ok r =>
            obtain ⟨h1, c⟩ := r
            have hc := proxyPolicyTokens_le env h h1 nm X1 c hs
            subst hc
            have e1 : (nm :: X1).take (1 + segLen nm X1) = nm :: X1.take (segLen nm X1) := by
              rw [Nat.add_comm]; rfl
            have e2 : (nm :: X1).drop (1 + segLen nm X1) = X1.drop (segLen nm X1) := by
              rw [Nat.add_comm]; rfl
            simp only [keyResult, e1, e2, Nat.add_sub_cancel_left, preAfter, lastTok]
        · intro h1 c hs
          have hc := proxyPolicyTokens_le env h h1 nm X1 c hs
          subst hc
          refine ⟨by simp; omega, ?_⟩
          have : (nm :: X1).drop (1 + segLen nm X1) = X1.drop (segLen nm X1) := by
            rw [Nat.add_comm]; rfl
          rw [this]
          exact s3
      · dsimp only
        rw [if_neg ca]
        constructor
        · unfold parseProxyKey
          rw [Z_Val, if_neg h1, if_pos h2, List.cons_append,
            Z_NextArg_end _ _ _ _ (argsEnd_of_not ca)]
          simp [keyResult, Z_ArgErr]
        · intro h1 c hs; cases hs
  · unfold proxyStepG
    rw [if_neg h2]
    exact KeySpecG_onLine (parseProxyKey env) (proxyStep env) n t
      (fun pre args rest h hc he => parseProxyKey_args env n pre t args rest h h2 hc he)
      (fun h h1 args c hs => proxyStep_le env h h1 t args c hs) pre X tail h j hn hd ht

/-! ## The loop over a block with nested blocks -/

theorem stepNesting_depth (N : Int) {t : Token} {X : List Token} {j : Nat}
    (hd : depthOK j (t :: X) = true) :
    ∃ j1 : Nat, stepNesting t (N + 1 + j) = N + 1 + j1 ∧ depthOK j1 X = true := by
  unfold stepNesting
  by_cases c2 : t.Text = "\x7d"
  · rw [depthOK_close c2] at hd
    by_cases hj : j = 0
    · rw [if_pos hj] at hd; cases hd
    · rw [if_neg hj] at hd
      refine ⟨j - 1, ?_, hd⟩
      rw [if_pos c2]
      omega
  · by_cases c1 : t.Text = "\x7b"
    · rw [depthOK_open c1] at hd
      refine ⟨j + 1, ?_, hd⟩
      rw [if_neg c2, if_pos c1]
      push_cast
      omega
    · rw [depthOK_word ⟨c1, c2⟩] at hd
      exact ⟨j, by rw [if_neg c2, if_neg c1], hd⟩

theorem nestOK_last {cur : Token} {X : List Token} {rb : Token}
    (h : nestOK cur (X ++ [rb]) = true) (hr : rb.Text = "\x7d") :
    isNextOnNewLine (lastTok cur X) rb = true := by
  rw [nestOK_append] at h
  simp only [Bool.and_eq_true] at h
  exact nestOK_close h.2 hr

/-- The loop `for d.NextBlock(nesting)` inside a block with nested blocks: it
reads every token up to the closing brace of the block as a key, the braces of
the nested blocks included, except the tokens a key consumes. -/
theorem blockLoop_flat {H : Type}
    (keyFn : Dispenser → H → Option (Except Error (H × Dispenser)))
    (step : H → Token → List Token → Except Error (H × Nat)) (N : Int)
    (hk : ∀ n, KeySpecG keyFn step n) (rb : Token) (hr : rb.Text = "\x7d") :
    ∀ (m : Nat) (X pre : List Token) (cur : Token) (h : H) (j fuel : Nat), X.length ≤ m →
      nestOK cur (X ++ [rb]) = true → depthOK j X = true → X.length < fuel →
      blockLoop keyFn N fuel (Z pre cur (X ++ [rb]) (N + 1 + j)) h =
        some (blockResult (pre ++ cur :: X) rb N (walkWords step h X)) := by
  intro m
  induction m with
  | zero =>
    intro X pre cur h j fuel hm hn hd hf
    have : X = [] := List.length_eq_zero.mp (Nat.le_zero.mp hm)
    subst this
    have hj := depthOK_nil hd
    subst hj
    cases fuel with
    | zero => simp at hf
    | succ f =>
      unfold blockLoop
      rw [List.nil_append, Z_NextBlock_step pre cur rb [] N _ (by simp) (fun _ => trivial)]
      have e : stepNesting rb (N + 1 + ((0 : Nat) : Int)) = N := by
        unfold stepNesting
        rw [if_pos hr]
        simp
      rw [e]
      simp [blockResult, walkWords_nil]
  | succ m ih =>
    intro X pre cur h j fuel hm hn hd hf
    cases X with
    | nil =>
      have hj := depthOK_nil hd
      subst hj
      cases fuel with
      | zero => simp at hf
      | succ f =>
        unfold blockLoop
        rw [List.nil_append, Z_NextBlock_step pre cur rb [] N _ (by simp)
          (fun _ => trivial)]
        have e : stepNesting rb (N + 1 + ((0 : Nat) : Int)) = N := by
          unfold stepNesting
          rw [if_pos hr]
          simp
        rw [e]
        simp [blockResult, walkWords_nil]
    | cons t X1 =>
      cases fuel with
      | zero => simp at hf
      | succ f =>
        have hn1 : nestOK t (X1 ++ [rb]) = true := nestOK_cons hn
        obtain ⟨j1, e1, hd1⟩ := stepNesting_depth N hd
        unfold blockLoop
        rw [List.cons_append, Z_NextBlock_step pre cur t (X1 ++ [rb]) N _ (by omega)
          (fun hb => by
            have : lineEnd t (X1 ++ rb :: []) := lineEnd_head hn1 hb
            simpa using this), e1]
        have hdec : decide (N + 1 + (j1 : Int) > N) = true := by
          simp; omega
        rw [hdec]
        dsimp only
        have hn2 : nestOK t X1 = true := by
          rw [nestOK_append] at hn1
          simp only [Bool.and_eq_true] at hn1
          exact hn1.1
        obtain ⟨k1, k2⟩ := hk (N + 1 + j1) (pre ++ [cur]) t X1 [rb] h j1 hn2 hd1
          (nestOK_last hn1 hr)
        rw [k1, walkWords_cons]
        cases hs : step h t X1 with
        | error e => rfl
        | ok r =>
          obtain ⟨h1, c⟩ := r
          obtain ⟨hc, hdc⟩ := k2 h1 c hs
          simp only [keyResult]
          have hnd : nestOK (lastTok t (X1.take c)) (X1.drop c ++ [rb]) = true := by
            have := nestOK_drop hn1 c
            rw [List.take_append_of_le_length hc, List.drop_append_of_le_length hc] at this
            exact this
          rw [ih (X1.drop c) _ _ h1 j1 f (by simp at hm ⊢; omega) hnd hdc
            (by simp at hf ⊢; omega)]
          have e2 := Z_after_key (pre ++ [cur]) t X1 [] c
          simp only [List.append_nil] at e2
          rw [e2]
          simp

theorem blockBody_cons (lb : Token) (body : List Token) (rb : Token) :
    blockBody (lb :: (body ++ [rb])) = body := by
  simp [blockBody]

/-- The loop `for d.NextBlock(nesting)` on the block of a directive, nested
blocks included. -/
theorem blockLoop_nested {H : Type}
    (keyFn : Dispenser → H → Option (Except Error (H × Dispenser)))
    (step : H → Token → List Token → Except Error (H × Nat)) (n : Int)
    (hk : ∀ n, KeySpecG keyFn step n) (pre : List Token) (last : Token) (G : List Token)
    (h : H) (fuel : Nat) (hb : nestedBlock last G) (hf : G.length < fuel) :
    blockLoop keyFn n fuel (Z pre last G n) h =
      some (blockResult (preAfter pre last G) (lastTok last G) n
        (walkWords step h (blockBody G))) := by
  cases fuel with
  | zero => simp at hf
  | succ f =>
    rcases hb with hb | ⟨lb, body, rb, hG, b1, b2, b3, b4, b5⟩
    · subst hb
      unfold blockLoop
      rw [Z_NextBlock_lineEnd _ _ _ _ (by trivial)]
      simp [blockBody, walkWords_nil, blockResult, preAfter, lastTok]
    · subst hG
      rw [blockBody_cons]
      have e3 : preAfter pre last (lb :: (body ++ [rb])) = pre ++ last :: lb :: body := by
        have := preAfter_snoc pre last (lb :: body) rb
        simpa using this
      have e4 : lastTok last (lb :: (body ++ [rb])) = rb := by
        have := lastTok_snoc last (lb :: body) rb
        simpa using this
      rw [e3, e4]
      cases body with
      | nil =>
        unfold blockLoop
        rw [List.nil_append, Z_NextBlock_empty _ _ _ _ _ _ b1 b2 b3]
        simp [walkWords_nil, blockResult]
      | cons t B1 =>
        have ht0 : nestOK lb (t :: (B1 ++ [rb])) = true := b4
        have hbrk : isNextOnNewLine lb t = true := nestOK_brace ht0 (by simp [isBrace, b2])
        have t2 : t.Text ≠ "\x7d" := by
          intro hc
          rw [depthOK_close hc] at b5
          simp at b5
        have t1 : t.Text ≠ "\x7b" := by
          intro hc
          have := (nestOK_open ht0 hc).1
          rw [hbrk] at this
          cases this
        rw [depthOK_word ⟨t1, t2⟩] at b5
        have hn1 : nestOK t (B1 ++ [rb]) = true := nestOK_cons ht0
        have hn2 : nestOK t B1 = true := by
          rw [nestOK_append] at hn1
          simp only [Bool.and_eq_true] at hn1
          exact hn1.1
        unfold blockLoop
        rw [List.cons_append, Z_NextBlock_open _ _ _ _ _ _ b1 b2 t2]
        dsimp only
        have eM : n + 1 = n + 1 + ((0 : Nat) : Int) := by simp
        obtain ⟨k1, k2⟩ := hk (n + 1) (pre ++ [last, lb]) t B1 [rb] h 0 hn2 b5
          (nestOK_last hn1 b3)
        rw [k1, walkWords_cons]
        cases hs : step h t B1 with
        | error e => rfl
        | ok r =>
          obtain ⟨h1, c⟩ := r
          obtain ⟨hc, hdc⟩ := k2 h1 c hs
          simp only [keyResult]
          have hnd : nestOK (lastTok t (B1.take c)) (B1.drop c ++ [rb]) = true := by
            have := nestOK_drop hn1 c
            rw [List.take_append_of_le_length hc, List.drop_append_of_le_length hc] at this
            exact this
          rw [eM, blockLoop_flat keyFn step n hk rb b3 (B1.drop c).length (B1.drop c) _ _ h1 0 f
            (le_refl _) hnd hdc (by simp at hf ⊢; omega)]
          have e2 := Z_after_key (pre ++ [last, lb]) t B1 [] c
          simp only [List.append_nil] at e2
          rw [e2]
          simp

/-! ## Segments of one directive (C1) -/

theorem nestedBlock_argsEnd {last : Token} {G : List Token} (hb : nestedBlock last G) :
    argsEnd last G := by
  rcases hb with hb | ⟨lb, body, rb, hG, _, b2, _⟩
  · subst hb; trivial
  · subst hG; exact Or.inr b2

/-- The handler `parseTLS` compiles from the block of a `tls` directive, nested
blocks included, and the cursor it leaves on the last token. -/
theorem parseTLS_nested (pre : List Token) (kw : Token) (G : List Token)
    (hb : nestedBlock kw G) :
    parseTLS (Z pre kw G 0) =
      some (blockResult (preAfter pre kw G) (lastTok kw G) 0
        ((walkWords tlsStepG newConnectionPolicy (blockBody G)).map
          (fun cp => { ConnectionPolicies := [cp] }))) := by
  unfold parseTLS
  dsimp only
  rw [parseTLSLoop_eq, blockLoop_nested parseTLSKey tlsStepG 0 parseTLSKey_specG pre kw G _ _
    hb (by simp [Z]; omega)]
  rcases walkWords tlsStepG newConnectionPolicy (blockBody G) with e | cp
  · rfl
  · simp [blockResult, newTLSHandler, Except.map]

/-- The handler `parseProxy` compiles from the arguments and the block of a
`proxy` directive, nested blocks included, and the cursor it leaves on the
last token. -/
theorem parseProxy_nested (env : Env) (pre : List Token) (kw : Token) (args G : List Token)
    (n : Int) (hc : List.Chain argAfter kw args) (hb : nestedBlock (lastTok kw args) G) :
    parseProxy env (Z pre kw (args ++ G) n) =
      some (blockResult (preAfter pre kw (args ++ G)) (lastTok kw (args ++ G)) n
        (walkWords (proxyStepG env) (appendUpstream newProxyHandler (args.map Token.Text))
          (blockBody G))) := by
  unfold parseProxy
  dsimp only
  rw [Z_RemainingArgs G n args pre kw hc (nestedBlock_argsEnd hb)]
  dsimp only
  have hn : (Z (preAfter pre kw args) (lastTok kw args) G n).Nesting = n := rfl
  rw [hn, parseProxyLoop_eq, blockLoop_nested (parseProxyKey env) (proxyStepG env) n
    (parseProxyKey_specG env) _ _ G _ _ hb (by simp [Z]; omega), preAfter_append,
    lastTok_append]

/-- The handler `parseProxyProtocol` compiles from the block of a
`proxy_protocol` directive, nested blocks included; arguments on the line of
the directive are an error. -/
theorem parseProxyProtocol_nested (env : Env) (pre : List Token) (kw : Token)
    (args G : List Token) (n : Int) (hc : List.Chain argAfter kw args)
    (hb : nestedBlock (lastTok kw args) G) :
    parseProxyProtocol env (Z pre kw (args ++ G) n) =
      some (if args = [] then
          blockResult (preAfter pre kw G) (lastTok kw G) n
            (walkWords (proxyProtocolStepG env) newProxyProtocolHandler (blockBody G))
        else .error (Error.ArgErr (lastTok kw args).File (lastTok kw args).Line
            (lastTok kw args).Text)) := by
  unfold parseProxyProtocol
  dsimp only
  rw [Z_RemainingArgs G n args pre kw hc (nestedBlock_argsEnd hb)]
  dsimp only
  cases args with
  | nil =>
    simp only [List.map_nil, List.length_nil, gt_iff_lt, lt_self_iff_false, if_false,
      if_true]
    have hn : (Z (preAfter pre kw []) (lastTok kw []) G n).Nesting = n := rfl
    rw [hn, parseProxyProtocolLoop_eq, blockLoop_nested (parseProxyProtocolKey env)
      (proxyProtocolStepG env) n (parseProxyProtocolKey_specG env) _ _ G _ _ hb
      (by simp [Z]; omega), preAfter_append, lastTok_append]
    rfl
  | cons a as =>
    simp [Z_ArgErr]

theorem blockResult_cases {H : Type} (pre : List Token) (rb : Token) (n : Int)
    (r : Except Error H) :
    (∃ e, blockResult pre rb n r = .error e) ∨
    (∃ h, blockResult pre rb n r = .ok (h, Z pre rb [] n)) := by
  cases r with
  | error e => exact Or.inl ⟨e, rfl⟩
  | ok h => exact Or.inr ⟨h, rfl⟩

/-- The handlers compiled from a segment that is exactly one directive: the
error of its handler compiler, or one handler, tagged with the keyword. -/
theorem segmentHandlers_directive (env : Env) (seg : List Token) (hd : directiveSegment seg) :
    (∀ e, handlerError env seg = some e → segmentHandlers env seg = some (.error e)) ∧
    (handlerError env seg = none →
      ∃ x, segmentHandlers env seg = some (.ok [x]) ∧
        [x.fieldVal] = (seg.take 1).map Token.Text) := by
  obtain ⟨kw, args, G, hseg, hc, hb, hk⟩ := hd
  subst hseg
  unfold segmentHandlers handlerError
  have hf : (kw :: (args ++ G)).length + 2 = ((args ++ G).length + 1 + 1) + 1 := by simp
  rw [hf]
  unfold DirectiveHandlers
  rw [NewDispenser_Next]
  dsimp only
  rw [Z_Val]
  simp only [List.take_succ_cons, List.take_zero, List.map_cons, List.map_nil]
  rcases hk with ⟨h1, h2, h3⟩ | ⟨h1, h2⟩ | h1 | h1
  · subst h2 h3
    have n1 : ¬kw.Text = "tls" := by rw [h1]; decide
    have n2 : ¬kw.Text = "proxy" := by rw [h1]; decide
    have n3 : ¬kw.Text = "proxy_protocol" := by rw [h1]; decide
    simp only [if_pos h1, if_neg n1, if_neg n2, if_neg n3, List.append_nil,
      DirectiveHandlers_end, consHandler]
    refine ⟨(fun e he => by cases he), fun _ => ⟨_, rfl, ?_⟩⟩
    simp [JSONModuleObject, h1]
  · subst h2
    have n1 : ¬kw.Text = "echo" := by rw [h1]; decide
    simp only [if_pos h1, if_neg n1, List.nil_append]
    rw [parseTLS_nested [] kw G hb, h1]
    rcases blockResult_cases (preAfter [] kw G) (lastTok kw G) 0
      ((walkWords tlsStepG newConnectionPolicy (blockBody G)).map
        (fun cp => ({ ConnectionPolicies := [cp] } : TLSHandler))) with ⟨e, he⟩ | ⟨h, he⟩
    · rw [he]
      exact ⟨(fun e1 h1 => by cases h1; rfl), (fun h1 => by cases h1)⟩
    · rw [he]
      exact ⟨(fun e1 h1 => by cases h1),
        fun _ => ⟨_, consHandler_end env _ _ _ _ _, rfl⟩⟩
  · have n1 : ¬kw.Text = "echo" := by rw [h1]; decide
    have n2 : ¬kw.Text = "tls" := by rw [h1]; decide
    simp only [if_pos h1, if_neg n1, if_neg n2]
    rw [parseProxy_nested env [] kw args G 0 hc hb, h1]
    rcases blockResult_cases (preAfter [] kw (args ++ G)) (lastTok kw (args ++ G)) 0
      (walkWords (proxyStepG env) (appendUpstream newProxyHandler (args.map Token.Text))
        (blockBody G)) with ⟨e, he⟩ | ⟨h, he⟩
    · rw [he]
      exact ⟨(fun e1 h1 => by cases h1; rfl), (fun h1 => by cases h1)⟩
    · rw [he]
      exact ⟨(fun e1 h1 => by cases h1),
        fun _ => ⟨_, consHandler_end env _ _ _ _ _, rfl⟩⟩
  · have n1 : ¬kw.Text = "echo" := by rw [h1]; decide
    have n2 : ¬kw.Text = "tls" := by rw [h1]; decide
    have n3 : ¬kw.Text = "proxy" := by rw [h1]; decide
    simp only [if_pos h1, if_neg n1, if_neg n2, if_neg n3]
    rw [parseProxyProtocol_nested env [] kw args G 0 hc hb, h1]
    by_cases ha : args = []
    · subst ha
      simp only [if_true]
      rcases blockResult_cases (preAfter [] kw G) (lastTok kw G) 0
        (walkWords (proxyProtocolStepG env) newProxyProtocolHandler (blockBody G))
        with ⟨e, he⟩ | ⟨h, he⟩
      · rw [he]
        exact ⟨(fun e1 h1 => by cases h1; rfl), (fun h1 => by cases h1)⟩
      · rw [he]
        exact ⟨(fun e1 h1 => by cases h1),
          fun _ => ⟨_, consHandler_end env _ _ _ _ _, rfl⟩⟩
    · rw [if_neg ha]
      exact ⟨(fun e1 h1 => by cases h1; rfl), (fun h1 => by cases h1)⟩

theorem segmentsHandlers_directives (env : Env) (segs : List (List Token))
    (hd : ∀ seg ∈ segs, directiveSegment seg) :
    (∀ e, segs.findSome? (handlerError env) = some e →
      segmentsHandlers env segs = some (.error e)) ∧
    (segs.findSome? (handlerError env) = none →
      ∃ hs, segmentsHandlers env segs = some (.ok hs) ∧
        hs.map (fun x => [x.fieldVal]) = segs.map (fun seg => (seg.take 1).map Token.Text)) := by
  induction segs with
  | nil => exact ⟨(fun e he => by cases he), fun _ => ⟨[], rfl, rfl⟩⟩
  | cons s rest ih =>
    obtain ⟨p1, p2⟩ := segmentHandlers_directive env s (hd s (List.mem_cons_self _ _))
    obtain ⟨q1, q2⟩ := ih (fun seg hm => hd seg (List.mem_cons_of_mem _ hm))
    unfold segmentsHandlers
    rw [List.findSome?_cons]
    cases he : handlerError env s with
    | some e =>
      rw [p1 e he]
      exact ⟨(fun e1 h1 => by cases h1; rfl), (fun h1 => by cases h1)⟩
    | none =>
      obtain ⟨x, hx, ht⟩ := p2 he
      rw [hx]
      dsimp only
      constructor
      · intro e h1
        rw [q1 e h1]
      · intro h1
        obtain ⟨hs, e2, e3⟩ := q2 h1
        rw [e2]
        refine ⟨_, rfl, ?_⟩
        simp only [List.singleton_append, List.map_cons]
        rw [e3, ht]

theorem directivesBlock_segments : ∀ seg ∈ directivesBlock.Segments, directiveSegment seg := by
  intro seg hm
  simp only [directivesBlock, List.mem_cons, List.mem_singleton, List.not_mem_nil, or_false] at hm
  rcases hm with h | h | h | h
  · subst h
    exact ⟨tok 1 "echo", [], [], rfl, List.Chain.nil, Or.inl rfl, Or.inl ⟨rfl, rfl, rfl⟩⟩
  · subst h
    exact ⟨tok 2 "tls", [], [tok 2 "\x7b", tok 3 "alpn", tok 3 "h2", tok 4 "\x7d"],
      rfl, List.Chain.nil,
      Or.inr ⟨tok 2 "\x7b", [tok 3 "alpn", tok 3 "h2"], tok 4 "\x7d", rfl, by decide, rfl, rfl,
        by decide, by decide⟩,
      Or.inr (Or.inl ⟨rfl, rfl⟩)⟩
  · subst h
    exact ⟨tok 5 "proxy", [tok 5 "up:1"],
      [tok 5 "\x7b", tok 6 "lb_policy", tok 6 "round_robin",
        tok 6 "\x7b", tok 7 "foo", tok 8 "\x7d", tok 9 "echo", tok 10 "\x7d"], rfl,
      List.Chain.cons ⟨rfl, by decide⟩ List.Chain.nil,
      Or.inr ⟨tok 5 "\x7b", [tok 6 "lb_policy", tok 6 "round_robin",
        tok 6 "\x7b", tok 7 "foo", tok 8 "\x7d", tok 9 "echo"], tok 10 "\x7d", rfl, by decide,
        rfl, rfl, by decide, by decide⟩,
      Or.inr (Or.inr (Or.inl rfl))⟩
  · subst h
    exact ⟨tok 11 "proxy_protocol", [], [], rfl, List.Chain.nil, Or.inl rfl,
      Or.inr (Or.inr (Or.inr rfl))⟩

/-- C1: for every server block whose address keys all parse and whose every
segment is exactly one recognised directive (`echo`; `tls` with an optional
block; `proxy` with its arguments and an optional block; `proxy_protocol`
with an optional block; a block may hold nested blocks to any depth), `Setup`
compiles the block to a server exactly when the handler compiler of every
segment succeeds, and that server has exactly one route per segment, in
segment order, the route of the i-th segment holding exactly one handler,
tagged with the keyword of the i-th segment; otherwise it returns the error of
the first segment whose handler compiler fails. -/
theorem Setup_one_route_per_directive (env : Env) (b : ServerBlock) (al : List String)
    (hkeys : ∀ k ∈ b.Keys, ∃ a, env.ParseAddress k = .ok a)
    (hsegs : ∀ seg ∈ b.Segments, directiveSegment seg) :
    (b.Segments.findSome? (handlerError env) = none →
      ∃ server al1, SetupBlock env b al = some (.ok (server, al1)) ∧
        server.Routes.map (fun rt => rt.HandlersRaw.map (fun x => x.fieldVal)) =
          b.Segments.map (fun seg => (seg.take 1).map Token.Text)) ∧
    (∀ e, b.Segments.findSome? (handlerError env) = some e →
      SetupBlock env b al = some (.error e)) := by
  obtain ⟨p1, p2⟩ := segmentsHandlers_directives env b.Segments hsegs
  have hk : b.Keys.findSome? (keyError env) = none := by
    rw [List.findSome?_eq_none_iff]
    intro k hm
    obtain ⟨a, ha⟩ := hkeys k hm
    simp [keyError, ha]
  rw [SetupBlock_eq, hk]
  dsimp only
  constructor
  · intro hn
    obtain ⟨hs, e1, e2⟩ := p2 hn
    rw [e1]
    refine ⟨_, _, rfl, ?_⟩
    rw [← e2]
    simp [addRoutes]
  · intro e he
    rw [p1 e he]
    rfl

theorem Setup_one_route_per_directive_witness :
    (∀ k ∈ directivesBlock.Keys, ∃ a, sampleEnv.ParseAddress k = .ok a) ∧
    (∀ seg ∈ directivesBlock.Segments, directiveSegment seg) ∧
    directivesBlock.Segments.findSome? (handlerError sampleEnv) = none ∧
    ∃ server al1, SetupBlock sampleEnv directivesBlock [] = some (.ok (server, al1)) ∧
      server.Routes.map (fun rt => rt.HandlersRaw.map (fun x => x.fieldVal)) =
        [["echo"], ["tls"], ["proxy"], ["proxy_protocol"]] :=
  ⟨fun k hm => by
      simp only [directivesBlock, List.mem_singleton] at hm
      subst hm
      exact ⟨_, rfl⟩,
   directivesBlock_segments, rfl,
   (Setup_one_route_per_directive sampleEnv directivesBlock []
     (fun k hm => by
      simp only [directivesBlock, List.mem_singleton] at hm
      subst hm
      exact ⟨_, rfl⟩)
     directivesBlock_segments).1 rfl⟩

/-! ## Two `lb_policy` lines in a `proxy` block (C7) -/

theorem lineArgs_append_line : ∀ (P : List Token) (t k : Token) (Q : List Token),
    isNextOnNewLine (lastTok t P) k = true → lineArgs t (P ++ k :: Q) = lineArgs t P := by
  intro P
  induction P with
  | nil =>
    intro t k Q hk
    have hk1 : isNextOnNewLine t k = true := hk
    simp [lineArgs, hk1]
  | cons a P1 ih =>
    intro t k Q hk
    rw [List.cons_append, lineArgs, lineArgs]
    by_cases c : isNextOnNewLine t a = false ∧ a.Text ≠ "\x7b"
    · rw [if_pos c, if_pos c, ih a k Q hk]
    · rw [if_neg c, if_neg c]

theorem depthOK_tail {t : Token} {X : List Token} {j : Nat} (hd : depthOK j (t :: X) = true) :
    ∃ j1 : Nat, depthOK j1 X = true := by
  obtain ⟨j1, _, h⟩ := stepNesting_depth 0 hd
  exact ⟨j1, h⟩

theorem segBlockLen_le (last : Token) (Y : List Token) (j : Nat) (hd : depthOK j Y = true) :
    segBlockLen last Y ≤ Y.length := by
  cases Y with
  | nil => simp [segBlockLen]
  | cons lb Y1 =>
    rw [segBlockLen]
    by_cases c : lb.Text = "\x7b" ∧ isNextOnNewLine last lb = false
    · rw [if_pos c]
      rw [depthOK_open c.1] at hd
      obtain ⟨Bk, rb, Y2, e1, b1, r1, _⟩ := depthOK_split Y1.length Y1 j (le_refl _) hd
      subst e1
      rw [blockLen_split Bk rb Y2 0 b1 r1]
      simp
      omega
    · rw [if_neg c]
      omega

theorem segBlockLen_append_line (last : Token) (Y : List Token) (k : Token) (Q : List Token)
    (j : Nat) (hd : depthOK j Y = true) (hk : isNextOnNewLine (lastTok last Y) k = true) :
    segBlockLen last (Y ++ k :: Q) = segBlockLen last Y := by
  cases Y with
  | nil =>
    have hk1 : isNextOnNewLine last k = true := hk
    simp [segBlockLen, hk1]
  | cons lb Y1 =>
    simp only [List.cons_append, segBlockLen]
    by_cases c : lb.Text = "\x7b" ∧ isNextOnNewLine last lb = false
    · rw [if_pos c, if_pos c]
      rw [depthOK_open c.1] at hd
      obtain ⟨Bk, rb, Y2, e1, b1, r1, _⟩ := depthOK_split Y1.length Y1 j (le_refl _) hd
      subst e1
      have e : Bk ++ rb :: Y2 ++ k :: Q = Bk ++ rb :: (Y2 ++ k :: Q) := by simp
      rw [e, blockLen_split Bk rb _ 0 b1 r1, blockLen_split Bk rb Y2 0 b1 r1]
    · rw [if_neg c, if_neg c]

/-- The segment of a token does not reach beyond the line that starts after
the balanced tokens `P`. -/
theorem segment_append_line (t : Token) (P : List Token) (k : Token) (Q : List Token) (j : Nat)
    (hn : nestOK t P = true) (hd : depthOK j P = true)
    (hk : isNextOnNewLine (lastTok t P) k = true) :
    segLen t (P ++ k :: Q) = segLen t P ∧ segTokens t (P ++ k :: Q) = segTokens t P ∧
    segLen t P ≤ P.length := by
  have hp := lineArgs_split P t
  have hl := lineArgs_length_le P t
  have hd2 := depthOK_lineArgs P t j hn
  rw [hd] at hd2
  have ha := lineArgs_append_line P t k Q hk
  unfold segLen segTokens
  rw [ha]
  generalize lineArgs t P = args at hp hl hd2
  generalize hY : P.drop args.length = Y at hp hd2
  have e1 : (P ++ k :: Q).drop args.length = Y ++ k :: Q := by
    rw [List.drop_append_of_le_length hl, hY]
  have hk2 : isNextOnNewLine (lastTok (lastTok t args) Y) k = true := by
    rw [lastTok_append, hp]; exact hk
  have hle := segBlockLen_le (lastTok t args) Y j hd2
  have hlen : args.length + Y.length = P.length := by
    rw [← hp]; simp
  rw [e1, segBlockLen_append_line (lastTok t args) Y k Q j hd2 hk2]
  refine ⟨rfl, ?_, by omega⟩
  unfold segBlock
  rw [segBlockLen_append_line (lastTok t args) Y k Q j hd2 hk2,
    List.take_append_of_le_length hle]

theorem proxyStepG_le (env : Env) (h h1 : ProxyHandler) (t : Token) (X : List Token) (j c : Nat)
    (hn : nestOK t X = true) (hd : depthOK j X = true)
    (hs : proxyStepG env h t X = .ok (h1, c)) :
    c ≤ X.length ∧ depthOK j (X.drop c) = true :=
  (parseProxyKey_specG env 0 [] t X [] h j hn hd trivial).2 h1 c hs

theorem argAfter_word {t nm : Token} {X : List Token} (hn : nestOK t (nm :: X) = true)
    (ca : isNextOnNewLine t nm = false ∧ nm.Text ≠ "\x7b") : notBrace nm := by
  refine ⟨ca.2, ?_⟩
  intro hc
  have := nestOK_close hn hc
  rw [ca.1] at this
  cases this

/-- A step of `parseProxyKey` does not depend on the tokens from the next line
of the block on. -/
theorem proxyStepG_append_line (env : Env) (h : ProxyHandler) (t : Token) (P : List Token)
    (k : Token) (Q : List Token) (j : Nat) (hn : nestOK t P = true) (hd : depthOK j P = true)
    (hk : isNextOnNewLine (lastTok t P) k = true) :
    proxyStepG env h t (P ++ k :: Q) = proxyStepG env h t P := by
  unfold proxyStepG
  by_cases h2 : t.Text = "lb_policy"
  · rw [if_pos h2, if_pos h2]
    cases P with
    | nil =>
      have hk1 : isNextOnNewLine t k = true := hk
      simp [hk1]
    | cons nm P1 =>
      simp only [List.cons_append]
      by_cases ca : isNextOnNewLine t nm = false ∧ nm.Text ≠ "\x7b"
      · rw [if_pos ca, if_pos ca]
        have hw := argAfter_word hn ca
        rw [depthOK_word hw] at hd
        obtain ⟨s1, s2, s3⟩ := segment_append_line nm P1 k Q j (nestOK_cons hn) hd hk
        unfold proxyPolicyTokens
        rw [s1, s2, List.take_append_of_le_length s3]
      · rw [if_neg ca, if_neg ca]
  · rw [if_neg h2, if_neg h2, lineArgs_append_line P t k Q hk]

/-- The keys of a block up to a line of the block are read before the key that
starts this line. -/
theorem walkWords_proxy_line (env : Env) : ∀ (m : Nat) (P : List Token), P.length ≤ m →
    ∀ (prev : Token) (h : ProxyHandler) (k : Token) (Q : List Token) (j : Nat),
    nestOK prev P = true → depthOK j P = true → isNextOnNewLine (lastTok prev P) k = true →
    walkWords (proxyStepG env) h (P ++ k :: Q) =
      (walkWords (proxyStepG env) h P).bind
        (fun h1 => walkWords (proxyStepG env) h1 (k :: Q)) := by
  intro m
  induction m with
  | zero =>
    intro P hm prev h k Q j _ _ _
    have : P = [] := List.length_eq_zero.mp (Nat.le_zero.mp hm)
    subst this
    rw [walkWords_nil]
    rfl
  | succ m ih =>
    intro P hm prev h k Q j hn hd hk
    cases P with
    | nil =>
      rw [walkWords_nil]
      rfl
    | cons t P1 =>
      obtain ⟨j1, hd1⟩ := depthOK_tail hd
      have hn1 : nestOK t P1 = true := nestOK_cons hn
      have hk1 : isNextOnNewLine (lastTok t P1) k = true := hk
      rw [List.cons_append, walkWords_cons, walkWords_cons,
        proxyStepG_append_line env h t P1 k Q j1 hn1 hd1 hk1]
      cases hs : proxyStepG env h t P1 with
      | error e => rfl
      | ok r =>
        obtain ⟨h1, c⟩ := r
        obtain ⟨hc, hdc⟩ := proxyStepG_le env h h1 t P1 j1 c hn1 hd1 hs
        dsimp only
        rw [List.drop_append_of_le_length hc]
        have hk2 : isNextOnNewLine (lastTok (lastTok t (P1.take c)) (P1.drop c)) k = true := by
          rw [lastTok_append, List.take_append_drop]; exact hk1
        exact ih (P1.drop c) (by simp at hm ⊢; omega) _ h1 k Q j1 (nestOK_drop hn1 c) hdc hk2

theorem proxyStepG_policySet (env : Env) (h h1 : ProxyHandler) (t : Token) (X : List Token)
    (c : Nat) (hs : proxyStepG env h t X = .ok (h1, c)) :
    (policySet h = true → policySet h1 = true) ∧
    (t.Text = "lb_policy" → policySet h1 = true) := by
  unfold proxyStepG at hs
  by_cases h2 : t.Text = "lb_policy"
  · rw [if_pos h2] at hs
    have key : policySet h1 = true := by
      cases X with
      | nil => cases hs
      | cons nm X1 =>
        dsimp only at hs
        by_cases ca : isNextOnNewLine t nm = false ∧ nm.Text ≠ "\x7b"
        · rw [if_pos ca] at hs
          unfold proxyPolicyTokens at hs
          split at hs
          · cases hs
          · split at hs
            · cases hs
            · split at hs
              · cases hs
              · split at hs
                · cases hs
                · cases hs
                  rfl
        · rw [if_neg ca] at hs
          cases hs
    exact ⟨fun _ => key, fun _ => key⟩
  · rw [if_neg h2] at hs
    refine ⟨?_, fun hc => absurd hc h2⟩
    intro hp
    unfold proxyStep at hs
    by_cases h1k : t.Text = "to"
    · rw [if_pos h1k] at hs
      cases hl : lineArgs t X with
      | nil => rw [hl] at hs; cases hs
      | cons a r =>
        rw [hl] at hs
        simp only [Except.ok.injEq, Prod.mk.injEq] at hs
        rw [← hs.1, appendUpstream_eq]
        exact hp
    · rw [if_neg h1k, if_neg h2] at hs
      cases hl : lineArgs t X with
      | nil =>
        rw [hl] at hs
        dsimp only at hs
        cases ho : proxyOneArg env h t.Text t with
        | some r => rw [ho] at hs; cases hs
        | none =>
          rw [ho] at hs
          simp only [Except.ok.injEq, Prod.mk.injEq] at hs
          rw [← hs.1]
          exact hp
      | cons v r =>
        rw [hl] at hs
        dsimp only at hs
        cases ho : proxyOneArg env h t.Text v with
        | some r1 =>
          rw [ho] at hs
          cases r1 with
          | error e => cases hs
          | ok h2 =>
            simp only [Except.ok.injEq, Prod.mk.injEq] at hs
            rw [← hs.1]
            exact (proxyOneArg_upstreams env h h2 t.Text v ho).2 hp
        | none =>
          rw [ho] at hs
          simp only [Except.ok.injEq, Prod.mk.injEq] at hs
          rw [← hs.1]
          exact hp

theorem walkWords_proxyG_policySet (env : Env) : ∀ (m : Nat) (X : List Token)
    (h h1 : ProxyHandler), X.length ≤ m → policySet h = true →
    walkWords (proxyStepG env) h X = .ok h1 → policySet h1 = true := by
  intro m
  induction m with
  | zero =>
    intro X h h1 hm hp hr
    have : X = [] := List.length_eq_zero.mp (Nat.le_zero.mp hm)
    subst this
    rw [walkWords_nil] at hr
    cases hr
    exact hp
  | succ m ih =>
    intro X h h1 hm hp hr
    cases X with
    | nil =>
      rw [walkWords_nil] at hr
      cases hr
      exact hp
    | cons t X1 =>
      rw [walkWords_cons] at hr
      cases hs : proxyStepG env h t X1 with
      | error e => rw [hs] at hr; cases hr
      | ok r =>
        obtain ⟨h2, c⟩ := r
        rw [hs] at hr
        dsimp only at hr
        exact ih (X1.drop c) h2 h1 (by simp at hm ⊢; omega)
          ((proxyStepG_policySet env h h2 t X1 c hs).1 hp) hr

/-- A line `lb_policy` read when the selection policy is set is an error: the
argument-count error without a policy name, the duplicate-directive error at
the policy name otherwise. -/
theorem walkWords_proxyG_duplicate (env : Env) (h : ProxyHandler) (k : Token) (C : List Token)
    (hk : k.Text = "lb_policy") (hp : policySet h = true) :
    (∃ e, walkWords (proxyStepG env) h (k :: C) = .error e) ∧
    ∀ nm C1, C = nm :: C1 → argAfter k nm →
      walkWords (proxyStepG env) h (k :: C) = .error (Error.Errf nm.File nm.Line
        "load balancing selection policy already specified" []) := by
  rw [walkWords_cons]
  unfold proxyStepG
  rw [if_pos hk]
  cases C with
  | nil => exact ⟨⟨_, rfl⟩, fun nm C1 hc => by cases hc⟩
  | cons a C1 =>
    dsimp only
    by_cases ca : isNextOnNewLine k a = false ∧ a.Text ≠ "\x7b"
    · rw [if_pos ca]
      unfold proxyPolicyTokens
      rw [if_pos hp]
      refine ⟨⟨_, rfl⟩, ?_⟩
      intro nm C2 hc _
      cases hc
      rfl
    · rw [if_neg ca]
      refine ⟨⟨_, rfl⟩, ?_⟩
      intro nm C2 hc ha
      cases hc
      exact absurd ha ca

theorem nestedBlock_inv {last lb rb : Token} {body : List Token}
    (hb : nestedBlock last (lb :: (body ++ [rb]))) :
    isNextOnNewLine last lb = false ∧ lb.Text = "\x7b" ∧ rb.Text = "\x7d" ∧
      nestOK lb (body ++ [rb]) = true ∧ depthOK 0 body = true := by
  rcases hb with hb | ⟨lb1, body1, rb1, hG, b1, b2, b3, b4, b5⟩
  · cases hb
  · simp only [List.cons.injEq] at hG
    obtain ⟨e1, e2⟩ := hG
    subst e1
    have e3 := List.append_inj_right' e2 rfl
    have e4 := List.append_inj_left' e2 rfl
    simp only [List.cons.injEq, and_true] at e3
    subst e3 e4
    exact ⟨b1, b2, b3, b4, b5⟩

/-- C7: for a `proxy` directive whose block, which may hold nested blocks to
any depth, contains two lines that start with `lb_policy` at the level of the
block itself (the tokens `A` before the first and the tokens `B` between the
two are balanced), whatever follows `lb_policy` on these lines, `parseProxy`
returns an error; and when the block cut off before the second `lb_policy`
line compiles (so the first `lb_policy` line compiled and the second one is
reached) and the second line has a policy-name argument, the error is the
duplicate-directive error "load balancing selection policy already specified",
raised at that argument. -/
theorem duplicate_lb_policy (env : Env) (kw : Token) (args : List Token) (lb rb : Token)
    (A B C : List Token) (k1 k2 : Token)
    (hc : List.Chain argAfter kw args)
    (hb : nestedBlock (lastTok kw args) (lb :: ((A ++ k1 :: (B ++ k2 :: C)) ++ [rb])))
    (hA : depthOK 0 A = true) (hB : depthOK 0 B = true)
    (hl1 : isNextOnNewLine (lastTok lb A) k1 = true)
    (hl2 : isNextOnNewLine (lastTok k1 B) k2 = true)
    (h1 : k1.Text = "lb_policy") (h2 : k2.Text = "lb_policy") :
    (∃ e, parseProxy env
        (NewDispenser (kw :: (args ++ lb :: ((A ++ k1 :: (B ++ k2 :: C)) ++ [rb])))).Next.2 =
      some (.error e)) ∧
    (∀ nm C1 h d, C = nm :: C1 → argAfter k2 nm →
      parseProxy env
        (NewDispenser (kw :: (args ++ lb :: ((A ++ k1 :: B) ++ [closeAt k2])))).Next.2 =
        some (.ok (h, d)) →
      parseProxy env
        (NewDispenser (kw :: (args ++ lb :: ((A ++ k1 :: (B ++ k2 :: C)) ++ [rb])))).Next.2 =
      some (.error (Error.Errf nm.File nm.Line
        "load balancing selection policy already specified" []))) := by
  obtain ⟨b1, b2, b3, b4, b5⟩ := nestedBlock_inv hb
  have hw1 : notBrace k1 := by
    constructor <;> rw [h1] <;> decide
  have eX : A ++ k1 :: (B ++ k2 :: C) = (A ++ k1 :: B) ++ k2 :: C := by simp
  have hnP : nestOK lb (A ++ k1 :: B) = true := by
    have h := b4
    rw [eX, List.append_assoc, nestOK_append] at h
    simp only [Bool.and_eq_true] at h
    exact h.1
  have hdP : depthOK 0 (A ++ k1 :: B) = true := by
    have := depthOK_append A (k1 :: B) 0 0 hA
    simp only [Nat.add_zero] at this
    rw [this, depthOK_word hw1]
    exact hB
  have hlP : isNextOnNewLine (lastTok lb (A ++ k1 :: B)) k2 = true := by
    rw [← lastTok_append]
    exact hl2
  have hcut : nestedBlock (lastTok kw args) (lb :: ((A ++ k1 :: B) ++ [closeAt k2])) := by
    refine Or.inr ⟨lb, A ++ k1 :: B, closeAt k2, rfl, b1, b2, rfl, ?_, hdP⟩
    rw [nestOK_append, hnP]
    simp only [Bool.true_and, nestOK, Bool.and_true]
    rw [if_neg (by simp [closeAt]), if_pos (by simp [closeAt]), isNextOnNewLine_closeAt]
    exact hlP
  rw [NewDispenser_Next, parseProxy_nested env [] kw args _ 0 hc hb, blockBody_cons, eX,
    walkWords_proxy_line env _ (A ++ k1 :: B) (le_refl _) lb _ k2 C 0 hnP hdP hlP]
  have key : ∀ hP, walkWords (proxyStepG env)
      (appendUpstream newProxyHandler (args.map Token.Text)) (A ++ k1 :: B) = .ok hP →
      policySet hP = true := by
    intro hP hr
    have hnA : nestOK lb A = true := by
      have h := hnP
      rw [nestOK_append] at h
      simp only [Bool.and_eq_true] at h
      exact h.1
    rw [walkWords_proxy_line env _ A (le_refl _) lb _ k1 B 0 hnA hA hl1] at hr
    cases ha : walkWords (proxyStepG env)
        (appendUpstream newProxyHandler (args.map Token.Text)) A with
    | error e => rw [ha] at hr; cases hr
    | ok hA1 =>
      rw [ha] at hr
      simp only [Except.bind] at hr
      rw [walkWords_cons] at hr
      cases hs : proxyStepG env hA1 k1 B with
      | error e => rw [hs] at hr; cases hr
      | ok r =>
        obtain ⟨h3, c⟩ := r
        rw [hs] at hr
        dsimp only at hr
        exact walkWords_proxyG_policySet env _ (B.drop c) h3 hP (le_refl _)
          ((proxyStepG_policySet env hA1 h3 k1 B c hs).2 h1) hr
  cases hw : walkWords (proxyStepG env)
      (appendUpstream newProxyHandler (args.map Token.Text)) (A ++ k1 :: B) with
  | error e =>
    refine ⟨⟨e, rfl⟩, ?_⟩
    intro nm C1 h d _ _ hr
    rw [NewDispenser_Next, parseProxy_nested env [] kw args _ 0 hc hcut, blockBody_cons, hw] at hr
    cases hr
  | ok hP =>
    obtain ⟨⟨e, d1⟩, d2⟩ := walkWords_proxyG_duplicate env hP k2 C h2 (key hP hw)
    simp only [Except.bind]
    constructor
    · rw [d1]
      exact ⟨e, rfl⟩
    · intro nm C1 h d hC ha _
      rw [d2 nm C1 hC ha]
      rfl

theorem duplicate_lb_policy_witness :
    List.Chain argAfter (tok 1 "proxy") [] ∧
    nestedBlock (lastTok (tok 1 "proxy") []) (tok 1 "\x7b" ::
      (([] ++ tok 2 "lb_policy" :: ([tok 2 "round_robin", tok 2 "\x7b", tok 3 "foo",
        tok 4 "\x7d"] ++ tok 5 "lb_policy" :: [tok 5 "random"])) ++ [tok 6 "\x7d"])) ∧
    depthOK 0 [] = true ∧
    depthOK 0 [tok 2 "round_robin", tok 2 "\x7b", tok 3 "foo", tok 4 "\x7d"] = true ∧
    (∃ h d, parseProxy sampleEnv (NewDispenser [tok 1 "proxy", tok 1 "\x7b", tok 2 "lb_policy",
        tok 2 "round_robin", tok 2 "\x7b", tok 3 "foo", tok 4 "\x7d",
        closeAt (tok 5 "lb_policy")]).Next.2 = some (.ok (h, d))) ∧
    parseProxy sampleEnv (NewDispenser nestedPolicies).Next.2 =
      some (.error (Error.Errf "Caddyfile" 5
        "load balancing selection policy already specified" [])) :=
  ⟨List.Chain.nil,
   Or.inr ⟨_, _, _, rfl, by decide, rfl, rfl, by decide, by decide⟩,
   rfl, by decide, ⟨_, _, rfl⟩,
   (duplicate_lb_policy sampleEnv (tok 1 "proxy") [] (tok 1 "\x7b") (tok 6 "\x7d") []
      [tok 2 "round_robin", tok 2 "\x7b", tok 3 "foo", tok 4 "\x7d"] [tok 5 "random"]
      (tok 2 "lb_policy") (tok 5 "lb_policy") List.Chain.nil
      (Or.inr ⟨_, _, _, rfl, by decide, rfl, rfl, by decide, by decide⟩)
      rfl (by decide) (by decide) (by decide) rfl rfl).2 (tok 5 "random") [] _ _ rfl
      ⟨by decide, by decide⟩ rfl⟩

/-! ## A `proxy` block without upstreams (C19) -/

theorem proxyOneArg_ok (env : Env) (h : ProxyHandler) (key : String) (v : Token)
    (ho : oneArgKey key = true) :
    (proxyValueOK env key v = true ∧
      ∃ h1, proxyOneArg env h key v = some (.ok h1) ∧ policySet h1 = policySet h) ∨
    (proxyValueOK env key v = false ∧ ∃ e, proxyOneArg env h key v = some (.error e)) := by
  have hps : ∀ (d : Int),
      policySet { h with LoadBalancing := some { lbOrNew h with TryDuration := d } } =
        policySet h ∧
      policySet { h with LoadBalancing := some { lbOrNew h with TryInterval := d } } =
        policySet h := by
    intro d
    unfold policySet lbOrNew
    cases h.LoadBalancing <;> simp [newLoadBalancing]
  simp only [oneArgKey, Bool.or_eq_true, decide_eq_true_eq] at ho
  rcases ho with ((((ho | ho) | ho) | ho) | ho) | ho <;> subst ho
  · cases hx : env.ParseDuration v.Text with
    | error err => exact Or.inr ⟨by simp [proxyValueOK, hx], by simp [proxyOneArg, hx]⟩
    | ok d =>
      refine Or.inl ⟨by simp [proxyValueOK, hx], ?_⟩
      simp only [proxyOneArg, hx]
      simp only [reduceCtorEq, if_false, if_true, String.reduceEq, Option.some.injEq,
        Except.ok.injEq, exists_eq_left']
      exact (hps d).1
  · cases hx : env.ParseDuration v.Text with
    | error err => exact Or.inr ⟨by simp [proxyValueOK, hx], by simp [proxyOneArg, hx]⟩
    | ok d =>
      refine Or.inl ⟨by simp [proxyValueOK, hx], ?_⟩
      simp only [proxyOneArg, hx]
      simp only [reduceCtorEq, if_false, if_true, String.reduceEq, Option.some.injEq,
        Except.ok.injEq, exists_eq_left']
      exact (hps d).2
  · cases hx : env.Atoi v.Text with
    | error err => exact Or.inr ⟨by simp [proxyValueOK, hx], by simp [proxyOneArg, hx]⟩
    | ok d =>
      refine Or.inl ⟨by simp [proxyValueOK, hx], ?_⟩
      simp only [proxyOneArg, hx]
      simp only [reduceCtorEq, if_false, if_true, String.reduceEq, Option.some.injEq,
        Except.ok.injEq, exists_eq_left']
      rfl
  · cases hx : env.ParseDuration v.Text with
    | error err => exact Or.inr ⟨by simp [proxyValueOK, hx], by simp [proxyOneArg, hx]⟩
    | ok d =>
      refine Or.inl ⟨by simp [proxyValueOK, hx], ?_⟩
      simp only [proxyOneArg, hx]
      simp only [reduceCtorEq, if_false, if_true, String.reduceEq, Option.some.injEq,
        Except.ok.injEq, exists_eq_left']
      rfl
  · cases hx : env.ParseDuration v.Text with
    | error err => exact Or.inr ⟨by simp [proxyValueOK, hx], by simp [proxyOneArg, hx]⟩
    | ok d =>
      refine Or.inl ⟨by simp [proxyValueOK, hx], ?_⟩
      simp only [proxyOneArg, hx]
      simp only [reduceCtorEq, if_false, if_true, String.reduceEq, Option.some.injEq,
        Except.ok.injEq, exists_eq_left']
      rfl
  · refine Or.inl ⟨by simp [proxyValueOK], ?_⟩
    simp only [proxyOneArg]
    simp only [reduceCtorEq, if_false, if_true, String.reduceEq, Option.some.injEq,
      Except.ok.injEq, exists_eq_left']
    rfl

theorem proxyPolicy_ok (env : Env) (h : ProxyHandler) (nm : Token) (args : List Token) :
    ((!policySet h && policyLineOK env nm args) = true ∧
      ∃ h1, proxyPolicy env h nm args = .ok h1 ∧ policySet h1 = true) ∨
    ((!policySet h && policyLineOK env nm args) = false ∧
      ∃ e, proxyPolicy env h nm args = .error e) := by
  unfold proxyPolicy policyLineOK
  cases hp : policySet h with
  | true => exact Or.inr ⟨by simp, by simp⟩
  | false =>
    simp only [Bool.false_eq_true, if_false, Bool.not_false, Bool.true_and]
    cases env.GetModule ("layer4.proxy.selection_policies." ++ nm.Text) with
    | error err => exact Or.inr ⟨rfl, ⟨_, rfl⟩⟩
    | ok inst =>
      dsimp only
      cases selectionLine env inst nm args with
      | error e => exact Or.inr ⟨rfl, ⟨_, rfl⟩⟩
      | ok mod =>
        dsimp only
        cases hm : mod.isSelector with
        | true => exact Or.inl ⟨rfl, by simp [policySet]⟩
        | false => exact Or.inr ⟨rfl, by simp⟩

theorem proxyWordsOK_cons (env : Env) (b : Bool) (k : Token) (rest : List Token) :
    proxyWordsOK env b (k :: rest) =
      if k.Text = "to" then (if rest = [] then none else some b)
      else if k.Text = "lb_policy" then
        match rest with
        | [] => none
        | nm :: args => if !b && policyLineOK env nm args then some true else none
      else if oneArgKey k.Text then
        match rest with
        | [] => none
        | v :: r => if proxyValueOK env k.Text v then proxyWordsOK env b r else none
      else proxyWordsOK env b rest := by
  cases rest <;> simp [proxyWordsOK]

/-- The keys read in the words of a line compile exactly when they are
well-formed. -/
theorem walkWords_proxy_ok (env : Env) : ∀ (m : Nat) (ws : List Token) (h : ProxyHandler),
    ws.length ≤ m →
    (∀ h1, walkWords (proxyStep env) h ws = .ok h1 →
      proxyWordsOK env (policySet h) ws = some (policySet h1)) ∧
    (∀ e, walkWords (proxyStep env) h ws = .error e →
      proxyWordsOK env (policySet h) ws = none) := by
  intro m
  induction m with
  | zero =>
    intro ws h hm
    have : ws = [] := List.length_eq_zero.mp (Nat.le_zero.mp hm)
    subst this
    rw [walkWords_nil]
    exact ⟨(fun h1 hr => by cases hr; rfl), (fun e hr => by cases hr)⟩
  | succ m ih =>
    intro ws h hm
    cases ws with
    | nil =>
      rw [walkWords_nil]
      exact ⟨(fun h1 hr => by cases hr; rfl), (fun e hr => by cases hr)⟩
    | cons k rest =>
      rw [walkWords_cons, proxyWordsOK_cons]
      by_cases c1 : k.Text = "to"
      · rw [if_pos c1]
        cases rest with
        | nil =>
          have hs : proxyStep env h k [] = .error (Error.ArgErr k.File k.Line k.Text) := by
            simp [proxyStep, c1]
          rw [hs]
          exact ⟨(fun h1 hr => by cases hr), (fun e _ => by simp)⟩
        | cons a r =>
          have hs : proxyStep env h k (a :: r) =
              .ok (appendUpstream h ((a :: r).map Token.Text), (a :: r).length) := by
            simp [proxyStep, c1]
          rw [hs]
          dsimp only
          rw [List.drop_length, walkWords_nil, if_neg (by simp)]
          refine ⟨?_, (fun e hr => by cases hr)⟩
          intro h1 hr
          cases hr
          rw [appendUpstream_eq]
          rfl
      by_cases c2 : k.Text = "lb_policy"
      · rw [if_neg c1, if_pos c2]
        cases rest with
        | nil =>
          have hs : proxyStep env h k [] = .error (Error.ArgErr k.File k.Line k.Text) := by
            simp [proxyStep, c1, c2]
          rw [hs]
          exact ⟨(fun h1 hr => by cases hr), (fun e _ => rfl)⟩
        | cons nm args =>
          dsimp only
          rcases proxyPolicy_ok env h nm args with ⟨o1, h2, o2, o3⟩ | ⟨o1, e, o2⟩
          · have hs : proxyStep env h k (nm :: args) = .ok (h2, (nm :: args).length) := by
              simp [proxyStep, c1, c2, o2]
            rw [hs, o1]
            dsimp only
            rw [List.drop_length, walkWords_nil]
            refine ⟨?_, (fun e hr => by cases hr)⟩
            intro h1 hr
            cases hr
            rw [o3]
            rfl
          · have hs : proxyStep env h k (nm :: args) = .error e := by
              simp [proxyStep, c1, c2, o2]
            rw [hs, o1]
            exact ⟨(fun h1 hr => by cases hr), (fun e _ => rfl)⟩
      · rw [if_neg c1, if_neg c2]
        cases ho : oneArgKey k.Text with
        | true =>
          simp only [if_true]
          cases rest with
          | nil =>
            have hs : proxyStep env h k [] = .error (Error.ArgErr k.File k.Line k.Text) := by
              rcases proxyOneArg_ok env h k.Text k ho with ⟨_, h2, o2, _⟩ | ⟨_, e, o2⟩ <;>
                simp [proxyStep, c1, c2, o2]
            rw [hs]
            exact ⟨(fun h1 hr => by cases hr), (fun e _ => rfl)⟩
          | cons v r =>
            dsimp only
            rcases proxyOneArg_ok env h k.Text v ho with ⟨o1, h2, o2, o3⟩ | ⟨o1, e, o2⟩
            · have hs : proxyStep env h k (v :: r) = .ok (h2, 1) := by
                simp [proxyStep, c1, c2, o2]
              rw [hs, o1]
              dsimp only
              simp only [List.drop_succ_cons, List.drop_zero, if_true]
              rw [← o3]
              exact ih r h2 (by simp at hm; omega)
            · have hs : proxyStep env h k (v :: r) = .error e := by
                simp [proxyStep, c1, c2, o2]
              rw [hs, o1]
              exact ⟨(fun h1 hr => by cases hr), (fun e _ => by simp)⟩
        | false =>
          have hn : ∀ v, proxyOneArg env h k.Text v = none := by
            intro v
            have := proxyOneArg_iff env h k.Text v
            rw [ho] at this
            cases hx : proxyOneArg env h k.Text v with
            | none => rfl
            | some x => rw [hx] at this; cases this
          simp only [Bool.false_eq_true, if_false]
          have hs : proxyStep env h k rest = .ok (h, 0) := by
            unfold proxyStep
            rw [if_neg c1, if_neg c2]
            cases rest <;> simp [hn]
          rw [hs]
          dsimp only
          rw [List.drop_zero]
          exact ih rest h (by simp at hm; omega)

/-- The keys read in the lines of a block compile exactly when they are
well-formed. -/
theorem walkLines_proxy_ok (env : Env) : ∀ (lines : List (List Token)) (h : ProxyHandler),
    (∀ h1, walkLines (proxyStep env) h lines = .ok h1 →
      proxyLinesOK env (policySet h) lines = some (policySet h1)) ∧
    (∀ e, walkLines (proxyStep env) h lines = .error e →
      proxyLinesOK env (policySet h) lines = none) := by
  intro lines
  induction lines with
  | nil =>
    intro h
    exact ⟨(fun h1 hr => by cases hr; rfl), (fun e hr => by cases hr)⟩
  | cons l ls ih =>
    intro h
    obtain ⟨w1, w2⟩ := walkWords_proxy_ok env l.length l h (le_refl _)
    cases hw : walkWords (proxyStep env) h l with
    | error e1 =>
      simp only [walkLines, hw, proxyLinesOK, w2 e1 hw]
      exact ⟨(fun h1 hr => by cases hr), (fun e _ => trivial)⟩
    | ok h2 =>
      simp only [walkLines, hw, proxyLinesOK, w1 h2 hw]
      exact ih h2

theorem healthPortBlock_ok : blockOK (tok 1 "proxy") (some healthPortBlock) := by
  refine ⟨rfl, rfl, ?_⟩
  simp only [healthPortBlock, linesOK, wordsOK, endsLine, firstTok, notBrace]
  decide

/-- C19 (as amended): for a `proxy` directive with no argument on its line and
an optional block of lines of words, `parseProxy` returns; when it succeeds
and no `to` is read as a key in the block, in particular when the word `to`
does not occur in it, the Upstream list of the handler is empty; it succeeds
exactly when every key read in the block is well-formed (`proxyLinesOK`: `to`
with a word after it, `lb_policy` at most once and with a policy line that
compiles, a key with one argument with a value that parses; other words are
skipped); in particular it succeeds, with the handler it started from, when no
word of the block is a key of `parseProxy` or there is no block. -/
theorem parseProxy_without_upstreams (env : Env) (kw : Token) (blk : Option Block)
    (hb : blockOK kw blk) :
    ∃ r, parseProxy env (NewDispenser (kw :: blockTokens blk)).Next.2 = some r ∧
      (∀ h d, r = .ok (h, d) → (∀ l ∈ blockLines blk, toArgs (l.map Token.Text) = []) →
        h.Upstreams = []) ∧
      (∀ h d, r = .ok (h, d) → (∀ l ∈ blockLines blk, ∀ t ∈ l, t.Text ≠ "to") →
        h.Upstreams = []) ∧
      ((∃ h d, r = .ok (h, d)) ↔ (proxyLinesOK env false (blockLines blk)).isSome = true) ∧
      ((∀ l ∈ blockLines blk, ∀ t ∈ l, proxyKeyword t.Text = false) →
        ∃ d, r = .ok (newProxyHandler, d)) := by
  have hv := parseProxy_value env kw [] blk List.Chain.nil hb
  simp only [List.nil_append, List.map_nil] at hv
  have h0 : appendUpstream newProxyHandler [] = newProxyHandler := rfl
  rw [h0] at hv
  obtain ⟨r, hr⟩ := parseProxy_total env (NewDispenser (kw :: blockTokens blk)).Next.2
    (by rw [NewDispenser_Next]; simp [Z, Dispenser.Inv]; omega)
  have hr := hr.1
  rw [hr] at hv
  have up : ∀ h d, r = .ok (h, d) → (∀ l ∈ blockLines blk, toArgs (l.map Token.Text) = []) →
      h.Upstreams = [] := by
    intro h d hok hto
    subst hok
    simp only [valueOf, Option.some.injEq] at hv
    have hu := (walkLines_proxy env _ _ _ hv.symm).1
    rw [hu]
    have : (blockLines blk).flatMap (fun l => toArgs (l.map Token.Text)) = [] := by
      rw [List.flatMap_eq_nil_iff]
      exact hto
    rw [this]
    rfl
  obtain ⟨k1, k2⟩ := walkLines_proxy_ok env (blockLines blk) newProxyHandler
  have hp0 : policySet newProxyHandler = false := rfl
  rw [hp0] at k1 k2
  refine ⟨r, hr, up, ?_, ?_, ?_⟩
  · intro h d hok hto
    refine up h d hok (fun l hl => toArgs_no_to _ _ (le_refl _) ?_)
    intro hm
    obtain ⟨t, ht, he⟩ := List.mem_map.mp hm
    exact hto l hl t ht he
  · constructor
    · rintro ⟨h, d, hok⟩
      subst hok
      simp only [valueOf, Option.some.injEq] at hv
      rw [k1 h hv.symm]
      rfl
    · intro hs
      cases hw : walkLines (proxyStep env) newProxyHandler (blockLines blk) with
      | error e =>
        rw [k2 e hw] at hs
        cases hs
      | ok h =>
        rw [hw] at hv
        obtain ⟨d, hd⟩ := valueOf_ok_inv _ _ hv
        simp only [Option.some.injEq] at hd
        exact ⟨h, d, hd⟩
  · intro hu
    have hw : walkLines (proxyStep env) newProxyHandler (blockLines blk) = .ok newProxyHandler := by
      generalize blockLines blk = lines at hu
      induction lines with
      | nil => rfl
      | cons l ls ih =>
        simp only [walkLines, walkWords_unknown env newProxyHandler l
          (hu l (List.mem_cons_self _ _))]
        exact ih (fun m hm => hu m (List.mem_cons_of_mem _ hm))
    rw [hw] at hv
    obtain ⟨d, hd⟩ := valueOf_ok_inv _ _ hv
    simp only [Option.some.injEq] at hd
    exact ⟨d, hd⟩

theorem parseProxy_without_upstreams_witness :
    blockOK (tok 1 "proxy") (some healthPortBlock) ∧
    (proxyLinesOK sampleEnv false (blockLines (some healthPortBlock))).isSome = true ∧
    (∀ l ∈ blockLines (some healthPortBlock), ∀ t ∈ l, t.Text ≠ "to") ∧
    (∃ d, parseProxy sampleEnv
        (NewDispenser (tok 1 "proxy" :: blockTokens (some healthPortBlock))).Next.2 =
      some (.ok (⟨[], some ⟨some ⟨9000, 0, 0⟩⟩,
          some ⟨some (JSONModuleObject Module.RoundRobinSelection "policy" "round_robin"),
            5000000000, 0⟩, ""⟩, d))) ∧
    ∃ r, parseProxy sampleEnv
        (NewDispenser (tok 1 "proxy" :: blockTokens (some healthPortBlock))).Next.2 = some r ∧
      (∀ h d, r = .ok (h, d) →
        (∀ l ∈ blockLines (some healthPortBlock), toArgs (l.map Token.Text) = []) →
        h.Upstreams = []) ∧
      (∀ h d, r = .ok (h, d) →
        (∀ l ∈ blockLines (some healthPortBlock), ∀ t ∈ l, t.Text ≠ "to") →
        h.Upstreams = []) ∧
      ((∃ h d, r = .ok (h, d)) ↔
        (proxyLinesOK sampleEnv false (blockLines (some healthPortBlock))).isSome = true) ∧
      ((∀ l ∈ blockLines (some healthPortBlock), ∀ t ∈ l, proxyKeyword t.Text = false) →
        ∃ d, r = .ok (newProxyHandler, d)) :=
  ⟨healthPortBlock_ok, rfl, by decide, ⟨_, rfl⟩,
   parseProxy_without_upstreams sampleEnv (tok 1 "proxy") (some healthPortBlock)
     healthPortBlock_ok⟩

/-! ## An `lb_policy` line with a nested block -/

/-- After an `lb_policy` line that opens a nested block the loop of
`parseProxy` goes on with the line after the closing brace of that block: the
`to` line is read, and the cursor ends on the last token of the segment. -/
theorem parseProxy_after_nested_block :
    ∃ h d, parseProxy sampleEnv (NewDispenser nestedPolicySegment).Next.2 = some (.ok (h, d)) ∧
      h.Upstreams = [{ Dial := ["x"] }] ∧ d.cursor = 9 ∧ d.nesting = 0 :=
  ⟨_, _, rfl, rfl, rfl, rfl⟩

end L4Caddyfile
